import Mathlib

/-!
# sitecrawl: crawl orchestration, URL canonicalization, scope and ranking adapter

A shallow embedding of `internal/crawler` (scope.go, url_normalize.go, crawl.go,
pagerank_adapter.go) and of the parts of `pkg/pagerank` the adapter uses, together with
the Go standard-library routines these files call (`strings`, `net`, `path`, `net/url`,
transcribed from the Go 1.22 sources).

Go strings are byte sequences. A Go string is embedded as a `List Char` in which every
`Char` stands for one byte (code below 256); string literals of the development are ASCII.
Errors are embedded as `none`: the claims only distinguish success from failure.
-/

namespace Sitecrawl

/-- A Go string: a sequence of bytes, one `Char` per byte. -/
abbrev Str := List Char

/-- Library routines whose tables are not part of the repository.  They are taken as
parameters: every theorem quantified over `Lib` holds whatever these routines compute. -/
structure Lib where
  /-- The function `idna.Lookup.ToASCII` of golang.org/x/net/idna; `none` is an error. -/
  idnaToASCII : Str → Option Str
  /-- The function `strings.Map(unicode.ToLower, s)`: the path `strings.ToLower` takes on
  input that is not pure ASCII. -/
  unicodeToLower : Str → Str

/-! ## package strings -/

/-- Go `strings.HasPrefix(s, p)`. -/
def hasPrefix (s p : Str) : Bool := p.isPrefixOf s

/-- Go `strings.HasSuffix(s, p)`. -/
def hasSuffix (s p : Str) : Bool := p.isSuffixOf s

/-- Go `strings.TrimPrefix(s, p)`. -/
def trimPrefix (s p : Str) : Str := if hasPrefix s p then s.drop p.length else s

/-- Go `strings.TrimSuffix(s, p)`. -/
def trimSuffix (s p : Str) : Str := if hasSuffix s p then s.take (s.length - p.length) else s

/-- Go `strings.Contains(s, sub)`. -/
def containsSub (sub : Str) : Str → Bool
  | [] => sub.isEmpty
  | c :: cs => sub.isPrefixOf (c :: cs) || containsSub sub cs

/-- Go `strings.Index(s, sub)`; `none` stands for -1. -/
def indexSub (sub : Str) : Str → Option Nat
  | [] => if sub.isEmpty then some 0 else none
  | c :: cs => if sub.isPrefixOf (c :: cs) then some 0 else (indexSub sub cs).map (· + 1)

/-- Go `strings.IndexByte(s, c)`; `none` stands for -1. -/
def indexByte (c : Char) : Str → Option Nat
  | [] => none
  | d :: ds => if d = c then some 0 else (indexByte c ds).map (· + 1)

/-- Go `strings.LastIndexByte(s, c)`; `none` stands for -1. -/
def lastIndexByte (c : Char) : Str → Option Nat
  | [] => none
  | d :: ds =>
    match lastIndexByte c ds with
    | some i => some (i + 1)
    | none => if d = c then some 0 else none

/-- Go `strings.Count(s, string(c))` for a one-byte separator. -/
def countByte (c : Char) (s : Str) : Nat := s.count c

/-- Go `strings.Cut(s, string(c))` for a one-byte separator: the text before the first
`c`, the text after it, and whether `c` occurs. -/
def cutByte (c : Char) : Str → Str × Str × Bool
  | [] => ([], [], false)
  | d :: ds =>
    if d = c then ([], ds, true)
    else
      let r := cutByte c ds
      (d :: r.1, r.2.1, r.2.2)

/-- Whether the byte is below `utf8.RuneSelf`. -/
def isASCIIByte (c : Char) : Bool := decide (c.toNat < 128)

/-- The ASCII branch of `strings.ToLower`: `c += 'a' - 'A'` on upper-case letters. -/
def asciiLowerByte (c : Char) : Char :=
  if 'A'.toNat ≤ c.toNat ∧ c.toNat ≤ 'Z'.toNat then Char.ofNat (c.toNat + 32) else c

/-- Go `strings.ToLower`: ASCII-only input is lowered bytewise, anything else goes
through `strings.Map(unicode.ToLower, s)`. -/
def toLower (L : Lib) (s : Str) : Str :=
  if s.all isASCIIByte then s.map asciiLowerByte else L.unicodeToLower s

/-- The table `asciiSpace` of package strings. -/
def isAsciiSpace (c : Char) : Bool :=
  c = '\t' || c = '\n' || c = Char.ofNat 11 || c = Char.ofNat 12 || c = '\r' || c = ' '

/-- UTF-8 encodings of the non-ASCII code points for which `unicode.IsSpace` holds:
U+0085, U+00A0, U+1680, U+2000..U+200A, U+2028, U+2029, U+202F, U+205F, U+3000. -/
def unicodeSpaceSeqs : List Str :=
  [[0xC2, 0x85], [0xC2, 0xA0], [0xE1, 0x9A, 0x80],
   [0xE2, 0x80, 0x80], [0xE2, 0x80, 0x81], [0xE2, 0x80, 0x82], [0xE2, 0x80, 0x83],
   [0xE2, 0x80, 0x84], [0xE2, 0x80, 0x85], [0xE2, 0x80, 0x86], [0xE2, 0x80, 0x87],
   [0xE2, 0x80, 0x88], [0xE2, 0x80, 0x89], [0xE2, 0x80, 0x8A],
   [0xE2, 0x80, 0xA8], [0xE2, 0x80, 0xA9], [0xE2, 0x80, 0xAF], [0xE2, 0x81, 0x9F],
   [0xE3, 0x80, 0x80]].map (fun bs => bs.map Char.ofNat)

/-- Length in bytes of the white-space rune the text starts with (0 when it starts with
none), reading forward when `rev` is false and, on a reversed text, backward otherwise. -/
def leadingSpaceLen (rev : Bool) (s : Str) : Nat :=
  match s with
  | [] => 0
  | c :: _ =>
    if isAsciiSpace c then 1
    else
      match unicodeSpaceSeqs.find? (fun q => (if rev then q.reverse else q).isPrefixOf s) with
      | some q => q.length
      | none => 0

/-- Drop leading white-space runes; `fuel` bounds the number of runes dropped. -/
def dropSpaces (rev : Bool) : Nat → Str → Str
  | 0, s => s
  | fuel + 1, s =>
    match leadingSpaceLen rev s with
    | 0 => s
    | n + 1 => dropSpaces rev fuel (s.drop (n + 1))

/-- Go `strings.TrimSpace`: leading and trailing Unicode white space removed. -/
def trimSpace (s : Str) : Str :=
  let t := dropSpaces false s.length s
  (dropSpaces true t.length t.reverse).reverse

/-- Go `strings.Join(parts, sep)`. -/
def joinWith (sep : Str) : List Str → Str
  | [] => []
  | [p] => p
  | p :: q :: ps => p ++ sep ++ joinWith sep (q :: ps)

/-- Go `sort.Strings`: ascending bytewise order. -/
def sortStrings (l : List Str) : List Str := l.insertionSort (· ≤ ·)

/-! ## package net -/

/-- Go `net.SplitHostPort`; `none` is an error. -/
def netSplitHostPort (hostport : Str) : Option (Str × Str) :=
  match lastIndexByte ':' hostport with
  | none => none
  | some i =>
    if hostport.head? = some '[' then
      match indexByte ']' hostport with
      | none => none
      | some e =>
        if e + 1 = hostport.length then none
        else if e + 1 = i then
          let host := (hostport.take e).drop 1
          if (indexByte '[' (hostport.drop 1)).isSome then none
          else if (indexByte ']' (hostport.drop (e + 1))).isSome then none
          else some (host, hostport.drop (i + 1))
        else none
    else
      let host := hostport.take i
      if (indexByte ':' host).isSome then none
      else if (indexByte '[' hostport).isSome then none
      else if (indexByte ']' hostport).isSome then none
      else some (host, hostport.drop (i + 1))

/-- Go `net.JoinHostPort`. -/
def netJoinHostPort (host port : Str) : Str :=
  if (indexByte ':' host).isSome then "[".toList ++ host ++ "]:".toList ++ port
  else host ++ ":".toList ++ port

/-! ## scope.go -/

/-- The function `normalizeHost` of scope.go. -/
def normalizeHost (L : Lib) (host : Str) : Option Str :=
  let trimmed := trimSpace (toLower L host)
  let trimmed := trimSuffix trimmed ".".toList
  if trimmed = [] then none
  else
    let trimmed :=
      match netSplitHostPort trimmed with
      | some (h, p) => if p ≠ [] then h else trimmed
      | none => trimmed
    let trimmed := trimPrefix trimmed "[".toList
    let trimmed := trimSuffix trimmed "]".toList
    match L.idnaToASCII trimmed with
    | none => none
    | some ascii => some (toLower L (trimSuffix ascii ".".toList))

/-- A stand-in for the two library routines, for evaluating the code on concrete ASCII
hosts.  `idnaToASCII` accepts exactly the names made of ASCII letters, digits and dots and
returns them lower-cased, which is what `idna.Lookup.ToASCII` does on such names; every
other input is rejected here.  `unicodeToLower` is never reached on ASCII input. -/
def asciiLib : Lib where
  idnaToASCII := fun s =>
    if s.all (fun c => c.isAlphanum || c = '.') then some (s.map asciiLowerByte) else none
  unicodeToLower := fun s => s


/-! ## package net/url -/

/-- The escaping modes of net/url. -/
inductive Encoding where
  | encodePath | encodePathSegment | encodeHost | encodeZone
  | encodeUserPassword | encodeQueryComponent | encodeFragment
  deriving DecidableEq, Repr

/-- The function `shouldEscape` of net/url. -/
def shouldEscape (c : Char) (mode : Encoding) : Bool :=
  if c.isAlphanum then false
  else if (mode = .encodeHost ∨ mode = .encodeZone) ∧ c ∈ "!$&'()*+,;=:[]<>\"".toList then false
  else if c ∈ "-_.~".toList then false
  else if c ∈ "$&+,/:;=?@".toList then
    match mode with
    | .encodePath => c = '?'
    | .encodePathSegment => c = '/' || c = ';' || c = ',' || c = '?'
    | .encodeUserPassword => c = '@' || c = '/' || c = '?' || c = ':'
    | .encodeQueryComponent => true
    | .encodeFragment => false
    | _ => true
  else if mode = .encodeFragment ∧ c ∈ "!()*".toList then false
  else true

/-- The function `ishex` of net/url. -/
def ishex (c : Char) : Bool :=
  ('0'.toNat ≤ c.toNat && c.toNat ≤ '9'.toNat) ||
  ('a'.toNat ≤ c.toNat && c.toNat ≤ 'f'.toNat) ||
  ('A'.toNat ≤ c.toNat && c.toNat ≤ 'F'.toNat)

/-- The function `unhex` of net/url. -/
def unhex (c : Char) : Nat :=
  if '0'.toNat ≤ c.toNat ∧ c.toNat ≤ '9'.toNat then c.toNat - '0'.toNat
  else if 'a'.toNat ≤ c.toNat ∧ c.toNat ≤ 'f'.toNat then c.toNat - 'a'.toNat + 10
  else if 'A'.toNat ≤ c.toNat ∧ c.toNat ≤ 'F'.toNat then c.toNat - 'A'.toNat + 10
  else 0

/-- The digit `upperhex[n]` of net/url. -/
def upperhex (n : Nat) : Char :=
  "0123456789ABCDEF".toList.getD (n % 16) '0'

/-- The function `unescape` of net/url; `none` is an `EscapeError` or `InvalidHostError`.
The source validates in a first pass and decodes in a second; here both are done in one
pass, which fails exactly when the first pass of the source does. -/
def unescape (mode : Encoding) : Str → Option Str
  | [] => some []
  | '%' :: a :: b :: rest =>
    if !ishex a || !ishex b then none
    else if mode = .encodeHost ∧ unhex a < 8 ∧ ¬ (a = '2' ∧ b = '5') then none
    else if mode = .encodeZone ∧ ¬ (a = '2' ∧ b = '5') ∧ Char.ofNat (unhex a * 16 + unhex b) ≠ ' '
        ∧ shouldEscape (Char.ofNat (unhex a * 16 + unhex b)) .encodeHost then none
    else (unescape mode rest).map (Char.ofNat (unhex a * 16 + unhex b) :: ·)
  | c :: rest =>
    if c = '%' then none
    else if c = '+' then
      (unescape mode rest).map ((if mode = .encodeQueryComponent then ' ' else '+') :: ·)
    else if (mode = .encodeHost ∨ mode = .encodeZone) ∧ c.toNat < 128 ∧ shouldEscape c .encodeHost
      then none
    else (unescape mode rest).map (c :: ·)

/-- The function `escape` of net/url. -/
def escape (mode : Encoding) : Str → Str
  | [] => []
  | c :: rest =>
    if c = ' ' ∧ mode = .encodeQueryComponent then '+' :: escape mode rest
    else if shouldEscape c mode then
      '%' :: upperhex (c.toNat / 16) :: upperhex (c.toNat % 16) :: escape mode rest
    else c :: escape mode rest

/-- Go `url.QueryEscape`. -/
def QueryEscape (s : Str) : Str := escape .encodeQueryComponent s

/-- Go `url.QueryUnescape`. -/
def QueryUnescape (s : Str) : Option Str := unescape .encodeQueryComponent s

/-- The type `url.Userinfo`: user name and, when set, password. -/
structure Userinfo where
  username : Str
  password : Option Str
  deriving DecidableEq, Repr

/-- The type `url.URL`. -/
structure URL where
  Scheme : Str := []
  Opaque : Str := []
  User : Option Userinfo := none
  Host : Str := []
  Path : Str := []
  RawPath : Str := []
  OmitHost : Bool := false
  ForceQuery : Bool := false
  RawQuery : Str := []
  Fragment : Str := []
  RawFragment : Str := []
  deriving DecidableEq, Repr

/-- The function `stringContainsCTLByte` of net/url. -/
def stringContainsCTLByte (s : Str) : Bool := s.any (fun b => b.toNat < 32 || b.toNat = 127)

/-- The function `getScheme` of net/url, reading from position `i`: `none` is the error
"missing protocol scheme", `some none` means no scheme, `some (some rest)` gives the text
after the colon that ends the scheme. -/
def getSchemeFrom : Nat → Str → Option (Option Str)
  | _, [] => some none
  | i, c :: rest =>
    if c.isAlpha then getSchemeFrom (i + 1) rest
    else if c.isDigit ∨ c = '+' ∨ c = '-' ∨ c = '.' then
      if i = 0 then some none else getSchemeFrom (i + 1) rest
    else if c = ':' then
      if i = 0 then none else some (some rest)
    else some none

/-- The function `getScheme` of net/url: scheme and remaining text. -/
def getScheme (rawURL : Str) : Option (Str × Str) :=
  match getSchemeFrom 0 rawURL with
  | none => none
  | some none => some ([], rawURL)
  | some (some rest) => some (rawURL.take (rawURL.length - rest.length - 1), rest)

/-- The function `validOptionalPort` of net/url. -/
def validOptionalPort (port : Str) : Bool :=
  match port with
  | [] => true
  | c :: ds => c = ':' && ds.all (fun b => '0'.toNat ≤ b.toNat && b.toNat ≤ '9'.toNat)

/-- The function `parseHost` of net/url. -/
def parseHost (host : Str) : Option Str :=
  if hasPrefix host "[".toList then
    match lastIndexByte ']' host with
    | none => none
    | some i =>
      if !validOptionalPort (host.drop (i + 1)) then none
      else
        match indexSub "%25".toList (host.take i) with
        | some zone =>
          match unescape .encodeHost (host.take zone),
                unescape .encodeZone ((host.take i).drop zone),
                unescape .encodeHost (host.drop i) with
          | some h1, some h2, some h3 => some (h1 ++ h2 ++ h3)
          | _, _, _ => none
        | none => unescape .encodeHost host
  else
    match lastIndexByte ':' host with
    | some i => if !validOptionalPort (host.drop i) then none else unescape .encodeHost host
    | none => unescape .encodeHost host

/-- The function `validUserinfo` of net/url. -/
def validUserinfo (s : Str) : Bool :=
  s.all (fun r => r.isAlphanum || r ∈ "-._:~!$&'()*+,;=%@".toList)

/-- The function `parseAuthority` of net/url. -/
def parseAuthority (authority : Str) : Option (Option Userinfo × Str) :=
  match lastIndexByte '@' authority with
  | none => (parseHost authority).map (fun h => (none, h))
  | some i =>
    match parseHost (authority.drop (i + 1)) with
    | none => none
    | some host =>
      let userinfo := authority.take i
      if !validUserinfo userinfo then none
      else if !containsSub ":".toList userinfo then
        (unescape .encodeUserPassword userinfo).map (fun u => (some ⟨u, none⟩, host))
      else
        let c := cutByte ':' userinfo
        match unescape .encodeUserPassword c.1, unescape .encodeUserPassword c.2.1 with
        | some u, some p => some (some ⟨u, some p⟩, host)
        | _, _ => none

/-- The method `(*URL).setPath` of net/url. -/
def URL.setPath (u : URL) (p : Str) : Option URL :=
  match unescape .encodePath p with
  | none => none
  | some path =>
    some { u with Path := path, RawPath := if p = escape .encodePath path then [] else p }

/-- The method `(*URL).setFragment` of net/url. -/
def URL.setFragment (u : URL) (f : Str) : Option URL :=
  match unescape .encodeFragment f with
  | none => none
  | some frag =>
    some { u with Fragment := frag,
                  RawFragment := if f = escape .encodeFragment frag then [] else f }

/-- The function `parse` of net/url with `viaRequest = false`. -/
def parseNoFragment (rawURL : Str) : Option URL :=
  if stringContainsCTLByte rawURL then none
  else if rawURL = "*".toList then some { Path := "*".toList }
  else
    match getScheme rawURL with
    | none => none
    | some (scheme0, rest0) =>
      let scheme := scheme0.map asciiLowerByte
      let force := hasSuffix rest0 "?".toList && countByte '?' rest0 == 1
      let rest := if force then rest0.take (rest0.length - 1) else (cutByte '?' rest0).1
      let rawQuery := if force then [] else (cutByte '?' rest0).2.1
      let url : URL := { Scheme := scheme, ForceQuery := force, RawQuery := rawQuery }
      if !hasPrefix rest "/".toList ∧ scheme ≠ [] then some { url with Opaque := rest }
      else if !hasPrefix rest "/".toList ∧ containsSub ":".toList (cutByte '/' rest).1 then none
      else if (scheme ≠ [] ∨ !hasPrefix rest "///".toList) ∧ hasPrefix rest "//".toList then
        let auth0 := rest.drop 2
        let authority := match indexByte '/' auth0 with
          | some i => auth0.take i
          | none => auth0
        let rest' := match indexByte '/' auth0 with
          | some i => auth0.drop i
          | none => []
        match parseAuthority authority with
        | none => none
        | some (user, host) => URL.setPath { url with User := user, Host := host } rest'
      else if scheme ≠ [] ∧ hasPrefix rest "/".toList then
        URL.setPath { url with OmitHost := true } rest
      else URL.setPath url rest

/-- Go `url.Parse`. -/
def Parse (rawURL : Str) : Option URL :=
  let c := cutByte '#' rawURL
  match parseNoFragment c.1 with
  | none => none
  | some url => if c.2.1 = [] then some url else url.setFragment c.2.1

/-- The function `splitHostPort` of net/url. -/
def splitHostPort (hostPort : Str) : Str × Str :=
  let r : Str × Str :=
    match lastIndexByte ':' hostPort with
    | some colon =>
      if validOptionalPort (hostPort.drop colon) then
        (hostPort.take colon, hostPort.drop (colon + 1))
      else (hostPort, [])
    | none => (hostPort, [])
  if hasPrefix r.1 "[".toList && hasSuffix r.1 "]".toList then
    ((r.1.take (r.1.length - 1)).drop 1, r.2)
  else r

/-- Go `(*URL).Hostname`. -/
def URL.Hostname (u : URL) : Str := (splitHostPort u.Host).1

/-- Go `(*URL).Port`. -/
def URL.Port (u : URL) : Str := (splitHostPort u.Host).2

/-- The function `validEncoded` of net/url. -/
def validEncoded (s : Str) (mode : Encoding) : Bool :=
  s.all (fun c => c ∈ "!$&'()*+,;=:@[]%".toList || !shouldEscape c mode)

/-- Go `(*URL).EscapedPath`. -/
def URL.EscapedPath (u : URL) : Str :=
  if u.RawPath ≠ [] ∧ validEncoded u.RawPath .encodePath
      ∧ unescape .encodePath u.RawPath = some u.Path then u.RawPath
  else if u.Path = "*".toList then "*".toList
  else escape .encodePath u.Path

/-- Go `(*URL).EscapedFragment`. -/
def URL.EscapedFragment (u : URL) : Str :=
  if u.RawFragment ≠ [] ∧ validEncoded u.RawFragment .encodeFragment
      ∧ unescape .encodeFragment u.RawFragment = some u.Fragment then u.RawFragment
  else escape .encodeFragment u.Fragment

/-- Go `(*Userinfo).String`. -/
def Userinfo.String (ui : Userinfo) : Str :=
  escape .encodeUserPassword ui.username ++
    match ui.password with
    | some p => ":".toList ++ escape .encodeUserPassword p
    | none => []

/-- Go `(*URL).String`. -/
def URL.String (u : URL) : Str :=
  let schemePart := if u.Scheme ≠ [] then u.Scheme ++ ":".toList else []
  let body :=
    if u.Opaque ≠ [] then schemePart ++ u.Opaque
    else
      let authPart :=
        if u.Scheme ≠ [] ∨ u.Host ≠ [] ∨ u.User.isSome then
          if u.OmitHost ∧ u.Host = [] ∧ u.User.isNone then []
          else
            (if u.Host ≠ [] ∨ u.Path ≠ [] ∨ u.User.isSome then "//".toList else []) ++
            (match u.User with
             | some ui => ui.String ++ "@".toList
             | none => []) ++
            (if u.Host ≠ [] then escape .encodeHost u.Host else [])
        else []
      let path := u.EscapedPath
      let buf := schemePart ++ authPart
      let buf := if path ≠ [] ∧ path.head? ≠ some '/' ∧ u.Host ≠ [] then buf ++ "/".toList else buf
      let buf :=
        if buf = [] ∧ containsSub ":".toList (cutByte '/' path).1 then buf ++ "./".toList else buf
      buf ++ path
  let body := if u.ForceQuery ∨ u.RawQuery ≠ [] then body ++ "?".toList ++ u.RawQuery else body
  if u.Fragment ≠ [] then body ++ "#".toList ++ u.EscapedFragment else body

/-- The type `url.Values` (`map[string][]string`): an association list with one entry per
key.  The order of the entries is not observable by the code embedded here. -/
abbrev Values := List (Str × List Str)

/-- Map read `m[key]`: the values stored under `key`, `nil` when absent. -/
def Values.get (m : Values) (key : Str) : List Str :=
  match m with
  | [] => []
  | (k, vs) :: rest => if k = key then vs else Values.get rest key

/-- The statement `m[key] = append(m[key], value)`. -/
def Values.add (m : Values) (key value : Str) : Values :=
  match m with
  | [] => [(key, [value])]
  | (k, vs) :: rest => if k = key then (k, vs ++ [value]) :: rest else (k, vs) :: Values.add rest key value

/-- Go `Values.Del`. -/
def Values.del (m : Values) (key : Str) : Values := m.filter (fun kv => kv.1 ≠ key)

/-- One round of the loop of `parseQuery` of net/url on the piece `piece` cut off at an
ampersand: pieces with a semicolon, empty pieces and pieces with a bad escape are skipped. -/
def parseQueryPiece (m : Values) (piece : Str) : Values :=
  if containsSub ";".toList piece then m
  else if piece = [] then m
  else
    let kv := cutByte '=' piece
    match QueryUnescape kv.1 with
    | none => m
    | some key =>
      match QueryUnescape kv.2.1 with
      | none => m
      | some value => m.add key value

/-- Split at every `sep`, as the repeated `strings.Cut(query, "&")` of `parseQuery` does:
the pieces between separators, without a final empty piece. -/
def splitPieces (sep : Char) : Str → List Str
  | [] => []
  | c :: cs =>
    if c = sep then [] :: splitPieces sep cs
    else
      match splitPieces sep cs with
      | [] => [[c]]
      | p :: ps => (c :: p) :: ps

/-- Go `url.ParseQuery`, the error dropped (as `(*URL).Query` drops it). -/
def ParseQuery (query : Str) : Values :=
  (splitPieces '&' query).foldl parseQueryPiece []

/-- Go `(*URL).Query`. -/
def URL.Query (u : URL) : Values := ParseQuery u.RawQuery

/-- The loop of `resolvePath` of net/url over the elements cut off at slashes; `dst` is
the text written so far after the leading slash. -/
def resolvePathLoop : List Str → (dst : Str) → (first : Bool) → Str
  | [], dst, _ => dst
  | elem :: rest, dst, first =>
    if elem = ".".toList then resolvePathLoop rest dst false
    else if elem = "..".toList then
      match lastIndexByte '/' dst with
      | none => resolvePathLoop rest [] true
      | some index => resolvePathLoop rest (dst.take index) first
    else
      resolvePathLoop rest ((if first then dst else dst ++ "/".toList) ++ elem) false

/-- All elements of `strings.Cut(remaining, "/")` repeated until no slash is found: unlike
`splitPieces`, the final element is kept when it is empty. -/
def splitAll (sep : Char) : Str → List Str
  | [] => [[]]
  | c :: cs =>
    if c = sep then [] :: splitAll sep cs
    else
      match splitAll sep cs with
      | [] => [[c]]
      | p :: ps => (c :: p) :: ps

/-- The function `resolvePath` of net/url. -/
def resolvePath (base ref : Str) : Str :=
  let full :=
    if ref = [] then base
    else if ref.head? ≠ some '/' then
      (match lastIndexByte '/' base with
       | some i => base.take (i + 1)
       | none => []) ++ ref
    else ref
  if full = [] then []
  else
    let elems := splitAll '/' full
    let dst := resolvePathLoop elems [] true
    let last := elems.getLast?.getD []
    let r := "/".toList ++ dst ++ (if last = ".".toList ∨ last = "..".toList then "/".toList else [])
    if r.length > 1 ∧ r.get? 1 = some '/' then r.drop 1 else r

/-- The assignment `url.setPath(p)` whose error `ResolveReference` ignores: on error the
URL is left as it was. -/
def URL.setPathIgnore (u : URL) (p : Str) : URL := (u.setPath p).getD u

/-- Go `(*URL).ResolveReference`. -/
def URL.ResolveReference (u ref : URL) : URL :=
  let url : URL := if ref.Scheme = [] then { ref with Scheme := u.Scheme } else ref
  if ref.Scheme ≠ [] ∨ ref.Host ≠ [] ∨ ref.User.isSome then
    url.setPathIgnore (resolvePath ref.EscapedPath [])
  else if ref.Opaque ≠ [] then
    { url with User := none, Host := [], Path := [] }
  else
    let url : URL :=
      if ref.Path = [] ∧ ref.ForceQuery = false ∧ ref.RawQuery = [] then
        let url := { url with RawQuery := u.RawQuery }
        if ref.Fragment = [] then
          { url with Fragment := u.Fragment, RawFragment := u.RawFragment }
        else url
      else url
    if ref.Path = [] ∧ u.Opaque ≠ [] then
      { url with Opaque := u.Opaque, User := none, Host := [], Path := [] }
    else
      URL.setPathIgnore { url with Host := u.Host, User := u.User }
        (resolvePath u.EscapedPath ref.EscapedPath)

/-! ## package path -/

/-- The backtracking step of `path.Clean` on a `..` element: `out.w--`, then further back
while `out.w > dotdot` and the byte just dropped is not a slash. -/
def cleanBacktrack (dotdot : Nat) : Nat → Str → Str
  | 0, out => out
  | fuel + 1, out =>
    match out.getLast? with
    | none => out
    | some d =>
      if out.dropLast.length > dotdot ∧ d ≠ '/' then cleanBacktrack dotdot fuel out.dropLast
      else out.dropLast

/-- The main loop of `path.Clean` over the unread text: `out` is the buffer written so
far, `dotdot` the index where `..` must stop, `copying` tells that the bytes of a path
element are being copied. -/
def cleanLoop (rooted : Bool) : (copying : Bool) → Str → (out : Str) → (dotdot : Nat) → Str
  | _, [], out, _ => out
  | true, c :: rest, out, dotdot =>
    if c = '/' then cleanLoop rooted false rest out dotdot
    else cleanLoop rooted true rest (out ++ [c]) dotdot
  | false, c :: rest, out, dotdot =>
    if c = '/' then cleanLoop rooted false rest out dotdot
    else if c = '.' ∧ (rest = [] ∨ rest.head? = some '/') then
      cleanLoop rooted false rest out dotdot
    else if c = '.' ∧ rest.head? = some '.' ∧ (rest.tail = [] ∨ rest.tail.head? = some '/') then
      match rest with
      | [] => out
      | _ :: rest2 =>
        if out.length > dotdot then
          cleanLoop rooted false rest2 (cleanBacktrack dotdot out.length out) dotdot
        else if !rooted then
          let out := (if out.length > 0 then out ++ "/".toList else out) ++ "..".toList
          cleanLoop rooted false rest2 out out.length
        else cleanLoop rooted false rest2 out dotdot
    else
      let out := if (rooted ∧ out.length ≠ 1) ∨ (!rooted ∧ out.length ≠ 0) then out ++ "/".toList else out
      cleanLoop rooted true rest (out ++ [c]) dotdot

/-- Go `path.Clean`. -/
def pathClean (path : Str) : Str :=
  if path = [] then ".".toList
  else
    let rooted := decide (path.head? = some '/')
    let out :=
      if rooted then cleanLoop true false (path.drop 1) "/".toList 1
      else cleanLoop false false path [] 0
    if out = [] then ".".toList else out

/-! ## scope.go (continued) -/

/-- The classes returned by `ClassifyHost`: the constants `ScopeClassAllowed`,
`ScopeClassExternal` and `ScopeClassOutOfScope`. -/
inductive ScopeClass where
  | allowed | external | outOfScope
  deriving DecidableEq, Repr

/-- The type `Scope` of scope.go; the map `allowedSet` is embedded as the list of its keys. -/
structure Scope where
  BaseDomain : Str
  AllowedHosts : List Str
  allowedSet : List Str
  deriving DecidableEq, Repr

/-- The function `NewScope` of scope.go. -/
def NewScope (L : Lib) (input : Str) : Option Scope :=
  let raw := trimSpace input
  if raw = [] then none
  else
    let raw := if !containsSub "://".toList raw then "https://".toList ++ raw else raw
    match Parse raw with
    | none => none
    | some parsed =>
      let host := parsed.Hostname
      if host = [] then none
      else
        match normalizeHost L host with
        | none => none
        | some host =>
          let base := if hasPrefix host "www.".toList then trimPrefix host "www.".toList else host
          if base = [] then none
          else
            let allowed := [base, "www.".toList ++ base]
            some { BaseDomain := base, AllowedHosts := allowed,
                   allowedSet := allowed.foldl (fun set h => if h ∈ set then set else set ++ [h]) [] }

/-- The method `Scope.IsAllowedHost` of scope.go. -/
def Scope.IsAllowedHost (L : Lib) (s : Scope) (host : Str) : Bool :=
  match normalizeHost L host with
  | none => false
  | some normalized => decide (normalized ∈ s.allowedSet)

/-- The method `Scope.IsAllowedURL` of scope.go. -/
def Scope.IsAllowedURL (L : Lib) (s : Scope) (rawURL : Str) : Bool :=
  match Parse rawURL with
  | none => false
  | some parsed => s.IsAllowedHost L parsed.Hostname

/-- The method `Scope.ClassifyHost` of scope.go. -/
def Scope.ClassifyHost (L : Lib) (s : Scope) (host : Str) : ScopeClass :=
  match normalizeHost L host with
  | none => .external
  | some normalized =>
    if s.IsAllowedHost L normalized then .allowed
    else if hasSuffix normalized (".".toList ++ s.BaseDomain) then .outOfScope
    else .external

/-! ## url_normalize.go -/

/-- The function `encodeSortedQuery` of url_normalize.go. -/
def encodeSortedQuery (values : Values) : Str :=
  let keys := sortStrings (values.map Prod.fst)
  let parts := keys.flatMap (fun key =>
    let encodedKey := QueryEscape key
    let vals := sortStrings (values.get key)
    vals.map (fun value => encodedKey ++ "=".toList ++ QueryEscape value) ++
      (if vals.length = 0 then [encodedKey ++ "=".toList] else []))
  joinWith "&".toList parts

/-- The test of url_normalize.go that makes clean mode delete a query key. -/
def isTrackingKey (L : Lib) (key : Str) : Bool :=
  let lowerKey := toLower L key
  hasPrefix lowerKey "utm_".toList || lowerKey = "gclid".toList || lowerKey = "fbclid".toList

/-- Lines 61-73 of `normalizeParsedURL`: the value given to `parsed.Host`, the normalized
host name joined with the port unless the port is the default one of the (lowered)
scheme; `none` when `normalizeHost` fails. -/
def normalizedHostPort (L : Lib) (scheme : Str) (parsed : URL) : Option Str :=
  match normalizeHost L parsed.Hostname with
  | none => none
  | some host =>
    let port := parsed.Port
    let port :=
      if (scheme = "http".toList ∧ port = "80".toList)
          ∨ (scheme = "https".toList ∧ port = "443".toList) then [] else port
    some (if port ≠ [] then netJoinHostPort host port else host)

/-- Lines 77-86 of `normalizeParsedURL`: the value given to `parsed.Path`. -/
def normalizedPath (parsed : URL) : Str :=
  let cleanPath := pathClean parsed.EscapedPath
  let cleanPath := if cleanPath = ".".toList ∨ cleanPath = [] then "/".toList else cleanPath
  let cleanPath := if !hasPrefix cleanPath "/".toList then "/".toList ++ cleanPath else cleanPath
  if cleanPath ≠ "/".toList then trimSuffix cleanPath "/".toList else cleanPath

/-- Lines 90-103 of `normalizeParsedURL`: the value given to `parsed.RawQuery`. -/
def normalizedQuery (L : Lib) (rawQuery : Str) (clean : Bool) : Str :=
  let queryValues := ParseQuery rawQuery
  let queryValues :=
    if clean then queryValues.filter (fun kv => !isTrackingKey L kv.1) else queryValues
  if queryValues.length = 0 then [] else encodeSortedQuery queryValues

/-- The function `normalizeParsedURL` of url_normalize.go (for a non-nil URL). -/
def normalizeParsedURL (L : Lib) (parsed : URL) (clean : Bool) : Option Str :=
  if parsed.Scheme = [] then none
  else
    let scheme := toLower L parsed.Scheme
    if scheme ≠ "http".toList ∧ scheme ≠ "https".toList then none
    else
      match normalizedHostPort L scheme parsed with
      | none => none
      | some host =>
        some (URL.String
          { parsed with Scheme := scheme, Host := host, Fragment := [], User := none,
                        Path := normalizedPath parsed, RawPath := [],
                        RawQuery := normalizedQuery L parsed.RawQuery clean })

/-- The function `NormalizeURL` of url_normalize.go. -/
def NormalizeURL (L : Lib) (raw : Str) (clean : Bool) : Option Str :=
  match Parse (trimSpace raw) with
  | none => none
  | some parsed => normalizeParsedURL L parsed clean

/-- The pseudo-scheme test of `ResolveAndNormalize`. -/
def isRejectedHref (L : Lib) (trimmedHref : Str) : Bool :=
  let lowerHref := toLower L trimmedHref
  hasPrefix lowerHref "javascript:".toList || hasPrefix lowerHref "mailto:".toList ||
    hasPrefix lowerHref "tel:".toList || hasPrefix lowerHref "data:".toList

/-- The function `ResolveAndNormalize` of url_normalize.go. -/
def ResolveAndNormalize (L : Lib) (baseURL href : Str) (clean : Bool) : Option Str :=
  let trimmedHref := trimSpace href
  if trimmedHref = [] then none
  else if isRejectedHref L trimmedHref then none
  else
    match Parse baseURL with
    | none => none
    | some base =>
      match Parse trimmedHref with
      | none => none
      | some ref => normalizeParsedURL L (base.ResolveReference ref) clean

/-! ## Go maps and sets keyed by strings -/

/-- Map write `set[key] = struct{}{}`: a set of strings as the list of its members. -/
def setInsert (set : List Str) (key : Str) : List Str :=
  if key ∈ set then set else set ++ [key]

/-- Map write `m[key] = value`. -/
def mapSet {β : Type} (m : List (Str × β)) (key : Str) (value : β) : List (Str × β) :=
  match m with
  | [] => [(key, value)]
  | (k, v) :: rest => if k = key then (k, value) :: rest else (k, v) :: mapSet rest key value

/-- Map read `v, ok := m[key]`. -/
def mapGet {β : Type} (m : List (Str × β)) (key : Str) : Option β :=
  match m with
  | [] => none
  | (k, v) :: rest => if k = key then some v else mapGet rest key

/-! ## pkg/pagerank: edge.go, graph.go, node.go -/

/-- The float64 operations the ranking adapter uses.  The arithmetic of float64 is not
modelled: the operations are parameters, and results are stated in terms of them. -/
structure Float64Ops (F : Type) where
  /-- The constant `0`. -/
  zero : F
  /-- The constant `1.0`. -/
  one : F
  /-- The constant `-1.0`. -/
  negOne : F
  /-- The conversion `float64(n)` of an `int`. -/
  ofInt : Int → F
  /-- The quotient `x / y`. -/
  div : F → F → F
  /-- The comparison `x != y`. -/
  ne : F → F → Bool
  /-- The comparison `x > y`. -/
  gt : F → F → Bool

/-- The type `Node` of pkg/pagerank; the maps `Outgoing` and `Incoming` are embedded as
the lists of their keys (edge ids). -/
structure Node (F : Type) where
  Id : Str
  Rank : F
  Outgoing : List Str
  Incoming : List Str

/-- The type `Edge` of pkg/pagerank; the node pointers are embedded as node ids. -/
structure Edge (F : Type) where
  Id : Str
  From : Str
  To : Str
  Weight : F

/-- The type `Graph` of pkg/pagerank: the maps `Nodes` and `Edges` as lists of their
values, one per key. -/
structure Graph (F : Type) where
  Nodes : List (Node F)
  Edges : List (Edge F)

/-- The function `GenerateEdgeID` of edge.go, on the ids of the two nodes. -/
def GenerateEdgeID (fromId toId : Str) : Str := fromId ++ ":".toList ++ toId

/-- The function `NewNode` of node.go. -/
def NewNode {F : Type} (ops : Float64Ops F) (id : Str) : Node F :=
  { Id := id, Rank := ops.zero, Outgoing := [], Incoming := [] }

/-- The function `NewGraph` of graph.go. -/
def NewGraph {F : Type} : Graph F := { Nodes := [], Edges := [] }

/-- The method `Graph.CheckIfNodeExists` of graph.go. -/
def Graph.CheckIfNodeExists {F : Type} (g : Graph F) (nodeID : Str) : Bool :=
  g.Nodes.any (fun n => n.Id = nodeID)

/-- The method `Graph.CheckIfEdgeExists` of graph.go. -/
def Graph.CheckIfEdgeExists {F : Type} (g : Graph F) (edgeId : Str) : Bool :=
  g.Edges.any (fun e => e.Id = edgeId)

/-- The method `Graph.AddNode` of graph.go. -/
def Graph.AddNode {F : Type} (ops : Float64Ops F) (g : Graph F) (nodeID : Str) : Graph F :=
  if g.CheckIfNodeExists nodeID then g else { g with Nodes := g.Nodes ++ [NewNode ops nodeID] }

/-- The function `NewEdge` of edge.go together with the map write of `Graph.AddEdge`: the
edge is recorded in the graph, in `Outgoing` of its source and in `Incoming` of its target. -/
def Graph.insertEdge {F : Type} (ops : Float64Ops F) (g : Graph F) (fromId toId : Str) : Graph F :=
  let edgeID := GenerateEdgeID fromId toId
  { Nodes := g.Nodes.map (fun n =>
      let n := if n.Id = fromId then { n with Outgoing := setInsert n.Outgoing edgeID } else n
      if n.Id = toId then { n with Incoming := setInsert n.Incoming edgeID } else n),
    Edges := g.Edges ++ [{ Id := edgeID, From := fromId, To := toId, Weight := ops.zero }] }

/-- The method `Graph.AddEdge` of graph.go. -/
def Graph.AddEdge {F : Type} (ops : Float64Ops F) (g : Graph F) (fromId toId : Str) : Graph F :=
  let g := if !g.CheckIfNodeExists fromId then g.AddNode ops fromId else g
  let g := if !g.CheckIfNodeExists toId then g.AddNode ops toId else g
  if !g.CheckIfEdgeExists (GenerateEdgeID fromId toId) then g.insertEdge ops fromId toId else g

/-- Modelled from the spec: the type `PageRank` of pkg/pagerank (`NewPageRank`,
`CalcPageRank`, `OrderResults`, `GetMaxToMinOrder`) is not among the sources.  By the spec
the ranking is a pure pass over a snapshot of the graph that gives every node a score and
produces an order of the nodes; the pass is a parameter here: `CalcPageRank g id` is the
rank it leaves in node `id`, `GetMaxToMinOrder g` the order it produces. -/
structure RankEngine (F : Type) where
  CalcPageRank : Graph F → Str → F
  GetMaxToMinOrder : Graph F → List Str

/-! ## pagerank_adapter.go -/

/-- The type `LinkGraph` of pagerank_adapter.go: the set `nodes` as the list of its
members, the map `edges` as an association list from a source to the set of its targets. -/
structure LinkGraph where
  nodes : List Str
  edges : List (Str × List Str)
  deriving DecidableEq, Repr

/-- The function `NewLinkGraph` of pagerank_adapter.go. -/
def NewLinkGraph : LinkGraph := { nodes := [], edges := [] }

/-- The method `LinkGraph.AddNode` of pagerank_adapter.go. -/
def LinkGraph.AddNode (g : LinkGraph) (node : Str) : LinkGraph :=
  if node = [] then g else { g with nodes := setInsert g.nodes node }

/-- The method `LinkGraph.AddEdge` of pagerank_adapter.go. -/
def LinkGraph.AddEdge (g : LinkGraph) (src dst : Str) : LinkGraph :=
  if src = [] ∨ dst = [] then g
  else
    let g := (g.AddNode src).AddNode dst
    let targets := (mapGet g.edges src).getD []
    { g with edges := mapSet g.edges src (setInsert targets dst) }

/-- The graph handed to the ranking engine by `ComputePageRankScores`: every node of the
link graph, then every edge. -/
def buildPRGraph {F : Type} (ops : Float64Ops F) (g : LinkGraph) : Graph F :=
  let prGraph := g.nodes.foldl (fun pg node => pg.AddNode ops node) (NewGraph : Graph F)
  g.edges.foldl (fun pg e => e.2.foldl (fun pg dst => pg.AddEdge ops e.1 dst) pg) prGraph

/-- The function `ComputePageRankScores` of pagerank_adapter.go; a nil graph is `none`.
The result is the score map and the order (a nil slice is the empty list). -/
def ComputePageRankScores {F : Type} (ops : Float64Ops F) (engine : RankEngine F)
    (g : Option LinkGraph) : List (Str × F) × List Str :=
  match g with
  | none => ([], [])
  | some g =>
    if g.nodes.length = 0 then ([], [])
    else
      let prGraph := buildPRGraph ops g
      let ranked : Graph F :=
        { prGraph with Nodes := prGraph.Nodes.map (fun n => { n with Rank := engine.CalcPageRank prGraph n.Id }) }
      if ranked.Edges.length = 0 then
        let uniform := ops.div ops.one (ops.ofInt g.nodes.length)
        let scores := g.nodes.foldl (fun sc node => mapSet sc node uniform) []
        (scores, sortStrings g.nodes)
      else
        let scores := ranked.Nodes.foldl (fun sc n => mapSet sc n.Id n.Rank) []
        (scores, engine.GetMaxToMinOrder ranked)

/-! ## Auxiliary definitions used to state the theorems -/

/-- The argument `normalizeHost` hands to `idna.Lookup.ToASCII`, computed from the
lower-cased host: white space, one trailing dot, a port and brackets removed; `none` when
the host is empty at that point. -/
def hostBeforeIDNA (lowered : Str) : Option Str :=
  let trimmed := trimSuffix (trimSpace lowered) ".".toList
  if trimmed = [] then none
  else
    let trimmed :=
      match netSplitHostPort trimmed with
      | some (h, p) => if p ≠ [] then h else trimmed
      | none => trimmed
    some (trimSuffix (trimPrefix trimmed "[".toList) "]".toList)

/-- The library maps each of the given names to itself, as `idna.Lookup.ToASCII` does on
lower-case names made of letters, digits and dots. -/
def Lib.idnaFixes (L : Lib) (names : List Str) : Prop :=
  ∀ n ∈ names, L.idnaToASCII n = some n

/-- The host `NewScope` hands to `normalizeHost`: the host name of the parsed input. -/
def scopeHostOfInput (input : Str) : Option Str :=
  let raw := trimSpace input
  if raw = [] then none
  else
    match Parse (if !containsSub "://".toList raw then "https://".toList ++ raw else raw) with
    | none => none
    | some parsed => if parsed.Hostname = [] then none else some parsed.Hostname

/-- The scope `NewScope` builds from the normalized host. -/
def scopeOfNormalizedHost (host : Str) : Option Scope :=
  let base := if hasPrefix host "www.".toList then trimPrefix host "www.".toList else host
  if base = [] then none
  else some { BaseDomain := base, AllowedHosts := [base, "www.".toList ++ base],
              allowedSet := [base, "www.".toList ++ base] }

/-- The scope of the base domain example.com. -/
def exampleScope : Scope :=
  { BaseDomain := "example.com".toList,
    AllowedHosts := ["example.com".toList, "www.example.com".toList],
    allowedSet := ["example.com".toList, "www.example.com".toList] }

/-- The host names of the scope examples. -/
def exampleHosts : List Str :=
  ["example.com".toList, "www.example.com".toList, "blog.example.com".toList,
   "api.example.com".toList, "example.org".toList, "www2.example.com".toList,
   "notexample.com".toList]

/-- Whether the scheme and the decoded query keys of a parsed URL are pure ASCII, so that
`strings.ToLower` takes its bytewise branch on them. -/
def URL.lowerIsBytewise (p : URL) : Bool :=
  p.Scheme.all isASCIIByte && p.Query.all (fun kv => kv.1.all isASCIIByte)

/-- The key/value pairs held by a `url.Values`, key by key. -/
def pairsOf (m : Values) : List (Str × Str) :=
  m.flatMap (fun kv => kv.2.map (fun v => (kv.1, v)))

/-- The text `encodeSortedQuery` writes for one key/value pair. -/
def encodePair (kv : Str × Str) : Str :=
  QueryEscape kv.1 ++ "=".toList ++ QueryEscape kv.2

/-- The key/value pair `parseQuery` reads from one piece of the query, `none` when it
skips the piece. -/
def decodePiece (piece : Str) : Option (Str × Str) :=
  if containsSub ";".toList piece then none
  else if piece = [] then none
  else
    match QueryUnescape (cutByte '=' piece).1, QueryUnescape (cutByte '=' piece).2.1 with
    | some key, some value => some (key, value)
    | _, _ => none

/-- The parameters of a raw query in their order of appearance: what `(*URL).Query`
reads, piece by piece. -/
def decodedPairs (rawQuery : Str) : List (Str × Str) :=
  (splitPieces '&' rawQuery).filterMap decodePiece

/-- The pairs of a `url.Values` in the order `encodeSortedQuery` writes them: keys
ascending, the values of a key ascending. -/
def sortedPairs (m : Values) : List (Str × Str) :=
  (sortStrings (m.map Prod.fst)).flatMap (fun k => (sortStrings (m.get k)).map (fun v => (k, v)))

/-- Order by key, then by value. -/
def pairLE (a b : Str × Str) : Prop := a.1 < b.1 ∨ (a.1 = b.1 ∧ a.2 ≤ b.2)

/-- A `url.Values` as `parseQuery` builds it: one entry per key, no entry without value. -/
def Values.WF (m : Values) : Prop := (m.map Prod.fst).Nodup ∧ ∀ kv ∈ m, kv.2 ≠ []

/-- The text `(*URL).String` writes before the query. -/
def URL.stringBody (u : URL) : Str :=
  let schemePart := if u.Scheme ≠ [] then u.Scheme ++ ":".toList else []
  if u.Opaque ≠ [] then schemePart ++ u.Opaque
  else
    let authPart :=
      if u.Scheme ≠ [] ∨ u.Host ≠ [] ∨ u.User.isSome then
        if u.OmitHost ∧ u.Host = [] ∧ u.User.isNone then []
        else
          (if u.Host ≠ [] ∨ u.Path ≠ [] ∨ u.User.isSome then "//".toList else []) ++
          (match u.User with
           | some ui => ui.String ++ "@".toList
           | none => []) ++
          (if u.Host ≠ [] then escape .encodeHost u.Host else [])
      else []
    let path := u.EscapedPath
    let buf := schemePart ++ authPart
    let buf := if path ≠ [] ∧ path.head? ≠ some '/' ∧ u.Host ≠ [] then buf ++ "/".toList else buf
    let buf :=
      if buf = [] ∧ containsSub ":".toList (cutByte '/' path).1 then buf ++ "./".toList else buf
    buf ++ path

/-- The text `(*URL).String` writes for the query. -/
def URL.stringQuery (u : URL) : Str :=
  if u.ForceQuery ∨ u.RawQuery ≠ [] then "?".toList ++ u.RawQuery else []

/-- The text holds neither a question mark nor a number sign. -/
def NoQ (s : Str) : Prop := ∀ x ∈ s, x ≠ '?' ∧ x ≠ '#'

/-- The parsed form of `https://example.com/docs/`. -/
def exampleBase : URL :=
  { Scheme := "https".toList, Host := "example.com".toList, Path := "/docs/".toList }

/-- An instance of the float64 operations over the rationals, to instantiate the
parameter `Float64Ops` at concrete graphs. -/
def ratOps : Float64Ops ℚ :=
  { zero := 0, one := 1, negOne := -1, ofInt := fun n => (n : ℚ), div := fun x y => x / y,
    ne := fun x y => decide (x ≠ y), gt := fun x y => decide (x > y) }

/-- A ranking engine that leaves every rank at zero and produces an empty order, to
instantiate the parameter `RankEngine` where the engine's results are not used. -/
def nullEngine : RankEngine ℚ :=
  { CalcPageRank := fun _ _ => 0, GetMaxToMinOrder := fun _ => [] }

/-- A link graph with three nodes and no edge. -/
def threeNodes : LinkGraph :=
  ((NewLinkGraph.AddNode "https://example.com/b".toList).AddNode
    "https://example.com/a".toList).AddNode "https://example.com/c".toList

/-! ## package sort: `SliceStable` (the functions of zsortfunc.go)

The slice is a list; `less i j` of the source is the comparison of the elements at the
indices `i` and `j` of the slice as it is at that moment.  Loops carry a `fuel` argument
that is at least the number of rounds they make. -/

/-- The call `data.Swap(i, j)`. -/
def goSwap {α : Type} (l : List α) (i j : Nat) : List α :=
  match l.get? i, l.get? j with
  | some a, some b => (l.set i b).set j a
  | _, _ => l

/-- The call `data.Less(i, j)`. -/
def goLess {α : Type} (less : α → α → Bool) (l : List α) (i j : Nat) : Bool :=
  match l.get? i, l.get? j with
  | some a, some b => less a b
  | _, _ => false

/-- The inner loop of `insertionSort_func`:
`for j := i; j > a && data.Less(j, j-1); j-- { data.Swap(j, j-1) }`. -/
def insertionInner {α : Type} (less : α → α → Bool) (a : Nat) : Nat → List α → List α
  | 0, l => l
  | j + 1, l =>
    if j + 1 > a ∧ goLess less l (j + 1) j then insertionInner less a j (goSwap l (j + 1) j)
    else l

/-- The outer loop of `insertionSort_func`, from index `i`. -/
def insertionOuter {α : Type} (less : α → α → Bool) (a b : Nat) : Nat → Nat → List α → List α
  | 0, _, l => l
  | fuel + 1, i, l =>
    if i < b then insertionOuter less a b fuel (i + 1) (insertionInner less a i l) else l

/-- The function `insertionSort_func` of package sort. -/
def insertionSortFunc {α : Type} (less : α → α → Bool) (l : List α) (a b : Nat) : List α :=
  insertionOuter less a b (b - a) (a + 1) l

/-- The binary searches of `symMerge_func`:
`for i < j { h := (i+j)/2; if test h { i = h + 1 } else { j = h } }`, returning `i`. -/
def searchLoop (test : Nat → Bool) : Nat → Nat → Nat → Nat
  | 0, i, _ => i
  | fuel + 1, i, j =>
    if i < j then
      if test ((i + j) / 2) then searchLoop test fuel ((i + j) / 2 + 1) j
      else searchLoop test fuel i ((i + j) / 2)
    else i

/-- The loop `for k := a; k < bound; k++ { data.Swap(k, k+1) }`. -/
def swapForward {α : Type} (bound : Nat) : Nat → Nat → List α → List α
  | 0, _, l => l
  | fuel + 1, k, l => if k < bound then swapForward bound fuel (k + 1) (goSwap l k (k + 1)) else l

/-- The loop `for k := m; k > i; k-- { data.Swap(k, k-1) }`. -/
def swapBackward {α : Type} (i : Nat) : Nat → List α → List α
  | 0, l => l
  | k + 1, l => if k + 1 > i then swapBackward i k (goSwap l (k + 1) k) else l

/-- The function `swapRange_func` of package sort, from round `i`. -/
def swapRangeFrom {α : Type} (a b n : Nat) : Nat → Nat → List α → List α
  | 0, _, l => l
  | fuel + 1, i, l =>
    if i < n then swapRangeFrom a b n fuel (i + 1) (goSwap l (a + i) (b + i)) else l

/-- The function `swapRange_func` of package sort. -/
def swapRangeFunc {α : Type} (l : List α) (a b n : Nat) : List α := swapRangeFrom a b n n 0 l

/-- The loop of `rotate_func` on `i` and `j`, with its final `swapRange_func`. -/
def rotateLoop {α : Type} (m : Nat) : Nat → Nat → Nat → List α → List α
  | 0, i, _, l => swapRangeFunc l (m - i) m i
  | fuel + 1, i, j, l =>
    if i ≠ j then
      if i > j then rotateLoop m fuel (i - j) j (swapRangeFunc l (m - i) m j)
      else rotateLoop m fuel i (j - i) (swapRangeFunc l (m - i) (m + j - i) i)
    else swapRangeFunc l (m - i) m i

/-- The function `rotate_func` of package sort. -/
def rotateFunc {α : Type} (l : List α) (a m b : Nat) : List α :=
  rotateLoop m (b - a) (m - a) (b - m) l

/-- The function `symMerge_func` of package sort. -/
def symMergeFunc {α : Type} (less : α → α → Bool) : Nat → List α → Nat → Nat → Nat → List α
  | 0, l, _, _, _ => l
  | fuel + 1, l, a, m, b =>
    if m - a = 1 then
      let i := searchLoop (fun h => goLess less l h a) (b - m) m b
      swapForward (i - 1) (i - 1 - a) a l
    else if b - m = 1 then
      let i := searchLoop (fun h => !goLess less l m h) (m - a) a m
      swapBackward i m l
    else
      let mid := (a + b) / 2
      let n := mid + m
      let start0 := if m > mid then n - b else a
      let r0 := if m > mid then mid else m
      let p := n - 1
      let start := searchLoop (fun c => !goLess less l (p - c) c) (r0 - start0) start0 r0
      let stop := n - start
      let l := if start < m ∧ m < stop then rotateFunc l start m stop else l
      let l := if a < start ∧ start < mid then symMergeFunc less fuel l a start mid else l
      if mid < stop ∧ stop < b then symMergeFunc less fuel l mid stop b else l

/-- The first loop of `stable_func`: insertion sort of the blocks. -/
def stableBlocks {α : Type} (less : α → α → Bool) (blockSize n : Nat) :
    Nat → Nat → List α → List α
  | 0, a, l => insertionSortFunc less l a n
  | fuel + 1, a, l =>
    if a + blockSize ≤ n then
      stableBlocks less blockSize n fuel (a + blockSize) (insertionSortFunc less l a (a + blockSize))
    else insertionSortFunc less l a n

/-- The inner loop of the second loop of `stable_func`: one pass of merges of neighbouring
blocks, with the merge of the remainder. -/
def stablePass {α : Type} (less : α → α → Bool) (blockSize n : Nat) :
    Nat → Nat → List α → List α
  | 0, _, l => l
  | fuel + 1, a, l =>
    if a + 2 * blockSize ≤ n then
      stablePass less blockSize n fuel (a + 2 * blockSize)
        (symMergeFunc less n l a (a + blockSize) (a + 2 * blockSize))
    else if a + blockSize < n then symMergeFunc less n l a (a + blockSize) n
    else l

/-- The second loop of `stable_func`: passes with doubling block size. -/
def stablePasses {α : Type} (less : α → α → Bool) (n : Nat) : Nat → Nat → List α → List α
  | 0, _, l => l
  | fuel + 1, blockSize, l =>
    if blockSize < n then
      stablePasses less n fuel (blockSize * 2) (stablePass less blockSize n (n + 1) 0 l)
    else l

/-- The function `stable_func` of package sort, which is `sort.SliceStable`. -/
def SliceStable {α : Type} (less : α → α → Bool) (l : List α) : List α :=
  let n := l.length
  stablePasses less n n 20 (stableBlocks less 20 n n 0 l)

/-! ## types.go -/

/-- The constant `PageRankImplementation` of types.go. -/
def PageRankImplementation : Str := "pkg/pagerank.NewPageRank + (*PageRank).CalcPageRank".toList

/-- The constant `StrategyPageRank` of types.go. -/
def StrategyPageRank : Str := "pagerank".toList

/-- The constant `StrategyLimit` of types.go. -/
def StrategyLimit : Str := "limit".toList

/-- The constant `StrategyDepth` of types.go. -/
def StrategyDepth : Str := "depth".toList

/-- The constant `DefaultUserAgent` of types.go. -/
def DefaultUserAgent : Str :=
  ("Mozilla/5.0 (Macintosh; Intel Mac OS X 10_15_7) AppleWebKit/537.36 " ++
    "(KHTML, like Gecko) Chrome/126.0.0.0 Safari/537.36").toList

/-- The constant `StatusOK` of types.go. -/
def StatusOK : Str := "ok".toList

/-- The constant `StatusError` of types.go. -/
def StatusError : Str := "error".toList

/-- The constant `StatusSkippedRobots` of types.go. -/
def StatusSkippedRobots : Str := "skipped_robots".toList

/-- The constant `StatusSkippedOutOfHost` of types.go. -/
def StatusSkippedOutOfHost : Str := "skipped_out_of_scope".toList

/-- The type `Config` of types.go; durations are counted in nanoseconds. -/
structure Config where
  Domain : Str
  Strategy : Str
  MaxPages : Int
  MaxDepth : Int
  Clean : Bool
  Headful : Bool
  Delay : Int
  PageTimeout : Int
  UserAgent : Str

/-- The type `Totals` of types.go. -/
structure Totals where
  Visited : Int := 0
  Errors : Int := 0
  SkippedExternal : Int := 0
  SkippedOutOfScope : Int := 0
  deriving DecidableEq, Repr

/-- The type `Page` of types.go; `Score` is a pointer in the source, `none` is nil. -/
structure Page (F : Type) where
  URL : Str
  FinalURL : Str
  Depth : Int
  Status : Str
  Title : Str := []
  Description : Str := []
  Links : List Str := []
  MainText : Str := []
  MainHTML : Str := []
  BodyHTML : Str := []
  RawHTML : Str := []
  Error : Str := []
  OutPath : Str := []
  Score : Option F := none

/-- The type `CrawlResult` of types.go, without the wall-clock fields `StartedAt` and
`FinishedAt`. -/
structure CrawlResult (F : Type) where
  Domain : Str
  AllowedHosts : List Str
  Strategy : Str
  MaxPages : Int
  MaxDepth : Int
  Clean : Bool
  Headful : Bool
  PageRankImplementation : Str := []
  Pages : List (Page F) := []
  Totals : Totals := {}

/-! ## browser.go -/

/-- A Go `error` value: its message and whether `errors.Is` finds `context.Canceled` or
`context.DeadlineExceeded` in it. -/
structure GoError where
  message : Str
  isCanceled : Bool := false
  isDeadlineExceeded : Bool := false
  deriving DecidableEq, Repr

/-- The type `fetchedPage` of browser.go. -/
structure fetchedPage where
  FinalURL : Str
  Title : Str := []
  Description : Str := []
  Links : List Str := []
  BodyHTML : Str := []
  MainHTML : Str := []
  MainText : Str := []
  RawHTML : Str := []
  deriving DecidableEq, Repr

/-- The function `sleepWithJitter` of browser.go; `completed` tells whether the timer fired
before the context was done (the result of `sleepWithContext`). -/
def sleepWithJitter (delay : Int) (completed : Bool) : Bool :=
  if delay ≤ 0 then true else completed

/-- The function `shouldFallbackToHTTP` of browser.go, on a non-nil error. -/
def shouldFallbackToHTTP (L : Lib) (err : GoError) : Bool :=
  let lowerErr := toLower L err.message
  ["net::err_ssl".toList, "net::err_cert".toList, "tls".toList, "x509".toList,
   "unsupported protocol scheme".toList, "net::err_connection_refused".toList,
   "net::err_empty_response".toList].any (fun needle => containsSub needle lowerErr)

/-! ## pagerank_adapter.go: `ApplyPageRankScores` -/

/-- The key of a page in the score map: `FinalURL`, or `URL` when that is empty. -/
def pageKey {F : Type} (page : Page F) : Str :=
  if page.FinalURL = [] then page.URL else page.FinalURL

/-- The map `orderPos` of `ApplyPageRankScores`: for each URL its (last) index in the
order. -/
def orderPosOf (order : List Str) : List (Str × Int) :=
  (order.foldl (fun (acc : List (Str × Int) × Int) url => (mapSet acc.1 url acc.2, acc.2 + 1))
    ([], 0)).1

/-- The comparison function `ApplyPageRankScores` hands to `sort.SliceStable`. -/
def pageLess {F : Type} (ops : Float64Ops F) (orderPos : List (Str × Int))
    (pi pj : Page F) : Bool :=
  let iScore := match pi.Score with
    | some s => s
    | none => ops.negOne
  let jScore := match pj.Score with
    | some s => s
    | none => ops.negOne
  if ops.ne iScore jScore then ops.gt iScore jScore
  else
    let iURL := pageKey pi
    let jURL := pageKey pj
    match mapGet orderPos iURL, mapGet orderPos jURL with
    | some iPos, some jPos => if iPos ≠ jPos then decide (iPos < jPos) else decide (iURL < jURL)
    | _, _ => decide (iURL < jURL)

/-- The loop of `ApplyPageRankScores` that attaches the scores: an ok page gets the score
of its key, zero when the map has none. -/
def attachScore {F : Type} (ops : Float64Ops F) (scores : List (Str × F)) (page : Page F) :
    Page F :=
  if page.Status ≠ StatusOK then page
  else { page with Score := some ((mapGet scores (pageKey page)).getD ops.zero) }

/-- The function `ApplyPageRankScores` of pagerank_adapter.go, for a non-nil result. -/
def ApplyPageRankScores {F : Type} (ops : Float64Ops F) (engine : RankEngine F)
    (result : CrawlResult F) (g : Option LinkGraph) : CrawlResult F :=
  let so := ComputePageRankScores ops engine g
  let orderPos := orderPosOf so.2
  let pages := result.Pages.map (attachScore ops so.1)
  { result with PageRankImplementation := PageRankImplementation,
                Pages := SliceStable (pageLess ops orderPos) pages }

/-! ## crawl.go -/

/-- The type `queueItem` of crawl.go. -/
structure queueItem where
  URL : Str
  Depth : Int
  deriving DecidableEq, Repr

/-- The answers of the environment during one round of the loop of `Crawl`. -/
structure Response where
  /-- Whether `ctx.Err() != nil` at the head of the round. -/
  cancelled : Bool
  /-- The result of `robots.Allowed(current.URL)`. -/
  robotsAllowed : Bool
  /-- Whether the timer of the politeness sleep fired before the context was done. -/
  sleepCompleted : Bool
  /-- The result of `fetchPageWithRetry` for the current URL. -/
  fetch : Except GoError fetchedPage

/-- The local variables of `Crawl` during its loop.  `broke` records that the loop was
left by `break`; `navigations` is the trace of the URLs handed to `fetchPageWithRetry`. -/
structure CrawlState (F : Type) where
  result : CrawlResult F
  queue : List queueItem
  enqueued : List Str
  processed : List Str
  seedPages : List (Str × fetchedPage)
  firstNavigation : Bool
  graph : LinkGraph
  broke : Bool := false
  navigations : List Str := []

/-- The defaults `Crawl` puts in place of out-of-range configuration values. -/
def effectiveConfig (cfg : Config) : Config :=
  { cfg with
    MaxPages := if cfg.MaxPages ≤ 0 then 25 else cfg.MaxPages,
    MaxDepth := if cfg.MaxDepth < 0 then 0 else cfg.MaxDepth,
    PageTimeout := if cfg.PageTimeout ≤ 0 then 20 * 1000000000 else cfg.PageTimeout,
    Delay := if cfg.Delay < 0 then 0 else cfg.Delay,
    UserAgent := if cfg.UserAgent = [] then DefaultUserAgent else cfg.UserAgent }

/-- The statement `result.Pages = append(result.Pages, page)`. -/
def CrawlResult.addPage {F : Type} (result : CrawlResult F) (page : Page F) : CrawlResult F :=
  { result with Pages := result.Pages ++ [page] }

/-- Lines 164-188 of `Crawl`, one round of the loop over `fetched.Links`: the state is
the kept links, the set of kept links and the totals. -/
def classifyLink (L : Lib) (scope : Scope) (clean : Bool) (normalizedFinal : Str)
    (acc : List Str × List Str × Totals) (href : Str) : List Str × List Str × Totals :=
  match ResolveAndNormalize L normalizedFinal href clean with
  | none => acc
  | some normalizedLink =>
    match Parse normalizedLink with
    | none => acc
    | some parsedLink =>
      match scope.ClassifyHost L parsedLink.Hostname with
      | .allowed =>
        if normalizedLink ∈ acc.2.1 then acc
        else (acc.1 ++ [normalizedLink], setInsert acc.2.1 normalizedLink, acc.2.2)
      | .outOfScope =>
        (acc.1, acc.2.1, { acc.2.2 with SkippedOutOfScope := acc.2.2.SkippedOutOfScope + 1 })
      | .external =>
        (acc.1, acc.2.1, { acc.2.2 with SkippedExternal := acc.2.2.SkippedExternal + 1 })

/-- Lines 195-208 of `Crawl`, one round of the loop over the kept links: the state is
the queue and the set of enqueued URLs. -/
def enqueueLink (cfg : Config) (depth : Int) (acc : List queueItem × List Str) (nextURL : Str) :
    List queueItem × List Str :=
  if nextURL ∈ acc.2 then acc
  else if cfg.Strategy = StrategyDepth ∧ depth + 1 > cfg.MaxDepth then acc
  else (acc.1 ++ [{ URL := nextURL, Depth := depth + 1 }], setInsert acc.2 nextURL)

/-- Lines 144-223 of `Crawl`: the round of the loop from the point where the page has
been fetched. -/
def afterFetch {F : Type} (L : Lib) (cfg : Config) (scope : Scope) (s : CrawlState F)
    (current : queueItem) (fetched : fetchedPage) : CrawlState F :=
  let s := { s with firstNavigation := false }
  let normalizedFinal := (NormalizeURL L fetched.FinalURL cfg.Clean).getD current.URL
  if !scope.IsAllowedURL L normalizedFinal then
    let totals : Totals :=
      { s.result.Totals with SkippedOutOfScope := s.result.Totals.SkippedOutOfScope + 1 }
    let page : Page F :=
      { URL := current.URL, FinalURL := normalizedFinal, Depth := current.Depth,
        Status := StatusSkippedOutOfHost,
        Error := "redirected out of allowed host scope".toList }
    { s with result := CrawlResult.addPage { s.result with Totals := totals } page }
  else
    let classified := fetched.Links.foldl (classifyLink L scope cfg.Clean normalizedFinal)
      ([], [], s.result.Totals)
    let internalLinks := sortStrings classified.1
    let graph := internalLinks.foldl (fun g link => g.AddEdge normalizedFinal link)
      (s.graph.AddNode normalizedFinal)
    let enq := internalLinks.foldl (enqueueLink cfg current.Depth) (s.queue, s.enqueued)
    let totals : Totals := { classified.2.2 with Visited := classified.2.2.Visited + 1 }
    let page : Page F :=
      { URL := current.URL, FinalURL := normalizedFinal, Depth := current.Depth,
        Status := StatusOK, Title := fetched.Title, Description := fetched.Description,
        Links := internalLinks, MainText := fetched.MainText, MainHTML := fetched.MainHTML,
        BodyHTML := fetched.BodyHTML, RawHTML := fetched.RawHTML }
    { s with graph := graph, queue := enq.1, enqueued := enq.2,
             result := CrawlResult.addPage { s.result with Totals := totals } page }

/-- The body of the loop of `Crawl` (lines 89-223), run when the loop condition holds. -/
def crawlStep {F : Type} (L : Lib) (cfg : Config) (scope : Scope) (s : CrawlState F)
    (r : Response) : CrawlState F :=
  if r.cancelled then { s with broke := true }
  else
    match s.queue with
    | [] => s
    | current :: queue =>
      let s := { s with queue := queue }
      if current.URL ∈ s.processed then s
      else
        let s := { s with processed := setInsert s.processed current.URL }
        if cfg.Strategy = StrategyDepth ∧ current.Depth > cfg.MaxDepth then s
        else if !r.robotsAllowed then
          let page : Page F :=
            { URL := current.URL, FinalURL := current.URL, Depth := current.Depth,
              Status := StatusSkippedRobots, Error := "disallowed by robots.txt".toList }
          { s with result := s.result.addPage page }
        else
          match mapGet s.seedPages current.URL with
          | some seed =>
            afterFetch L cfg scope
              { s with seedPages := s.seedPages.filter (fun kv => kv.1 ≠ current.URL) }
              current seed
          | none =>
            if !s.firstNavigation ∧ !sleepWithJitter cfg.Delay r.sleepCompleted then
              { s with broke := true }
            else
              let s := { s with firstNavigation := false,
                                navigations := s.navigations ++ [current.URL] }
              match r.fetch with
              | .error fetchErr =>
                let totals : Totals :=
                  { s.result.Totals with Errors := s.result.Totals.Errors + 1,
                                         Visited := s.result.Totals.Visited + 1 }
                let page : Page F :=
                  { URL := current.URL, FinalURL := current.URL, Depth := current.Depth,
                    Status := StatusError, Error := fetchErr.message }
                { s with result := CrawlResult.addPage { s.result with Totals := totals } page }
              | .ok fetched => afterFetch L cfg scope s current fetched

/-- The loop condition of `Crawl`, false also once the loop has been left by `break`. -/
def loopRunning {F : Type} (cfg : Config) (s : CrawlState F) : Bool :=
  !s.queue.isEmpty && decide (s.result.Totals.Visited < cfg.MaxPages) && !s.broke

/-- The loop of `Crawl` run against the answers of the environment, one per round, until
the loop ends or the answers run out. -/
def runLoop {F : Type} (L : Lib) (cfg : Config) (scope : Scope) :
    List Response → CrawlState F → CrawlState F
  | [], s => s
  | r :: rs, s => if loopRunning cfg s then runLoop L cfg scope rs (crawlStep L cfg scope s r) else s

/-- The state of `Crawl` when it enters its loop, `cfg` being the effective
configuration. -/
def initialState {F : Type} (cfg : Config) (scope : Scope) (startURL : Str)
    (startFetch : fetchedPage) (navigations : List Str) : CrawlState F :=
  { result :=
      { Domain := scope.BaseDomain, AllowedHosts := scope.AllowedHosts, Strategy := cfg.Strategy,
        MaxPages := cfg.MaxPages, MaxDepth := cfg.MaxDepth, Clean := cfg.Clean,
        Headful := cfg.Headful },
    queue := [{ URL := startURL, Depth := 0 }],
    enqueued := [startURL],
    processed := [],
    seedPages := [(startURL, startFetch)],
    firstNavigation := true,
    graph := NewLinkGraph,
    navigations := navigations }

/-- Lines 226-234 of `Crawl`: the result returned once the loop has ended. -/
def finishCrawl {F : Type} (ops : Float64Ops F) (engine : RankEngine F) (cfg : Config)
    (s : CrawlState F) : CrawlResult F :=
  if cfg.Strategy = StrategyPageRank then ApplyPageRankScores ops engine s.result (some s.graph)
  else s.result

/-- The answers of the environment to one run of `Crawl`: the two possible fetches of the
start page, the answers to the rounds of the loop, and `ctx.Err()` at the return. -/
structure World where
  startHTTPS : Except GoError fetchedPage
  startHTTP : Except GoError fetchedPage
  responses : List Response
  ctxErrAtReturn : Option GoError

/-- The error returned when `NewScope` fails: it wraps `ErrInvalidDomain`; the detail
after the prefix is not modelled. -/
def errInvalidDomain : GoError := { message := "invalid domain".toList }

/-- The function `Crawl` of crawl.go.  The outer `none` means that the answers of the
environment ran out before the loop ended; otherwise the value is the pair returned, a nil
result being `none`. -/
def Crawl {F : Type} (L : Lib) (ops : Float64Ops F) (engine : RankEngine F) (cfg : Config)
    (w : World) : Option (Option (CrawlResult F) × Option GoError) :=
  match NewScope L cfg.Domain with
  | none => some (none, some errInvalidDomain)
  | some scope =>
    let cfg := effectiveConfig cfg
    let startHTTPS := "https://".toList ++ scope.BaseDomain ++ "/".toList
    let startHTTP := "http://".toList ++ scope.BaseDomain ++ "/".toList
    let empty : CrawlResult F := (initialState cfg scope startHTTPS { FinalURL := [] } []).result
    let run (startURL : Str) (startFetch : fetchedPage) (navigations : List Str) :
        Option (Option (CrawlResult F) × Option GoError) :=
      let s := runLoop L cfg scope w.responses (initialState cfg scope startURL startFetch navigations)
      if loopRunning cfg s then none
      else some (some (finishCrawl ops engine cfg s), w.ctxErrAtReturn)
    match w.startHTTPS with
    | .ok startFetch => run startHTTPS startFetch [startHTTPS]
    | .error err =>
      if shouldFallbackToHTTP L err then
        match w.startHTTP with
        | .error err2 => some (some empty, some err2)
        | .ok startFetch => run startHTTP startFetch [startHTTPS, startHTTP]
      else some (some empty, some err)

/-- The invariant of the loop of `Crawl` on the visited counter, the queue, the set of
enqueued URLs, the set of processed URLs and the pages recorded. -/
structure InvCore {F : Type} (cfg : Config) (visited : Int) (queue : List queueItem)
    (enqueued processed : List Str) (pages : List (Page F)) : Prop where
  visited_le : visited ≤ cfg.MaxPages
  queue_nodup : (queue.map queueItem.URL).Nodup
  queue_enqueued : ∀ q ∈ queue, q.URL ∈ enqueued
  queue_fresh : ∀ q ∈ queue, q.URL ∉ processed
  processed_enqueued : ∀ u ∈ processed, u ∈ enqueued
  pages_processed : ∀ p ∈ pages, p.URL ∈ processed
  pages_nodup : (pages.map Page.URL).Nodup
  queue_depth : cfg.Strategy = StrategyDepth → ∀ q ∈ queue, q.Depth ≤ cfg.MaxDepth
  pages_depth : cfg.Strategy = StrategyDepth → ∀ p ∈ pages, p.Depth ≤ cfg.MaxDepth

/-- The invariant of the loop of `Crawl`, on a state. -/
def CrawlInv {F : Type} (cfg : Config) (s : CrawlState F) : Prop :=
  InvCore cfg s.result.Totals.Visited s.queue s.enqueued s.processed s.result.Pages

/-- A configuration for the example runs: base domain example.com, page budget 3. -/
def exampleConfig (strategy : Str) (maxDepth : Int) : Config :=
  { Domain := "example.com".toList, Strategy := strategy, MaxPages := 3, MaxDepth := maxDepth,
    Clean := true, Headful := false, Delay := 0, PageTimeout := 0, UserAgent := [] }

/-- The start page of the example runs: it links to `/a`, twice, and to another host. -/
def exampleStartPage : fetchedPage :=
  { FinalURL := "https://example.com/".toList,
    Links := ["/a".toList, "https://other.org/".toList, "/a".toList] }

/-- An answer of the environment that lets the round proceed and fetches a page without
links. -/
def exampleResponse : Response :=
  { cancelled := false, robotsAllowed := true, sleepCompleted := true,
    fetch := .ok { FinalURL := "https://example.com/a".toList } }

/-- An environment for the example runs: the start page is fetched over https. -/
def exampleWorld : World :=
  { startHTTPS := .ok exampleStartPage,
    startHTTP := .error { message := [] },
    responses := [exampleResponse, exampleResponse, exampleResponse],
    ctxErrAtReturn := none }

/-- The state in which the example runs enter the loop. -/
def exampleInitial (strategy : Str) (maxDepth : Int) : CrawlState ℚ :=
  initialState (effectiveConfig (exampleConfig strategy maxDepth)) exampleScope
    "https://example.com/".toList exampleStartPage ["https://example.com/".toList]

/-- The state in which the loop of the example runs ends. -/
def exampleFinal (strategy : Str) (maxDepth : Int) : CrawlState ℚ :=
  runLoop asciiLib (effectiveConfig (exampleConfig strategy maxDepth)) exampleScope
    exampleWorld.responses (exampleInitial strategy maxDepth)

/-! ## robots.go

The type `robotstxt.Group` of the robots.txt library is a parameter `G`; the network and the
library answer through `RobotsEnv`. -/

/-- The type `robotsEntry` of robots.go; a nil `group` is `none`. -/
structure robotsEntry (G : Type) where
  loaded : Bool
  group : Option G

/-- The type `robotsCache` of robots.go, without logger, HTTP client and mutex: the map
`entries` is an association list. -/
structure robotsCache (G : Type) where
  scope : Scope
  userAgent : Str
  entries : List (Str × robotsEntry G)

/-- The answers of the network and of the robots.txt library during one call of
`robotsCache.Allowed`. -/
structure RobotsEnv (G : Type) where
  /-- For a robots.txt URL and a user agent: the outcome of `http.NewRequest`, `client.Do`
  and `robotstxt.FromResponse`, an error of any of them, or else the group
  `data.FindGroup(userAgent)`. -/
  fetchGroup : Str → Str → Except GoError (Option G)
  /-- The method `Group.Test` of the robots.txt library. -/
  Test : G → Str → Bool

/-- What a call of `robotsCache.Allowed` returns and leaves behind: the two results, the
cache after the call, and the robots.txt URLs requested during the call. -/
structure RobotsOutcome (G : Type) where
  allowed : Bool
  err : Option GoError
  cache : robotsCache G
  requests : List Str

/-- The function `newRobotsCache` of robots.go. -/
def newRobotsCache {G : Type} (scope : Scope) (userAgent : Str) : robotsCache G :=
  { scope := scope, userAgent := userAgent, entries := [] }

/-- The method `robotsCache.loadGroup` of robots.go: the schemes https and http are tried in
turn; the result is the group, the error and the robots.txt URLs tried.  After two failed
rounds `lastErr` is the error of the second round, so that the final test for a nil
`lastErr` never holds. -/
def robotsCache.loadGroup {G : Type} (env : RobotsEnv G) (rc : robotsCache G) (host : Str) :
    Option G × Option GoError × List Str :=
  let httpsURL := "https".toList ++ "://".toList ++ host ++ "/robots.txt".toList
  let httpURL := "http".toList ++ "://".toList ++ host ++ "/robots.txt".toList
  match env.fetchGroup httpsURL rc.userAgent with
  | .ok group => (group, none, [httpsURL])
  | .error _ =>
    match env.fetchGroup httpURL rc.userAgent with
    | .ok group => (group, none, [httpsURL, httpURL])
    | .error lastErr => (none, some lastErr, [httpsURL, httpURL])

/-- The error `normalizeHost` returns; its message is not modelled. -/
def errInvalidHost : GoError := { message := "invalid host".toList }

/-- The error `url.Parse` returns; its message is not modelled. -/
def errURLParse : GoError := { message := "parse error".toList }

/-- The method `robotsCache.getOrLoad` of robots.go: the entry (nil is `none`), the error,
the cache after the call and the robots.txt URLs requested. -/
def robotsCache.getOrLoad {G : Type} (L : Lib) (env : RobotsEnv G) (rc : robotsCache G)
    (host : Str) : Option (robotsEntry G) × Option GoError × robotsCache G × List Str :=
  match normalizeHost L host with
  | none => (none, some errInvalidHost, rc, [])
  | some normalizedHost =>
    let cached :=
      match mapGet rc.entries normalizedHost with
      | some entry => if entry.loaded then some entry else none
      | none => none
    match cached with
    | some entry => (some entry, none, rc, [])
    | none =>
      let loadedGroup := rc.loadGroup env normalizedHost
      let updated : robotsEntry G := { loaded := true, group := loadedGroup.1 }
      (some updated, loadedGroup.2.1,
        { rc with entries := mapSet rc.entries normalizedHost updated }, loadedGroup.2.2)

/-- The method `robotsCache.Allowed` of robots.go. -/
def robotsCache.Allowed {G : Type} (L : Lib) (env : RobotsEnv G) (rc : robotsCache G)
    (rawURL : Str) : RobotsOutcome G :=
  match Parse rawURL with
  | none => { allowed := false, err := some errURLParse, cache := rc, requests := [] }
  | some parsed =>
    let host := parsed.Hostname
    if !rc.scope.IsAllowedHost L host then
      { allowed := false, err := none, cache := rc, requests := [] }
    else
      let got := rc.getOrLoad L env host
      match got.2.1 with
      | some err => { allowed := true, err := some err, cache := got.2.2.1, requests := got.2.2.2 }
      | none =>
        match got.1.bind robotsEntry.group with
        | none => { allowed := true, err := none, cache := got.2.2.1, requests := got.2.2.2 }
        | some group =>
          let path := if parsed.EscapedPath = [] then "/".toList else parsed.EscapedPath
          let path := if parsed.RawQuery ≠ [] then path ++ "?".toList ++ parsed.RawQuery else path
          { allowed := env.Test group path, err := none, cache := got.2.2.1,
            requests := got.2.2.2 }

/-- A sequence of calls of `robotsCache.Allowed`, each with the answers of the environment at
that time: the cache after the last call. -/
def robotsCache.afterCalls {G : Type} (L : Lib) (rc : robotsCache G)
    (calls : List (RobotsEnv G × Str)) : robotsCache G :=
  calls.foldl (fun (c : robotsCache G) (call : RobotsEnv G × Str) =>
    (c.Allowed L call.1 call.2).cache) rc

/-! ## browser.go: `fetchPageWithRetry` -/

/-- The function `isTransientNavigationError` of browser.go, on a non-nil error. -/
def isTransientNavigationError (L : Lib) (err : GoError) : Bool :=
  if err.isDeadlineExceeded || err.isCanceled then true
  else
    let lowerErr := toLower L err.message
    ["timeout".toList, "net::err_".toList, "connection reset".toList,
     "connection refused".toList, "temporary".toList, "no such host".toList].any
      (fun needle => containsSub needle lowerErr)

/-- The answers of the environment during one call of `fetchPageWithRetry`, per attempt
(counted from 0, as the loop variable `attempt`). -/
structure RetryEnv where
  /-- Whether the timer of the back-off sleep before the attempt fired before the context
  was done (the result of `sleepWithContext`). -/
  sleepCompleted : Nat → Bool
  /-- The result of `fetchPageOnce` at the attempt. -/
  fetchOnce : Nat → Except GoError fetchedPage
  /-- The value of `ctx.Err()` once the context is done. -/
  ctxErr : GoError

/-- The error `errors.New("navigation failed")`. -/
def errNavigationFailed : GoError := { message := "navigation failed".toList }

/-- The loop of `fetchPageWithRetry`, from the round `attempt`, with the statements after
the loop.  The result is the value returned and the number of calls of `fetchPageOnce`
made. -/
def retryLoop (L : Lib) (env : RetryEnv) (attempts : Int) :
    Nat → Nat → Option GoError → Except GoError fetchedPage × Nat
  | 0, attempt, lastErr => (.error (lastErr.getD errNavigationFailed), attempt)
  | fuel + 1, attempt, lastErr =>
    if (attempt : Int) < attempts then
      if attempt > 0 ∧ !env.sleepCompleted attempt then (.error env.ctxErr, attempt)
      else
        match env.fetchOnce attempt with
        | .ok page => (.ok page, attempt + 1)
        | .error err =>
          if !isTransientNavigationError L err ∨ (attempt : Int) = attempts - 1 then
            (.error err, attempt + 1)
          else retryLoop L env attempts fuel (attempt + 1) (some err)
    else (.error (lastErr.getD errNavigationFailed), attempt)

/-- The function `fetchPageWithRetry` of browser.go: the value returned and the number of
navigation attempts (calls of `fetchPageOnce`) made. -/
def fetchPageWithRetry (L : Lib) (env : RetryEnv) (retries : Int) :
    Except GoError fetchedPage × Nat :=
  retryLoop L env (retries + 1) (retries + 1).toNat 0 none

/-- Whether the attempt `k` of a call of `fetchPageWithRetry` ends the retries of itself: it
succeeds, or fails with an error that is not classified transient. -/
def decisiveAttempt (L : Lib) (env : RetryEnv) (k : Nat) : Bool :=
  match env.fetchOnce k with
  | .ok _ => true
  | .error err => !isTransientNavigationError L err

/-- The error `context.Canceled`. -/
def ctxCanceled : GoError := { message := "context canceled".toList, isCanceled := true }

/-- An environment of `fetchPageWithRetry` in which the first attempt times out, the context
is cancelled during the first back-off sleep, and a second attempt would have succeeded. -/
def cancelledBackoff : RetryEnv :=
  { sleepCompleted := fun _ => false,
    fetchOnce := fun k =>
      if k = 0 then .error { message := "navigate: timeout".toList }
      else .ok { FinalURL := "https://example.com/".toList },
    ctxErr := ctxCanceled }

/-- An environment of `fetchPageWithRetry` in which the first attempt times out and the
second succeeds after a completed back-off sleep. -/
def secondAttemptSucceeds : RetryEnv :=
  { sleepCompleted := fun _ => true,
    fetchOnce := fun k =>
      if k = 0 then .error { message := "navigate: timeout".toList }
      else .ok { FinalURL := "https://example.com/".toList },
    ctxErr := ctxCanceled }

/-- The counters `Visited` and `Errors` agree with the pages recorded: `Visited` is the
number of pages with status ok or error, `Errors` the number of pages with status error. -/
def TotalsInv {F : Type} (result : CrawlResult F) : Prop :=
  result.Totals.Visited
      = (result.Pages.countP (fun p => decide (p.Status = StatusOK ∨ p.Status = StatusError)) : Nat) ∧
  result.Totals.Errors
      = (result.Pages.countP (fun p => decide (p.Status = StatusError)) : Nat)

/-- The navigations made by the loop of `Crawl`, after the navigations `navs` made before
the loop: each of them is the URL of a page recorded with a status other than
skipped_robots. -/
def NavInv {F : Type} (navs : List Str) (s : CrawlState F) : Prop :=
  ∃ loopNavs : List Str, s.navigations = navs ++ loopNavs ∧
    ∀ u ∈ loopNavs, ∃ p ∈ s.result.Pages, p.URL = u ∧ p.Status ≠ StatusSkippedRobots

/-- The page `Crawl` records for a URL that the robots check disallows. -/
def robotsSkippedPage {F : Type} (current : queueItem) : Page F :=
  { URL := current.URL, FinalURL := current.URL, Depth := current.Depth,
    Status := StatusSkippedRobots, Error := "disallowed by robots.txt".toList }

/-- An answer of the environment in which the robots check disallows the URL. -/
def robotsDenied : Response :=
  { cancelled := false, robotsAllowed := false, sleepCompleted := true,
    fetch := .ok { FinalURL := "https://example.com/a".toList } }

/-- An answer of the environment in which the context is found cancelled at the head of the
round. -/
def cancelledResponse : Response :=
  { cancelled := true, robotsAllowed := true, sleepCompleted := true,
    fetch := .ok { FinalURL := "https://example.com/a".toList } }

/-- An environment in which the start page is fetched over https and the context is
cancelled after the first round of the loop. -/
def cancelledWorld : World :=
  { startHTTPS := .ok exampleStartPage,
    startHTTP := .error { message := [] },
    responses := [exampleResponse, cancelledResponse],
    ctxErrAtReturn := some ctxCanceled }

/-- An environment in which the start page cannot be fetched: the https fetch fails with a
TLS error and the http fetch with a refused connection. -/
def failingStartWorld : World :=
  { startHTTPS := .error { message := "navigate: net::ERR_SSL_PROTOCOL_ERROR".toList },
    startHTTP := .error { message := "navigate: net::ERR_CONNECTION_REFUSED".toList },
    responses := [],
    ctxErrAtReturn := none }

/-- The start of a run of `Crawl` (lines 23-75): the scope, the start URL, its fetched page
and the navigations made; `none` when the run ends before the loop, with an invalid domain
or a start page that cannot be fetched. -/
def crawlStart (L : Lib) (cfg : Config) (w : World) :
    Option (Scope × Str × fetchedPage × List Str) :=
  match NewScope L cfg.Domain with
  | none => none
  | some scope =>
    let startHTTPS := "https://".toList ++ scope.BaseDomain ++ "/".toList
    let startHTTP := "http://".toList ++ scope.BaseDomain ++ "/".toList
    match w.startHTTPS with
    | .ok startFetch => some (scope, startHTTPS, startFetch, [startHTTPS])
    | .error err =>
      if shouldFallbackToHTTP L err then
        match w.startHTTP with
        | .error _ => none
        | .ok startFetch => some (scope, startHTTP, startFetch, [startHTTPS, startHTTP])
      else none

/-- The result `Crawl` has assembled when it enters its loop: the snapshot of the scope and
of the effective configuration, no page, all counters zero. -/
def emptyResult {F : Type} (cfg : Config) (scope : Scope) : CrawlResult F :=
  { Domain := scope.BaseDomain, AllowedHosts := scope.AllowedHosts,
    Strategy := (effectiveConfig cfg).Strategy, MaxPages := (effectiveConfig cfg).MaxPages,
    MaxDepth := (effectiveConfig cfg).MaxDepth, Clean := (effectiveConfig cfg).Clean,
    Headful := (effectiveConfig cfg).Headful }

/-- An environment in which the start page is fetched over https and the robots check
disallows the start URL. -/
def robotsDeniedWorld : World :=
  { startHTTPS := .ok exampleStartPage,
    startHTTP := .error { message := [] },
    responses := [robotsDenied],
    ctxErrAtReturn := none }

/-- The example configuration with an empty domain. -/
def emptyDomainConfig : Config := { exampleConfig StrategyLimit 0 with Domain := [] }

/-- A robots environment in which every request fails and the library, were it asked,
would disallow every path; the type of the groups is `Unit`. -/
def failingRobots : RobotsEnv Unit :=
  { fetchGroup := fun _ _ => .error { message := "no such host".toList },
    Test := fun _ _ => false }

/-- The URL `https://blog.example.com/post`, parsed. -/
def exampleOutOfScopeURL : URL :=
  { Scheme := "https".toList, Host := "blog.example.com".toList, Path := "/post".toList }

/-! ## pkg/pagerank: the ranking pass

The type `PageRank` of pkg/pagerank is not among the sources.  The definitions of this
section follow section 4.5 of the spec, in exact rational arithmetic in place of float64. -/

/-- Modelled from the spec: what the spec leaves open in the ranking pass of the type
`PageRank` of pkg/pagerank (not among the sources), which iterates `to convergence or a
maximum iteration cap`: the cap, and the test for convergence, which sees for every node
its score before and after an iteration. -/
structure RankParams where
  maxIterations : Nat
  converged : List (ℚ × ℚ) → Bool

/-- Modelled from the spec: the number of outgoing edges of a node, for the ranking pass of
the type `PageRank` of pkg/pagerank (not among the sources). -/
def outDegree (g : Graph ℚ) (id : Str) : Nat := (g.Edges.filter (fun e => e.From = id)).length

/-- Modelled from the spec: one iteration of the ranking pass of the type `PageRank` of
pkg/pagerank (not among the sources), with the fixed damping factor 0.85: the rank of every
node is distributed in equal shares across its outgoing edges, and the rank of the nodes
without outgoing edge is redistributed uniformly across all nodes. -/
def rankIteration (g : Graph ℚ) (ranks : List (Str × ℚ)) : List (Str × ℚ) :=
  let n : ℚ := g.Nodes.length
  let rankOf := fun (id : Str) => (mapGet ranks id).getD 0
  let danglingMass :=
    ((g.Nodes.filter (fun u => outDegree g u.Id = 0)).map (fun u => rankOf u.Id)).sum
  g.Nodes.map (fun v =>
    let inflow := ((g.Edges.filter (fun e => e.To = v.Id)).map
      (fun e => rankOf e.From / (outDegree g e.From : ℚ))).sum
    (v.Id, (1 - 17 / 20) / n + 17 / 20 * (inflow + danglingMass / n)))

/-- Modelled from the spec: the iterations of the ranking pass of the type `PageRank` of
pkg/pagerank (not among the sources), until the test for convergence holds or the cap is
reached. -/
def rankLoop (g : Graph ℚ) (p : RankParams) : Nat → List (Str × ℚ) → List (Str × ℚ)
  | 0, ranks => ranks
  | fuel + 1, ranks =>
    let next := rankIteration g ranks
    if p.converged (List.zip (ranks.map Prod.snd) (next.map Prod.snd)) then next
    else rankLoop g p fuel next

/-- Modelled from the spec: the scores of the ranking pass of the type `PageRank` of
pkg/pagerank (not among the sources): the iterations start from the uniform scores (the
spec names no start) and the result is normalized so that the scores sum to 1. -/
def specScores (p : RankParams) (g : Graph ℚ) : List (Str × ℚ) :=
  let start := g.Nodes.map (fun v => (v.Id, 1 / (g.Nodes.length : ℚ)))
  let ranks := rankLoop g p p.maxIterations start
  let total := (ranks.map Prod.snd).sum
  ranks.map (fun kv => (kv.1, kv.2 / total))

/-- Modelled from the spec: the order produced by the type `PageRank` of pkg/pagerank (not
among the sources) from the ranks left in the nodes: descending by score, ties broken by
ascending URL. -/
def specOrder (g : Graph ℚ) : List Str :=
  (g.Nodes.insertionSort
    (fun u v => u.Rank > v.Rank ∨ (u.Rank = v.Rank ∧ u.Id ≤ v.Id))).map Node.Id

/-- Modelled from the spec: the ranking engine of section 4.5 of the spec, in place of the
type `PageRank` of pkg/pagerank (not among the sources). -/
def specEngine (p : RankParams) : RankEngine ℚ :=
  { CalcPageRank := fun g id => (mapGet (specScores p g) id).getD 0,
    GetMaxToMinOrder := specOrder }

/-- The values the spec suggests for what it leaves open: a cap of 100 iterations, and
convergence when no score moves by 1e-6 or more. -/
def standardParams : RankParams :=
  { maxIterations := 100,
    converged := fun pairs => pairs.all (fun pr => decide (|pr.2 - pr.1| < 1 / 1000000)) }

/-- The graph `pagerank.Graph` with the nodes `a`, `b`, `c` and the edges from `a` to `b`,
from `b` to `c` and from `c` to `b`, as `buildPRGraph` builds it. -/
def abcPRGraph (a b c : Str) : Graph ℚ :=
  { Nodes :=
      [{ Id := a, Rank := 0, Outgoing := [GenerateEdgeID a b], Incoming := [] },
       { Id := b, Rank := 0, Outgoing := [GenerateEdgeID b c],
         Incoming := [GenerateEdgeID a b, GenerateEdgeID c b] },
       { Id := c, Rank := 0, Outgoing := [GenerateEdgeID c b],
         Incoming := [GenerateEdgeID b c] }],
    Edges :=
      [{ Id := GenerateEdgeID a b, From := a, To := b, Weight := 0 },
       { Id := GenerateEdgeID b c, From := b, To := c, Weight := 0 },
       { Id := GenerateEdgeID c b, From := c, To := b, Weight := 0 }] }

/-- The link graph of the ranking test: edges from a to b, from b to c and from c to b. -/
def abcGraph : LinkGraph :=
  ((NewLinkGraph.AddEdge "https://example.com/a".toList "https://example.com/b".toList).AddEdge
    "https://example.com/b".toList "https://example.com/c".toList).AddEdge
    "https://example.com/c".toList "https://example.com/b".toList

/-- The result of the ranking test: three ok pages a, b, c. -/
def abcResult : CrawlResult ℚ :=
  { Domain := "example.com".toList, AllowedHosts := [], Strategy := StrategyPageRank,
    MaxPages := 0, MaxDepth := 0, Clean := false, Headful := false,
    Pages :=
      [{ URL := "https://example.com/a".toList, FinalURL := "https://example.com/a".toList,
         Depth := 0, Status := StatusOK },
       { URL := "https://example.com/b".toList, FinalURL := "https://example.com/b".toList,
         Depth := 0, Status := StatusOK },
       { URL := "https://example.com/c".toList, FinalURL := "https://example.com/c".toList,
         Depth := 0, Status := StatusOK }] }

/-- The graph `pagerank.Graph` with the nodes `b`, `a` and the edge from `b` to `a`, as
`buildPRGraph` builds it. -/
def linkPRGraph (b a : Str) : Graph ℚ :=
  { Nodes :=
      [{ Id := b, Rank := 0, Outgoing := [GenerateEdgeID b a], Incoming := [] },
       { Id := a, Rank := 0, Outgoing := [], Incoming := [GenerateEdgeID b a] }],
    Edges := [{ Id := GenerateEdgeID b a, From := b, To := a, Weight := 0 }] }

/-- A link graph with one edge, from `https://example.com/b` to
`https://www.example.com/x`. -/
def tieGraph : LinkGraph :=
  NewLinkGraph.AddEdge "https://example.com/b".toList "https://www.example.com/x".toList

/-- A page with status error for `https://www.example.com/x`, a node of `tieGraph`. -/
def tiePageX : Page ℚ :=
  { URL := "https://www.example.com/x".toList, FinalURL := "https://www.example.com/x".toList,
    Depth := 1, Status := StatusError, Error := "navigate: timeout".toList }

/-- A page with status error for `https://example.com/b`, a node of `tieGraph`. -/
def tiePageB : Page ℚ :=
  { URL := "https://example.com/b".toList, FinalURL := "https://example.com/b".toList,
    Depth := 1, Status := StatusError, Error := "navigate: timeout".toList }

/-- A page with status skipped_out_of_scope: `https://example.com/r` was redirected to
`https://sub.example.com/`, which is no node of `tieGraph`. -/
def tiePageR : Page ℚ :=
  { URL := "https://example.com/r".toList, FinalURL := "https://sub.example.com/".toList,
    Depth := 1, Status := StatusSkippedOutOfHost,
    Error := "redirected out of allowed host scope".toList }

/-- A result with the three pages `tiePageX`, `tiePageB`, `tiePageR`. -/
def tieResult : CrawlResult ℚ :=
  { Domain := "example.com".toList, AllowedHosts := [], Strategy := StrategyPageRank,
    MaxPages := 25, MaxDepth := 0, Clean := false, Headful := false,
    Pages := [tiePageX, tiePageB, tiePageR] }

/-! ## scope.go and url_normalize.go: the error values

The functions below are `NewScope`, `normalizeParsedURL`, `NormalizeURL` and
`ResolveAndNormalize` once more, this time with both values of their Go result: the value
returned and the error, `none` being nil. -/

/-- The detail `NewScope` writes after the prefix of its error. -/
inductive DomainFailure where
  /-- The text "empty input". -/
  | emptyInput
  /-- The error of `url.Parse`, formatted with `%v`. -/
  | parse
  /-- The text "missing host". -/
  | missingHost
  /-- The error of `normalizeHost`, formatted with `%v`. -/
  | host
  /-- The text "empty base domain". -/
  | emptyBaseDomain
  deriving DecidableEq, Repr

/-- The error values made by scope.go and url_normalize.go, one constructor per expression
that makes one. -/
inductive CrawlerError where
  /-- The value `fmt.Errorf("%w: ...", ErrInvalidDomain, ...)`: it wraps `ErrInvalidDomain`. -/
  | invalidDomain (why : DomainFailure)
  /-- The variable `ErrUnsupportedLinkScheme`. -/
  | unsupportedLinkScheme
  /-- The value `errors.New("empty link")`. -/
  | emptyLink
  /-- The value `fmt.Errorf("missing scheme in url %q", ...)`. -/
  | missingScheme
  /-- An error returned by `url.Parse`. -/
  | urlParse
  /-- An error returned by `normalizeHost`. -/
  | host
  deriving DecidableEq, Repr

/-- The test `errors.Is(err, ErrInvalidDomain)`. -/
def CrawlerError.isInvalidDomain : CrawlerError → Bool
  | .invalidDomain _ => true
  | _ => false

/-- The test `errors.Is(err, ErrUnsupportedLinkScheme)`. -/
def CrawlerError.isUnsupportedLinkScheme : CrawlerError → Bool
  | .unsupportedLinkScheme => true
  | _ => false

/-- The value `Scope{}`. -/
def zeroScope : Scope := { BaseDomain := [], AllowedHosts := [], allowedSet := [] }

/-- The function `NewScope` of scope.go, with both values of its result. -/
def NewScopeE (L : Lib) (input : Str) : Scope × Option CrawlerError :=
  let raw := trimSpace input
  if raw = [] then (zeroScope, some (.invalidDomain .emptyInput))
  else
    let raw := if !containsSub "://".toList raw then "https://".toList ++ raw else raw
    match Parse raw with
    | none => (zeroScope, some (.invalidDomain .parse))
    | some parsed =>
      let host := parsed.Hostname
      if host = [] then (zeroScope, some (.invalidDomain .missingHost))
      else
        match normalizeHost L host with
        | none => (zeroScope, some (.invalidDomain .host))
        | some host =>
          let base := if hasPrefix host "www.".toList then trimPrefix host "www.".toList else host
          if base = [] then (zeroScope, some (.invalidDomain .emptyBaseDomain))
          else
            let allowed := [base, "www.".toList ++ base]
            ({ BaseDomain := base, AllowedHosts := allowed,
               allowedSet := allowed.foldl (fun set h => if h ∈ set then set else set ++ [h]) [] },
             none)

/-- The function `normalizeParsedURL` of url_normalize.go (for a non-nil URL), with both
values of its result. -/
def normalizeParsedURLE (L : Lib) (parsed : URL) (clean : Bool) : Str × Option CrawlerError :=
  if parsed.Scheme = [] then ([], some .missingScheme)
  else
    let scheme := toLower L parsed.Scheme
    if scheme ≠ "http".toList ∧ scheme ≠ "https".toList then ([], some .unsupportedLinkScheme)
    else
      match normalizedHostPort L scheme parsed with
      | none => ([], some .host)
      | some host =>
        (URL.String
          { parsed with Scheme := scheme, Host := host, Fragment := [], User := none,
                        Path := normalizedPath parsed, RawPath := [],
                        RawQuery := normalizedQuery L parsed.RawQuery clean }, none)

/-- The function `NormalizeURL` of url_normalize.go, with both values of its result. -/
def NormalizeURLE (L : Lib) (raw : Str) (clean : Bool) : Str × Option CrawlerError :=
  match Parse (trimSpace raw) with
  | none => ([], some .urlParse)
  | some parsed => normalizeParsedURLE L parsed clean

/-- The function `ResolveAndNormalize` of url_normalize.go, with both values of its
result. -/
def ResolveAndNormalizeE (L : Lib) (baseURL href : Str) (clean : Bool) :
    Str × Option CrawlerError :=
  let trimmedHref := trimSpace href
  if trimmedHref = [] then ([], some .emptyLink)
  else if isRejectedHref L trimmedHref then ([], some .unsupportedLinkScheme)
  else
    match Parse baseURL with
    | none => ([], some .urlParse)
    | some base =>
      match Parse trimmedHref with
      | none => ([], some .urlParse)
      | some ref => normalizeParsedURLE L (base.ResolveReference ref) clean

/-- The value of a Go result `(value, error)` read the way the callers read it: the value
when the error is nil. -/
def okValue {α ε : Type} (r : α × Option ε) : Option α :=
  match r.2 with
  | none => some r.1
  | some _ => none

/-- The pseudo-schemes `ResolveAndNormalize` rejects. -/
def rejectedSchemes : List Str :=
  ["javascript:".toList, "mailto:".toList, "tel:".toList, "data:".toList]

/-- The library lowers a text that starts with ASCII bytes rune by rune: the ASCII start
is lowered bytewise, as `strings.Map(unicode.ToLower, s)` does. -/
def Lib.lowersASCIIStart (L : Lib) : Prop :=
  ∀ a s : Str, a.all isASCIIByte = true →
    ∃ t, L.unicodeToLower (a ++ s) = a.map asciiLowerByte ++ t

/-! ## pagerank_adapter.go: sequences of calls -/

/-- A call of a method of `LinkGraph` that changes the graph. -/
inductive GraphCall where
  | addNode (node : Str)
  | addEdge (src dst : Str)
  deriving DecidableEq, Repr

/-- The graph after one call. -/
def LinkGraph.call (g : LinkGraph) : GraphCall → LinkGraph
  | .addNode node => g.AddNode node
  | .addEdge src dst => g.AddEdge src dst

/-- The graph after a sequence of calls on the graph `NewLinkGraph` returns. -/
def graphAfter (calls : List GraphCall) : LinkGraph := calls.foldl LinkGraph.call NewLinkGraph

/-- The edges of a link graph as pairs of source and target. -/
def LinkGraph.edgePairs (g : LinkGraph) : List (Str × Str) :=
  g.edges.flatMap (fun e => e.2.map (fun dst => (e.1, dst)))

/-! ## cmd/sitecrawl/main.go and output/types.go -/

/-- The constant `FormatMarkdown` of output/types.go. -/
def FormatMarkdown : Str := "md".toList

/-- The constant `FormatHTML` of output/types.go. -/
def FormatHTML : Str := "html".toList

/-- The constant `FormatJSON` of output/types.go. -/
def FormatJSON : Str := "json".toList

/-- The function `ParseFormat` of output/types.go; `none` is the error. -/
def ParseFormat (L : Lib) (raw : Str) : Option Str :=
  let v := toLower L (trimSpace raw)
  if v = FormatMarkdown then some FormatMarkdown
  else if v = FormatHTML then some FormatHTML
  else if v = FormatJSON then some FormatJSON
  else none

/-- The function `ParseStrategy` of types.go; `none` is the error. -/
def ParseStrategy (L : Lib) (raw : Str) : Option Str :=
  let v := toLower L (trimSpace raw)
  if v = StrategyPageRank then some StrategyPageRank
  else if v = StrategyLimit then some StrategyLimit
  else if v = StrategyDepth then some StrategyDepth
  else none

/-- The variables `runCrawl` fills from the command line, with the defaults of the flags. -/
structure CrawlFlags where
  domain : Str := []
  outDir : Str := []
  formatRaw : Str := []
  strategyRaw : Str := "pagerank".toList
  maxPages : Int := 25
  maxDepth : Int := 2
  clean : Bool := true
  headful : Bool := false
  delayMS : Int := 750
  pageTimeout : Int := 20 * 1000000000
  userAgent : Str := DefaultUserAgent
  logLevelRaw : Str := "info".toList

/-- A product of two values of type `int64`, as the machine computes it. -/
def mulInt64 (x y : Int) : Int := (x * y + 2 ^ 63) % 2 ^ 64 - 2 ^ 63

/-- Lines 86-130 of `runCrawl`, run once `flagSet.Parse` has returned without error: the
exit code 2 when a check fails, else the output format and the configuration handed to
`crawler.Crawl`. -/
def runCrawlConfig (L : Lib) (f : CrawlFlags) : Except Int (Str × Config) :=
  if f.domain = [] ∨ f.outDir = [] ∨ f.formatRaw = [] then .error 2
  else if f.maxPages ≤ 0 then .error 2
  else if f.maxDepth < 0 then .error 2
  else if f.delayMS < 0 then .error 2
  else
    match ParseFormat L f.formatRaw with
    | none => .error 2
    | some format =>
      match ParseStrategy L f.strategyRaw with
      | none => .error 2
      | some strategy =>
        .ok (format,
          { Domain := f.domain, Strategy := strategy, MaxPages := f.maxPages,
            MaxDepth := f.maxDepth, Clean := f.clean, Headful := f.headful,
            Delay := mulInt64 f.delayMS 1000000, PageTimeout := f.pageTimeout,
            UserAgent := f.userAgent })

/-- The flags `--domain example.com --out out --format md --page-timeout 0s`. -/
def zeroTimeoutFlags : CrawlFlags :=
  { domain := "example.com".toList, outDir := "out".toList, formatRaw := "md".toList,
    pageTimeout := 0 }

/-- The shape of a canonical URL text: the scheme `http` or `https`, the text `://`, the
authority, which is the escaped form of a host name or of a host name joined with a port,
the host name being an output of `strings.ToLower`, and a rest that starts with a slash.
The authority holds no `@`, `/`, `?` or `#`, and the whole text holds no `#`. -/
def CanonShape (L : Lib) (v : Str) : Prop :=
  ∃ scheme host hostport rest : Str,
    (scheme = "http".toList ∨ scheme = "https".toList) ∧
    (∃ x, host = toLower L x) ∧
    (hostport = host ∨ ∃ port, port ≠ [] ∧ hostport = netJoinHostPort host port) ∧
    (∀ c ∈ escape .encodeHost hostport, c ≠ '@' ∧ c ≠ '/' ∧ c ≠ '?' ∧ c ≠ '#') ∧
    rest.head? = some '/' ∧
    '#' ∉ v ∧
    v = scheme ++ "://".toList ++ escape .encodeHost hostport ++ rest

/-- The invariant of a link graph built by calls of its methods: no node and no source is
listed twice, no target is listed twice for a source, the empty string is no node, and
the two ends of every edge are nodes. -/
structure GraphInv (g : LinkGraph) : Prop where
  nodes_nodup : g.nodes.Nodup
  sources_nodup : (g.edges.map Prod.fst).Nodup
  targets_nodup : ∀ e ∈ g.edges, e.2.Nodup
  nodes_ne : ∀ n ∈ g.nodes, n ≠ []
  source_node : ∀ e ∈ g.edges, e.1 ∈ g.nodes
  target_node : ∀ e ∈ g.edges, ∀ d ∈ e.2, d ∈ g.nodes

/-- The configuration `runCrawl` hands to `Crawl` for the flags `zeroTimeoutFlags`. -/
def zeroTimeoutConfig : Config :=
  { Domain := "example.com".toList, Strategy := StrategyPageRank, MaxPages := 25, MaxDepth := 2,
    Clean := true, Headful := false, Delay := 750000000, PageTimeout := 0,
    UserAgent := DefaultUserAgent }

/-- A configuration handed to `Crawl` directly, with all four values out of range. -/
def outOfRangeConfig : Config :=
  { Domain := "example.com".toList, Strategy := StrategyLimit, MaxPages := 0, MaxDepth := -1,
    Clean := true, Headful := false, Delay := -1, PageTimeout := -1, UserAgent := [] }

/-! ## crawl.go: breadth-first order -/

/-- The ok page, first in the list, whose links hold the URL: the page on which the URL
was first discovered. -/
def firstDiscoverer {F : Type} (pages : List (Page F)) (u : Str) : Option (Page F) :=
  pages.find? (fun p => decide (p.Status = StatusOK ∧ u ∈ p.Links))

/-- The depth ceiling of the depth strategy keeps the links of a page of depth `d` out of
the queue (lines 199-201 of `Crawl`). -/
def depthBlocked (cfg : Config) (d : Int) : Prop :=
  cfg.Strategy = StrategyDepth ∧ d + 1 > cfg.MaxDepth

/-- The invariant of the loop of `Crawl` that makes its traversal breadth-first: the queue
is first-in first-out (the URLs enqueued are those processed, in that order, then those
waiting), the pages are recorded in the order of processing, depths never decrease along
the pages and then the queue, the depths in the queue differ by one at most, the start
URL has depth 0, every other URL has the depth of its first discoverer plus one, and
every link of an ok page has been enqueued unless the depth ceiling kept it out. -/
structure BfsCore {F : Type} (cfg : Config) (startURL : Str) (queue : List queueItem)
    (enqueued processed : List Str) (pages : List (Page F)) : Prop where
  fifo : enqueued = processed ++ queue.map queueItem.URL
  pages_sub : (pages.map Page.URL).Sublist processed
  pages_sorted : pages.Pairwise (fun p q => p.Depth ≤ q.Depth)
  queue_sorted : queue.Pairwise (fun p q => p.Depth ≤ q.Depth)
  pages_le_queue : ∀ p ∈ pages, ∀ q ∈ queue, p.Depth ≤ q.Depth
  near : ∀ q ∈ queue, ∀ q' ∈ queue, q'.Depth ≤ q.Depth + 1
  seed_queue : ∀ q ∈ queue, q.URL = startURL → q.Depth = 0
  seed_pages : ∀ p ∈ pages, p.URL = startURL → p.Depth = 0
  disc_queue : ∀ q ∈ queue, q.URL ≠ startURL →
    ∃ P, firstDiscoverer pages q.URL = some P ∧ q.Depth = P.Depth + 1
  disc_pages : ∀ p ∈ pages, p.URL ≠ startURL →
    ∃ P, firstDiscoverer pages p.URL = some P ∧ p.Depth = P.Depth + 1
  links : ∀ P ∈ pages, P.Status = StatusOK → ∀ u ∈ P.Links,
    u ∈ enqueued ∨ depthBlocked cfg P.Depth
  start : startURL ∈ enqueued

/-- The breadth-first invariant, on a state of the loop of `Crawl`. -/
def BfsInv {F : Type} (cfg : Config) (startURL : Str) (s : CrawlState F) : Prop :=
  BfsCore cfg startURL s.queue s.enqueued s.processed s.result.Pages

/-! ## package crypto/sha1 and package encoding/hex -/

/-- Go `bits.RotateLeft32(x, k)` for `0 < k < 32`, on a value below `2 ^ 32`. -/
def rotateLeft32 (x k : Nat) : Nat := ((x <<< k) ||| (x >>> (32 - k))) % 2 ^ 32

/-- The bytes `(*digest).checkSum` of crypto/sha1 writes after a message of `len` bytes:
the byte 0x80, zeros up to 56 bytes modulo 64, and the length in bits as 8 bytes, most
significant first. -/
def sha1Padding (len : Nat) : List Nat :=
  let t := if len % 64 < 56 then 56 - len % 64 else 64 + 56 - len % 64
  0x80 :: List.replicate (t - 1) 0 ++
    (List.range 8).map (fun i => (len * 8 % 2 ^ 64) / 2 ^ (8 * (7 - i)) % 256)

/-- The 80 words of the message schedule of one block, the 16 words of the block first;
`blockGeneric` of crypto/sha1 keeps the last 16 of them in a ring. -/
def sha1Schedule : Nat → List Nat → List Nat
  | 0, w => w
  | n + 1, w =>
    let i := w.length
    let tmp := w.getD (i - 3) 0 ^^^ w.getD (i - 8) 0 ^^^ w.getD (i - 14) 0 ^^^ w.getD (i - 16) 0
    sha1Schedule n (w ++ [rotateLeft32 tmp 1])

/-- Round `i` of `blockGeneric` on the working variables `a, b, c, d, e`, with the word
`w` of the schedule. -/
def sha1Round (s : Nat × Nat × Nat × Nat × Nat) (iw : Nat × Nat) : Nat × Nat × Nat × Nat × Nat :=
  let i := iw.1
  let a := s.1
  let b := s.2.1
  let c := s.2.2.1
  let d := s.2.2.2.1
  let e := s.2.2.2.2
  let f :=
    if i < 20 then (b &&& c) ||| ((b ^^^ 0xFFFFFFFF) &&& d)
    else if i < 40 then b ^^^ c ^^^ d
    else if i < 60 then ((b ||| c) &&& d) ||| (b &&& c)
    else b ^^^ c ^^^ d
  let k :=
    if i < 20 then 0x5A827999
    else if i < 40 then 0x6ED9EBA1
    else if i < 60 then 0x8F1BBCDC
    else 0xCA62C1D6
  ((rotateLeft32 a 5 + f + e + iw.2 + k) % 2 ^ 32, a, rotateLeft32 b 30, c, d)

/-- The function `blockGeneric` of crypto/sha1 on one block of 64 bytes. -/
def sha1Block (h : Nat × Nat × Nat × Nat × Nat) (p : List Nat) : Nat × Nat × Nat × Nat × Nat :=
  let w16 := (List.range 16).map (fun i =>
    p.getD (4 * i) 0 * 2 ^ 24 + p.getD (4 * i + 1) 0 * 2 ^ 16 + p.getD (4 * i + 2) 0 * 2 ^ 8
      + p.getD (4 * i + 3) 0)
  let w := sha1Schedule 64 w16
  let r := ((List.range 80).zip w).foldl sha1Round h
  ((h.1 + r.1) % 2 ^ 32, (h.2.1 + r.2.1) % 2 ^ 32, (h.2.2.1 + r.2.2.1) % 2 ^ 32,
   (h.2.2.2.1 + r.2.2.2.1) % 2 ^ 32, (h.2.2.2.2 + r.2.2.2.2) % 2 ^ 32)

/-- The blocks of 64 bytes of a padded message; `fuel` bounds their number. -/
def sha1Blocks : Nat → (Nat × Nat × Nat × Nat × Nat) → List Nat → Nat × Nat × Nat × Nat × Nat
  | 0, h, _ => h
  | fuel + 1, h, p => if p.length < 64 then h else sha1Blocks fuel (sha1Block h (p.take 64)) (p.drop 64)

/-- Go `sha1.Sum`: the 20 bytes of the digest. -/
def sha1Sum (data : List Nat) : List Nat :=
  let padded := data ++ sha1Padding data.length
  let h := sha1Blocks (padded.length / 64)
    (0x67452301, 0xEFCDAB89, 0x98BADCFE, 0x10325476, 0xC3D2E1F0) padded
  [h.1, h.2.1, h.2.2.1, h.2.2.2.1, h.2.2.2.2].flatMap (fun x =>
    [x / 2 ^ 24 % 256, x / 2 ^ 16 % 256, x / 2 ^ 8 % 256, x % 256])

/-- Go `hex.EncodeToString`. -/
def hexEncode (src : List Nat) : Str :=
  src.flatMap (fun v =>
    ["0123456789abcdef".toList.getD (v / 16 % 16) '0', "0123456789abcdef".toList.getD (v % 16) '0'])

/-- The function `shortHash` of filename.go. -/
def shortHash (value : Str) : Str := hexEncode ((sha1Sum (value.map Char.toNat)).take 4)

/-! ## package strconv, package unicode/utf8, package unicode -/

/-- The digit `d` as a character. -/
def decimalDigit (d : Nat) : Char := Char.ofNat (48 + d % 10)

/-- The decimal digits of `n` written in front of `acc`; `fuel` bounds their number. -/
def decimalFrom : Nat → Nat → Str → Str
  | 0, _, acc => acc
  | fuel + 1, n, acc =>
    if n < 10 then decimalDigit n :: acc
    else decimalFrom fuel (n / 10) (decimalDigit (n % 10) :: acc)

/-- The text the verb `%d` of `fmt.Sprintf` writes for a non-negative integer. -/
def itoa (n : Nat) : Str := decimalFrom (n + 1) n []

/-- The constant `utf8.RuneError`. -/
def RuneError : Nat := 0xFFFD

/-- Go `utf8.DecodeRuneInString`: the first rune of the text and its width in bytes; an
invalid encoding gives `RuneError` and the width 1. -/
def decodeRune (s : Str) : Nat × Nat :=
  match s with
  | [] => (RuneError, 0)
  | c0 :: rest =>
    let s0 := c0.toNat
    if s0 < 0x80 then (s0, 1)
    else if s0 < 0xC2 ∨ 0xF4 < s0 then (RuneError, 1)
    else
      let sz := if s0 < 0xE0 then 2 else if s0 < 0xF0 then 3 else 4
      let lo := if s0 = 0xE0 then 0xA0 else if s0 = 0xF0 then 0x90 else 0x80
      let hi := if s0 = 0xED then 0x9F else if s0 = 0xF4 then 0x8F else 0xBF
      if s.length < sz then (RuneError, 1)
      else
        let s1 := (rest.getD 0 (Char.ofNat 0)).toNat
        let s2 := (rest.getD 1 (Char.ofNat 0)).toNat
        let s3 := (rest.getD 2 (Char.ofNat 0)).toNat
        if s1 < lo ∨ hi < s1 then (RuneError, 1)
        else if sz ≤ 2 then (s0 % 32 * 64 + s1 % 64, 2)
        else if s2 < 0x80 ∨ 0xBF < s2 then (RuneError, 1)
        else if sz ≤ 3 then (s0 % 16 * 4096 + s1 % 64 * 64 + s2 % 64, 3)
        else if s3 < 0x80 ∨ 0xBF < s3 then (RuneError, 1)
        else (s0 % 8 * 262144 + s1 % 64 * 4096 + s2 % 64 * 64 + s3 % 64, 4)

/-- The runes a `for _, r := range s` loop visits; `fuel` bounds their number. -/
def runesFrom : Nat → Str → List Nat
  | 0, _ => []
  | fuel + 1, s =>
    match s with
    | [] => []
    | _ :: _ => (decodeRune s).1 :: runesFrom fuel (s.drop (decodeRune s).2)

/-- The runes of a text, as a `range` loop visits them. -/
def runesOf (s : Str) : List Nat := runesFrom s.length s

/-- Go `utf8.AppendRune`: the bytes `(*strings.Builder).WriteRune` writes. -/
def encodeRune (r : Nat) : Str :=
  if r ≤ 0x7F then [Char.ofNat r]
  else if r ≤ 0x7FF then [Char.ofNat (0xC0 + r / 64), Char.ofNat (0x80 + r % 64)]
  else if r > 0x10FFFF ∨ (0xD800 ≤ r ∧ r ≤ 0xDFFF) then
    [Char.ofNat 0xEF, Char.ofNat 0xBF, Char.ofNat 0xBD]
  else if r ≤ 0xFFFF then
    [Char.ofNat (0xE0 + r / 4096), Char.ofNat (0x80 + r / 64 % 64), Char.ofNat (0x80 + r % 64)]
  else
    [Char.ofNat (0xF0 + r / 262144), Char.ofNat (0x80 + r / 4096 % 64),
     Char.ofNat (0x80 + r / 64 % 64), Char.ofNat (0x80 + r % 64)]

/-- The tables of package unicode beyond Latin-1 (beyond ASCII for the case mapping); they
are not part of the repository and are taken as parameters. -/
structure UnicodeTables where
  /-- Whether a rune above U+00FF is in the category L. -/
  isLetter : Nat → Bool
  /-- Whether a rune above U+00FF is in the category Nd. -/
  isDigit : Nat → Bool
  /-- The lower-case mapping `unicode.To(unicode.LowerCase, r)` of a rune above U+007F. -/
  toLower : Nat → Nat

/-- Go `unicode.IsLetter`: the Latin-1 runes are decided by the table `properties` of the
package, the others by the tables. -/
def unicodeIsLetter (T : UnicodeTables) (r : Nat) : Bool :=
  if r ≤ 0xFF then
    (0x41 ≤ r && r ≤ 0x5A) || (0x61 ≤ r && r ≤ 0x7A) || r = 0xAA || r = 0xB5 || r = 0xBA ||
      (0xC0 ≤ r && r ≤ 0xD6) || (0xD8 ≤ r && r ≤ 0xF6) || (0xF8 ≤ r && r ≤ 0xFF)
  else T.isLetter r

/-- Go `unicode.IsDigit`. -/
def unicodeIsDigit (T : UnicodeTables) (r : Nat) : Bool :=
  if r ≤ 0xFF then 0x30 ≤ r && r ≤ 0x39 else T.isDigit r

/-- Go `unicode.ToLower`. -/
def unicodeToLower (T : UnicodeTables) (r : Nat) : Nat :=
  if r ≤ 0x7F then (if 0x41 ≤ r ∧ r ≤ 0x5A then r + 32 else r) else T.toLower r

/-- Tables that know no letter and no digit above U+00FF and map no rune to another: a
stand-in for evaluating the code on ASCII input, which never reaches the tables. -/
def noTables : UnicodeTables :=
  { isLetter := fun _ => false, isDigit := fun _ => false, toLower := fun r => r }

/-! ## output/filename.go -/

/-- The loop of `sanitizeSegment` over the runes of the segment: the text written to the
builder, `lastUnderscore` being the flag of the source. -/
def sanitizeRunes (T : UnicodeTables) : Bool → List Nat → Str
  | _, [] => []
  | lastUnderscore, r :: rs =>
    if unicodeIsLetter T r || unicodeIsDigit T r then
      encodeRune (unicodeToLower T r) ++ sanitizeRunes T false rs
    else if !lastUnderscore then '_' :: sanitizeRunes T true rs
    else sanitizeRunes T true rs

/-- Go `strings.Trim(s, string(c))` for a cutset of one ASCII byte. -/
def trimByte (c : Char) (s : Str) : Str :=
  ((s.dropWhile (· == c)).reverse.dropWhile (· == c)).reverse

/-- The function `sanitizeSegment` of filename.go. -/
def sanitizeSegment (T : UnicodeTables) (segment : Str) : Str :=
  trimByte '_' (sanitizeRunes T false (runesOf segment))

/-- The body of the loop of `sanitizeURLPathToName` over the parts of the path: the
sanitized part to append, `none` when the part is skipped. -/
def sanitizePart (T : UnicodeTables) (part : Str) : Option Str :=
  if part = [] then none
  else
    let part := (unescape .encodePathSegment part).getD part
    let safe := sanitizeSegment T part
    if safe ≠ [] then some safe else none

/-- The function `sanitizeURLPathToName` of filename.go. -/
def sanitizeURLPathToName (T : UnicodeTables) (rawURL : Str) : Str :=
  match Parse rawURL with
  | none => "index".toList
  | some parsed =>
    let path := trimSpace parsed.Path
    if path = [] ∨ path = "/".toList then "index".toList
    else
      let path := trimPrefix path "/".toList
      let path := trimSuffix path "/".toList
      if path = [] then "index".toList
      else
        let sanitized := (splitAll '/' path).filterMap (sanitizePart T)
        if sanitized.length = 0 then "index".toList else joinWith "_".toList sanitized

/-- The type `FilenameMapper` of filename.go; the map `used` is an association list from
file name to URL. -/
structure FilenameMapper where
  format : Str
  used : List (Str × Str)
  deriving DecidableEq, Repr

/-- The function `NewFilenameMapper` of filename.go. -/
def NewFilenameMapper (format : Str) : FilenameMapper := { format := format, used := [] }

/-- The test `existing, ok := m.used[name]; !ok || existing == rawURL`. -/
def FilenameMapper.freeFor (m : FilenameMapper) (name rawURL : Str) : Bool :=
  match mapGet m.used name with
  | none => true
  | some existing => existing = rawURL

/-- The names `FilenameForURL` tries in turn: `name.ext` (number 0), `name_hash.ext`
(number 1) and `name_hash_i.ext` for `i` from 2 on. -/
def candidateName (name hash ext : Str) : Nat → Str
  | 0 => name ++ ".".toList ++ ext
  | 1 => name ++ "_".toList ++ hash ++ ".".toList ++ ext
  | i + 2 => name ++ "_".toList ++ hash ++ "_".toList ++ itoa (i + 2) ++ ".".toList ++ ext

/-- The loop `for i := 2; ; i++` of `FilenameForURL`, run for `fuel` rounds at most;
`none` when no round returns. -/
def FilenameMapper.numberedLoop (m : FilenameMapper) (name hash rawURL : Str) :
    Nat → Nat → Option (Str × FilenameMapper)
  | 0, _ => none
  | fuel + 1, i =>
    let next := name ++ "_".toList ++ hash ++ "_".toList ++ itoa i ++ ".".toList ++ m.format
    if m.freeFor next rawURL then some (next, { m with used := mapSet m.used next rawURL })
    else FilenameMapper.numberedLoop m name hash rawURL fuel (i + 1)

/-- The method `(*FilenameMapper).FilenameForURL` of filename.go: the file name returned
and the mapper after the call.  The loop of the source has no bound; here it runs for one
round more than `used` has entries, which is enough for it to return
(`FilenameForURL_returns`), so `none` never occurs. -/
def FilenameMapper.FilenameForURL (T : UnicodeTables) (m : FilenameMapper) (rawURL : Str) :
    Option (Str × FilenameMapper) :=
  let name := sanitizeURLPathToName T rawURL
  let ext := m.format
  let base := name ++ ".".toList ++ ext
  match mapGet m.used base with
  | none => some (base, { m with used := mapSet m.used base rawURL })
  | some existing =>
    if existing = rawURL then some (base, m)
    else
      let hash := shortHash rawURL
      let candidate := name ++ "_".toList ++ hash ++ ".".toList ++ ext
      if m.freeFor candidate rawURL then
        some (candidate, { m with used := mapSet m.used candidate rawURL })
      else m.numberedLoop name hash rawURL (m.used.length + 1) 2

/-- A sequence of calls of `FilenameForURL` on one mapper: the file names returned, in
order, and the mapper after the calls. -/
def FilenameMapper.mapAll (T : UnicodeTables) :
    FilenameMapper → List Str → Option (List Str × FilenameMapper)
  | m, [] => some ([], m)
  | m, u :: us =>
    match m.FilenameForURL T u with
    | none => none
    | some (f, m') =>
      match FilenameMapper.mapAll T m' us with
      | none => none
      | some (fs, m'') => some (f :: fs, m'')

/-- The candidate names of a URL for a mapper: `candidateName` for the sanitized path of
the URL, its short hash and the format of the mapper. -/
def FilenameMapper.candidate (T : UnicodeTables) (m : FilenameMapper) (rawURL : Str) (k : Nat) :
    Str :=
  candidateName (sanitizeURLPathToName T rawURL) (shortHash rawURL) m.format k

/-- The file name `f` is the one the mapper keeps for the URL: it is a candidate name of
the URL, the map `used` gives the URL for it, and every candidate before it is in use for
another URL. -/
def FilenameMapper.Assigned (T : UnicodeTables) (m : FilenameMapper) (rawURL f : Str) : Prop :=
  ∃ k, f = m.candidate T rawURL k ∧ mapGet m.used f = some rawURL ∧
    ∀ j < k, m.freeFor (m.candidate T rawURL j) rawURL = false

/-- Whether the byte is an ASCII lower-case letter or an ASCII digit. -/
def isLowerAlnum (c : Char) : Bool :=
  (97 ≤ c.toNat && c.toNat ≤ 122) || (48 ≤ c.toNat && c.toNat ≤ 57)

/-- The URL `https://example.com/docs`. -/
def docsURL : Str := "https://example.com/docs".toList

/-- The URL `https://example.com/docs?x=1`. -/
def docsQueryURL : Str := "https://example.com/docs?x=1".toList

/-- A URL whose path is `docs_` followed by the short hash of `docsQueryURL`. -/
def docsHashURL : Str := "https://example.com/docs_a942cc95".toList

/-! ## package sort: what `SliceStable` needs of its comparison, and sortedness -/

/-- The comparison is a strict weak order, which is what `sort.SliceStable` requires of
its `less`: it is asymmetric, and "not less" is transitive. -/
structure WeakOrder {α : Type} (less : α → α → Bool) : Prop where
  asymm : ∀ a b, less a b = true → less b a = false
  negTrans : ∀ a b c, less b a = false → less c b = false → less c a = false

/-- The elements of the slice at the indices from `a` up to `b` (excluded) are in order:
none is less than one before it. -/
def SortedOn {α : Type} (less : α → α → Bool) (l : List α) (a b : Nat) : Prop :=
  ∀ i j x y, a ≤ i → i < j → j < b → l.get? i = some x → l.get? j = some y → less y x = false

/-- The slice `l'` is the slice `l` with the elements at the indices from `a` up to `b`
(excluded) rearranged among themselves. -/
structure Within {α : Type} (l l' : List α) (a b : Nat) : Prop where
  length_eq : l'.length = l.length
  outside : ∀ k, k < a ∨ b ≤ k → l'.get? k = l.get? k
  inside : ∀ k x, a ≤ k → k < b → l'.get? k = some x →
    ∃ k', a ≤ k' ∧ k' < b ∧ l.get? k' = some x

/-- The element at index `i` is not after the element at index `j` in the order: the
second is not less than the first. -/
def LeAt {α : Type} (less : α → α → Bool) (l : List α) (i j : Nat) : Prop :=
  ∀ x y, l.get? i = some x → l.get? j = some y → less y x = false

/-- The blocks of `blockSize` elements of `data[0:n]` (the last one may be shorter) are
each in order. -/
def BlocksSorted {α : Type} (less : α → α → Bool) (l : List α) (blockSize n : Nat) : Prop :=
  ∀ k, SortedOn less l (k * blockSize) (min (k * blockSize + blockSize) n)

/-! ## internal/output: writer.go, `buildReport` -/

/-- The type `reportPage` of writer.go. -/
structure reportPage (F : Type) where
  URL : Str
  FinalURL : Str
  Depth : Int
  Status : Str
  Title : Str
  Description : Str
  OutPath : Str
  LinksCount : Int
  Error : Str
  Score : Option F

/-- The type `reportTotals` of writer.go. -/
structure reportTotals where
  Visited : Int
  Errors : Int
  SkippedExternal : Int
  SkippedOutOfScope : Int

/-- The type `report` of writer.go, without the wall-clock fields `StartedAt` and
`FinishedAt`. -/
structure report (F : Type) where
  Domain : Str
  AllowedHosts : List Str
  Strategy : Str
  MaxPages : Int
  MaxDepth : Int
  Clean : Bool
  Headful : Bool
  PageRankImplementation : Str
  Pages : List (reportPage F)
  Totals : reportTotals

/-- The entry the first loop of `buildReport` appends for a page. -/
def toReportPage {F : Type} (page : Page F) : reportPage F :=
  { URL := page.URL, FinalURL := page.FinalURL, Depth := page.Depth, Status := page.Status,
    Title := page.Title, Description := page.Description, OutPath := page.OutPath,
    LinksCount := (page.Links.length : Int), Error := page.Error, Score := page.Score }

/-- The score `buildReport` compares an entry by (`iScore`, `jScore`): the entry's score,
`-1.0` when it has none. -/
def reportScore {F : Type} (ops : Float64Ops F) (e : reportPage F) : F :=
  match e.Score with
  | some s => s
  | none => ops.negOne

/-- The comparison function `buildReport` hands to `sort.SliceStable`. -/
def reportLess {F : Type} (ops : Float64Ops F) (pi pj : reportPage F) : Bool :=
  let iScore := reportScore ops pi
  let jScore := reportScore ops pj
  if ops.ne iScore jScore then ops.gt iScore jScore
  else decide (pi.URL < pj.URL)

/-- The function `buildReport` of writer.go. -/
def buildReport {F : Type} (ops : Float64Ops F) (result : CrawlResult F) : report F :=
  let pages := result.Pages.map toReportPage
  let pages := if result.Strategy = StrategyPageRank then SliceStable (reportLess ops) pages
    else pages
  { Domain := result.Domain,
    AllowedHosts := result.AllowedHosts,
    Strategy := result.Strategy,
    MaxPages := result.MaxPages,
    MaxDepth := result.MaxDepth,
    Clean := result.Clean,
    Headful := result.Headful,
    PageRankImplementation := result.PageRankImplementation,
    Pages := pages,
    Totals := { Visited := result.Totals.Visited, Errors := result.Totals.Errors,
                SkippedExternal := result.Totals.SkippedExternal,
                SkippedOutOfScope := result.Totals.SkippedOutOfScope } }

/-- The result of the test `TestReportIncludesPageRankScores`, with the scores 0.1 and 0.9
as rationals. -/
def scoredResult : CrawlResult ℚ :=
  { Domain := "example.com".toList,
    AllowedHosts := ["example.com".toList, "www.example.com".toList],
    Strategy := StrategyPageRank, MaxPages := 25, MaxDepth := 2, Clean := true,
    Headful := false,
    Pages := [
      { URL := "https://example.com/a".toList, FinalURL := "https://example.com/a".toList,
        Depth := 0, Status := StatusOK, Score := some (1 / 10), MainText := "a".toList },
      { URL := "https://example.com/b".toList, FinalURL := "https://example.com/b".toList,
        Depth := 0, Status := StatusOK, Score := some (9 / 10), MainText := "b".toList }] }

/-! ## browser.go: the classification of errors, on an error that may be nil -/

/-- The function `isTransientNavigationError` of browser.go on an `error` value, `none`
being nil. -/
def isTransientNavigationErrorOpt (L : Lib) (err : Option GoError) : Bool :=
  match err with
  | none => false
  | some e => isTransientNavigationError L e

/-- The function `shouldFallbackToHTTP` of browser.go on an `error` value, `none` being
nil. -/
def shouldFallbackToHTTPOpt (L : Lib) (err : Option GoError) : Bool :=
  match err with
  | none => false
  | some e => shouldFallbackToHTTP L e

/-- Lines 58-74 of `Crawl`: the URLs handed to `fetchPageWithRetry` for the start page, in
order, and the outcome: the start URL with its page, or the error `Crawl` returns. -/
def startFetch (L : Lib) (scope : Scope) (w : World) :
    List Str × Except GoError (Str × fetchedPage) :=
  let startHTTPS := "https://".toList ++ scope.BaseDomain ++ "/".toList
  let startHTTP := "http://".toList ++ scope.BaseDomain ++ "/".toList
  match w.startHTTPS with
  | .ok page => ([startHTTPS], .ok (startHTTPS, page))
  | .error err =>
    if shouldFallbackToHTTPOpt L (some err) then
      match w.startHTTP with
      | .error err2 => ([startHTTPS, startHTTP], .error err2)
      | .ok page => ([startHTTPS, startHTTP], .ok (startHTTP, page))
    else ([startHTTPS], .error err)

/-- An environment in which the https fetch of the start page fails with a certificate
error and the http fetch succeeds. -/
def fallbackWorld : World :=
  { startHTTPS := .error { message := "net::ERR_CERT_AUTHORITY_INVALID".toList },
    startHTTP := .ok { FinalURL := "http://example.com/".toList },
    responses := [exampleResponse],
    ctxErrAtReturn := none }

/-! ## pagerank_adapter.go: the comparison of `ApplyPageRankScores` -/

/-- The score `ApplyPageRankScores` compares a page by (`iScore`, `jScore`): the score of
the page, `-1.0` when it has none. -/
def pageScore {F : Type} (ops : Float64Ops F) (p : Page F) : F :=
  match p.Score with
  | some s => s
  | none => ops.negOne

/-- The rank order of the example with the pages `tiePageX`, `tiePageB` and `tiePageR`:
the URL of the first, then the URL of the second. -/
def tieOrder : List Str :=
  ["https://www.example.com/x".toList, "https://example.com/b".toList]

/-! ## crawl.go: the links kept for a page -/

/-- Lines 167-175 of `Crawl` for one href of the fetched page: the normalized link and the
class of its host; `none` when the href is passed over because it does not resolve or the
normalized link does not parse. -/
def resolveLink (L : Lib) (scope : Scope) (clean : Bool) (normalizedFinal href : Str) :
    Option (Str × ScopeClass) :=
  match ResolveAndNormalize L normalizedFinal href clean with
  | none => none
  | some normalizedLink =>
    match Parse normalizedLink with
    | none => none
    | some parsedLink => some (normalizedLink, scope.ClassifyHost L parsedLink.Hostname)

/-- The number of hrefs of a fetched page that resolve to a link of the given class. -/
def countClass (L : Lib) (scope : Scope) (clean : Bool) (normalizedFinal : Str)
    (cls : ScopeClass) (hrefs : List Str) : Nat :=
  hrefs.countP (fun href =>
    decide ((resolveLink L scope clean normalizedFinal href).map Prod.snd = some cls))

/-- The links of the page are strictly ascending, and each of them is a text
`ResolveAndNormalize` returned for an href against the final URL of the page, parses as a
URL and has a host of class allowed. -/
def KeptLinks {F : Type} (L : Lib) (scope : Scope) (clean : Bool) (p : Page F) : Prop :=
  p.Links.Pairwise (· < ·) ∧
    ∀ l ∈ p.Links, ∃ href, resolveLink L scope clean p.FinalURL href = some (l, .allowed)

/-! ## crawl.go: an environment that answers every round -/

/-- The answers an environment gives to the first `n` rounds of the loop of `Crawl`, `f k`
being its answer to round `k`. -/
def firstAnswers (f : Nat → Response) : Nat → List Response
  | 0 => []
  | n + 1 => f 0 :: firstAnswers (fun k => f (k + 1)) n

/-! ## output/filename.go: the texts a file name is made of -/

/-- Whether the rune is an underscore, a letter (`unicode.IsLetter`) or a digit
(`unicode.IsDigit`). -/
def isNameRune (T : UnicodeTables) (r : Nat) : Bool :=
  r = 0x5F || unicodeIsLetter T r || unicodeIsDigit T r

/-- The text is the UTF-8 encoding of a sequence of letters, digits and underscores. -/
def NameText (T : UnicodeTables) (s : Str) : Prop :=
  ∃ rs : List Nat, s = rs.flatMap encodeRune ∧ ∀ r ∈ rs, isNameRune T r = true

/-- Whether the byte is an ASCII letter, an ASCII digit, an underscore or a byte of the
UTF-8 encoding of a rune above U+007F. -/
def isNameByte (c : Char) : Bool :=
  (0x41 ≤ c.toNat && c.toNat ≤ 0x5A) || (0x61 ≤ c.toNat && c.toNat ≤ 0x7A) ||
    (0x30 ≤ c.toNat && c.toNat ≤ 0x39) || c.toNat = 0x5F || 0x80 ≤ c.toNat

/-- The lower-case mapping of the tables sends letters and digits to letters and digits,
as that of Unicode does. -/
def UnicodeTables.LowerKeeps (T : UnicodeTables) : Prop :=
  ∀ r, (unicodeIsLetter T r || unicodeIsDigit T r) = true →
    (unicodeIsLetter T (unicodeToLower T r) || unicodeIsDigit T (unicodeToLower T r)) = true

/-! ## url_normalize.go: the form of the path -/

/-- A segment of a cleaned path: not empty, without slash, neither `.` nor `..`. -/
def GoodSegment (s : Str) : Prop :=
  s ≠ [] ∧ '/' ∉ s ∧ s ≠ ".".toList ∧ s ≠ "..".toList

/-- The text is a slash followed by segments of a cleaned path, separated by single
slashes (no segment: the text is the root `/`). -/
def CleanRooted (t : Str) : Prop :=
  ∃ segs : List Str, t = '/' :: joinWith ['/'] segs ∧ ∀ s ∈ segs, GoodSegment s

/-- The path of a URL text with a scheme and an authority: what follows the authority
(the text between `://` and the next slash) up to the first question mark. -/
def urlPathOf (v : Str) : Str :=
  let body := (cutByte '?' v).1
  match indexSub "://".toList body with
  | none => []
  | some i => (body.drop (i + 3)).dropWhile (· ≠ '/')

/-- The form of a canonical path: it starts with a slash, and unless it is the root `/`
every element between its slashes is non-empty and neither `.` nor `..`; it ends with a
slash only when it is the root. -/
def PathCanonical (t : Str) : Prop :=
  t.head? = some '/' ∧
  (t = "/".toList ∨
    ∀ s ∈ splitAll '/' (t.drop 1), s ≠ [] ∧ s ≠ ".".toList ∧ s ≠ "..".toList) ∧
  (t.getLast? = some '/' → t = "/".toList)

/-- The parsed form of `https://example.com/a/./b/../c/`. -/
def dottedParsed : URL :=
  { Scheme := "https".toList, Host := "example.com".toList, Path := "/a/./b/../c/".toList }

/-! ## pkg/pagerank: the degrees of a node, and the graph the adapter builds -/

/-- The method `Node.OutDegree` of node.go. -/
def Node.OutDegree {F : Type} (n : Node F) : Nat := n.Outgoing.length

/-- The method `Node.InDegree` of node.go. -/
def Node.InDegree {F : Type} (n : Node F) : Nat := n.Incoming.length

/-- The targets of the edges of a link graph that leave the node. -/
def LinkGraph.outNeighbours (g : LinkGraph) (n : Str) : List Str :=
  (g.edgePairs.filter (fun p => p.1 = n)).map Prod.snd

/-- The sources of the edges of a link graph that enter the node. -/
def LinkGraph.inNeighbours (g : LinkGraph) (n : Str) : List Str :=
  (g.edgePairs.filter (fun p => p.2 = n)).map Prod.fst

/-- The node with the given id in a ranking graph that holds one edge per pair of `ps`. -/
def nodeWith {F : Type} (ops : Float64Ops F) (ps : List (Str × Str)) (id : Str) : Node F :=
  { Id := id, Rank := ops.zero,
    Outgoing := (ps.filter (fun p => p.1 = id)).map (fun p => GenerateEdgeID p.1 p.2),
    Incoming := (ps.filter (fun p => p.2 = id)).map (fun p => GenerateEdgeID p.1 p.2) }

/-- The edge of a ranking graph for a pair of source and target. -/
def edgeOf {F : Type} (ops : Float64Ops F) (p : Str × Str) : Edge F :=
  { Id := GenerateEdgeID p.1 p.2, From := p.1, To := p.2, Weight := ops.zero }

/-- The link graph after `AddEdge("a", "b:c")` and `AddEdge("a:b", "c")`. -/
def colonGraph : LinkGraph :=
  graphAfter [.addEdge "a".toList "b:c".toList, .addEdge "a:b".toList "c".toList]

/-- The text is `http://` or `https://` followed by a text in which `://` does not
occur. -/
def OneScheme (v : Str) : Prop :=
  ∃ s r : Str, (s = "http".toList ∨ s = "https".toList) ∧ v = s ++ "://".toList ++ r ∧
    containsSub "://".toList r = false

/-! ## scope.go: hosts with several trailing dots -/

/-- The names `normalizeHost` hands to the IDNA routine for the hosts `example.com...`,
`example.com.` and `example.com`: it removes one trailing dot before the call. -/
def trailingDotHosts : List Str := ["example.com..".toList, "example.com".toList]

/-- The scope `NewScope` builds for the input `example.com...`: the normalized host keeps
one trailing dot, so the base domain is `example.com.`. -/
def trailingDotScope : Scope :=
  { BaseDomain := "example.com.".toList,
    AllowedHosts := ["example.com.".toList, "www.example.com.".toList],
    allowedSet := ["example.com.".toList, "www.example.com.".toList] }

/-! ## crawl.go: the context of a run -/

/-- A `context.Context` as package context specifies it and as `Crawl` observes it during
and after its loop.  The moments at which `Crawl` looks at the context are numbered: `2 * k`
is the head of round `k` of the loop (`ctx.Err()`), `2 * k + 1` the politeness sleep of
round `k` (`ctx.Done()`), and the return comes after all rounds.  `doneFrom` is the first
moment at which the context is done (`none`: it is not done during the run) and `err` the
error it has from then on: `context.Canceled` when its cancel function was called,
`context.DeadlineExceeded` when its deadline passed. -/
structure GoContext where
  doneFrom : Option Nat
  err : GoError

/-- The method `Err` of the context at a moment: nil until the context is done, and from
then on always the same error. -/
def GoContext.Err (c : GoContext) (t : Nat) : Option GoError :=
  match c.doneFrom with
  | some d => if d ≤ t then some c.err else none
  | none => none

/-- The answers to the rounds `k`, `k + 1`, ... of the loop, in which what is said about
the context is what the context `c` gives: the head check of a round finds `ctx.Err()`
non-nil when the context is done by then, and the timer of its sleep fires only when the
context is not done by then. -/
def responsesUnder (c : GoContext) : Nat → List Response → List Response
  | _, [] => []
  | k, r :: rs =>
    { r with cancelled := (c.Err (2 * k)).isSome,
             sleepCompleted := (c.Err (2 * k + 1)).isNone } :: responsesUnder c (k + 1) rs

/-- The world in which the context is `c`: the fetches and robots verdicts are those of
`w`, the answers about the context are those of `c`, and the return comes after the
last listed round. -/
def World.under (w : World) (c : GoContext) : World :=
  { w with responses := responsesUnder c 0 w.responses,
           ctxErrAtReturn := c.Err (2 * w.responses.length) }

/-- A context whose cancel function is called so that it is done from the moment `t`. -/
def cancelledFrom (t : Nat) : GoContext := { doneFrom := some t, err := ctxCanceled }

/-! # Theorems -/

/-! ## strings and scope.go -/

theorem toLower_ascii (L : Lib) (s : Str) (h : s.all isASCIIByte = true) :
    toLower L s = s.map asciiLowerByte := by
  simp [toLower, h]

theorem normalizeHost_eq (L : Lib) (host : Str) :
    normalizeHost L host =
      (hostBeforeIDNA (toLower L host)).bind (fun t =>
        (L.idnaToASCII t).map (fun a => toLower L (trimSuffix a ".".toList))) := by
  unfold normalizeHost hostBeforeIDNA
  simp only
  split_ifs with h
  · rfl
  · simp only [Option.some_bind]
    cases L.idnaToASCII _ <;> rfl

/-- Evaluation of `normalizeHost` on an ASCII host for which the answer of the IDNA
routine is known. -/
theorem normalizeHost_of_idna (L : Lib) (host t a : Str)
    (h1 : host.all isASCIIByte = true)
    (h2 : hostBeforeIDNA (host.map asciiLowerByte) = some t)
    (h3 : L.idnaToASCII t = some a)
    (h4 : (trimSuffix a ".".toList).all isASCIIByte = true) :
    normalizeHost L host = some ((trimSuffix a ".".toList).map asciiLowerByte) := by
  rw [normalizeHost_eq, toLower_ascii L host h1, h2]
  simp only [Option.some_bind, h3, Option.map_some', toLower_ascii L _ h4]

theorem www_append_ne (b : Str) : "www.".toList ++ b ≠ b := by
  intro h
  have := congrArg List.length h
  simp at this
  omega

theorem NewScope_some (L : Lib) (input : Str) (s : Scope) (h : NewScope L input = some s) :
    s.BaseDomain ≠ [] ∧ s.AllowedHosts = [s.BaseDomain, "www.".toList ++ s.BaseDomain] ∧
      s.allowedSet = [s.BaseDomain, "www.".toList ++ s.BaseDomain] := by
  unfold NewScope at h
  simp only at h
  split_ifs at h
  all_goals
    split at h
    · exact absurd h (by simp)
    · split_ifs at h
      split at h
      · exact absurd h (by simp)
      · split_ifs at h with hb
        all_goals
          simp only [Option.some.injEq] at h
          subst h
          refine ⟨by assumption, rfl, ?_⟩
          simp only [List.foldl, List.not_mem_nil, if_false, List.nil_append, List.mem_singleton,
            www_append_ne, List.singleton_append]

theorem allowedSet_fold (b : Str) :
    List.foldl (fun set h => if h ∈ set then set else set ++ [h]) []
      [b, "www.".toList ++ b] = [b, "www.".toList ++ b] := by
  simp only [List.foldl, List.not_mem_nil, if_false, List.nil_append, List.mem_singleton,
    www_append_ne, List.singleton_append]

theorem NewScope_eq (L : Lib) (input : Str) :
    NewScope L input =
      (scopeHostOfInput input).bind (fun h => (normalizeHost L h).bind scopeOfNormalizedHost) := by
  unfold NewScope scopeHostOfInput scopeOfNormalizedHost
  simp only [allowedSet_fold]
  by_cases h1 : trimSpace input = []
  · rw [if_pos h1, if_pos h1]; rfl
  · rw [if_neg h1, if_neg h1]
    generalize Parse _ = p
    cases p with
    | none => rfl
    | some parsed =>
      simp only
      by_cases h2 : parsed.Hostname = []
      · rw [if_pos h2, if_pos h2]; rfl
      · rw [if_neg h2, if_neg h2]
        simp only [Option.some_bind]
        generalize normalizeHost L parsed.Hostname = nh
        cases nh with
        | none => rfl
        | some host => rfl

theorem mem_exampleHosts_fix (L : Lib) (hL : L.idnaFixes exampleHosts) (n : Str)
    (hn : n ∈ exampleHosts) : L.idnaToASCII n = some n := hL n hn

/-- Under a library that fixes the example names, `normalizeHost` of an ASCII host whose
cleaned form `t` is one of them is `t`. -/
theorem normalizeHost_example (L : Lib) (hL : L.idnaFixes exampleHosts) (host t : Str)
    (h1 : host.all isASCIIByte = true)
    (h2 : hostBeforeIDNA (host.map asciiLowerByte) = some t)
    (ht : t ∈ exampleHosts)
    (h4 : ((trimSuffix t ".".toList).all isASCIIByte = true
            ∧ (trimSuffix t ".".toList).map asciiLowerByte = t)) :
    normalizeHost L host = some t := by
  rw [normalizeHost_of_idna L host t t h1 h2 (hL t ht) h4.1, h4.2]

/-- C2 (scope exactness): for a scope built by `NewScope`, `IsAllowedHost h` holds exactly
when the normalized form of `h` is the base domain or `www.` followed by the base domain;
for the base domain example.com (built from `example.com` or from `www.Example.com`) it
holds for example.com, www.example.com, EXAMPLE.COM and www.example.com:443 and fails for
blog.example.com, api.example.com, example.org and www2.example.com. -/
theorem C2_scope_exactness (L : Lib) :
    (∀ (input : Str) (s : Scope) (h : Str), NewScope L input = some s →
      (s.IsAllowedHost L h = true ↔
        ∃ n, normalizeHost L h = some n ∧
          (n = s.BaseDomain ∨ n = "www.".toList ++ s.BaseDomain))) ∧
    (L.idnaFixes exampleHosts →
      NewScope L "example.com".toList = some exampleScope ∧
      NewScope L "www.Example.com".toList = some exampleScope ∧
      exampleScope.IsAllowedHost L "example.com".toList = true ∧
      exampleScope.IsAllowedHost L "www.example.com".toList = true ∧
      exampleScope.IsAllowedHost L "EXAMPLE.COM".toList = true ∧
      exampleScope.IsAllowedHost L "www.example.com:443".toList = true ∧
      exampleScope.IsAllowedHost L "blog.example.com".toList = false ∧
      exampleScope.IsAllowedHost L "api.example.com".toList = false ∧
      exampleScope.IsAllowedHost L "example.org".toList = false ∧
      exampleScope.IsAllowedHost L "www2.example.com".toList = false) := by
  constructor
  · intro input s h hs
    obtain ⟨_, _, hset⟩ := NewScope_some L input s hs
    unfold Scope.IsAllowedHost
    cases hn : normalizeHost L h with
    | none => simp
    | some n => simp [hset]
  · intro hL
    have e1 := normalizeHost_example L hL "example.com".toList "example.com".toList
      (by decide) (by decide) (by decide) (by decide)
    have e2 := normalizeHost_example L hL "www.example.com".toList "www.example.com".toList
      (by decide) (by decide) (by decide) (by decide)
    have e3 := normalizeHost_example L hL "EXAMPLE.COM".toList "example.com".toList
      (by decide) (by decide) (by decide) (by decide)
    have e4 := normalizeHost_example L hL "www.example.com:443".toList "www.example.com".toList
      (by decide) (by decide) (by decide) (by decide)
    have e5 := normalizeHost_example L hL "blog.example.com".toList "blog.example.com".toList
      (by decide) (by decide) (by decide) (by decide)
    have e6 := normalizeHost_example L hL "api.example.com".toList "api.example.com".toList
      (by decide) (by decide) (by decide) (by decide)
    have e7 := normalizeHost_example L hL "example.org".toList "example.org".toList
      (by decide) (by decide) (by decide) (by decide)
    have e8 := normalizeHost_example L hL "www2.example.com".toList "www2.example.com".toList
      (by decide) (by decide) (by decide) (by decide)
    have e9 := normalizeHost_example L hL "www.Example.com".toList "www.example.com".toList
      (by decide) (by decide) (by decide) (by decide)
    have p1 : scopeHostOfInput "example.com".toList = some "example.com".toList := by decide
    have p2 : scopeHostOfInput "www.Example.com".toList = some "www.Example.com".toList := by
      decide
    have q1 : scopeOfNormalizedHost "example.com".toList = some exampleScope := by decide
    have q2 : scopeOfNormalizedHost "www.example.com".toList = some exampleScope := by decide
    refine ⟨?_, ?_, ?_, ?_, ?_, ?_, ?_, ?_, ?_, ?_⟩
    · rw [NewScope_eq, p1, Option.some_bind, e1, Option.some_bind, q1]
    · rw [NewScope_eq, p2, Option.some_bind, e9, Option.some_bind, q2]
    · unfold Scope.IsAllowedHost; rw [e1]; decide
    · unfold Scope.IsAllowedHost; rw [e2]; decide
    · unfold Scope.IsAllowedHost; rw [e3]; decide
    · unfold Scope.IsAllowedHost; rw [e4]; decide
    · unfold Scope.IsAllowedHost; rw [e5]; decide
    · unfold Scope.IsAllowedHost; rw [e6]; decide
    · unfold Scope.IsAllowedHost; rw [e7]; decide
    · unfold Scope.IsAllowedHost; rw [e8]; decide

theorem asciiLib_fixes_exampleHosts : asciiLib.idnaFixes exampleHosts := by
  unfold Lib.idnaFixes
  decide

theorem C2_scope_exactness_witness :
    asciiLib.idnaFixes exampleHosts ∧
    NewScope asciiLib "example.com".toList = some exampleScope ∧
    (exampleScope.IsAllowedHost asciiLib "www.example.com:443".toList = true ↔
      ∃ n, normalizeHost asciiLib "www.example.com:443".toList = some n ∧
        (n = exampleScope.BaseDomain ∨ n = "www.".toList ++ exampleScope.BaseDomain)) ∧
    exampleScope.IsAllowedHost asciiLib "www.example.com:443".toList = true ∧
    exampleScope.IsAllowedHost asciiLib "www2.example.com".toList = false :=
  ⟨asciiLib_fixes_exampleHosts,
    ((C2_scope_exactness asciiLib).2 asciiLib_fixes_exampleHosts).1,
    (C2_scope_exactness asciiLib).1 "example.com".toList exampleScope
      "www.example.com:443".toList (by decide),
    ((C2_scope_exactness asciiLib).2 asciiLib_fixes_exampleHosts).2.2.2.2.2.1,
    ((C2_scope_exactness asciiLib).2 asciiLib_fixes_exampleHosts).2.2.2.2.2.2.2.2.2⟩

/-! ## url_normalize.go -/

theorem isTrackingKey_ascii (L L' : Lib) (k : Str) (h : k.all isASCIIByte = true) :
    isTrackingKey L k = isTrackingKey L' k := by
  unfold isTrackingKey
  rw [toLower_ascii L k h, toLower_ascii L' k h]

theorem filter_tracking_congr (L L' : Lib) (m : Values)
    (h : m.all (fun kv => kv.1.all isASCIIByte) = true) :
    m.filter (fun kv => !isTrackingKey L kv.1) = m.filter (fun kv => !isTrackingKey L' kv.1) := by
  apply List.filter_congr
  intro kv hkv
  rw [List.all_eq_true] at h
  rw [isTrackingKey_ascii L L' kv.1 (h kv hkv)]

/-- `normalizeParsedURL` depends on the library only through the host normalization when
scheme and query keys are ASCII. -/
theorem normalizeParsedURL_congr (L L' : Lib) (p : URL) (c : Bool)
    (hA : p.lowerIsBytewise = true)
    (hh : normalizeHost L p.Hostname = normalizeHost L' p.Hostname) :
    normalizeParsedURL L p c = normalizeParsedURL L' p c := by
  unfold URL.lowerIsBytewise at hA
  rw [Bool.and_eq_true] at hA
  have hq := filter_tracking_congr L L' p.Query hA.2
  unfold URL.Query at hq
  have hnq : normalizedQuery L p.RawQuery c = normalizedQuery L' p.RawQuery c := by
    unfold normalizedQuery
    cases c with
    | false => rfl
    | true => simp only [if_true, hq]
  have hhp : ∀ s, normalizedHostPort L s p = normalizedHostPort L' s p := by
    intro s
    unfold normalizedHostPort
    rw [hh]
  unfold normalizeParsedURL
  rw [toLower_ascii L p.Scheme hA.1, toLower_ascii L' p.Scheme hA.1, hnq]
  dsimp only
  rw [hhp]

/-- On an input whose scheme and query keys are ASCII, `NormalizeURL` under any library
is `NormalizeURL` under `asciiLib` as soon as the two agree on the host. -/
theorem NormalizeURL_eval (L : Lib) (u h : Str) (c : Bool)
    (hA : (Parse (trimSpace u)).map URL.lowerIsBytewise = some true)
    (hh : (Parse (trimSpace u)).map URL.Hostname = some h)
    (hn : normalizeHost L h = normalizeHost asciiLib h) :
    NormalizeURL L u c = NormalizeURL asciiLib u c := by
  unfold NormalizeURL
  cases hp : Parse (trimSpace u) with
  | none => rfl
  | some p =>
    rw [hp] at hA hh
    simp only [Option.map_some', Option.some.injEq] at hA hh
    subst hh
    exact normalizeParsedURL_congr L asciiLib p c hA hn

theorem normalizeHost_example_com (L : Lib) (hL : L.idnaFixes exampleHosts) :
    normalizeHost L "example.com".toList = normalizeHost asciiLib "example.com".toList := by
  rw [normalizeHost_example L hL "example.com".toList "example.com".toList
    (by decide) (by decide) (by decide) (by decide)]
  decide

/-- C1 (idempotence, refuted on the code): the canonical form of
`https://example.com/a%20b` is `https://example.com/a%2520b`, and canonicalizing that
string again gives `https://example.com/a%252520b`: the percent sign of an escaped path is
escaped once more by every pass, for either clean flag. -/
theorem C1_normalize_escapes_again (L : Lib) (c : Bool) (hL : L.idnaFixes exampleHosts) :
    NormalizeURL L "https://example.com/a%20b".toList c
      = some "https://example.com/a%2520b".toList ∧
    NormalizeURL L "https://example.com/a%2520b".toList c
      = some "https://example.com/a%252520b".toList ∧
    "https://example.com/a%2520b".toList ≠ "https://example.com/a%252520b".toList := by
  refine ⟨?_, ?_, by decide⟩
  · rw [NormalizeURL_eval L _ "example.com".toList c (by decide) (by decide)
      (normalizeHost_example_com L hL)]
    cases c <;> decide
  · rw [NormalizeURL_eval L _ "example.com".toList c (by decide) (by decide)
      (normalizeHost_example_com L hL)]
    cases c <;> decide

theorem C1_normalize_escapes_again_witness :
    asciiLib.idnaFixes exampleHosts ∧
    NormalizeURL asciiLib "https://example.com/a%20b".toList true
      = some "https://example.com/a%2520b".toList :=
  ⟨asciiLib_fixes_exampleHosts,
    (C1_normalize_escapes_again asciiLib true asciiLib_fixes_exampleHosts).1⟩

/-! ### Query values -/

theorem parseQueryPiece_eq (m : Values) (piece : Str) :
    parseQueryPiece m piece =
      match decodePiece piece with
      | none => m
      | some kv => m.add kv.1 kv.2 := by
  unfold parseQueryPiece decodePiece
  split_ifs with h1 h2
  · rfl
  · rfl
  · simp only
    cases QueryUnescape (cutByte '=' piece).1 with
    | none => rfl
    | some key =>
      cases QueryUnescape (cutByte '=' piece).2.1 with
      | none => rfl
      | some value => rfl

theorem foldl_parseQueryPiece (pieces : List Str) (m : Values) :
    pieces.foldl parseQueryPiece m =
      (pieces.filterMap decodePiece).foldl (fun (m : Values) (kv : Str × Str) => m.add kv.1 kv.2) m := by
  induction pieces generalizing m with
  | nil => rfl
  | cons p ps ih =>
    rw [List.foldl_cons, ih, parseQueryPiece_eq]
    cases hd : decodePiece p with
    | none => simp [List.filterMap_cons, hd]
    | some kv => simp [List.filterMap_cons, hd]

theorem ParseQuery_eq (raw : Str) :
    ParseQuery raw = (decodedPairs raw).foldl (fun (m : Values) (kv : Str × Str) => m.add kv.1 kv.2) [] := by
  unfold ParseQuery decodedPairs
  exact foldl_parseQueryPiece _ _

theorem Values.add_keys (m : Values) (k v : Str) :
    (m.add k v).map Prod.fst = if k ∈ m.map Prod.fst then m.map Prod.fst else m.map Prod.fst ++ [k] := by
  induction m with
  | nil => simp [Values.add]
  | cons kv rest ih =>
    obtain ⟨k0, vs⟩ := kv
    unfold Values.add
    by_cases h : k0 = k
    · simp [h]
    · have h' : ¬ k = k0 := fun e => h e.symm
      simp only [h, if_false, List.map_cons, ih, List.mem_cons, h', false_or]
      split_ifs <;> simp

theorem Values.add_WF (m : Values) (k v : Str) (h : m.WF) : (m.add k v).WF := by
  constructor
  · rw [Values.add_keys]
    split_ifs with hk
    · exact h.1
    · exact List.Nodup.append h.1 (List.nodup_singleton k) (by simpa using hk)
  · induction m with
    | nil => intro kv hkv; simp [Values.add] at hkv; subst hkv; simp
    | cons kv rest ih =>
      obtain ⟨k0, vs⟩ := kv
      have hrest : Values.WF rest :=
        ⟨(List.nodup_cons.mp h.1).2, fun x hx => h.2 x (List.mem_cons_of_mem _ hx)⟩
      intro x hx
      unfold Values.add at hx
      by_cases hk : k0 = k
      · simp only [hk, if_true, List.mem_cons] at hx
        rcases hx with hx | hx
        · subst hx; simp
        · exact h.2 x (List.mem_cons_of_mem _ hx)
      · simp only [hk, if_false, List.mem_cons] at hx
        rcases hx with hx | hx
        · subst hx; exact h.2 _ (List.mem_cons_self _ _)
        · exact ih hrest x hx

theorem foldl_add_WF (ps : List (Str × Str)) (m : Values) (h : m.WF) :
    (ps.foldl (fun (m : Values) (kv : Str × Str) => m.add kv.1 kv.2) m).WF := by
  induction ps generalizing m with
  | nil => exact h
  | cons p ps ih => exact ih _ (Values.add_WF m p.1 p.2 h)

theorem Values.nil_WF : Values.WF [] := ⟨List.nodup_nil, fun _ h => absurd h (List.not_mem_nil _)⟩

theorem ParseQuery_WF (raw : Str) : (ParseQuery raw).WF := by
  rw [ParseQuery_eq]
  exact foldl_add_WF _ _ Values.nil_WF

theorem flatMap_congr_mem {α β : Type} {l : List α} {f g : α → List β}
    (h : ∀ a ∈ l, f a = g a) : l.flatMap f = l.flatMap g := by
  induction l with
  | nil => rfl
  | cons a l ih =>
    rw [List.flatMap_cons, List.flatMap_cons, h a (List.mem_cons_self _ _),
      ih (fun b hb => h b (List.mem_cons_of_mem _ hb))]

theorem Values.get_of_mem (m : Values) (k : Str) (vs : List Str)
    (hnd : (m.map Prod.fst).Nodup) (h : (k, vs) ∈ m) : m.get k = vs := by
  induction m with
  | nil => exact absurd h (List.not_mem_nil _)
  | cons kv rest ih =>
    obtain ⟨k0, vs0⟩ := kv
    unfold Values.get
    rw [List.map_cons, List.nodup_cons] at hnd
    rcases List.mem_cons.mp h with h | h
    · cases h; simp
    · have : k0 ≠ k := by
        intro e
        apply hnd.1
        rw [e]
        exact List.mem_map.mpr ⟨(k, vs), h, rfl⟩
      simp only [this, if_false]
      exact ih hnd.2 h

theorem Values.get_ne_nil (m : Values) (k : Str) (h : m.WF) (hk : k ∈ m.map Prod.fst) :
    m.get k ≠ [] := by
  obtain ⟨kv, hkv, rfl⟩ := List.mem_map.mp hk
  rw [Values.get_of_mem m kv.1 kv.2 h.1 hkv]
  exact h.2 kv hkv

theorem sortStrings_perm (l : List Str) : (sortStrings l).Perm l :=
  List.perm_insertionSort _ l

theorem sortStrings_sorted (l : List Str) : List.Sorted (· ≤ ·) (sortStrings l) :=
  List.sorted_insertionSort _ l

theorem mem_sortStrings {l : List Str} {x : Str} : x ∈ sortStrings l ↔ x ∈ l :=
  (sortStrings_perm l).mem_iff

/-- The pairs written by `encodeSortedQuery` are the pairs held by the values. -/
theorem sortedPairs_perm (m : Values) (h : m.WF) : (sortedPairs m).Perm (pairsOf m) := by
  unfold sortedPairs pairsOf
  refine ((sortStrings_perm (m.map Prod.fst)).flatMap_right _).trans ?_
  refine (List.Perm.flatMap_left _
    (g := fun k => (m.get k).map (fun v => (k, v)))
    (fun k _ => (sortStrings_perm (m.get k)).map _)).trans ?_
  rw [List.flatMap_map]
  apply List.Perm.of_eq
  apply flatMap_congr_mem
  intro kv hkv
  show (m.get kv.1).map _ = _
  rw [Values.get_of_mem m kv.1 kv.2 h.1 hkv]

instance pairLE_antisymm : IsAntisymm (Str × Str) pairLE where
  antisymm a b hab hba := by
    rcases hab with h1 | ⟨h1, h1'⟩ <;> rcases hba with h2 | ⟨h2, h2'⟩
    · exact absurd h2 (lt_asymm h1)
    · exact absurd h1 (h2 ▸ lt_irrefl _)
    · exact absurd h2 (h1 ▸ lt_irrefl _)
    · exact Prod.ext h1 (le_antisymm h1' h2')

/-- On values without value-less keys `encodeSortedQuery` joins the encoded pairs. -/
theorem encodeSortedQuery_eq (m : Values) (h : m.WF) :
    encodeSortedQuery m = joinWith "&".toList ((sortedPairs m).map encodePair) := by
  unfold encodeSortedQuery sortedPairs
  simp only
  congr 1
  rw [List.map_flatMap]
  apply flatMap_congr_mem
  intro k hk
  have hne : m.get k ≠ [] := Values.get_ne_nil m k h (mem_sortStrings.mp hk)
  have hlen : (sortStrings (m.get k)).length ≠ 0 := by
    rw [(sortStrings_perm (m.get k)).length_eq]
    exact fun e => hne (List.length_eq_zero.mp e)
  simp only [hlen, if_false, List.append_nil, List.map_map]
  rfl

theorem Values.filter_WF (m : Values) (P : Str × List Str → Bool) (h : m.WF) :
    Values.WF (m.filter P) :=
  ⟨(h.1.sublist ((List.filter_sublist m).map Prod.fst)),
    fun kv hkv => h.2 kv (List.mem_of_mem_filter hkv)⟩

theorem URL.String_eq (u : URL) :
    u.String = u.stringBody ++ u.stringQuery ++
      (if u.Fragment ≠ [] then "#".toList ++ u.EscapedFragment else []) := by
  have h : u.String =
      (if u.Fragment ≠ [] then
        (if u.ForceQuery ∨ u.RawQuery ≠ [] then u.stringBody ++ "?".toList ++ u.RawQuery
          else u.stringBody) ++ "#".toList ++ u.EscapedFragment
      else
        (if u.ForceQuery ∨ u.RawQuery ≠ [] then u.stringBody ++ "?".toList ++ u.RawQuery
          else u.stringBody)) := rfl
  rw [h]
  unfold URL.stringQuery
  split_ifs <;> simp

theorem upperhex_mem (n : Nat) : upperhex n ∈ "0123456789ABCDEF".toList := by
  unfold upperhex
  have h : n % 16 < 16 := Nat.mod_lt _ (by decide)
  generalize n % 16 = k at h
  interval_cases k <;> decide

/-- Every byte written by `escape` is a plus sign, a percent sign, a hexadecimal digit or
a byte of the input that needs no escaping. -/
theorem mem_escape (mode : Encoding) (s : Str) (x : Char) (h : x ∈ escape mode s) :
    x = '+' ∨ x = '%' ∨ x ∈ "0123456789ABCDEF".toList ∨ (x ∈ s ∧ shouldEscape x mode = false) := by
  induction s with
  | nil => simp [escape] at h
  | cons c rest ih =>
    have lift : (x = '+' ∨ x = '%' ∨ x ∈ "0123456789ABCDEF".toList ∨
        (x ∈ rest ∧ shouldEscape x mode = false)) →
        (x = '+' ∨ x = '%' ∨ x ∈ "0123456789ABCDEF".toList ∨
        (x ∈ c :: rest ∧ shouldEscape x mode = false)) := by
      rintro (h | h | h | ⟨h, h'⟩)
      · exact Or.inl h
      · exact Or.inr (Or.inl h)
      · exact Or.inr (Or.inr (Or.inl h))
      · exact Or.inr (Or.inr (Or.inr ⟨List.mem_cons_of_mem _ h, h'⟩))
    unfold escape at h
    split_ifs at h with h1 h2
    · rcases List.mem_cons.mp h with h | h
      · exact Or.inl h
      · exact lift (ih h)
    · rcases List.mem_cons.mp h with h | h
      · exact Or.inr (Or.inl h)
      · rcases List.mem_cons.mp h with h | h
        · exact Or.inr (Or.inr (Or.inl (h ▸ upperhex_mem _)))
        · rcases List.mem_cons.mp h with h | h
          · exact Or.inr (Or.inr (Or.inl (h ▸ upperhex_mem _)))
          · exact lift (ih h)
    · rcases List.mem_cons.mp h with h | h
      · subst h
        exact Or.inr (Or.inr (Or.inr ⟨List.mem_cons_self _ _, by simpa using h2⟩))
      · exact lift (ih h)

theorem NoQ.append {a b : Str} (ha : NoQ a) (hb : NoQ b) : NoQ (a ++ b) := by
  intro x hx
  rcases List.mem_append.mp hx with h | h
  · exact ha x h
  · exact hb x h

theorem NoQ.nil : NoQ [] := fun _ h => absurd h (List.not_mem_nil _)

theorem escape_NoQ (mode : Encoding)
    (hm : mode = .encodeHost ∨ mode = .encodePath ∨ mode = .encodeQueryComponent) (s : Str) :
    NoQ (escape mode s) := by
  intro x hx
  rcases mem_escape mode s x hx with h | h | h | ⟨_, h⟩
  · subst h; decide
  · subst h; decide
  · have hd : ∀ y ∈ "0123456789ABCDEF".toList, y ≠ '?' ∧ y ≠ '#' := by decide
    exact hd x h
  · constructor
    · rintro rfl
      rcases hm with rfl | rfl | rfl <;> exact absurd h (by decide)
    · rintro rfl
      rcases hm with rfl | rfl | rfl <;> exact absurd h (by decide)

theorem NoQ_ite {c : Prop} [Decidable c] {a b : Str} (ha : NoQ a) (hb : NoQ b) :
    NoQ (if c then a else b) := by
  split_ifs
  · exact ha
  · exact hb

theorem URL.setPath_fields (u p : URL) (x : Str) (h : u.setPath x = some p) :
    p.Opaque = u.Opaque ∧ p.Host = u.Host ∧ p.RawQuery = u.RawQuery ∧
      p.ForceQuery = u.ForceQuery ∧ p.Scheme = u.Scheme := by
  unfold URL.setPath at h
  split at h
  · exact absurd h (by simp)
  · simp only [Option.some.injEq] at h
    subst h
    exact ⟨rfl, rfl, rfl, rfl, rfl⟩

theorem URL.setFragment_fields (u p : URL) (x : Str) (h : u.setFragment x = some p) :
    p.Opaque = u.Opaque ∧ p.Host = u.Host ∧ p.RawQuery = u.RawQuery ∧
      p.ForceQuery = u.ForceQuery ∧ p.Scheme = u.Scheme := by
  unfold URL.setFragment at h
  split at h
  · exact absurd h (by simp)
  · simp only [Option.some.injEq] at h
    subst h
    exact ⟨rfl, rfl, rfl, rfl, rfl⟩

/-- A URL returned by `url.Parse` with a non-empty `Opaque` has an empty `Host`. -/
theorem parseNoFragment_Opaque_or_Host (r : Str) (p : URL) (h : parseNoFragment r = some p) :
    p.Opaque = [] ∨ p.Host = [] := by
  unfold parseNoFragment at h
  split_ifs at h with h1 h2
  · simp only [Option.some.injEq] at h
    subst h
    exact Or.inl rfl
  · split at h
    · exact absurd h (by simp)
    · dsimp only at h
      split_ifs at h
      all_goals first
        | exact Or.inl (URL.setPath_fields _ _ _ h).1
        | (simp only [Option.some.injEq] at h
           subst h
           first
             | exact Or.inl rfl
             | exact Or.inr rfl)
        | (split at h
           · exact absurd h (by simp)
           · exact Or.inl (URL.setPath_fields _ _ _ h).1)

theorem Parse_Opaque_or_Host (u : Str) (p : URL) (h : Parse u = some p) :
    p.Opaque = [] ∨ p.Host = [] := by
  unfold Parse at h
  dsimp only at h
  split at h
  · exact absurd h (by simp)
  · rename_i url hurl
    have := parseNoFragment_Opaque_or_Host _ _ hurl
    split_ifs at h
    · simp only [Option.some.injEq] at h
      subst h
      exact this
    · obtain ⟨h1, h2, _⟩ := URL.setFragment_fields _ _ _ h
      rw [h1, h2]
      exact this

theorem normalizeHost_nil (L : Lib) : normalizeHost L [] = none := by
  rw [normalizeHost_eq]
  have : toLower L [] = [] := by simp [toLower]
  rw [this]
  rfl

theorem normalizeParsedURL_Opaque_nil (L : Lib) (p : URL) (c : Bool) (v : Str)
    (hp : p.Opaque = [] ∨ p.Host = []) (h : normalizeParsedURL L p c = some v) :
    p.Opaque = [] := by
  rcases hp with hp | hp
  · exact hp
  · exfalso
    unfold normalizeParsedURL normalizedHostPort URL.Hostname at h
    rw [hp] at h
    have e : (splitHostPort []).1 = [] := by decide
    rw [e, normalizeHost_nil] at h
    dsimp only at h
    split_ifs at h

theorem NormalizeURL_Opaque_nil (L : Lib) (u v : Str) (p : URL) (c : Bool)
    (hp : Parse (trimSpace u) = some p) (h : NormalizeURL L u c = some v) :
    p.Opaque = [] ∧ normalizeParsedURL L p c = some v := by
  unfold NormalizeURL at h
  rw [hp] at h
  exact ⟨normalizeParsedURL_Opaque_nil L p c v (Parse_Opaque_or_Host _ _ hp) h, h⟩

theorem joinWith_ne_nil (sep : Str) (x : Str) (xs : List Str) (hx : x ≠ []) :
    joinWith sep (x :: xs) ≠ [] := by
  cases xs with
  | nil => simpa [joinWith] using hx
  | cons y ys => simp [joinWith, hx]

theorem unescape_percent (mode : Encoding) (a b : Char) (rest : Str) :
    unescape mode ('%' :: a :: b :: rest) =
      if !ishex a || !ishex b then none
      else if mode = .encodeHost ∧ unhex a < 8 ∧ ¬ (a = '2' ∧ b = '5') then none
      else if mode = .encodeZone ∧ ¬ (a = '2' ∧ b = '5') ∧ Char.ofNat (unhex a * 16 + unhex b) ≠ ' '
          ∧ shouldEscape (Char.ofNat (unhex a * 16 + unhex b)) .encodeHost then none
      else (unescape mode rest).map (Char.ofNat (unhex a * 16 + unhex b) :: ·) := by
  rw [unescape]

theorem unescape_other (mode : Encoding) (c : Char) (rest : Str) (hc : c ≠ '%') :
    unescape mode (c :: rest) =
      if c = '+' then
        (unescape mode rest).map ((if mode = .encodeQueryComponent then ' ' else '+') :: ·)
      else if (mode = .encodeHost ∨ mode = .encodeZone) ∧ c.toNat < 128 ∧ shouldEscape c .encodeHost
        then none
      else (unescape mode rest).map (c :: ·) := by
  rw [unescape]
  · simp [hc]
  · intro a b r h
    exact absurd h hc

theorem shouldEscape_query_false (c : Char)
    (h : shouldEscape c .encodeQueryComponent = false) :
    c.isAlphanum = true ∨ c ∈ "-_.~".toList := by
  unfold shouldEscape at h
  by_cases h1 : c.isAlphanum = true
  · exact Or.inl h1
  · by_cases h3 : c ∈ "-_.~".toList
    · exact Or.inr h3
    · exfalso
      have hne : ¬ (Encoding.encodeQueryComponent = Encoding.encodeHost
          ∨ Encoding.encodeQueryComponent = Encoding.encodeZone) := by decide
      have hnf : ¬ (Encoding.encodeQueryComponent = Encoding.encodeFragment) := by decide
      rw [if_neg h1, if_neg (fun hh => hne hh.1), if_neg h3] at h
      by_cases h4 : c ∈ "$&+,/:;=?@".toList
      · rw [if_pos h4] at h
        exact absurd h (by simp)
      · rw [if_neg h4, if_neg (fun hh => hnf hh.1)] at h
        exact absurd h (by simp)

theorem unescaped_query_char (c : Char)
    (h : shouldEscape c .encodeQueryComponent = false) :
    c ≠ '%' ∧ c ≠ '+' ∧ c ≠ '&' ∧ c ≠ '=' ∧ c ≠ ';' := by
  refine ⟨?_, ?_, ?_, ?_, ?_⟩ <;> rintro rfl <;> exact absurd h (by decide)

theorem QueryEscape_no_separator (s : Str) :
    ∀ x ∈ QueryEscape s, x ≠ '&' ∧ x ≠ '=' ∧ x ≠ ';' := by
  intro x hx
  rcases mem_escape _ s x hx with h | h | h | ⟨_, h⟩
  · subst h; decide
  · subst h; decide
  · have hd : ∀ y ∈ "0123456789ABCDEF".toList, y ≠ '&' ∧ y ≠ '=' ∧ y ≠ ';' := by decide
    exact hd x h
  · obtain ⟨_, _, h3, h4, h5⟩ := unescaped_query_char x h
    exact ⟨h3, h4, h5⟩

theorem cutByte_append (c : Char) (a b : Str) (h : c ∉ a) :
    cutByte c (a ++ c :: b) = (a, b, true) := by
  induction a with
  | nil => simp [cutByte]
  | cons d a ih =>
    have hd : d ≠ c := fun e => h (e ▸ List.mem_cons_self _ _)
    have ih' := ih (fun hm => h (List.mem_cons_of_mem _ hm))
    rw [List.cons_append]
    unfold cutByte
    rw [if_neg hd, ih']

theorem splitPieces_append (sep : Char) (p rest : Str) (h : sep ∉ p) :
    splitPieces sep (p ++ sep :: rest) = p :: splitPieces sep rest := by
  induction p with
  | nil => simp [splitPieces]
  | cons d p ih =>
    have hd : d ≠ sep := fun e => h (e ▸ List.mem_cons_self _ _)
    have ih' := ih (fun hm => h (List.mem_cons_of_mem _ hm))
    rw [List.cons_append, splitPieces, if_neg hd, ih']

theorem splitPieces_single (sep : Char) (p : Str) (hne : p ≠ []) (h : sep ∉ p) :
    splitPieces sep p = [p] := by
  induction p with
  | nil => exact absurd rfl hne
  | cons d p ih =>
    have hd : d ≠ sep := fun e => h (e ▸ List.mem_cons_self _ _)
    cases p with
    | nil => simp [splitPieces, hd]
    | cons e p' =>
      have ih' := ih (by simp) (fun hm => h (List.mem_cons_of_mem _ hm))
      rw [splitPieces, if_neg hd, ih']

theorem splitPieces_joinWith (sep : Char) (parts : List Str)
    (h : ∀ p ∈ parts, p ≠ [] ∧ sep ∉ p) :
    splitPieces sep (joinWith [sep] parts) = parts := by
  induction parts with
  | nil => rfl
  | cons p ps ih =>
    cases ps with
    | nil =>
      have hp := h p (List.mem_cons_self _ _)
      exact splitPieces_single sep p hp.1 hp.2
    | cons q qs =>
      have ih' := ih (fun x hx => h x (List.mem_cons_of_mem _ hx))
      show splitPieces sep (p ++ [sep] ++ joinWith [sep] (q :: qs)) = _
      rw [List.append_assoc, List.singleton_append,
        splitPieces_append sep p _ (h p (List.mem_cons_self _ _)).2, ih']

theorem cutByte_not_mem (c : Char) (s : Str) (h : c ∉ s) : cutByte c s = (s, [], false) := by
  induction s with
  | nil => rfl
  | cons d s ih =>
    have hd : d ≠ c := fun e => h (e ▸ List.mem_cons_self _ _)
    rw [cutByte, if_neg hd, ih (fun hm => h (List.mem_cons_of_mem _ hm))]

theorem Graph.AddNode_Edges {F : Type} (ops : Float64Ops F) (g : Graph F) (id : Str) :
    (g.AddNode ops id).Edges = g.Edges := by
  unfold Graph.AddNode
  split_ifs <;> rfl

theorem foldl_AddNode_Edges {F : Type} (ops : Float64Ops F) (nodes : List Str) (g : Graph F) :
    (nodes.foldl (fun pg node => pg.AddNode ops node) g).Edges = g.Edges := by
  induction nodes generalizing g with
  | nil => rfl
  | cons n ns ih => rw [List.foldl_cons, ih, Graph.AddNode_Edges]

theorem foldl_no_targets {F : Type} (ops : Float64Ops F) (edges : List (Str × List Str))
    (h : ∀ e ∈ edges, e.2 = []) (g : Graph F) :
    edges.foldl (fun pg e => e.2.foldl (fun pg dst => pg.AddEdge ops e.1 dst) pg) g = g := by
  induction edges generalizing g with
  | nil => rfl
  | cons e es ih =>
    rw [List.foldl_cons, h e (List.mem_cons_self _ _)]
    exact ih (fun x hx => h x (List.mem_cons_of_mem _ hx)) g

/-- A link graph without edge gives the ranking engine a graph without edge. -/
theorem buildPRGraph_no_edges {F : Type} (ops : Float64Ops F) (g : LinkGraph)
    (h : ∀ e ∈ g.edges, e.2 = []) : (buildPRGraph ops g).Edges = [] := by
  unfold buildPRGraph
  dsimp only
  rw [foldl_no_targets ops g.edges h, foldl_AddNode_Edges]
  rfl

theorem mapGet_mapSet {β : Type} (m : List (Str × β)) (k k' : Str) (v : β) :
    mapGet (mapSet m k v) k' = if k = k' then some v else mapGet m k' := by
  induction m with
  | nil => simp [mapSet, mapGet]
  | cons kv rest ih =>
    obtain ⟨k0, v0⟩ := kv
    unfold mapSet
    by_cases h : k0 = k
    · subst h
      simp only [if_true, mapGet]
      split_ifs <;> rfl
    · simp only [h, if_false, mapGet, ih]
      by_cases h2 : k0 = k'
      · subst h2
        have : ¬ k = k0 := fun e => h e.symm
        simp [this]
      · simp [h2]

theorem mapGet_foldl_const {β : Type} (nodes : List Str) (v : β) (m : List (Str × β))
    (k : Str) :
    mapGet (nodes.foldl (fun sc node => mapSet sc node v) m) k =
      if k ∈ nodes then some v else mapGet m k := by
  induction nodes generalizing m with
  | nil => simp
  | cons n ns ih =>
    rw [List.foldl_cons, ih, mapGet_mapSet]
    by_cases h1 : k ∈ ns
    · simp [h1]
    · by_cases h2 : n = k
      · subst h2; simp
      · have : ¬ k = n := fun e => h2 e.symm
        simp [h1, h2, this]

/-- C10 (ranking degenerate case): for a link graph with N >= 1 nodes (a set: no node
listed twice) and no edge, `ComputePageRankScores` gives every node the score
`1.0 / float64(N)` and no score to anything else, and its order is the list of all nodes
in ascending order; for a nil graph or a graph without node the score map and the order
are empty.  This holds whatever the ranking engine computes. -/
theorem C10_zero_edges_uniform {F : Type} (ops : Float64Ops F) (engine : RankEngine F) :
    (∀ g : LinkGraph, g.nodes.Nodup → 1 ≤ g.nodes.length → (∀ e ∈ g.edges, e.2 = []) →
      (∀ node : Str, mapGet (ComputePageRankScores ops engine (some g)).1 node =
        if node ∈ g.nodes then some (ops.div ops.one (ops.ofInt g.nodes.length)) else none) ∧
      (ComputePageRankScores ops engine (some g)).2 = sortStrings g.nodes ∧
      List.Sorted (· ≤ ·) (ComputePageRankScores ops engine (some g)).2 ∧
      (ComputePageRankScores ops engine (some g)).2.Perm g.nodes) ∧
    ComputePageRankScores ops engine none = ([], []) ∧
    (∀ g : LinkGraph, g.nodes = [] → ComputePageRankScores ops engine (some g) = ([], [])) := by
  refine ⟨?_, rfl, ?_⟩
  · intro g _ hN hE
    have hlen : ¬ g.nodes.length = 0 := by omega
    have hedges := buildPRGraph_no_edges ops g hE
    have hres : ComputePageRankScores ops engine (some g) =
        (g.nodes.foldl (fun sc node =>
            mapSet sc node (ops.div ops.one (ops.ofInt g.nodes.length))) [],
          sortStrings g.nodes) := by
      unfold ComputePageRankScores
      dsimp only
      rw [if_neg hlen, hedges]
      rfl
    rw [hres]
    refine ⟨fun node => ?_, rfl, sortStrings_sorted _, sortStrings_perm _⟩
    rw [mapGet_foldl_const]
    rfl
  · intro g hg
    unfold ComputePageRankScores
    dsimp only
    rw [hg]
    rfl

theorem C10_zero_edges_uniform_witness :
    mapGet (ComputePageRankScores ratOps nullEngine (some threeNodes)).1
        "https://example.com/a".toList
      = some (ratOps.div ratOps.one (ratOps.ofInt 3)) ∧
    (ComputePageRankScores ratOps nullEngine (some threeNodes)).2 =
      ["https://example.com/a".toList, "https://example.com/b".toList,
       "https://example.com/c".toList] := by
  have h := (C10_zero_edges_uniform ratOps nullEngine).1 threeNodes (by decide) (by decide)
    (by decide)
  refine ⟨?_, ?_⟩
  · rw [h.1]
    rfl
  · rw [h.2.1]
    decide

/-! ## package sort: `SliceStable` rearranges the slice -/

theorem set_perm_cons {α : Type} (l : List α) (i : Nat) (x : α) (h : i < l.length) :
    (l.set i x).Perm (x :: (l.take i ++ l.drop (i + 1))) := by
  rw [List.set_eq_take_cons_drop x h]
  exact List.perm_middle

theorem get?_set_same {α : Type} (l : List α) (i : Nat) (a : α) (h : i < l.length) :
    (l.set i a).get? i = some a := by
  simp [List.get?_eq_getElem?, h]

theorem get?_set_other {α : Type} (l : List α) (i j : Nat) (a : α) (h : i ≠ j) :
    (l.set i a).get? j = l.get? j := by
  simp [List.get?_eq_getElem?, List.getElem?_set_ne h]

theorem self_perm_cons {α : Type} (l : List α) (i : Nat) (a : α) (h : l.get? i = some a) :
    l.Perm (a :: (l.take i ++ l.drop (i + 1))) := by
  have hi : i < l.length := by
    by_contra hc
    rw [List.get?_eq_none.mpr (by omega)] at h
    exact absurd h (by simp)
  have hs : l.set i a = l := by
    apply List.ext_get?
    intro n
    by_cases hn : i = n
    · subst hn
      rw [get?_set_same l i a hi, h]
    · rw [get?_set_other l i n a hn]
  have := set_perm_cons l i a hi
  rwa [hs] at this

/-- The call `data.Swap(i, j)` rearranges the slice. -/
theorem goSwap_perm {α : Type} (l : List α) (i j : Nat) : (goSwap l i j).Perm l := by
  unfold goSwap
  cases hi : l.get? i with
  | none => exact List.Perm.refl _
  | some a =>
    cases hj : l.get? j with
    | none => exact List.Perm.refl _
    | some b =>
      dsimp only
      have hil : i < l.length := by
        by_contra hc
        rw [List.get?_eq_none.mpr (by omega)] at hi
        exact absurd hi (by simp)
      have hjl : j < l.length := by
        by_contra hc
        rw [List.get?_eq_none.mpr (by omega)] at hj
        exact absurd hj (by simp)
      by_cases hij : i = j
      · subst hij
        rw [hi] at hj
        simp only [Option.some.injEq] at hj
        subst hj
        rw [List.set_set]
        have hs : l.set i a = l := by
          apply List.ext_get?
          intro n
          by_cases hn : i = n
          · subst hn
            rw [get?_set_same l i a hil, hi]
          · rw [get?_set_other l i n a hn]
        rw [hs]
      · have hj' : (l.set i b).get? j = some b := by
          rw [get?_set_other l i j b hij, hj]
        have hjl' : j < (l.set i b).length := by simpa using hjl
        have p1 := set_perm_cons (l.set i b) j a hjl'
        have p2 := self_perm_cons (l.set i b) j b hj'
        have p3 := set_perm_cons l i b hil
        have p4 := self_perm_cons l i a hi
        have p5 : ((l.set i b).take j ++ (l.set i b).drop (j + 1)).Perm
            (l.take i ++ l.drop (i + 1)) := (p2.symm.trans p3).cons_inv
        exact (p1.trans (p5.cons a)).trans p4.symm

theorem insertionInner_perm {α : Type} (less : α → α → Bool) (a j : Nat) (l : List α) :
    (insertionInner less a j l).Perm l := by
  induction j generalizing l with
  | zero => exact List.Perm.refl _
  | succ j ih =>
    unfold insertionInner
    split_ifs
    · exact (ih _).trans (goSwap_perm _ _ _)
    · exact List.Perm.refl _

theorem insertionOuter_perm {α : Type} (less : α → α → Bool) (a b fuel i : Nat) (l : List α) :
    (insertionOuter less a b fuel i l).Perm l := by
  induction fuel generalizing i l with
  | zero => exact List.Perm.refl _
  | succ fuel ih =>
    unfold insertionOuter
    split_ifs
    · exact (ih _ _).trans (insertionInner_perm _ _ _ _)
    · exact List.Perm.refl _

theorem insertionSortFunc_perm {α : Type} (less : α → α → Bool) (l : List α) (a b : Nat) :
    (insertionSortFunc less l a b).Perm l :=
  insertionOuter_perm _ _ _ _ _ _

theorem swapForward_perm {α : Type} (bound fuel k : Nat) (l : List α) :
    (swapForward bound fuel k l).Perm l := by
  induction fuel generalizing k l with
  | zero => exact List.Perm.refl _
  | succ fuel ih =>
    unfold swapForward
    split_ifs
    · exact (ih _ _).trans (goSwap_perm _ _ _)
    · exact List.Perm.refl _

theorem swapBackward_perm {α : Type} (i k : Nat) (l : List α) :
    (swapBackward i k l).Perm l := by
  induction k generalizing l with
  | zero => exact List.Perm.refl _
  | succ k ih =>
    unfold swapBackward
    split_ifs
    · exact (ih _).trans (goSwap_perm _ _ _)
    · exact List.Perm.refl _

theorem swapRangeFrom_perm {α : Type} (a b n fuel i : Nat) (l : List α) :
    (swapRangeFrom a b n fuel i l).Perm l := by
  induction fuel generalizing i l with
  | zero => exact List.Perm.refl _
  | succ fuel ih =>
    unfold swapRangeFrom
    split_ifs
    · exact (ih _ _).trans (goSwap_perm _ _ _)
    · exact List.Perm.refl _

theorem swapRangeFunc_perm {α : Type} (l : List α) (a b n : Nat) :
    (swapRangeFunc l a b n).Perm l :=
  swapRangeFrom_perm _ _ _ _ _ _

theorem rotateLoop_perm {α : Type} (m fuel i j : Nat) (l : List α) :
    (rotateLoop m fuel i j l).Perm l := by
  induction fuel generalizing i j l with
  | zero => exact swapRangeFunc_perm _ _ _ _
  | succ fuel ih =>
    unfold rotateLoop
    split_ifs
    · exact (ih _ _ _).trans (swapRangeFunc_perm _ _ _ _)
    · exact (ih _ _ _).trans (swapRangeFunc_perm _ _ _ _)
    · exact swapRangeFunc_perm _ _ _ _

theorem rotateFunc_perm {α : Type} (l : List α) (a m b : Nat) : (rotateFunc l a m b).Perm l :=
  rotateLoop_perm _ _ _ _ _

theorem symMergeFunc_perm {α : Type} (less : α → α → Bool) (fuel : Nat) (l : List α)
    (a m b : Nat) : (symMergeFunc less fuel l a m b).Perm l := by
  induction fuel generalizing l a m b with
  | zero => exact List.Perm.refl _
  | succ fuel ih =>
    unfold symMergeFunc
    split_ifs
    · exact swapForward_perm _ _ _ _
    · exact swapBackward_perm _ _ _
    · dsimp only
      have h1 : ∀ (c : Prop) [Decidable c] (x : List α) (s e : Nat),
          (if c then rotateFunc x s m e else x).Perm x := by
        intro c _ x s e
        split_ifs
        · exact rotateFunc_perm _ _ _ _
        · exact List.Perm.refl _
      have h2 : ∀ (c : Prop) [Decidable c] (x : List α) (p q r : Nat),
          (if c then symMergeFunc less fuel x p q r else x).Perm x := by
        intro c _ x p q r
        split_ifs
        · exact ih _ _ _ _
        · exact List.Perm.refl _
      exact (h2 _ _ _ _ _).trans ((h2 _ _ _ _ _).trans (h1 _ _ _ _))

theorem stableBlocks_perm {α : Type} (less : α → α → Bool) (blockSize n fuel a : Nat)
    (l : List α) : (stableBlocks less blockSize n fuel a l).Perm l := by
  induction fuel generalizing a l with
  | zero => exact insertionSortFunc_perm _ _ _ _
  | succ fuel ih =>
    unfold stableBlocks
    split_ifs
    · exact (ih _ _).trans (insertionSortFunc_perm _ _ _ _)
    · exact insertionSortFunc_perm _ _ _ _

theorem stablePass_perm {α : Type} (less : α → α → Bool) (blockSize n fuel a : Nat)
    (l : List α) : (stablePass less blockSize n fuel a l).Perm l := by
  induction fuel generalizing a l with
  | zero => exact List.Perm.refl _
  | succ fuel ih =>
    unfold stablePass
    split_ifs
    · exact (ih _ _).trans (symMergeFunc_perm _ _ _ _ _ _)
    · exact symMergeFunc_perm _ _ _ _ _ _
    · exact List.Perm.refl _

theorem stablePasses_perm {α : Type} (less : α → α → Bool) (n fuel blockSize : Nat)
    (l : List α) : (stablePasses less n fuel blockSize l).Perm l := by
  induction fuel generalizing blockSize l with
  | zero => exact List.Perm.refl _
  | succ fuel ih =>
    unfold stablePasses
    split_ifs
    · exact (ih _ _).trans (stablePass_perm _ _ _ _ _ _)
    · exact List.Perm.refl _

/-- The slice sorted by `sort.SliceStable` holds the elements it held before, whatever the
comparison function. -/
theorem SliceStable_perm {α : Type} (less : α → α → Bool) (l : List α) :
    (SliceStable less l).Perm l :=
  (stablePasses_perm _ _ _ _ _).trans (stableBlocks_perm _ _ _ _ _ _)

/-! ## crawl.go: the invariant of the loop -/

theorem mem_setInsert {set : List Str} {key x : Str} :
    x ∈ setInsert set key ↔ x ∈ set ∨ x = key := by
  unfold setInsert
  split_ifs with h
  · constructor
    · exact Or.inl
    · rintro (h1 | h1)
      · exact h1
      · exact h1 ▸ h
  · simp

theorem InvCore.pop {F : Type} {cfg : Config} {v : Int} {cur : queueItem}
    {tail : List queueItem} {enq proc : List Str} {pages : List (Page F)}
    (h : InvCore cfg v (cur :: tail) enq proc pages) :
    InvCore cfg v tail enq proc pages ∧ cur.URL ∉ proc ∧ cur.URL ∈ enq ∧
      cur.URL ∉ tail.map queueItem.URL ∧ cur.URL ∉ pages.map Page.URL ∧
      (cfg.Strategy = StrategyDepth → cur.Depth ≤ cfg.MaxDepth) := by
  have hnd := h.queue_nodup
  rw [List.map_cons, List.nodup_cons] at hnd
  refine ⟨⟨h.visited_le, hnd.2, fun q hq => h.queue_enqueued q (List.mem_cons_of_mem _ hq),
    fun q hq => h.queue_fresh q (List.mem_cons_of_mem _ hq), h.processed_enqueued,
    h.pages_processed, h.pages_nodup,
    fun hs q hq => h.queue_depth hs q (List.mem_cons_of_mem _ hq), h.pages_depth⟩,
    h.queue_fresh cur (List.mem_cons_self _ _), h.queue_enqueued cur (List.mem_cons_self _ _),
    hnd.1, ?_, fun hs => h.queue_depth hs cur (List.mem_cons_self _ _)⟩
  intro hm
  obtain ⟨p, hp, he⟩ := List.mem_map.mp hm
  exact h.queue_fresh cur (List.mem_cons_self _ _) (he ▸ h.pages_processed p hp)

theorem InvCore.process {F : Type} {cfg : Config} {v : Int} {tail : List queueItem}
    {enq proc : List Str} {pages : List (Page F)} (url : Str)
    (h : InvCore cfg v tail enq proc pages) (h2 : url ∈ enq)
    (h3 : url ∉ tail.map queueItem.URL) :
    InvCore cfg v tail enq (setInsert proc url) pages := by
  refine ⟨h.visited_le, h.queue_nodup, h.queue_enqueued, ?_, ?_, ?_, h.pages_nodup,
    h.queue_depth, h.pages_depth⟩
  · intro q hq hm
    rcases mem_setInsert.mp hm with hm | hm
    · exact h.queue_fresh q hq hm
    · exact h3 (hm ▸ List.mem_map.mpr ⟨q, hq, rfl⟩)
  · intro u hu
    rcases mem_setInsert.mp hu with hu | hu
    · exact h.processed_enqueued u hu
    · exact hu ▸ h2
  · intro p hp
    exact mem_setInsert.mpr (Or.inl (h.pages_processed p hp))

theorem InvCore.addPage {F : Type} {cfg : Config} {v : Int} {queue : List queueItem}
    {enq proc : List Str} {pages : List (Page F)} (v' : Int) (page : Page F)
    (h : InvCore cfg v queue enq proc pages) (hv : v' ≤ cfg.MaxPages)
    (h1 : page.URL ∈ proc) (h2 : page.URL ∉ pages.map Page.URL)
    (h3 : cfg.Strategy = StrategyDepth → page.Depth ≤ cfg.MaxDepth) :
    InvCore cfg v' queue enq proc (pages ++ [page]) := by
  refine ⟨hv, h.queue_nodup, h.queue_enqueued, h.queue_fresh, h.processed_enqueued, ?_, ?_,
    h.queue_depth, ?_⟩
  · intro p hp
    rcases List.mem_append.mp hp with hp | hp
    · exact h.pages_processed p hp
    · rw [List.mem_singleton.mp hp]; exact h1
  · rw [List.map_append, List.map_singleton]
    refine List.Nodup.append h.pages_nodup (List.nodup_singleton _) ?_
    intro x hx hx'
    rw [List.mem_singleton.mp hx'] at hx
    exact h2 hx
  · intro hs p hp
    rcases List.mem_append.mp hp with hp | hp
    · exact h.pages_depth hs p hp
    · rw [List.mem_singleton.mp hp]; exact h3 hs

theorem InvCore.enqueueLink {F : Type} {cfg : Config} {v : Int} {queue : List queueItem}
    {enq proc : List Str} {pages : List (Page F)} (depth : Int) (nextURL : Str)
    (h : InvCore cfg v queue enq proc pages) :
    InvCore cfg v (enqueueLink cfg depth (queue, enq) nextURL).1
      (enqueueLink cfg depth (queue, enq) nextURL).2 proc pages := by
  unfold Sitecrawl.enqueueLink
  dsimp only
  split_ifs with h1 h2
  · exact h
  · exact h
  · refine ⟨h.visited_le, ?_, ?_, ?_, ?_, h.pages_processed, h.pages_nodup, ?_, h.pages_depth⟩
    · rw [List.map_append, List.map_singleton]
      refine List.Nodup.append h.queue_nodup (List.nodup_singleton _) ?_
      intro x hx hx'
      rw [List.mem_singleton.mp hx'] at hx
      obtain ⟨q, hq, he⟩ := List.mem_map.mp hx
      have he' : q.URL = nextURL := he
      exact h1 (he' ▸ h.queue_enqueued q hq)
    · intro q hq
      rcases List.mem_append.mp hq with hq | hq
      · exact mem_setInsert.mpr (Or.inl (h.queue_enqueued q hq))
      · rw [List.mem_singleton.mp hq]
        exact mem_setInsert.mpr (Or.inr rfl)
    · intro q hq hm
      rcases List.mem_append.mp hq with hq | hq
      · exact h.queue_fresh q hq hm
      · rw [List.mem_singleton.mp hq] at hm
        exact h1 (h.processed_enqueued _ hm)
    · intro u hu
      exact mem_setInsert.mpr (Or.inl (h.processed_enqueued u hu))
    · intro hs q hq
      rcases List.mem_append.mp hq with hq | hq
      · exact h.queue_depth hs q hq
      · rw [List.mem_singleton.mp hq]
        show depth + 1 ≤ cfg.MaxDepth
        by_contra hc
        exact h2 ⟨hs, by omega⟩

theorem InvCore.enqueueLinks {F : Type} {cfg : Config} {v : Int} (depth : Int)
    (links : List Str) {proc : List Str} {pages : List (Page F)}
    (acc : List queueItem × List Str) (h : InvCore cfg v acc.1 acc.2 proc pages) :
    InvCore cfg v (links.foldl (Sitecrawl.enqueueLink cfg depth) acc).1
      (links.foldl (Sitecrawl.enqueueLink cfg depth) acc).2 proc pages := by
  induction links generalizing acc with
  | nil => exact h
  | cons l ls ih =>
    rw [List.foldl_cons]
    exact ih _ (InvCore.enqueueLink depth l h)

theorem classifyLink_visited (L : Lib) (scope : Scope) (clean : Bool) (nf : Str)
    (acc : List Str × List Str × Totals) (href : Str) :
    (classifyLink L scope clean nf acc href).2.2.Visited = acc.2.2.Visited ∧
    (classifyLink L scope clean nf acc href).2.2.Errors = acc.2.2.Errors := by
  unfold classifyLink
  split
  · exact ⟨rfl, rfl⟩
  · split
    · exact ⟨rfl, rfl⟩
    · split
      · split_ifs <;> exact ⟨rfl, rfl⟩
      · exact ⟨rfl, rfl⟩
      · exact ⟨rfl, rfl⟩

theorem classifyLinks_visited (L : Lib) (scope : Scope) (clean : Bool) (nf : Str)
    (links : List Str) (acc : List Str × List Str × Totals) :
    (links.foldl (classifyLink L scope clean nf) acc).2.2.Visited = acc.2.2.Visited ∧
    (links.foldl (classifyLink L scope clean nf) acc).2.2.Errors = acc.2.2.Errors := by
  induction links generalizing acc with
  | nil => exact ⟨rfl, rfl⟩
  | cons l ls ih =>
    rw [List.foldl_cons]
    have h1 := ih (classifyLink L scope clean nf acc l)
    have h2 := classifyLink_visited L scope clean nf acc l
    exact ⟨h1.1.trans h2.1, h1.2.trans h2.2⟩

theorem afterFetch_inv {F : Type} (L : Lib) (cfg : Config) (scope : Scope) (s : CrawlState F)
    (current : queueItem) (fetched : fetchedPage) (h : CrawlInv cfg s)
    (hv : s.result.Totals.Visited < cfg.MaxPages)
    (h1 : current.URL ∈ s.processed) (h2 : current.URL ∉ s.result.Pages.map Page.URL)
    (h3 : cfg.Strategy = StrategyDepth → current.Depth ≤ cfg.MaxDepth) :
    CrawlInv cfg (afterFetch L cfg scope s current fetched) := by
  unfold afterFetch
  dsimp only
  split_ifs with hs
  · exact InvCore.addPage _ _ h (le_of_lt hv) h1 h2 h3
  · have hvis := (classifyLinks_visited L scope cfg.Clean
      ((NormalizeURL L fetched.FinalURL cfg.Clean).getD current.URL) fetched.Links
      ([], [], s.result.Totals)).1
    refine InvCore.addPage _ _ (InvCore.enqueueLinks current.Depth _ (s.queue, s.enqueued) h)
      ?_ h1 h2 h3
    show (List.foldl (classifyLink L scope cfg.Clean
      ((NormalizeURL L fetched.FinalURL cfg.Clean).getD current.URL))
      ([], [], s.result.Totals) fetched.Links).2.2.Visited + 1 ≤ cfg.MaxPages
    rw [hvis]
    show s.result.Totals.Visited + 1 ≤ cfg.MaxPages
    omega

theorem loopRunning_visited {F : Type} (cfg : Config) (s : CrawlState F)
    (h : loopRunning cfg s = true) : s.result.Totals.Visited < cfg.MaxPages := by
  unfold loopRunning at h
  simp only [Bool.and_eq_true, decide_eq_true_eq] at h
  exact h.1.2

/-- One round of the loop of `Crawl` keeps the invariant. -/
theorem crawlStep_inv {F : Type} (L : Lib) (cfg : Config) (scope : Scope) (s : CrawlState F)
    (r : Response) (h : CrawlInv cfg s) (hrun : loopRunning cfg s = true) :
    CrawlInv cfg (crawlStep L cfg scope s r) := by
  have hv := loopRunning_visited cfg s hrun
  unfold crawlStep
  split
  · exact h
  · split
    · exact h
    · rename_i current queue hq
      have h' : InvCore cfg s.result.Totals.Visited (current :: queue) s.enqueued s.processed
          s.result.Pages := by
        have := h
        unfold CrawlInv at this
        rwa [hq] at this
      obtain ⟨hpop, hfresh, henq, hnq, hnp, hdepth⟩ := h'.pop
      have hproc := InvCore.process current.URL hpop henq hnq
      have hin : current.URL ∈ setInsert s.processed current.URL :=
        mem_setInsert.mpr (Or.inr rfl)
      dsimp only
      split
      · exact hpop
      · split
        · exact hproc
        · split
          · exact InvCore.addPage _ _ hproc (le_of_lt hv) hin hnp hdepth
          · split
            · exact afterFetch_inv L cfg scope _ current _ hproc hv hin hnp hdepth
            · split
              · exact hproc
              · split
                · exact InvCore.addPage _ _ hproc
                    (by show s.result.Totals.Visited + 1 ≤ _; omega) hin hnp hdepth
                · exact afterFetch_inv L cfg scope _ current _ hproc hv hin hnp hdepth

/-- Every state the loop of `Crawl` reaches from a state with the invariant has it. -/
theorem runLoop_inv {F : Type} (L : Lib) (cfg : Config) (scope : Scope) (rs : List Response)
    (s : CrawlState F) (h : CrawlInv cfg s) : CrawlInv cfg (runLoop L cfg scope rs s) := by
  induction rs generalizing s with
  | nil => exact h
  | cons r rs ih =>
    unfold runLoop
    split_ifs with hrun
    · exact ih _ (crawlStep_inv L cfg scope s r h hrun)
    · exact h

theorem effectiveConfig_bounds (cfg : Config) :
    1 ≤ (effectiveConfig cfg).MaxPages ∧ 0 ≤ (effectiveConfig cfg).MaxDepth ∧
      (effectiveConfig cfg).MaxPages = (if cfg.MaxPages ≤ 0 then 25 else cfg.MaxPages) ∧
      (effectiveConfig cfg).Strategy = cfg.Strategy := by
  unfold effectiveConfig
  dsimp only
  refine ⟨?_, ?_, rfl, rfl⟩
  · split_ifs <;> omega
  · split_ifs <;> omega

/-- The state in which `Crawl` enters its loop has the invariant. -/
theorem initialState_inv {F : Type} (cfg : Config) (scope : Scope) (startURL : Str)
    (startFetch : fetchedPage) (navs : List Str) (h1 : 0 ≤ cfg.MaxPages)
    (h2 : 0 ≤ cfg.MaxDepth) :
    CrawlInv cfg (initialState cfg scope startURL startFetch navs : CrawlState F) := by
  unfold CrawlInv initialState
  dsimp only
  refine ⟨h1, by simp, by simp, by simp, by simp, by simp, by simp, ?_, by simp⟩
  intro _ q hq
  rw [List.mem_singleton.mp hq]
  exact h2

/-! ## crawl.go: the returned result -/

theorem attachScore_fields {F : Type} (ops : Float64Ops F) (scores : List (Str × F))
    (page : Page F) :
    (attachScore ops scores page).URL = page.URL ∧
      (attachScore ops scores page).Depth = page.Depth ∧
      (attachScore ops scores page).Status = page.Status := by
  unfold attachScore
  split_ifs <;> exact ⟨rfl, rfl, rfl⟩

/-- `ApplyPageRankScores` rearranges the pages and leaves URL, depth and status of every
page, the totals and the configuration snapshot as they are. -/
theorem ApplyPageRankScores_frame {F : Type} (ops : Float64Ops F) (engine : RankEngine F)
    (result : CrawlResult F) (g : Option LinkGraph) :
    (ApplyPageRankScores ops engine result g).Totals = result.Totals ∧
    (ApplyPageRankScores ops engine result g).MaxPages = result.MaxPages ∧
    ((ApplyPageRankScores ops engine result g).Pages.map
        (fun p => (p.URL, p.Depth, p.Status))).Perm
      (result.Pages.map (fun p => (p.URL, p.Depth, p.Status))) := by
  refine ⟨rfl, rfl, ?_⟩
  unfold ApplyPageRankScores
  dsimp only
  refine ((SliceStable_perm _ _).map _).trans ?_
  rw [List.map_map]
  apply List.Perm.of_eq
  apply List.map_congr_left
  intro p _
  obtain ⟨h1, h2, h3⟩ := attachScore_fields ops
    (ComputePageRankScores ops engine g).1 p
  show ((attachScore _ _ p).URL, (attachScore _ _ p).Depth, (attachScore _ _ p).Status) = _
  rw [h1, h2, h3]

theorem finishCrawl_frame {F : Type} (ops : Float64Ops F) (engine : RankEngine F)
    (cfg : Config) (s : CrawlState F) :
    (finishCrawl ops engine cfg s).Totals = s.result.Totals ∧
    (finishCrawl ops engine cfg s).MaxPages = s.result.MaxPages ∧
    ((finishCrawl ops engine cfg s).Pages.map (fun p => (p.URL, p.Depth, p.Status))).Perm
      (s.result.Pages.map (fun p => (p.URL, p.Depth, p.Status))) := by
  unfold finishCrawl
  split_ifs
  · exact ApplyPageRankScores_frame ops engine s.result (some s.graph)
  · exact ⟨rfl, rfl, List.Perm.refl _⟩

theorem afterFetch_MaxPages {F : Type} (L : Lib) (cfg : Config) (scope : Scope)
    (s : CrawlState F) (current : queueItem) (fetched : fetchedPage) :
    (afterFetch L cfg scope s current fetched).result.MaxPages = s.result.MaxPages := by
  unfold afterFetch
  dsimp only
  split <;> rfl

theorem crawlStep_MaxPages {F : Type} (L : Lib) (cfg : Config) (scope : Scope)
    (s : CrawlState F) (r : Response) :
    (crawlStep L cfg scope s r).result.MaxPages = s.result.MaxPages := by
  unfold crawlStep
  split
  · rfl
  · split
    · rfl
    · dsimp only
      split
      · rfl
      · split
        · rfl
        · split
          · rfl
          · split
            · exact afterFetch_MaxPages _ _ _ _ _ _
            · split
              · rfl
              · split
                · rfl
                · exact afterFetch_MaxPages _ _ _ _ _ _

theorem runLoop_MaxPages {F : Type} (L : Lib) (cfg : Config) (scope : Scope)
    (rs : List Response) (s : CrawlState F) :
    (runLoop L cfg scope rs s).result.MaxPages = s.result.MaxPages := by
  induction rs generalizing s with
  | nil => rfl
  | cons r rs ih =>
    unfold runLoop
    split_ifs
    · rw [ih, crawlStep_MaxPages]
    · rfl

/-- What `Crawl` returns with a non-nil result: either the result without pages (the start
page could not be fetched), or the result of a run of the loop from the initial state. -/
theorem Crawl_result {F : Type} (L : Lib) (ops : Float64Ops F) (engine : RankEngine F)
    (cfg : Config) (w : World) (res : CrawlResult F) (err : Option GoError)
    (h : Crawl L ops engine cfg w = some (some res, err)) :
    ∃ scope startURL startFetch navs, NewScope L cfg.Domain = some scope ∧
      (res = (initialState (effectiveConfig cfg) scope startURL startFetch navs).result ∨
       res = finishCrawl ops engine (effectiveConfig cfg)
          (runLoop L (effectiveConfig cfg) scope w.responses
            (initialState (effectiveConfig cfg) scope startURL startFetch navs))) := by
  unfold Crawl at h
  split at h
  · simp at h
  · rename_i scope hscope
    dsimp only at h
    split at h
    · rename_i startFetch _
      split_ifs at h
      simp only [Option.some.injEq, Prod.mk.injEq] at h
      exact ⟨scope, _, startFetch, _, hscope, Or.inr h.1.symm⟩
    · split_ifs at h
      · split at h
        · simp only [Option.some.injEq, Prod.mk.injEq] at h
          exact ⟨scope, _, _, _, hscope, Or.inl h.1.symm⟩
        · rename_i startFetch _
          split_ifs at h
          simp only [Option.some.injEq, Prod.mk.injEq] at h
          exact ⟨scope, _, startFetch, _, hscope, Or.inr h.1.symm⟩
      · simp only [Option.some.injEq, Prod.mk.injEq] at h
        exact ⟨scope, _, _, _, hscope, Or.inl h.1.symm⟩

theorem runLoop_not_running {F : Type} (L : Lib) (cfg : Config) (scope : Scope)
    (rs : List Response) (s : CrawlState F) (h : loopRunning cfg s = false) :
    runLoop L cfg scope rs s = s := by
  cases rs with
  | nil => rfl
  | cons r rs =>
    unfold runLoop
    rw [h]
    rfl

theorem enqueueLinks_blocked (cfg : Config) (depth : Int) (links : List Str)
    (acc : List queueItem × List Str) (hS : cfg.Strategy = StrategyDepth)
    (hd : depth + 1 > cfg.MaxDepth) :
    links.foldl (enqueueLink cfg depth) acc = acc := by
  induction links generalizing acc with
  | nil => rfl
  | cons l ls ih =>
    rw [List.foldl_cons]
    have : enqueueLink cfg depth acc l = acc := by
      unfold enqueueLink
      split_ifs with h1 h2
      · rfl
      · rfl
      · exact absurd ⟨hS, hd⟩ h2
    rw [this, ih]

theorem afterFetch_queue_blocked {F : Type} (L : Lib) (cfg : Config) (scope : Scope)
    (s : CrawlState F) (current : queueItem) (fetched : fetchedPage)
    (hS : cfg.Strategy = StrategyDepth) (hd : current.Depth + 1 > cfg.MaxDepth) :
    (afterFetch L cfg scope s current fetched).queue = s.queue := by
  unfold afterFetch
  dsimp only
  split
  · rfl
  · show (List.foldl (enqueueLink cfg current.Depth) (s.queue, s.enqueued) _).1 = s.queue
    rw [enqueueLinks_blocked cfg current.Depth _ _ hS hd]

/-- At the depth ceiling a round that is not cancelled takes the current entry off the
queue and enqueues nothing. -/
theorem crawlStep_queue_blocked {F : Type} (L : Lib) (cfg : Config) (scope : Scope)
    (s : CrawlState F) (r : Response) (current : queueItem) (rest : List queueItem)
    (hq : s.queue = current :: rest) (hS : cfg.Strategy = StrategyDepth)
    (hd : current.Depth + 1 > cfg.MaxDepth) (hc : r.cancelled = false) :
    (crawlStep L cfg scope s r).queue = rest := by
  unfold crawlStep
  rw [hc, hq]
  dsimp only
  rw [if_neg (by simp)]
  split
  · rfl
  · split
    · rfl
    · split
      · rfl
      · split
        · exact afterFetch_queue_blocked L cfg scope _ current _ hS hd
        · split
          · rfl
          · split
            · rfl
            · exact afterFetch_queue_blocked L cfg scope _ current _ hS hd

theorem initialState_running {F : Type} (cfg : Config) (scope : Scope) (startURL : Str)
    (startFetch : fetchedPage) (navs : List Str) (h : 1 ≤ cfg.MaxPages) :
    loopRunning cfg (initialState cfg scope startURL startFetch navs : CrawlState F) = true := by
  unfold loopRunning initialState
  simp
  show (0 : Int) < cfg.MaxPages
  omega

/-- The invariant holds in every state the loop of `Crawl` reaches. -/
theorem reachable_inv {F : Type} (L : Lib) (cfg : Config) (scope : Scope) (startURL : Str)
    (startFetch : fetchedPage) (navs : List Str) (rs : List Response) :
    CrawlInv (effectiveConfig cfg)
      (runLoop L (effectiveConfig cfg) scope rs
        (initialState (effectiveConfig cfg) scope startURL startFetch navs : CrawlState F)) := by
  have hb := effectiveConfig_bounds cfg
  exact runLoop_inv L _ scope rs _
    (initialState_inv _ scope startURL startFetch navs (by omega) hb.2.1)

theorem exampleRun_limit :
    Crawl asciiLib ratOps nullEngine (exampleConfig StrategyLimit 0) exampleWorld =
      some (some (finishCrawl ratOps nullEngine (effectiveConfig (exampleConfig StrategyLimit 0))
        (exampleFinal StrategyLimit 0)), none) := by
  have h1 : NewScope asciiLib (exampleConfig StrategyLimit 0).Domain = some exampleScope := by
    decide
  have h2 : loopRunning (effectiveConfig (exampleConfig StrategyLimit 0))
      (exampleFinal StrategyLimit 0) = false := by decide
  unfold Crawl
  rw [h1]
  dsimp only
  unfold exampleFinal exampleInitial at h2
  have h3 : exampleWorld.startHTTPS = .ok exampleStartPage := rfl
  rw [h3]
  dsimp only
  have h4 : "https://".toList ++ exampleScope.BaseDomain ++ "/".toList
      = "https://example.com/".toList := by decide
  rw [h4, h2]
  rfl

/-- C4 (page budget): in every state the loop of `Crawl` reaches, and in every result
`Crawl` returns, `Totals.Visited` is at most the effective page budget, which is the
configured `MaxPages`, or 25 when that is not positive; this for every sequence of answers
of the renderer and of the robots check. -/
theorem C4_page_budget {F : Type} (L : Lib) (ops : Float64Ops F) (engine : RankEngine F)
    (cfg : Config) :
    (∀ (scope : Scope) (startURL : Str) (startFetch : fetchedPage) (navs : List Str)
        (rs : List Response),
      (runLoop L (effectiveConfig cfg) scope rs
        (initialState (effectiveConfig cfg) scope startURL startFetch navs :
          CrawlState F)).result.Totals.Visited ≤ (effectiveConfig cfg).MaxPages) ∧
    (effectiveConfig cfg).MaxPages = (if cfg.MaxPages ≤ 0 then 25 else cfg.MaxPages) ∧
    (∀ (w : World) (res : CrawlResult F) (err : Option GoError),
      Crawl L ops engine cfg w = some (some res, err) →
      res.MaxPages = (if cfg.MaxPages ≤ 0 then 25 else cfg.MaxPages) ∧
      res.Totals.Visited ≤ res.MaxPages) := by
  have hb := effectiveConfig_bounds cfg
  refine ⟨?_, hb.2.2.1, ?_⟩
  · intro scope startURL startFetch navs rs
    exact (reachable_inv L cfg scope startURL startFetch navs rs).visited_le
  · intro w res err h
    obtain ⟨scope, startURL, startFetch, navs, _, hres | hres⟩ :=
      Crawl_result L ops engine cfg w res err h
    · rw [hres]
      refine ⟨hb.2.2.1, ?_⟩
      show (0 : Int) ≤ (effectiveConfig cfg).MaxPages
      omega
    · have hf := finishCrawl_frame ops engine (effectiveConfig cfg)
        (runLoop L (effectiveConfig cfg) scope w.responses
          (initialState (effectiveConfig cfg) scope startURL startFetch navs))
      have hm : res.MaxPages = (effectiveConfig cfg).MaxPages := by
        rw [hres, hf.2.1, runLoop_MaxPages]
        rfl
      refine ⟨hm.trans hb.2.2.1, ?_⟩
      rw [hm, hres, hf.1]
      exact (reachable_inv L cfg scope startURL startFetch navs w.responses).visited_le

theorem C4_page_budget_witness :
    (finishCrawl ratOps nullEngine (effectiveConfig (exampleConfig StrategyLimit 0))
      (exampleFinal StrategyLimit 0)).Totals.Visited ≤ 3 := by
  have h := ((C4_page_budget asciiLib ratOps nullEngine (exampleConfig StrategyLimit 0)).2.2
    exampleWorld _ none exampleRun_limit)
  rw [h.1] at h
  exact h.2

theorem nodup_of_perm_triples {F : Type} (a b : List (Page F))
    (hp : (a.map (fun p => (p.URL, p.Depth, p.Status))).Perm
      (b.map (fun p => (p.URL, p.Depth, p.Status))))
    (hb : (b.map Page.URL).Nodup) : (a.map Page.URL).Nodup := by
  have h1 := hp.map (fun t : Str × Int × Str => t.1)
  rw [List.map_map, List.map_map] at h1
  exact h1.nodup_iff.mpr hb

/-- C5 (dedup): in every state the loop of `Crawl` reaches, the pages recorded have
pairwise different queued URLs, all of them processed, and the queue holds no URL twice
and no URL already processed; in every result `Crawl` returns no two pages, and so no two
pages with status ok or error, have the same queued URL. -/
theorem C5_dedup {F : Type} (L : Lib) (ops : Float64Ops F) (engine : RankEngine F)
    (cfg : Config) :
    (∀ (scope : Scope) (startURL : Str) (startFetch : fetchedPage) (navs : List Str)
        (rs : List Response)
        (s : CrawlState F),
      s = runLoop L (effectiveConfig cfg) scope rs
        (initialState (effectiveConfig cfg) scope startURL startFetch navs) →
      (s.result.Pages.map Page.URL).Nodup ∧
      (∀ p ∈ s.result.Pages, p.URL ∈ s.processed) ∧
      (s.queue.map queueItem.URL).Nodup ∧
      (∀ q ∈ s.queue, q.URL ∈ s.enqueued ∧ q.URL ∉ s.processed)) ∧
    (∀ (w : World) (res : CrawlResult F) (err : Option GoError),
      Crawl L ops engine cfg w = some (some res, err) →
      (res.Pages.map Page.URL).Nodup ∧
      ((res.Pages.filter (fun p => p.Status = StatusOK ∨ p.Status = StatusError)).map
        Page.URL).Nodup) := by
  constructor
  · intro scope startURL startFetch navs rs s hs
    have h := reachable_inv (F := F) L cfg scope startURL startFetch navs rs
    rw [← hs] at h
    exact ⟨h.pages_nodup, h.pages_processed, h.queue_nodup,
      fun q hq => ⟨h.queue_enqueued q hq, h.queue_fresh q hq⟩⟩
  · intro w res err h
    have hnd : (res.Pages.map Page.URL).Nodup := by
      obtain ⟨scope, startURL, startFetch, navs, _, hres | hres⟩ :=
        Crawl_result L ops engine cfg w res err h
      · rw [hres]
        exact List.nodup_nil
      · rw [hres]
        exact nodup_of_perm_triples _ _ (finishCrawl_frame ops engine _ _).2.2
          (reachable_inv L cfg scope startURL startFetch navs w.responses).pages_nodup
    exact ⟨hnd, hnd.sublist ((List.filter_sublist _).map _)⟩

theorem C5_dedup_witness :
    ((finishCrawl ratOps nullEngine (effectiveConfig (exampleConfig StrategyLimit 0))
      (exampleFinal StrategyLimit 0)).Pages.map Page.URL).Nodup :=
  ((C5_dedup asciiLib ratOps nullEngine (exampleConfig StrategyLimit 0)).2
    exampleWorld _ none exampleRun_limit).1

theorem exampleRun_depth :
    Crawl asciiLib ratOps nullEngine (exampleConfig StrategyDepth 0) exampleWorld =
      some (some (finishCrawl ratOps nullEngine (effectiveConfig (exampleConfig StrategyDepth 0))
        (exampleFinal StrategyDepth 0)), none) := by
  have h1 : NewScope asciiLib (exampleConfig StrategyDepth 0).Domain = some exampleScope := by
    decide
  have h2 : loopRunning (effectiveConfig (exampleConfig StrategyDepth 0))
      (exampleFinal StrategyDepth 0) = false := by decide
  unfold Crawl
  rw [h1]
  dsimp only
  unfold exampleFinal exampleInitial at h2
  have h3 : exampleWorld.startHTTPS = .ok exampleStartPage := rfl
  rw [h3]
  dsimp only
  have h4 : "https://".toList ++ exampleScope.BaseDomain ++ "/".toList
      = "https://example.com/".toList := by decide
  rw [h4, h2]
  rfl

/-- C9 (depth strategy boundary): under the depth strategy, with d the effective maximum
depth (the configured one, or 0 when that is negative), no entry of the queue and no page
recorded has a depth above d in any state the loop reaches, nor has a page of a returned
result; when d is 0 a first round that is not cancelled leaves the queue empty, whatever
links the seed page holds, and the queue stays empty. -/
theorem C9_depth_boundary {F : Type} (L : Lib) (ops : Float64Ops F) (engine : RankEngine F)
    (cfg : Config) (hS : cfg.Strategy = StrategyDepth) :
    (effectiveConfig cfg).MaxDepth = (if cfg.MaxDepth < 0 then 0 else cfg.MaxDepth) ∧
    (∀ (scope : Scope) (startURL : Str) (startFetch : fetchedPage) (navs : List Str)
        (rs : List Response)
        (s : CrawlState F),
      s = runLoop L (effectiveConfig cfg) scope rs
        (initialState (effectiveConfig cfg) scope startURL startFetch navs) →
      (∀ q ∈ s.queue, q.Depth ≤ (effectiveConfig cfg).MaxDepth) ∧
      (∀ p ∈ s.result.Pages, p.Depth ≤ (effectiveConfig cfg).MaxDepth)) ∧
    (∀ (w : World) (res : CrawlResult F) (err : Option GoError),
      Crawl L ops engine cfg w = some (some res, err) →
      ∀ p ∈ res.Pages, p.Depth ≤ (effectiveConfig cfg).MaxDepth) ∧
    ((effectiveConfig cfg).MaxDepth = 0 →
      ∀ (scope : Scope) (startURL : Str) (startFetch : fetchedPage) (navs : List Str)
        (r : Response) (rs : List Response), r.cancelled = false →
      (runLoop L (effectiveConfig cfg) scope (r :: rs)
        (initialState (effectiveConfig cfg) scope startURL startFetch navs :
          CrawlState F)).queue = []) := by
  have hb := effectiveConfig_bounds cfg
  have hS' : (effectiveConfig cfg).Strategy = StrategyDepth := hb.2.2.2.trans hS
  refine ⟨rfl, ?_, ?_, ?_⟩
  · intro scope startURL startFetch navs rs s hs
    have h := reachable_inv (F := F) L cfg scope startURL startFetch navs rs
    rw [← hs] at h
    exact ⟨h.queue_depth hS', h.pages_depth hS'⟩
  · intro w res err h p hp
    obtain ⟨scope, startURL, startFetch, navs, _, hres | hres⟩ :=
      Crawl_result L ops engine cfg w res err h
    · rw [hres] at hp
      exact absurd hp (List.not_mem_nil _)
    · have hperm := (finishCrawl_frame ops engine (effectiveConfig cfg)
        (runLoop L (effectiveConfig cfg) scope w.responses
          (initialState (effectiveConfig cfg) scope startURL startFetch navs))).2.2
      rw [← hres] at hperm
      have hm : (p.URL, p.Depth, p.Status) ∈
          res.Pages.map (fun p => (p.URL, p.Depth, p.Status)) :=
        List.mem_map.mpr ⟨p, hp, rfl⟩
      obtain ⟨p', hp', he⟩ := List.mem_map.mp (hperm.mem_iff.mp hm)
      have hd : p'.Depth = p.Depth := by
        have := congrArg (fun t : Str × Int × Str => t.2.1) he
        exact this
      rw [← hd]
      exact (reachable_inv L cfg scope startURL startFetch navs w.responses).pages_depth
        hS' p' hp'
  · intro h0 scope startURL startFetch navs r rs hc
    have hrun := initialState_running (F := F) (effectiveConfig cfg) scope startURL startFetch
      navs hb.1
    have hq := crawlStep_queue_blocked (F := F) L (effectiveConfig cfg) scope
      (initialState (effectiveConfig cfg) scope startURL startFetch navs) r
      { URL := startURL, Depth := 0 } [] rfl hS' (by rw [h0]; show (0 : Int) + 1 > 0; omega) hc
    unfold runLoop
    rw [hrun, if_pos rfl, runLoop_not_running]
    · exact hq
    · unfold loopRunning
      rw [hq]
      rfl

theorem C9_depth_boundary_witness :
    (exampleConfig StrategyDepth 0).Strategy = StrategyDepth ∧
    (runLoop asciiLib (effectiveConfig (exampleConfig StrategyDepth 0)) exampleScope
      exampleWorld.responses (exampleInitial StrategyDepth 0)).queue = [] :=
  ⟨rfl, (C9_depth_boundary asciiLib ratOps nullEngine (exampleConfig StrategyDepth 0) rfl).2.2.2
    rfl exampleScope "https://example.com/".toList exampleStartPage
    ["https://example.com/".toList] exampleResponse [exampleResponse, exampleResponse] rfl⟩

/-! ## pagerank_adapter.go: attaching the scores -/

theorem forall₂_map_right {α β : Type} (f : α → β) (R : α → β → Prop) (l : List α)
    (h : ∀ a ∈ l, R a (f a)) : List.Forall₂ R l (l.map f) := by
  induction l with
  | nil => exact List.Forall₂.nil
  | cons a l ih =>
    exact List.Forall₂.cons (h a (List.mem_cons_self _ _))
      (ih (fun b hb => h b (List.mem_cons_of_mem _ hb)))

/-- C13 (score application): the pages of the result after `ApplyPageRankScores` are a
rearrangement of a list that matches the pages before one by one, each page unchanged in
every field but `Score`; the score of a page with status ok is the entry of the computed
score map at its `FinalURL`, or at its `URL` when `FinalURL` is empty (zero when the map
has no such entry, as a Go map yields), and the score of a page with another status is left
as it was.  The other fields of the result keep their values, except the name of the
ranking implementation, which is set. -/
theorem C13_score_application {F : Type} (ops : Float64Ops F) (engine : RankEngine F)
    (result : CrawlResult F) (g : Option LinkGraph) :
    (∃ scored : List (Page F),
      (ApplyPageRankScores ops engine result g).Pages.Perm scored ∧
      List.Forall₂ (fun (p q : Page F) =>
          q = { p with Score := q.Score } ∧
          (p.Status = StatusOK →
            q.Score = some ((mapGet (ComputePageRankScores ops engine g).1
              (if p.FinalURL = [] then p.URL else p.FinalURL)).getD ops.zero)) ∧
          (p.Status ≠ StatusOK → q.Score = p.Score))
        result.Pages scored) ∧
    ApplyPageRankScores ops engine result g =
      { result with PageRankImplementation := PageRankImplementation,
                    Pages := (ApplyPageRankScores ops engine result g).Pages } := by
  refine ⟨⟨result.Pages.map (attachScore ops (ComputePageRankScores ops engine g).1), ?_, ?_⟩,
    rfl⟩
  · unfold ApplyPageRankScores
    exact SliceStable_perm _ _
  · apply forall₂_map_right
    intro p _
    unfold attachScore pageKey
    by_cases hs : p.Status = StatusOK
    · rw [if_neg (not_not.mpr hs)]
      exact ⟨rfl, fun _ => rfl, fun h => absurd hs h⟩
    · rw [if_pos hs]
      exact ⟨rfl, fun h => absurd h hs, fun _ => rfl⟩

/-! ## robots.go -/

theorem IsAllowedHost_of_normalized (L : Lib) (s : Scope) (h h' n : Str)
    (hn : normalizeHost L h = some n) (hn' : normalizeHost L h' = some n) :
    s.IsAllowedHost L h' = s.IsAllowedHost L h := by
  unfold Scope.IsAllowedHost
  rw [hn, hn']

theorem getOrLoad_scope {G : Type} (L : Lib) (env : RobotsEnv G) (rc : robotsCache G)
    (host : Str) :
    (rc.getOrLoad L env host).2.2.1.scope = rc.scope ∧
    (rc.getOrLoad L env host).2.2.1.userAgent = rc.userAgent := by
  unfold robotsCache.getOrLoad
  split
  · exact ⟨rfl, rfl⟩
  · dsimp only
    split <;> exact ⟨rfl, rfl⟩

/-- An entry that is loaded stays as it is through a call of `getOrLoad`, whatever the host
of the call. -/
theorem getOrLoad_keeps_loaded {G : Type} (L : Lib) (env : RobotsEnv G) (rc : robotsCache G)
    (host n : Str) (entry : robotsEntry G) (he : mapGet rc.entries n = some entry)
    (hl : entry.loaded = true) :
    mapGet (rc.getOrLoad L env host).2.2.1.entries n = some entry := by
  unfold robotsCache.getOrLoad
  split
  · exact he
  · rename_i normalizedHost _
    dsimp only
    split
    · exact he
    · rename_i hc
      show mapGet (mapSet rc.entries normalizedHost _) n = some entry
      rw [mapGet_mapSet]
      by_cases hk : normalizedHost = n
      · subst hk
        rw [he] at hc
        simp only [hl, if_true] at hc
        exact absurd hc (by simp)
      · rw [if_neg hk]
        exact he

/-- The cache after a call of `Allowed` is the cache before it, or the cache `getOrLoad`
leaves for some host. -/
theorem Allowed_cache {G : Type} (L : Lib) (env : RobotsEnv G) (rc : robotsCache G)
    (rawURL : Str) :
    (rc.Allowed L env rawURL).cache = rc ∨
      ∃ host, (rc.Allowed L env rawURL).cache = (rc.getOrLoad L env host).2.2.1 := by
  unfold robotsCache.Allowed
  cases Parse rawURL with
  | none => exact Or.inl rfl
  | some parsed =>
    dsimp only
    cases rc.scope.IsAllowedHost L parsed.Hostname with
    | false => exact Or.inl rfl
    | true =>
      refine Or.inr ⟨parsed.Hostname, ?_⟩
      simp only [Bool.not_true, Bool.false_eq_true, if_false]
      split
      · rfl
      · split <;> rfl

theorem Allowed_scope {G : Type} (L : Lib) (env : RobotsEnv G) (rc : robotsCache G)
    (rawURL : Str) :
    (rc.Allowed L env rawURL).cache.scope = rc.scope ∧
    (rc.Allowed L env rawURL).cache.userAgent = rc.userAgent := by
  rcases Allowed_cache L env rc rawURL with h | ⟨host, h⟩
  · rw [h]
    exact ⟨rfl, rfl⟩
  · rw [h]
    exact getOrLoad_scope L env rc host

theorem Allowed_keeps_loaded {G : Type} (L : Lib) (env : RobotsEnv G) (rc : robotsCache G)
    (rawURL n : Str) (entry : robotsEntry G) (he : mapGet rc.entries n = some entry)
    (hl : entry.loaded = true) :
    mapGet (rc.Allowed L env rawURL).cache.entries n = some entry := by
  rcases Allowed_cache L env rc rawURL with h | ⟨host, h⟩
  · rw [h]
    exact he
  · rw [h]
    exact getOrLoad_keeps_loaded L env rc host n entry he hl

theorem afterCalls_keeps {G : Type} (L : Lib) (calls : List (RobotsEnv G × Str))
    (rc : robotsCache G) (n : Str) (entry : robotsEntry G)
    (he : mapGet rc.entries n = some entry) (hl : entry.loaded = true) :
    (rc.afterCalls L calls).scope = rc.scope ∧
    mapGet (rc.afterCalls L calls).entries n = some entry := by
  induction calls generalizing rc with
  | nil => exact ⟨rfl, he⟩
  | cons c cs ih =>
    unfold robotsCache.afterCalls
    rw [List.foldl_cons]
    have h := ih (rc.Allowed L c.1 c.2).cache (Allowed_keeps_loaded L c.1 rc c.2 n entry he hl)
    unfold robotsCache.afterCalls at h
    exact ⟨h.1.trans (Allowed_scope L c.1 rc c.2).1, h.2⟩

/-- A call of `Allowed` for an allowed host whose entry is loaded with a nil group answers
true without a request and leaves the cache as it is. -/
theorem Allowed_of_nil_group {G : Type} (L : Lib) (env : RobotsEnv G) (rc : robotsCache G)
    (rawURL n : Str) (parsed : URL) (hp : Parse rawURL = some parsed)
    (ha : rc.scope.IsAllowedHost L parsed.Hostname = true)
    (hn : normalizeHost L parsed.Hostname = some n)
    (he : mapGet rc.entries n = some { loaded := true, group := none }) :
    rc.Allowed L env rawURL = { allowed := true, err := none, cache := rc, requests := [] } := by
  have hg : rc.getOrLoad L env parsed.Hostname =
      (some { loaded := true, group := none }, none, rc, []) := by
    unfold robotsCache.getOrLoad
    rw [hn]
    dsimp only
    rw [he]
    rfl
  unfold robotsCache.Allowed
  rw [hp]
  dsimp only
  rw [ha, hg]
  rfl

/-- A call of `Allowed` for an allowed host without a loaded entry, when both requests fail:
the answer is true, with the error of the second request, and the host gets a loaded entry
with a nil group. -/
theorem Allowed_of_failed_load {G : Type} (L : Lib) (env : RobotsEnv G) (rc : robotsCache G)
    (rawURL n : Str) (parsed : URL) (e1 e2 : GoError) (hp : Parse rawURL = some parsed)
    (ha : rc.scope.IsAllowedHost L parsed.Hostname = true)
    (hn : normalizeHost L parsed.Hostname = some n)
    (hfresh : ∀ entry, mapGet rc.entries n = some entry → entry.loaded = false)
    (h1 : env.fetchGroup ("https://".toList ++ n ++ "/robots.txt".toList) rc.userAgent
      = .error e1)
    (h2 : env.fetchGroup ("http://".toList ++ n ++ "/robots.txt".toList) rc.userAgent
      = .error e2) :
    (rc.Allowed L env rawURL).allowed = true ∧
    (rc.Allowed L env rawURL).err = some e2 ∧
    mapGet (rc.Allowed L env rawURL).cache.entries n = some { loaded := true, group := none } := by
  have hload : rc.loadGroup env n =
      (none, some e2, ["https://".toList ++ n ++ "/robots.txt".toList,
        "http://".toList ++ n ++ "/robots.txt".toList]) := by
    unfold robotsCache.loadGroup
    dsimp only
    have a1 : "https".toList ++ "://".toList ++ n ++ "/robots.txt".toList
        = "https://".toList ++ n ++ "/robots.txt".toList := rfl
    have a2 : "http".toList ++ "://".toList ++ n ++ "/robots.txt".toList
        = "http://".toList ++ n ++ "/robots.txt".toList := rfl
    rw [a1, a2, h1]
    dsimp only
    rw [h2]
  have hc : (match mapGet rc.entries n with
      | some entry => if entry.loaded then some entry else none
      | none => none) = none := by
    cases hm : mapGet rc.entries n with
    | none => rfl
    | some entry =>
      dsimp only
      rw [hfresh entry hm]
      rfl
  have hg : rc.getOrLoad L env parsed.Hostname =
      (some { loaded := true, group := none }, some e2,
        { rc with entries := mapSet rc.entries n { loaded := true, group := none } },
        ["https://".toList ++ n ++ "/robots.txt".toList,
          "http://".toList ++ n ++ "/robots.txt".toList]) := by
    unfold robotsCache.getOrLoad
    rw [hn]
    dsimp only
    rw [hc]
    dsimp only
    rw [hload]
  unfold robotsCache.Allowed
  rw [hp]
  dsimp only
  rw [ha, hg]
  refine ⟨rfl, rfl, ?_⟩
  show mapGet (mapSet rc.entries n _) n = _
  rw [mapGet_mapSet, if_pos rfl]

/-- C14 (robots fail-open): for a URL whose host is allowed by the scope and has no loaded
entry in the cache, when the requests for robots.txt over https and over http both fail,
`Allowed` answers true; and after any further calls of `Allowed`, a call for any URL whose
host normalizes to the same name answers true again, whatever the path and the query, with
no error and without any request. -/
theorem C14_robots_fail_open {G : Type} (L : Lib) (env : RobotsEnv G) (rc : robotsCache G)
    (rawURL n : Str) (parsed : URL) (e1 e2 : GoError) (hp : Parse rawURL = some parsed)
    (ha : rc.scope.IsAllowedHost L parsed.Hostname = true)
    (hn : normalizeHost L parsed.Hostname = some n)
    (hfresh : ∀ entry, mapGet rc.entries n = some entry → entry.loaded = false)
    (h1 : env.fetchGroup ("https://".toList ++ n ++ "/robots.txt".toList) rc.userAgent
      = .error e1)
    (h2 : env.fetchGroup ("http://".toList ++ n ++ "/robots.txt".toList) rc.userAgent
      = .error e2) :
    (rc.Allowed L env rawURL).allowed = true ∧
    ∀ (calls : List (RobotsEnv G × Str)) (env' : RobotsEnv G) (rawURL' : Str) (parsed' : URL),
      Parse rawURL' = some parsed' → normalizeHost L parsed'.Hostname = some n →
      (((rc.Allowed L env rawURL).cache.afterCalls L calls).Allowed L env' rawURL').allowed = true ∧
      (((rc.Allowed L env rawURL).cache.afterCalls L calls).Allowed L env' rawURL').err = none ∧
      (((rc.Allowed L env rawURL).cache.afterCalls L calls).Allowed L env' rawURL').requests = [] := by
  obtain ⟨r1, _, r3⟩ := Allowed_of_failed_load L env rc rawURL n parsed e1 e2 hp ha hn hfresh h1 h2
  refine ⟨r1, ?_⟩
  intro calls env' rawURL' parsed' hp' hn'
  obtain ⟨k1, k2⟩ := afterCalls_keeps L calls (rc.Allowed L env rawURL).cache n _ r3 rfl
  have hs : ((rc.Allowed L env rawURL).cache.afterCalls L calls).scope = rc.scope :=
    k1.trans (Allowed_scope L env rc rawURL).1
  have ha' : ((rc.Allowed L env rawURL).cache.afterCalls L calls).scope.IsAllowedHost L
      parsed'.Hostname = true := by
    rw [hs, IsAllowedHost_of_normalized L rc.scope parsed.Hostname parsed'.Hostname n hn hn']
    exact ha
  rw [Allowed_of_nil_group L env' _ rawURL' n parsed' hp' ha' hn' k2]
  exact ⟨rfl, rfl, rfl⟩

/-- C15 (robots check out of scope): for a URL whose host is not allowed by the scope,
`Allowed` answers false, without error, leaves the cache (its entries included) exactly as
it was and makes no request for a robots.txt. -/
theorem C15_robots_out_of_scope {G : Type} (L : Lib) (env : RobotsEnv G) (rc : robotsCache G)
    (rawURL : Str) (parsed : URL) (hp : Parse rawURL = some parsed)
    (ha : rc.scope.IsAllowedHost L parsed.Hostname = false) :
    rc.Allowed L env rawURL = { allowed := false, err := none, cache := rc, requests := [] } := by
  unfold robotsCache.Allowed
  rw [hp]
  dsimp only
  rw [ha]
  rfl

theorem C14_robots_fail_open_witness :
    ((newRobotsCache exampleScope DefaultUserAgent : robotsCache Unit).Allowed asciiLib
      failingRobots "https://example.com/docs/".toList).allowed = true :=
  (C14_robots_fail_open asciiLib failingRobots (newRobotsCache exampleScope DefaultUserAgent)
    "https://example.com/docs/".toList "example.com".toList exampleBase
    { message := "no such host".toList } { message := "no such host".toList }
    (by decide) (by decide) (by decide) (fun _ h => absurd h (by simp [newRobotsCache, mapGet]))
    rfl rfl).1

theorem C15_robots_out_of_scope_witness :
    (newRobotsCache exampleScope DefaultUserAgent : robotsCache Unit).Allowed asciiLib
        failingRobots "https://blog.example.com/post".toList
      = { allowed := false, err := none,
          cache := newRobotsCache exampleScope DefaultUserAgent, requests := [] } :=
  C15_robots_out_of_scope asciiLib failingRobots (newRobotsCache exampleScope DefaultUserAgent)
    "https://blog.example.com/post".toList exampleOutOfScopeURL (by decide) (by decide)

/-! ## browser.go: `fetchPageWithRetry` -/

theorem retryLoop_count_le (L : Lib) (env : RetryEnv) (attempts : Int) (fuel attempt : Nat)
    (lastErr : Option GoError) (h : (attempt : Int) ≤ attempts) :
    ((retryLoop L env attempts fuel attempt lastErr).2 : Int) ≤ attempts := by
  induction fuel generalizing attempt lastErr with
  | zero => exact h
  | succ fuel ih =>
    unfold retryLoop
    split
    · rename_i hlt
      split
      · exact h
      · split
        · show ((attempt + 1 : Nat) : Int) ≤ attempts
          omega
        · split
          · show ((attempt + 1 : Nat) : Int) ≤ attempts
            omega
          · exact ih (attempt + 1) _ (by omega)
    · exact h

/-- The loop of `fetchPageWithRetry` when no back-off sleep is interrupted: it returns at
the first attempt that is decisive or the last of the budget. -/
theorem retryLoop_decisive (L : Lib) (env : RetryEnv) (attempts : Int) (m : Nat)
    (hm : (m : Int) < attempts)
    (hlast : decisiveAttempt L env m = true ∨ (m : Int) = attempts - 1) :
    ∀ (d attempt fuel : Nat) (lastErr : Option GoError), attempt + d = m → d < fuel →
      (∀ k, attempt ≤ k → k < m → decisiveAttempt L env k = false) →
      (∀ k, 0 < k → attempt ≤ k → k ≤ m → env.sleepCompleted k = true) →
      retryLoop L env attempts fuel attempt lastErr = (env.fetchOnce m, m + 1) := by
  intro d
  induction d with
  | zero =>
    intro attempt fuel lastErr ha hf _ hsl
    have ha' : attempt = m := by omega
    subst ha'
    obtain ⟨fuel, rfl⟩ : ∃ f, fuel = f + 1 := ⟨fuel - 1, by omega⟩
    unfold retryLoop
    rw [if_pos hm]
    have hs : ¬ (attempt > 0 ∧ (!env.sleepCompleted attempt) = true) := by
      rintro ⟨h0, h1⟩
      rw [hsl attempt h0 (le_refl _) (le_refl _)] at h1
      exact absurd h1 (by decide)
    rw [if_neg hs]
    cases hf : env.fetchOnce attempt with
    | ok page => rfl
    | error err =>
      dsimp only
      have hc : (!isTransientNavigationError L err) = true ∨ (attempt : Int) = attempts - 1 := by
        rcases hlast with h | h
        · left
          unfold decisiveAttempt at h
          rw [hf] at h
          exact h
        · exact Or.inr h
      rw [if_pos hc]
  | succ d ih =>
    intro attempt fuel lastErr ha hf hnd hsl
    obtain ⟨fuel, rfl⟩ : ∃ f, fuel = f + 1 := ⟨fuel - 1, by omega⟩
    unfold retryLoop
    have hlt : (attempt : Int) < attempts := by omega
    rw [if_pos hlt]
    have hs : ¬ (attempt > 0 ∧ (!env.sleepCompleted attempt) = true) := by
      rintro ⟨h0, h1⟩
      rw [hsl attempt h0 (le_refl _) (by omega)] at h1
      exact absurd h1 (by decide)
    rw [if_neg hs]
    have hk := hnd attempt (le_refl _) (by omega)
    unfold decisiveAttempt at hk
    cases hf' : env.fetchOnce attempt with
    | ok page =>
      rw [hf'] at hk
      exact Bool.noConfusion hk
    | error err =>
      rw [hf'] at hk
      dsimp only at hk ⊢
      have hc : ¬ ((!isTransientNavigationError L err) = true ∨ (attempt : Int) = attempts - 1) := by
        rintro (h | h)
        · rw [h] at hk
          exact absurd hk (by decide)
        · omega
      rw [if_neg hc]
      exact ih (attempt + 1) fuel (some err) (by omega) (by omega)
        (fun k h1 h2 => hnd k (by omega) h2) (fun k h0 h1 h2 => hsl k h0 (by omega) h2)

/-- The loop of `fetchPageWithRetry` when the back-off sleep before the attempt `m` is
interrupted and no earlier attempt was decisive: it returns `ctx.Err()` after `m`
attempts. -/
theorem retryLoop_interrupted (L : Lib) (env : RetryEnv) (attempts : Int) (m : Nat)
    (hm : (m : Int) < attempts) (hm0 : 0 < m) (hint : env.sleepCompleted m = false) :
    ∀ (d attempt fuel : Nat) (lastErr : Option GoError), attempt + d = m → d < fuel →
      (∀ k, attempt ≤ k → k < m → decisiveAttempt L env k = false) →
      (∀ k, 0 < k → attempt ≤ k → k < m → env.sleepCompleted k = true) →
      retryLoop L env attempts fuel attempt lastErr = (.error env.ctxErr, m) := by
  intro d
  induction d with
  | zero =>
    intro attempt fuel lastErr ha hf _ _
    have ha' : attempt = m := by omega
    subst ha'
    obtain ⟨fuel, rfl⟩ : ∃ f, fuel = f + 1 := ⟨fuel - 1, by omega⟩
    unfold retryLoop
    rw [if_pos hm]
    have hs : attempt > 0 ∧ (!env.sleepCompleted attempt) = true := ⟨hm0, by rw [hint]; rfl⟩
    rw [if_pos hs]
  | succ d ih =>
    intro attempt fuel lastErr ha hf hnd hsl
    obtain ⟨fuel, rfl⟩ : ∃ f, fuel = f + 1 := ⟨fuel - 1, by omega⟩
    unfold retryLoop
    have hlt : (attempt : Int) < attempts := by omega
    rw [if_pos hlt]
    have hs : ¬ (attempt > 0 ∧ (!env.sleepCompleted attempt) = true) := by
      rintro ⟨h0, h1⟩
      rw [hsl attempt h0 (le_refl _) (by omega)] at h1
      exact absurd h1 (by decide)
    rw [if_neg hs]
    have hk := hnd attempt (le_refl _) (by omega)
    unfold decisiveAttempt at hk
    cases hf' : env.fetchOnce attempt with
    | ok page =>
      rw [hf'] at hk
      exact Bool.noConfusion hk
    | error err =>
      rw [hf'] at hk
      dsimp only at hk ⊢
      have hc : ¬ ((!isTransientNavigationError L err) = true ∨ (attempt : Int) = attempts - 1) := by
        rintro (h | h)
        · rw [h] at hk
          exact absurd hk (by decide)
        · omega
      rw [if_neg hc]
      exact ih (attempt + 1) fuel (some err) (by omega) (by omega)
        (fun k h1 h2 => hnd k (by omega) h2) (fun k h0 h1 h2 => hsl k h0 (by omega) h2)

/-- C18, as stated, fails when the context is cancelled during a back-off sleep: with a
budget of two attempts, a first attempt that times out and a second attempt that would
succeed, the first decisive attempt is the second one, but `fetchPageWithRetry` makes one
attempt only and returns `ctx.Err()`, not the page of the second attempt. -/
theorem C18_cancelled_backoff_counterexample :
    decisiveAttempt asciiLib cancelledBackoff 0 = false ∧
    decisiveAttempt asciiLib cancelledBackoff 1 = true ∧
    cancelledBackoff.fetchOnce 1 = .ok { FinalURL := "https://example.com/".toList } ∧
    fetchPageWithRetry asciiLib cancelledBackoff 1 = (.error ctxCanceled, 1) := by
  refine ⟨by decide, by decide, rfl, rfl⟩

/-- C18 (retry budget, amended): with a budget of n = retries + 1 >= 1 attempts,
`fetchPageWithRetry` makes at most n attempts.  When no back-off sleep is interrupted up to
the attempt `m` (counted from 0), the first that succeeds or fails with an error not
classified transient, or the last of the budget when there is none, it makes `m + 1`
attempts and returns the page or the error of that attempt.  When the back-off sleep before
the attempt `m` is interrupted by the context, no earlier attempt having been decisive, it
makes `m` attempts and returns `ctx.Err()`. -/
theorem C18_retry_budget (L : Lib) (env : RetryEnv) (retries : Int) (hn : 0 ≤ retries) :
    ((fetchPageWithRetry L env retries).2 : Int) ≤ retries + 1 ∧
    (∀ m : Nat, (m : Int) ≤ retries →
      (∀ k, k < m → decisiveAttempt L env k = false) →
      (∀ k, 0 < k → k ≤ m → env.sleepCompleted k = true) →
      (decisiveAttempt L env m = true ∨ (m : Int) = retries) →
      fetchPageWithRetry L env retries = (env.fetchOnce m, m + 1)) ∧
    (∀ m : Nat, 0 < m → (m : Int) ≤ retries →
      (∀ k, k < m → decisiveAttempt L env k = false) →
      (∀ k, 0 < k → k < m → env.sleepCompleted k = true) →
      env.sleepCompleted m = false →
      fetchPageWithRetry L env retries = (.error env.ctxErr, m)) := by
  refine ⟨?_, ?_, ?_⟩
  · unfold fetchPageWithRetry
    exact retryLoop_count_le L env _ _ 0 none (by omega)
  · intro m hm hnd hsl hlast
    unfold fetchPageWithRetry
    exact retryLoop_decisive L env (retries + 1) m (by omega)
      (hlast.imp id (fun h => by omega)) m 0 _ none (by omega) (by omega)
      (fun k _ h2 => hnd k h2) (fun k h0 _ h2 => hsl k h0 h2)
  · intro m hm0 hm hnd hsl hint
    unfold fetchPageWithRetry
    exact retryLoop_interrupted L env (retries + 1) m (by omega) hm0 hint m 0 _ none
      (by omega) (by omega) (fun k _ h2 => hnd k h2) (fun k h0 _ h2 => hsl k h0 h2)

theorem C18_retry_budget_witness :
    fetchPageWithRetry asciiLib secondAttemptSucceeds 1 =
      (.ok { FinalURL := "https://example.com/".toList }, 2) :=
  (C18_retry_budget asciiLib secondAttemptSucceeds 1 (by decide)).2.1 1 (by decide)
    (fun k hk => by
      have h0 : k = 0 := by omega
      subst h0
      decide)
    (fun _ _ _ => rfl) (Or.inl (by decide))

/-! ## crawl.go: the counters and the pages -/

theorem status_facts :
    StatusSkippedRobots ≠ StatusOK ∧ StatusSkippedRobots ≠ StatusError ∧
    StatusSkippedOutOfHost ≠ StatusOK ∧ StatusSkippedOutOfHost ≠ StatusError ∧
    StatusOK ≠ StatusError ∧ StatusSkippedOutOfHost ≠ StatusSkippedRobots ∧
    StatusOK ≠ StatusSkippedRobots ∧ StatusError ≠ StatusSkippedRobots := by
  decide

/-- What the part of a round after the fetch does to the counters, the pages and the trace
of navigations: one page is added for the current URL, with status ok and one more visit,
or with status skipped_out_of_scope and the same number of visits. -/
theorem afterFetch_effect {F : Type} (L : Lib) (cfg : Config) (scope : Scope)
    (s : CrawlState F) (current : queueItem) (fetched : fetchedPage) :
    ∃ page : Page F,
      (afterFetch L cfg scope s current fetched).result.Pages = s.result.Pages ++ [page] ∧
      page.URL = current.URL ∧
      (afterFetch L cfg scope s current fetched).navigations = s.navigations ∧
      (afterFetch L cfg scope s current fetched).broke = s.broke ∧
      (afterFetch L cfg scope s current fetched).result.Totals.Errors = s.result.Totals.Errors ∧
      ((page.Status = StatusOK ∧
          (afterFetch L cfg scope s current fetched).result.Totals.Visited
            = s.result.Totals.Visited + 1) ∨
       (page.Status = StatusSkippedOutOfHost ∧
          (afterFetch L cfg scope s current fetched).result.Totals.Visited
            = s.result.Totals.Visited)) := by
  unfold afterFetch
  dsimp only
  split
  · exact ⟨_, rfl, rfl, rfl, rfl, rfl, Or.inr ⟨rfl, rfl⟩⟩
  · have hvis := classifyLinks_visited L scope cfg.Clean
      ((NormalizeURL L fetched.FinalURL cfg.Clean).getD current.URL) fetched.Links
      ([], [], s.result.Totals)
    refine ⟨_, rfl, rfl, rfl, rfl, hvis.2, Or.inl ⟨rfl, ?_⟩⟩
    show (List.foldl (classifyLink L scope cfg.Clean
      ((NormalizeURL L fetched.FinalURL cfg.Clean).getD current.URL))
      ([], [], s.result.Totals) fetched.Links).2.2.Visited + 1 = s.result.Totals.Visited + 1
    rw [hvis.1]

/-- What one round of the loop of `Crawl` does to the counters, the pages and the trace of
navigations. -/
theorem crawlStep_effect {F : Type} (L : Lib) (cfg : Config) (scope : Scope)
    (s : CrawlState F) (r : Response) :
    ((crawlStep L cfg scope s r).result = s.result ∧
      (crawlStep L cfg scope s r).navigations = s.navigations) ∨
    (∃ current : queueItem,
      (crawlStep L cfg scope s r).result = s.result.addPage (robotsSkippedPage current) ∧
      (crawlStep L cfg scope s r).navigations = s.navigations) ∨
    (∃ page : Page F, ∃ navs : List Str,
      (crawlStep L cfg scope s r).result.Pages = s.result.Pages ++ [page] ∧
      (crawlStep L cfg scope s r).navigations = s.navigations ++ navs ∧
      (∀ u ∈ navs, u = page.URL) ∧
      ((page.Status = StatusOK ∧
          (crawlStep L cfg scope s r).result.Totals.Visited = s.result.Totals.Visited + 1 ∧
          (crawlStep L cfg scope s r).result.Totals.Errors = s.result.Totals.Errors) ∨
       (page.Status = StatusSkippedOutOfHost ∧
          (crawlStep L cfg scope s r).result.Totals.Visited = s.result.Totals.Visited ∧
          (crawlStep L cfg scope s r).result.Totals.Errors = s.result.Totals.Errors) ∨
       (page.Status = StatusError ∧
          (crawlStep L cfg scope s r).result.Totals.Visited = s.result.Totals.Visited + 1 ∧
          (crawlStep L cfg scope s r).result.Totals.Errors = s.result.Totals.Errors + 1))) := by
  unfold crawlStep
  split
  · exact Or.inl ⟨rfl, rfl⟩
  · split
    · exact Or.inl ⟨rfl, rfl⟩
    · rename_i current queue hq
      dsimp only
      split
      · exact Or.inl ⟨rfl, rfl⟩
      · split
        · exact Or.inl ⟨rfl, rfl⟩
        · split
          · exact Or.inr (Or.inl ⟨current, rfl, rfl⟩)
          · split
            · rename_i seed _
              obtain ⟨page, h1, _, h3, _, h5, h6⟩ := afterFetch_effect L cfg scope
                { s with queue := queue, processed := setInsert s.processed current.URL,
                         seedPages := s.seedPages.filter (fun kv => kv.1 ≠ current.URL) }
                current seed
              refine Or.inr (Or.inr ⟨page, [], h1, ?_, by simp, ?_⟩)
              · rw [List.append_nil]
                exact h3
              · rcases h6 with ⟨a, b⟩ | ⟨a, b⟩
                · exact Or.inl ⟨a, b, h5⟩
                · exact Or.inr (Or.inl ⟨a, b, h5⟩)
            · split
              · exact Or.inl ⟨rfl, rfl⟩
              · split
                · rename_i fetchErr _
                  exact Or.inr (Or.inr ⟨_, [current.URL], rfl, rfl, by simp,
                    Or.inr (Or.inr ⟨rfl, rfl, rfl⟩)⟩)
                · rename_i fetched _
                  obtain ⟨page, h1, h2, h3, _, h5, h6⟩ := afterFetch_effect L cfg scope
                    { s with queue := queue, processed := setInsert s.processed current.URL,
                             firstNavigation := false,
                             navigations := s.navigations ++ [current.URL] }
                    current fetched
                  refine Or.inr (Or.inr ⟨page, [current.URL], h1, h3, ?_, ?_⟩)
                  · intro u hu
                    rw [List.mem_singleton.mp hu, h2]
                  · rcases h6 with ⟨a, b⟩ | ⟨a, b⟩
                    · exact Or.inl ⟨a, b, h5⟩
                    · exact Or.inr (Or.inl ⟨a, b, h5⟩)

theorem crawlStep_TotalsInv {F : Type} (L : Lib) (cfg : Config) (scope : Scope)
    (s : CrawlState F) (r : Response) (h : TotalsInv s.result) :
    TotalsInv (crawlStep L cfg scope s r).result := by
  obtain ⟨f1, f2, f3, f4, f5, _, _, _⟩ := status_facts
  unfold TotalsInv at h ⊢
  rcases crawlStep_effect L cfg scope s r with ⟨h1, _⟩ | ⟨cur, h1, _⟩ | ⟨page, navs, h1, _, _, h4⟩
  · rw [h1]
    exact h
  · rw [h1]
    unfold CrawlResult.addPage robotsSkippedPage
    simp only [List.countP_append, List.countP_singleton, f1, f2, or_self, decide_False,
      Bool.false_eq_true, if_false, Nat.add_zero]
    exact h
  · rw [h1]
    simp only [List.countP_append, List.countP_singleton]
    rcases h4 with ⟨a, b, c⟩ | ⟨a, b, c⟩ | ⟨a, b, c⟩
    · rw [b, c, h.1, h.2, a]
      simp [f5]
    · rw [b, c, h.1, h.2, a]
      simp [f3, f4]
    · rw [b, c, h.1, h.2, a]
      simp

theorem runLoop_TotalsInv {F : Type} (L : Lib) (cfg : Config) (scope : Scope)
    (rs : List Response) (s : CrawlState F) (h : TotalsInv s.result) :
    TotalsInv (runLoop L cfg scope rs s).result := by
  induction rs generalizing s with
  | nil => exact h
  | cons r rs ih =>
    unfold runLoop
    split_ifs
    · exact ih _ (crawlStep_TotalsInv L cfg scope s r h)
    · exact h

theorem finishCrawl_TotalsInv {F : Type} (ops : Float64Ops F) (engine : RankEngine F)
    (cfg : Config) (s : CrawlState F) (h : TotalsInv s.result) :
    TotalsInv (finishCrawl ops engine cfg s) := by
  obtain ⟨h1, _, h3⟩ := finishCrawl_frame ops engine cfg s
  have key : ∀ q : Str → Bool,
      (finishCrawl ops engine cfg s).Pages.countP (fun p => q p.Status)
        = s.result.Pages.countP (fun p => q p.Status) := by
    intro q
    have e : ∀ l : List (Page F), l.countP (fun p => q p.Status)
        = (l.map (fun p => (p.URL, p.Depth, p.Status))).countP
            (fun t : Str × Int × Str => q t.2.2) := by
      intro l
      rw [List.countP_map]
      rfl
    rw [e, e]
    exact h3.countP_eq _
  unfold TotalsInv at h ⊢
  rw [h1]
  refine ⟨?_, ?_⟩
  · rw [key (fun st => decide (st = StatusOK ∨ st = StatusError))]
    exact h.1
  · rw [key (fun st => decide (st = StatusError))]
    exact h.2

theorem countP_error_le {F : Type} (pages : List (Page F)) :
    pages.countP (fun p => decide (p.Status = StatusError))
      ≤ pages.countP (fun p => decide (p.Status = StatusOK ∨ p.Status = StatusError)) := by
  apply List.countP_mono_left
  intro p _ hp
  simp only [decide_eq_true_eq] at hp ⊢
  exact Or.inr hp

theorem crawlStart_some (L : Lib) (cfg : Config) (w : World) (scope : Scope) (startURL : Str)
    (startFetch : fetchedPage) (navs : List Str)
    (h : crawlStart L cfg w = some (scope, startURL, startFetch, navs)) :
    NewScope L cfg.Domain = some scope := by
  unfold crawlStart at h
  split at h
  · exact absurd h (by simp)
  · rename_i sc hsc
    dsimp only at h
    split at h
    · simp only [Option.some.injEq, Prod.mk.injEq] at h
      rw [hsc, h.1]
    · split_ifs at h
      split at h
      · exact absurd h (by simp)
      · simp only [Option.some.injEq, Prod.mk.injEq] at h
        rw [hsc, h.1]

/-- What `Crawl` returns once the start page has been fetched: the result of the loop run
from the initial state, with `ctx.Err()`. -/
theorem Crawl_of_start {F : Type} (L : Lib) (ops : Float64Ops F) (engine : RankEngine F)
    (cfg : Config) (w : World) (scope : Scope) (startURL : Str) (startFetch : fetchedPage)
    (navs : List Str) (h : crawlStart L cfg w = some (scope, startURL, startFetch, navs)) :
    Crawl L ops engine cfg w =
      if loopRunning (effectiveConfig cfg)
          (runLoop L (effectiveConfig cfg) scope w.responses
            (initialState (effectiveConfig cfg) scope startURL startFetch navs : CrawlState F))
      then none
      else some (some (finishCrawl ops engine (effectiveConfig cfg)
          (runLoop L (effectiveConfig cfg) scope w.responses
            (initialState (effectiveConfig cfg) scope startURL startFetch navs))),
        w.ctxErrAtReturn) := by
  unfold crawlStart at h
  unfold Crawl
  cases hsc : NewScope L cfg.Domain with
  | none =>
    rw [hsc] at h
    exact absurd h (by simp)
  | some sc =>
    rw [hsc] at h
    dsimp only at h ⊢
    cases hsf : w.startHTTPS with
    | ok sf =>
      rw [hsf] at h
      simp only [Option.some.injEq, Prod.mk.injEq] at h
      obtain ⟨rfl, rfl, rfl, rfl⟩ := h
      rfl
    | error e =>
      rw [hsf] at h
      dsimp only at h ⊢
      by_cases hfb : shouldFallbackToHTTP L e = true
      · rw [if_pos hfb] at h ⊢
        cases hsf2 : w.startHTTP with
        | error e2 =>
          rw [hsf2] at h
          exact absurd h (by simp)
        | ok sf =>
          rw [hsf2] at h
          simp only [Option.some.injEq, Prod.mk.injEq] at h
          obtain ⟨rfl, rfl, rfl, rfl⟩ := h
          rfl
      · rw [if_neg hfb] at h
        exact absurd h (by simp)

/-- What `Crawl` returns when it ends before the loop: a nil result for an invalid domain,
the result without pages when the start page cannot be fetched. -/
theorem Crawl_of_no_start {F : Type} (L : Lib) (ops : Float64Ops F) (engine : RankEngine F)
    (cfg : Config) (w : World) (h : crawlStart L cfg w = none) :
    (NewScope L cfg.Domain = none ∧
      Crawl L ops engine cfg w = some (none, some errInvalidDomain)) ∨
    (∃ scope err, NewScope L cfg.Domain = some scope ∧
      Crawl L ops engine cfg w = some (some (emptyResult cfg scope : CrawlResult F), some err) ∧
      ((w.startHTTPS = .error err ∧ shouldFallbackToHTTP L err = false) ∨
       (∃ err1, w.startHTTPS = .error err1 ∧ shouldFallbackToHTTP L err1 = true ∧
          w.startHTTP = .error err))) := by
  unfold crawlStart at h
  unfold Crawl
  cases hsc : NewScope L cfg.Domain with
  | none => exact Or.inl ⟨rfl, rfl⟩
  | some sc =>
    rw [hsc] at h
    dsimp only at h ⊢
    right
    cases hsf : w.startHTTPS with
    | ok sf =>
      rw [hsf] at h
      exact absurd h (by simp)
    | error e =>
      rw [hsf] at h
      dsimp only at h ⊢
      by_cases hfb : shouldFallbackToHTTP L e = true
      · rw [if_pos hfb] at h ⊢
        cases hsf2 : w.startHTTP with
        | error e2 => exact ⟨sc, e2, rfl, rfl, Or.inr ⟨e, rfl, hfb, rfl⟩⟩
        | ok sf =>
          rw [hsf2] at h
          exact absurd h (by simp)
      · rw [if_neg hfb]
        exact ⟨sc, e, rfl, rfl, Or.inl ⟨rfl, by simpa using hfb⟩⟩

/-- C17 (totals consistency): in every state the loop of `Crawl` reaches and in every result
`Crawl` returns, `Totals.Visited` is the number of pages with status ok or error and
`Totals.Errors` the number of pages with status error, so that pages with status
skipped_robots or skipped_out_of_scope are not counted, and `Errors` is at most
`Visited`. -/
theorem C17_totals_consistency {F : Type} (L : Lib) (ops : Float64Ops F)
    (engine : RankEngine F) (cfg : Config) :
    (∀ (scope : Scope) (startURL : Str) (startFetch : fetchedPage) (navs : List Str)
        (rs : List Response) (s : CrawlState F),
      s = runLoop L (effectiveConfig cfg) scope rs
        (initialState (effectiveConfig cfg) scope startURL startFetch navs) →
      s.result.Totals.Visited = (s.result.Pages.countP
        (fun p => decide (p.Status = StatusOK ∨ p.Status = StatusError)) : Nat) ∧
      s.result.Totals.Errors = (s.result.Pages.countP
        (fun p => decide (p.Status = StatusError)) : Nat) ∧
      s.result.Totals.Errors ≤ s.result.Totals.Visited) ∧
    (∀ (w : World) (res : CrawlResult F) (err : Option GoError),
      Crawl L ops engine cfg w = some (some res, err) →
      res.Totals.Visited = (res.Pages.countP
        (fun p => decide (p.Status = StatusOK ∨ p.Status = StatusError)) : Nat) ∧
      res.Totals.Errors = (res.Pages.countP
        (fun p => decide (p.Status = StatusError)) : Nat) ∧
      res.Totals.Errors ≤ res.Totals.Visited) := by
  have init : ∀ (scope : Scope) (startURL : Str) (startFetch : fetchedPage) (navs : List Str),
      TotalsInv (initialState (effectiveConfig cfg) scope startURL startFetch navs :
        CrawlState F).result := by
    intro scope startURL startFetch navs
    exact ⟨rfl, rfl⟩
  have fin : ∀ res : CrawlResult F, TotalsInv res →
      res.Totals.Visited = (res.Pages.countP
        (fun p => decide (p.Status = StatusOK ∨ p.Status = StatusError)) : Nat) ∧
      res.Totals.Errors = (res.Pages.countP
        (fun p => decide (p.Status = StatusError)) : Nat) ∧
      res.Totals.Errors ≤ res.Totals.Visited := by
    intro res h
    refine ⟨h.1, h.2, ?_⟩
    rw [h.1, h.2]
    exact_mod_cast countP_error_le res.Pages
  refine ⟨?_, ?_⟩
  · intro scope startURL startFetch navs rs s hs
    rw [hs]
    exact fin _ (runLoop_TotalsInv L _ scope rs _ (init scope startURL startFetch navs))
  · intro w res err h
    obtain ⟨scope, startURL, startFetch, navs, _, hr | hr⟩ :=
      Crawl_result L ops engine cfg w res err h
    · rw [hr]
      exact fin _ (init scope startURL startFetch navs)
    · rw [hr]
      exact fin _ (finishCrawl_TotalsInv ops engine _ _
        (runLoop_TotalsInv L _ scope w.responses _ (init scope startURL startFetch navs)))

theorem C17_totals_consistency_witness :
    (exampleFinal StrategyLimit 0).result.Totals.Visited = 2 ∧
    (exampleFinal StrategyLimit 0).result.Pages.countP
      (fun p => decide (p.Status = StatusOK ∨ p.Status = StatusError)) = 2 :=
  ⟨by decide, by
    have h := ((C17_totals_consistency asciiLib ratOps nullEngine
      (exampleConfig StrategyLimit 0)).1 exampleScope "https://example.com/".toList
      exampleStartPage ["https://example.com/".toList] exampleWorld.responses
      (exampleFinal StrategyLimit 0) rfl).1
    have h2 : (exampleFinal StrategyLimit 0).result.Totals.Visited = 2 := by decide
    rw [h2] at h
    exact_mod_cast h.symm⟩

/-! ## crawl.go: robots, navigations and cancellation -/

theorem crawlStep_NavInv {F : Type} (L : Lib) (cfg : Config) (scope : Scope)
    (s : CrawlState F) (r : Response) (navs : List Str) (h : NavInv navs s) :
    NavInv navs (crawlStep L cfg scope s r) := by
  obtain ⟨loopNavs, h1, h2⟩ := h
  rcases crawlStep_effect L cfg scope s r with ⟨e1, e2⟩ | ⟨cur, e1, e2⟩ | ⟨page, more, e1, e2, e3, e4⟩
  · exact ⟨loopNavs, by rw [e2, h1], by rw [e1]; exact h2⟩
  · refine ⟨loopNavs, by rw [e2, h1], ?_⟩
    intro u hu
    obtain ⟨p, hp, hpu, hps⟩ := h2 u hu
    rw [e1]
    exact ⟨p, List.mem_append_left _ hp, hpu, hps⟩
  · refine ⟨loopNavs ++ more, by rw [e2, h1, List.append_assoc], ?_⟩
    intro u hu
    rw [e1]
    rcases List.mem_append.mp hu with hu | hu
    · obtain ⟨p, hp, hpu, hps⟩ := h2 u hu
      exact ⟨p, List.mem_append_left _ hp, hpu, hps⟩
    · refine ⟨page, List.mem_append_right _ (List.mem_singleton.mpr rfl), (e3 u hu).symm, ?_⟩
      obtain ⟨_, _, _, _, _, f6, f7, f8⟩ := status_facts
      rcases e4 with ⟨a, _⟩ | ⟨a, _⟩ | ⟨a, _⟩
      · rw [a]; exact f7
      · rw [a]; exact f6
      · rw [a]; exact f8

theorem runLoop_NavInv {F : Type} (L : Lib) (cfg : Config) (scope : Scope)
    (rs : List Response) (s : CrawlState F) (navs : List Str) (h : NavInv navs s) :
    NavInv navs (runLoop L cfg scope rs s) := by
  induction rs generalizing s with
  | nil => exact h
  | cons r rs ih =>
    unfold runLoop
    split_ifs
    · exact ih _ (crawlStep_NavInv L cfg scope s r navs h)
    · exact h

/-- A round of the loop of `Crawl` drops no page recorded and changes none. -/
theorem crawlStep_pages_grow {F : Type} (L : Lib) (cfg : Config) (scope : Scope)
    (s : CrawlState F) (r : Response) :
    ∃ more, (crawlStep L cfg scope s r).result.Pages = s.result.Pages ++ more := by
  rcases crawlStep_effect L cfg scope s r with ⟨e1, _⟩ | ⟨cur, e1, _⟩ | ⟨page, more, e1, _⟩
  · exact ⟨[], by rw [e1, List.append_nil]⟩
  · exact ⟨[robotsSkippedPage cur], by rw [e1]; rfl⟩
  · exact ⟨[page], e1⟩

theorem runLoop_pages_grow {F : Type} (L : Lib) (cfg : Config) (scope : Scope)
    (rs : List Response) (s : CrawlState F) :
    ∃ more, (runLoop L cfg scope rs s).result.Pages = s.result.Pages ++ more := by
  induction rs generalizing s with
  | nil => exact ⟨[], (List.append_nil _).symm⟩
  | cons r rs ih =>
    unfold runLoop
    split_ifs
    · obtain ⟨m1, h1⟩ := crawlStep_pages_grow L cfg scope s r
      obtain ⟨m2, h2⟩ := ih (crawlStep L cfg scope s r)
      exact ⟨m1 ++ m2, by rw [h2, h1, List.append_assoc]⟩
    · exact ⟨[], (List.append_nil _).symm⟩

/-- The round of the loop in which the robots check disallows the current URL. -/
theorem crawlStep_robots_denied {F : Type} (L : Lib) (cfg : Config) (scope : Scope)
    (s : CrawlState F) (r : Response) (current : queueItem) (tail : List queueItem)
    (hq : s.queue = current :: tail) (hc : r.cancelled = false)
    (hp : current.URL ∉ s.processed)
    (hd : ¬ (cfg.Strategy = StrategyDepth ∧ current.Depth > cfg.MaxDepth))
    (hr : r.robotsAllowed = false) :
    crawlStep L cfg scope s r =
      { s with queue := tail, processed := setInsert s.processed current.URL,
               result := s.result.addPage (robotsSkippedPage current) } := by
  unfold crawlStep
  rw [hc, hq]
  dsimp only
  rw [if_neg (by simp), if_neg hp, if_neg hd, hr]
  rfl

/-- A round of the loop sets `broke` only when the context is found cancelled at the head of
the round or the politeness sleep is interrupted, and such a round records no page. -/
theorem crawlStep_broke {F : Type} (L : Lib) (cfg : Config) (scope : Scope)
    (s : CrawlState F) (r : Response) (hs : s.broke = false)
    (h : (crawlStep L cfg scope s r).broke = true) :
    (r.cancelled = true ∨ r.sleepCompleted = false) ∧
      (crawlStep L cfg scope s r).result = s.result := by
  have hne : s.broke ≠ true := by rw [hs]; exact Bool.false_ne_true
  unfold crawlStep at h ⊢
  split at h
  · rename_i hc
    rw [if_pos hc]
    exact ⟨Or.inl hc, rfl⟩
  · rename_i hc
    rw [if_neg hc]
    split at h
    · exact absurd h hne
    · dsimp only at h ⊢
      split at h
      · exact absurd h hne
      · rename_i hproc
        rw [if_neg hproc]
        split at h
        · exact absurd h hne
        · rename_i hdepth
          rw [if_neg hdepth]
          split at h
          · exact absurd h hne
          · rename_i hrob
            rw [if_neg hrob]
            split at h
            · rename_i seed hseed
              obtain ⟨_, _, _, _, hb, _⟩ := afterFetch_effect L cfg scope
                { s with queue := _, processed := setInsert s.processed _,
                         seedPages := s.seedPages.filter _ } _ seed
              rw [hb] at h
              exact absurd h hne
            · split at h
              · rename_i hsl
                rw [if_pos hsl]
                refine ⟨Or.inr ?_, rfl⟩
                have h2 := hsl.2
                unfold sleepWithJitter at h2
                split_ifs at h2
                · exact absurd h2 (by decide)
                · simpa using h2
              · split at h
                · exact absurd h hne
                · rename_i fetched hf
                  obtain ⟨_, _, _, _, hb, _⟩ := afterFetch_effect L cfg scope
                    { s with queue := _, processed := setInsert s.processed _,
                             firstNavigation := false,
                             navigations := s.navigations ++ [_] } _ fetched
                  rw [hb] at h
                  exact absurd h hne

theorem runLoop_of_broke {F : Type} (L : Lib) (cfg : Config) (scope : Scope)
    (rs : List Response) (s : CrawlState F) (h : s.broke = true) :
    runLoop L cfg scope rs s = s := by
  cases rs with
  | nil => rfl
  | cons r rs =>
    unfold runLoop
    have : loopRunning cfg s = false := by
      unfold loopRunning
      rw [h]
      simp
    rw [this]
    rfl

/-- The pages of the result `Crawl` returns after its loop are the pages recorded by the
loop, rearranged and with their scores set under the pagerank strategy, and the very same
list under the other strategies. -/
theorem finishCrawl_pages {F : Type} (ops : Float64Ops F) (engine : RankEngine F)
    (cfg : Config) (s : CrawlState F) :
    (∃ scored : List (Page F), (finishCrawl ops engine cfg s).Pages.Perm scored ∧
      List.Forall₂ (fun (p q : Page F) => q = { p with Score := q.Score })
        s.result.Pages scored) ∧
    (cfg.Strategy ≠ StrategyPageRank → finishCrawl ops engine cfg s = s.result) := by
  unfold finishCrawl
  refine ⟨?_, fun h => by rw [if_neg h]⟩
  split_ifs
  · refine ⟨s.result.Pages.map (attachScore ops
      (ComputePageRankScores ops engine (some s.graph)).1), ?_, ?_⟩
    · unfold ApplyPageRankScores
      exact SliceStable_perm _ _
    · apply forall₂_map_right
      intro p _
      unfold attachScore
      split_ifs <;> rfl
  · refine ⟨s.result.Pages, List.Perm.refl _, ?_⟩
    have := forall₂_map_right (fun p : Page F => p)
      (fun (p q : Page F) => q = { p with Score := q.Score }) s.result.Pages (fun _ _ => rfl)
    rwa [List.map_id'] at this

/-- C16, as stated, fails on the start URL: `Crawl` fetches the start page before its loop,
and so before any robots check; when the robots check then disallows the start URL, the
page recorded for it has status skipped_robots and is not counted as visited, but the URL
has been navigated to. -/
theorem C16_start_url_counterexample :
    crawlStart asciiLib (exampleConfig StrategyLimit 0) robotsDeniedWorld =
      some (exampleScope, "https://example.com/".toList, exampleStartPage,
        ["https://example.com/".toList]) ∧
    (runLoop asciiLib (effectiveConfig (exampleConfig StrategyLimit 0)) exampleScope
      robotsDeniedWorld.responses (exampleInitial StrategyLimit 0)).result.Pages.map
        (fun p => (p.URL, p.Status)) = [("https://example.com/".toList, StatusSkippedRobots)] ∧
    (runLoop asciiLib (effectiveConfig (exampleConfig StrategyLimit 0)) exampleScope
      robotsDeniedWorld.responses (exampleInitial StrategyLimit 0)).result.Totals.Visited = 0 ∧
    "https://example.com/".toList ∈
      (runLoop asciiLib (effectiveConfig (exampleConfig StrategyLimit 0)) exampleScope
        robotsDeniedWorld.responses (exampleInitial StrategyLimit 0)).navigations := by
  refine ⟨by decide, by decide, by decide, by decide⟩

/-- C16 (robots skip, amended): in every state the loop of `Crawl` reaches, a round that finds
the context not cancelled takes the head of the queue as current URL and, when the robots
check disallows it, records the page with status skipped_robots for it, leaves the counters
(so `Visited`) as they are and makes no navigation; the page stays in the pages of every
later state; and in every state the loop reaches, no URL of a page with status
skipped_robots is among the navigations made by the loop.  The navigations made before
the loop, those of the start URL, are outside this statement. -/
theorem C16_robots_skip {F : Type} (L : Lib) (cfg : Config) :
    (∀ (scope : Scope) (startURL : Str) (startFetch : fetchedPage) (navs : List Str)
        (rs : List Response) (s : CrawlState F) (r : Response),
      s = runLoop L (effectiveConfig cfg) scope rs
        (initialState (effectiveConfig cfg) scope startURL startFetch navs) →
      loopRunning (effectiveConfig cfg) s = true → r.cancelled = false →
      r.robotsAllowed = false →
      ∃ (current : queueItem) (tail : List queueItem), s.queue = current :: tail ∧
        (crawlStep L (effectiveConfig cfg) scope s r).result.Pages
          = s.result.Pages ++ [robotsSkippedPage current] ∧
        (crawlStep L (effectiveConfig cfg) scope s r).result.Totals = s.result.Totals ∧
        (crawlStep L (effectiveConfig cfg) scope s r).navigations = s.navigations ∧
        ∀ later, robotsSkippedPage current ∈
          (runLoop L (effectiveConfig cfg) scope later
            (crawlStep L (effectiveConfig cfg) scope s r)).result.Pages) ∧
    (∀ (scope : Scope) (startURL : Str) (startFetch : fetchedPage) (navs : List Str)
        (rs : List Response) (s : CrawlState F),
      s = runLoop L (effectiveConfig cfg) scope rs
        (initialState (effectiveConfig cfg) scope startURL startFetch navs) →
      ∃ loopNavs : List Str, s.navigations = navs ++ loopNavs ∧
        ∀ p ∈ s.result.Pages, p.Status = StatusSkippedRobots → p.URL ∉ loopNavs) := by
  refine ⟨?_, ?_⟩
  · intro scope startURL startFetch navs rs s r hs hrun hc hr
    have hinv : CrawlInv (effectiveConfig cfg) s := by
      rw [hs]
      exact reachable_inv L cfg scope startURL startFetch navs rs
    cases hq : s.queue with
    | nil =>
      unfold loopRunning at hrun
      rw [hq] at hrun
      exact absurd hrun (by simp)
    | cons current tail =>
      have hmem : current ∈ s.queue := by rw [hq]; exact List.mem_cons_self _ _
      have hp : current.URL ∉ s.processed := hinv.queue_fresh current hmem
      have hd : ¬ ((effectiveConfig cfg).Strategy = StrategyDepth ∧
          current.Depth > (effectiveConfig cfg).MaxDepth) := by
        rintro ⟨h1, h2⟩
        have := hinv.queue_depth h1 current hmem
        omega
      have e := crawlStep_robots_denied L (effectiveConfig cfg) scope s r current tail hq hc hp
        hd hr
      refine ⟨current, tail, rfl, by rw [e]; rfl, by rw [e]; rfl, by rw [e], ?_⟩
      intro later
      obtain ⟨more, hm⟩ := runLoop_pages_grow L (effectiveConfig cfg) scope later
        (crawlStep L (effectiveConfig cfg) scope s r)
      rw [hm, e]
      exact List.mem_append_left _ (List.mem_append_right _ (List.mem_singleton.mpr rfl))
  · intro scope startURL startFetch navs rs s hs
    have hinv : CrawlInv (effectiveConfig cfg) s := by
      rw [hs]
      exact reachable_inv L cfg scope startURL startFetch navs rs
    have hnav : NavInv navs s := by
      rw [hs]
      exact runLoop_NavInv L _ scope rs _ navs ⟨[], by simp [initialState], by simp⟩
    obtain ⟨loopNavs, h1, h2⟩ := hnav
    refine ⟨loopNavs, h1, ?_⟩
    intro p hp hst hmem
    obtain ⟨q, hq, hqu, hqs⟩ := h2 p.URL hmem
    have heq : q = p :=
      List.inj_on_of_nodup_map hinv.pages_nodup hq hp hqu
    exact hqs (heq ▸ hst)

theorem C16_robots_skip_witness :
    ∃ (current : queueItem) (tail : List queueItem),
      (exampleInitial StrategyLimit 0).queue = current :: tail ∧
      (crawlStep asciiLib (effectiveConfig (exampleConfig StrategyLimit 0)) exampleScope
        (exampleInitial StrategyLimit 0) robotsDenied).result.Pages
          = (exampleInitial StrategyLimit 0).result.Pages ++ [robotsSkippedPage current] ∧
      (crawlStep asciiLib (effectiveConfig (exampleConfig StrategyLimit 0)) exampleScope
        (exampleInitial StrategyLimit 0) robotsDenied).navigations
          = (exampleInitial StrategyLimit 0).navigations := by
  obtain ⟨current, tail, h1, h2, _, h4, _⟩ :=
    (C16_robots_skip asciiLib (exampleConfig StrategyLimit 0)).1 exampleScope
      "https://example.com/".toList exampleStartPage ["https://example.com/".toList] []
      (exampleInitial StrategyLimit 0) robotsDenied rfl (by decide) rfl rfl
  exact ⟨current, tail, h1, h2, h4⟩

/-- C20, as stated, fails for an invalid domain: with an empty domain `NewScope` fails and
`Crawl` returns the error with a nil result. -/
theorem C20_invalid_domain_counterexample :
    Crawl asciiLib ratOps nullEngine emptyDomainConfig exampleWorld
      = some (none, some errInvalidDomain) := by
  rfl

/-- C20 (run-fatal failures, amended): when the start page cannot be fetched, over https with
an error that does not ask for the http fallback, or over https and then over http, `Crawl`
returns the error of the last fetch together with a non-nil result, the one assembled so
far: the snapshot of scope and configuration, without pages and with all counters zero.
When the domain is invalid `Crawl` returns the error with a nil result, no result having
been assembled yet. -/
theorem C20_fatal_failures {F : Type} (L : Lib) (ops : Float64Ops F) (engine : RankEngine F)
    (cfg : Config) (w : World) :
    (NewScope L cfg.Domain = none →
      Crawl L ops engine cfg w = some (none, some errInvalidDomain)) ∧
    (∀ (scope : Scope) (err : GoError), NewScope L cfg.Domain = some scope →
      w.startHTTPS = .error err → shouldFallbackToHTTP L err = false →
      Crawl L ops engine cfg w = some (some (emptyResult cfg scope : CrawlResult F), some err)) ∧
    (∀ (scope : Scope) (err1 err : GoError), NewScope L cfg.Domain = some scope →
      w.startHTTPS = .error err1 → shouldFallbackToHTTP L err1 = true →
      w.startHTTP = .error err →
      Crawl L ops engine cfg w = some (some (emptyResult cfg scope : CrawlResult F), some err)) ∧
    (∀ scope : Scope, (emptyResult cfg scope : CrawlResult F).Pages = [] ∧
      (emptyResult cfg scope : CrawlResult F).Totals = {} ∧
      (emptyResult cfg scope : CrawlResult F).Domain = scope.BaseDomain) := by
  refine ⟨?_, ?_, ?_, fun _ => ⟨rfl, rfl, rfl⟩⟩
  · intro h
    unfold Crawl
    rw [h]
  · intro scope err hs h1 h2
    unfold Crawl
    rw [hs]
    dsimp only
    rw [h1]
    dsimp only
    rw [if_neg (by rw [h2]; exact Bool.false_ne_true)]
    rfl
  · intro scope err1 err hs h1 h2 h3
    unfold Crawl
    rw [hs]
    dsimp only
    rw [h1]
    dsimp only
    rw [if_pos h2, h3]
    rfl

theorem C20_fatal_failures_witness :
    Crawl asciiLib ratOps nullEngine (exampleConfig StrategyLimit 0) failingStartWorld
      = some (some (emptyResult (exampleConfig StrategyLimit 0) exampleScope),
          some { message := "navigate: net::ERR_CONNECTION_REFUSED".toList }) :=
  (C20_fatal_failures asciiLib ratOps nullEngine (exampleConfig StrategyLimit 0)
    failingStartWorld).2.2.1 exampleScope _ _ (by decide) rfl (by decide) rfl

/-! ## The ranking pass on the graph a -> b, b -> c, c -> b -/

theorem buildPRGraph_abc :
    buildPRGraph ratOps abcGraph = abcPRGraph "https://example.com/a".toList
      "https://example.com/b".toList "https://example.com/c".toList := by
  rfl

theorem rankIteration_abc (a b c : Str) (hab : a ≠ b) (hac : a ≠ c) (hbc : b ≠ c)
    (x y z : ℚ) :
    rankIteration (abcPRGraph a b c) [(a, x), (b, y), (c, z)] =
      [(a, 1 / 20), (b, 1 / 20 + 17 / 20 * (x + z)), (c, 1 / 20 + 17 / 20 * y)] := by
  have hba : b ≠ a := fun h => hab h.symm
  have hca : c ≠ a := fun h => hac h.symm
  have hcb : c ≠ b := fun h => hbc h.symm
  simp [rankIteration, abcPRGraph, outDegree, mapGet, hab, hac, hbc, hba, hca, hcb]
  norm_num

theorem pow_bound_fifteen (k : Nat) (hk : 15 ≤ k) :
    ((17 : ℚ) / 20) ^ k * (17 / 111) < 1 / 74 := by
  have h1 : ((17 : ℚ) / 20) ^ k ≤ (17 / 20) ^ 15 :=
    pow_le_pow_of_le_one (by norm_num) (by norm_num) hk
  have h2 : ((17 : ℚ) / 20) ^ 15 * (17 / 111) < 1 / 74 := by norm_num
  calc ((17 : ℚ) / 20) ^ k * (17 / 111) ≤ (17 / 20) ^ 15 * (17 / 111) :=
        mul_le_mul_of_nonneg_right h1 (by norm_num)
    _ < 1 / 74 := h2

/-- The iterations of the ranking pass on the graph a -> b, b -> c, c -> b, from scores
that sum to 1 and after `k` iterations already made from the uniform scores: when the
convergence test is not met before every score moves by less than 1/40, and the cap allows
16 iterations in all, the pass ends with the score of b above the score of c, the score of
c above the score of a, and the scores summing to 1. -/
theorem rankLoop_abc (a b c : Str) (hab : a ≠ b) (hac : a ≠ c) (hbc : b ≠ c)
    (p : RankParams)
    (hconv : ∀ pairs, p.converged pairs = true → ∀ pr ∈ pairs, |pr.2 - pr.1| < 1 / 40) :
    ∀ (fuel k : Nat) (x y z : ℚ), 1 ≤ fuel → 16 ≤ k + fuel → x + y + z = 1 →
      |y - 18 / 37| ≤ (17 / 20) ^ k * (17 / 111) →
      ∃ x' y' z' : ℚ, rankLoop (abcPRGraph a b c) p fuel [(a, x), (b, y), (c, z)]
          = [(a, x'), (b, y'), (c, z')] ∧
        x' + y' + z' = 1 ∧ z' < y' ∧ x' < z' := by
  intro fuel
  induction fuel with
  | zero => intro k x y z h; omega
  | succ fuel ih =>
    intro k x y z _ hk hsum hy
    have hstep := rankIteration_abc a b c hab hac hbc x y z
    have hxz : x + z = 1 - y := by linarith
    unfold rankLoop
    dsimp only
    rw [hstep]
    by_cases hc : p.converged (List.zip (List.map Prod.snd [(a, x), (b, y), (c, z)])
        (List.map Prod.snd [(a, (1 : ℚ) / 20), (b, 1 / 20 + 17 / 20 * (x + z)),
          (c, 1 / 20 + 17 / 20 * y)])) = true
    · rw [if_pos hc]
      have hm := hconv _ hc (y, 1 / 20 + 17 / 20 * (x + z)) (by simp)
      dsimp only at hm
      rw [hxz, abs_lt] at hm
      refine ⟨_, _, _, rfl, ?_, ?_, ?_⟩
      · rw [hxz]; ring
      · rw [hxz]; linarith [hm.1, hm.2]
      · linarith [hm.1, hm.2]
    · rw [if_neg hc]
      rcases Nat.eq_zero_or_pos fuel with h0 | hpos
      · subst h0
        have hk15 : 15 ≤ k := by omega
        have hb := lt_of_le_of_lt hy (pow_bound_fifteen k hk15)
        rw [abs_lt] at hb
        refine ⟨_, _, _, rfl, ?_, ?_, ?_⟩
        · rw [hxz]; ring
        · rw [hxz]; linarith [hb.1, hb.2]
        · linarith [hb.1, hb.2]
      · apply ih (k + 1) _ _ _ hpos (by omega)
        · rw [hxz]; ring
        · have e : (1 : ℚ) / 20 + 17 / 20 * (x + z) - 18 / 37 = -(17 / 20) * (y - 18 / 37) := by
            rw [hxz]; ring
          rw [e, abs_mul, abs_neg, pow_succ]
          have h17 : |((17 : ℚ) / 20)| = 17 / 20 := abs_of_pos (by norm_num)
          rw [h17]
          nlinarith [hy, abs_nonneg (y - 18 / 37)]

/-- The scores of the modelled ranking pass on the graph a -> b, b -> c, c -> b. -/
theorem specScores_abc (a b c : Str) (hab : a ≠ b) (hac : a ≠ c) (hbc : b ≠ c)
    (p : RankParams) (hcap : 16 ≤ p.maxIterations)
    (hconv : ∀ pairs, p.converged pairs = true → ∀ pr ∈ pairs, |pr.2 - pr.1| < 1 / 40) :
    ∃ x y z : ℚ, specScores p (abcPRGraph a b c) = [(a, x), (b, y), (c, z)] ∧
      z < y ∧ x < z := by
  obtain ⟨x, y, z, h1, h2, h3, h4⟩ := rankLoop_abc a b c hab hac hbc p hconv p.maxIterations 0
    (1 / 3) (1 / 3) (1 / 3) (by omega) (by omega) (by norm_num) (by
      rw [pow_zero, one_mul, abs_le]
      constructor <;> norm_num)
  have hstart : (abcPRGraph a b c).Nodes.map
      (fun v => (v.Id, 1 / ((abcPRGraph a b c).Nodes.length : ℚ)))
      = [(a, 1 / 3), (b, 1 / 3), (c, 1 / 3)] := by
    simp [abcPRGraph]
  refine ⟨x, y, z, ?_, h3, h4⟩
  unfold specScores
  dsimp only
  rw [hstart, h1]
  have ht : (List.map Prod.snd [(a, x), (b, y), (c, z)]).sum = 1 := by
    simp only [List.map_cons, List.map_nil, List.sum_cons, List.sum_nil]
    linarith
  rw [ht]
  simp

theorem rankLoop_not_converged (g : Graph ℚ) (p : RankParams) (fuel : Nat)
    (ranks : List (Str × ℚ))
    (h : p.converged (List.zip (ranks.map Prod.snd) ((rankIteration g ranks).map Prod.snd))
      = false) :
    rankLoop g p (fuel + 1) ranks = rankLoop g p fuel (rankIteration g ranks) := by
  rw [rankLoop]
  rw [h, if_neg Bool.false_ne_true]

theorem rankLoop_abc_two_rounds (a b c : Str) (hab : a ≠ b) (hac : a ≠ c) (hbc : b ≠ c) :
    rankLoop (abcPRGraph a b c) { maxIterations := 2, converged := fun _ => false }
      (0 + 1 + 1) [(a, 1 / 3), (b, 1 / 3), (c, 1 / 3)]
      = [(a, 1 / 20), (b, 451 / 1200), (c, 689 / 1200)] := by
  have hc : ∀ l, ({ maxIterations := 2, converged := fun _ => false } : RankParams).converged l
      = false := fun _ => rfl
  rw [rankLoop_not_converged _ _ (0 + 1) _ (hc _), rankIteration_abc a b c hab hac hbc,
    rankLoop_not_converged _ _ 0 _ (hc _), rankIteration_abc a b c hab hac hbc]
  show [(a, (1 : ℚ) / 20), _, _] = _
  norm_num

theorem sum_snd_three (a b c : Str) (x y z : ℚ) :
    (List.map Prod.snd [(a, x), (b, y), (c, z)]).sum = x + (y + (z + 0)) := by
  simp only [List.map_cons, List.map_nil, List.sum_cons, List.sum_nil]

theorem map_div_three (a b c : Str) (x y z t : ℚ) :
    List.map (fun kv : Str × ℚ => (kv.1, kv.2 / t)) [(a, x), (b, y), (c, z)]
      = [(a, x / t), (b, y / t), (c, z / t)] := by
  simp only [List.map_cons, List.map_nil]

/-- With a cap of two iterations and no convergence before, the modelled ranking pass on the
graph a -> b, b -> c, c -> b ends with the score of c above the score of b: the bound on the
cap in `rankLoop_abc` cannot be dropped. -/
theorem specScores_abc_two_rounds (a b c : Str) (hab : a ≠ b) (hac : a ≠ c) (hbc : b ≠ c) :
    specScores { maxIterations := 2, converged := fun _ => false } (abcPRGraph a b c)
      = [(a, 1 / 20), (b, 451 / 1200), (c, 689 / 1200)] := by
  have hstart : (abcPRGraph a b c).Nodes.map
      (fun v => (v.Id, 1 / ((abcPRGraph a b c).Nodes.length : ℚ)))
      = [(a, 1 / 3), (b, 1 / 3), (c, 1 / 3)] := by
    simp [abcPRGraph]
  have hloop : rankLoop (abcPRGraph a b c) { maxIterations := 2, converged := fun _ => false }
      2 [(a, 1 / 3), (b, 1 / 3), (c, 1 / 3)]
      = [(a, 1 / 20), (b, 451 / 1200), (c, 689 / 1200)] :=
    rankLoop_abc_two_rounds a b c hab hac hbc
  unfold specScores
  dsimp only
  rw [hstart, hloop]
  rw [sum_snd_three, map_div_three]
  have ht : (1 : ℚ) / 20 + (451 / 1200 + (689 / 1200 + 0)) = 1 := by norm_num
  rw [ht, div_one, div_one, div_one]

/-- `sort.SliceStable` on a slice of three elements of which the second and the third come
before the first, and the third does not come before the second. -/
theorem SliceStable_three {α : Type} (less : α → α → Bool) (x y z : α)
    (h1 : less y x = true) (h2 : less z x = true) (h3 : less z y = false) :
    SliceStable less [x, y, z] = [y, z, x] := by
  simp [SliceStable, stableBlocks, insertionSortFunc, insertionOuter, insertionInner, goLess,
    goSwap, stablePasses, h1, h2, h3]

/-- `sort.SliceStable` on a slice of three elements none of which comes before an earlier
one. -/
theorem SliceStable_three_sorted {α : Type} (less : α → α → Bool) (x y z : α)
    (h1 : less y x = false) (h2 : less z y = false) :
    SliceStable less [x, y, z] = [x, y, z] := by
  simp [SliceStable, stableBlocks, insertionSortFunc, insertionOuter, insertionInner, goLess,
    goSwap, stablePasses, h1, h2]

/-- The score map `ComputePageRankScores` builds with the modelled ranking pass on the graph
a -> b, b -> c, c -> b. -/
theorem ComputePageRankScores_abc (p : RankParams) (hcap : 16 ≤ p.maxIterations)
    (hconv : ∀ pairs, p.converged pairs = true → ∀ pr ∈ pairs, |pr.2 - pr.1| < 1 / 40) :
    ∃ x y z : ℚ, (ComputePageRankScores ratOps (specEngine p) (some abcGraph)).1
        = [("https://example.com/a".toList, x), ("https://example.com/b".toList, y),
           ("https://example.com/c".toList, z)] ∧ z < y ∧ x < z := by
  obtain ⟨x, y, z, hs, h1, h2⟩ := specScores_abc "https://example.com/a".toList
    "https://example.com/b".toList "https://example.com/c".toList (by decide) (by decide)
    (by decide) p hcap hconv
  refine ⟨x, y, z, ?_, h1, h2⟩
  have hn : ¬ (abcGraph.nodes.length = 0) := by decide
  unfold ComputePageRankScores
  dsimp only
  rw [if_neg hn, buildPRGraph_abc]
  have hA : (specEngine p).CalcPageRank (abcPRGraph "https://example.com/a".toList
      "https://example.com/b".toList "https://example.com/c".toList)
      "https://example.com/a".toList = x := by
    show (mapGet (specScores p _) _).getD 0 = x
    rw [hs]
    rfl
  have hB : (specEngine p).CalcPageRank (abcPRGraph "https://example.com/a".toList
      "https://example.com/b".toList "https://example.com/c".toList)
      "https://example.com/b".toList = y := by
    show (mapGet (specScores p _) _).getD 0 = y
    rw [hs]
    rfl
  have hC : (specEngine p).CalcPageRank (abcPRGraph "https://example.com/a".toList
      "https://example.com/b".toList "https://example.com/c".toList)
      "https://example.com/c".toList = z := by
    show (mapGet (specScores p _) _).getD 0 = z
    rw [hs]
    rfl
  have hN : (abcPRGraph "https://example.com/a".toList "https://example.com/b".toList
      "https://example.com/c".toList).Nodes
      = [{ Id := "https://example.com/a".toList, Rank := 0,
           Outgoing := [GenerateEdgeID "https://example.com/a".toList
             "https://example.com/b".toList], Incoming := [] },
         { Id := "https://example.com/b".toList, Rank := 0,
           Outgoing := [GenerateEdgeID "https://example.com/b".toList
             "https://example.com/c".toList],
           Incoming := [GenerateEdgeID "https://example.com/a".toList
             "https://example.com/b".toList,
             GenerateEdgeID "https://example.com/c".toList "https://example.com/b".toList] },
         { Id := "https://example.com/c".toList, Rank := 0,
           Outgoing := [GenerateEdgeID "https://example.com/c".toList
             "https://example.com/b".toList],
           Incoming := [GenerateEdgeID "https://example.com/b".toList
             "https://example.com/c".toList] }] := rfl
  have hE : (abcPRGraph "https://example.com/a".toList "https://example.com/b".toList
      "https://example.com/c".toList).Edges.length = 3 := rfl
  rw [hN, hE, if_neg (by decide)]
  simp only [List.map_cons, List.map_nil, List.foldl_cons, List.foldl_nil]
  rw [hA, hB, hC]
  rfl

/-- C11 (ranking order): on the graph with the edges a -> b, b -> c, c -> b, the ranking
pass of section 4.5 of the spec (damping 0.85, uniform start, exact arithmetic) gives b the
highest score, whatever the cap on the iterations, from 16 on, and whatever the test for
convergence, provided it is met only when every score has moved by less than 1/40; after
`ApplyPageRankScores` on the three ok pages a, b, c every page has a score and the pages
are b, c, a in this order, so that b is first. -/
theorem C11_ranking_order (p : RankParams) (hcap : 16 ≤ p.maxIterations)
    (hconv : ∀ pairs, p.converged pairs = true → ∀ pr ∈ pairs, |pr.2 - pr.1| < 1 / 40) :
    ∃ x y z : ℚ, x < y ∧ z < y ∧
      mapGet (ComputePageRankScores ratOps (specEngine p) (some abcGraph)).1
        "https://example.com/a".toList = some x ∧
      mapGet (ComputePageRankScores ratOps (specEngine p) (some abcGraph)).1
        "https://example.com/b".toList = some y ∧
      mapGet (ComputePageRankScores ratOps (specEngine p) (some abcGraph)).1
        "https://example.com/c".toList = some z ∧
      (ApplyPageRankScores ratOps (specEngine p) abcResult (some abcGraph)).Pages.map
          (fun page => (page.FinalURL, page.Score))
        = [("https://example.com/b".toList, some y), ("https://example.com/c".toList, some z),
           ("https://example.com/a".toList, some x)] := by
  obtain ⟨x, y, z, hs, h1, h2⟩ := ComputePageRankScores_abc p hcap hconv
  refine ⟨x, y, z, lt_trans h2 h1, h1, by rw [hs]; rfl, by rw [hs]; rfl, by rw [hs]; rfl, ?_⟩
  unfold ApplyPageRankScores
  dsimp only
  rw [hs]
  have hp : abcResult.Pages.map (attachScore ratOps
      [("https://example.com/a".toList, x), ("https://example.com/b".toList, y),
       ("https://example.com/c".toList, z)])
      = [{ URL := "https://example.com/a".toList, FinalURL := "https://example.com/a".toList,
           Depth := 0, Status := StatusOK, Score := some x },
         { URL := "https://example.com/b".toList, FinalURL := "https://example.com/b".toList,
           Depth := 0, Status := StatusOK, Score := some y },
         { URL := "https://example.com/c".toList, FinalURL := "https://example.com/c".toList,
           Depth := 0, Status := StatusOK, Score := some z }] := by
    rfl
  rw [hp]
  have hxy : x < y := lt_trans h2 h1
  rw [SliceStable_three]
  · rfl
  · simp [pageLess, ratOps, ne_of_gt hxy, hxy]
  · simp [pageLess, ratOps, ne_of_gt h2, h2]
  · simp [pageLess, ratOps, ne_of_lt h1, le_of_lt h1]

theorem standardParams_converged (pairs : List (ℚ × ℚ))
    (h : standardParams.converged pairs = true) : ∀ pr ∈ pairs, |pr.2 - pr.1| < 1 / 40 := by
  intro pr hpr
  have := List.all_eq_true.mp h pr hpr
  simp only [decide_eq_true_eq] at this
  linarith

theorem C11_ranking_order_witness :
    ∃ x y z : ℚ, x < y ∧ z < y ∧
      mapGet (ComputePageRankScores ratOps (specEngine standardParams) (some abcGraph)).1
        "https://example.com/a".toList = some x ∧
      mapGet (ComputePageRankScores ratOps (specEngine standardParams) (some abcGraph)).1
        "https://example.com/b".toList = some y ∧
      mapGet (ComputePageRankScores ratOps (specEngine standardParams) (some abcGraph)).1
        "https://example.com/c".toList = some z ∧
      (ApplyPageRankScores ratOps (specEngine standardParams) abcResult
          (some abcGraph)).Pages.map (fun page => (page.FinalURL, page.Score))
        = [("https://example.com/b".toList, some y), ("https://example.com/c".toList, some z),
           ("https://example.com/a".toList, some x)] :=
  C11_ranking_order standardParams (by decide) standardParams_converged

/-! ## The comparison of `ApplyPageRankScores` on pages of which some are not ranked -/

theorem buildPRGraph_tie :
    buildPRGraph ratOps tieGraph
      = linkPRGraph "https://example.com/b".toList "https://www.example.com/x".toList := by
  rfl

theorem rankIteration_link (b a : Str) (hba : b ≠ a) (u v : ℚ) :
    rankIteration (linkPRGraph b a) [(b, u), (a, v)] =
      [(b, 3 / 40 + 17 / 20 * (v / 2)), (a, 3 / 40 + 17 / 20 * (u + v / 2))] := by
  have hab : a ≠ b := fun h => hba h.symm
  simp [rankIteration, linkPRGraph, outDegree, mapGet, hba, hab]
  norm_num

theorem rankLoop_link (b a : Str) (hba : b ≠ a) (p : RankParams) :
    ∀ (fuel : Nat) (u v : ℚ), 1 ≤ fuel → 0 < u → 0 < v →
      ∃ u' v' : ℚ, rankLoop (linkPRGraph b a) p fuel [(b, u), (a, v)] = [(b, u'), (a, v')] ∧
        0 < u' ∧ u' < v' := by
  intro fuel
  induction fuel with
  | zero => intro u v h; omega
  | succ fuel ih =>
    intro u v _ hu hv
    unfold rankLoop
    dsimp only
    rw [rankIteration_link b a hba u v]
    have h1 : (0 : ℚ) < 3 / 40 + 17 / 20 * (v / 2) := by positivity
    have h2 : (3 : ℚ) / 40 + 17 / 20 * (v / 2) < 3 / 40 + 17 / 20 * (u + v / 2) := by linarith
    split_ifs
    · exact ⟨_, _, rfl, h1, h2⟩
    · rcases Nat.eq_zero_or_pos fuel with h0 | hpos
      · subst h0
        exact ⟨_, _, rfl, h1, h2⟩
      · exact ih _ _ hpos h1 (lt_trans h1 h2)

/-- The order of the modelled ranking pass on the graph with the single edge from b to x:
x, the node with the in-link, comes first. -/
theorem specOrder_tie (p : RankParams) (hcap : 1 ≤ p.maxIterations) :
    (ComputePageRankScores ratOps (specEngine p) (some tieGraph)).2
      = ["https://www.example.com/x".toList, "https://example.com/b".toList] := by
  obtain ⟨u, v, hl, hu, huv⟩ := rankLoop_link "https://example.com/b".toList
    "https://www.example.com/x".toList (by decide) p p.maxIterations (1 / 2) (1 / 2) hcap
    (by norm_num) (by norm_num)
  have hstart : (linkPRGraph "https://example.com/b".toList
      "https://www.example.com/x".toList).Nodes.map
      (fun n => (n.Id, 1 / ((linkPRGraph "https://example.com/b".toList
        "https://www.example.com/x".toList).Nodes.length : ℚ)))
      = [("https://example.com/b".toList, 1 / 2), ("https://www.example.com/x".toList, 1 / 2)] := by
    simp [linkPRGraph]
  have hs : specScores p (linkPRGraph "https://example.com/b".toList
      "https://www.example.com/x".toList)
      = [("https://example.com/b".toList, u / (u + v)),
         ("https://www.example.com/x".toList, v / (u + v))] := by
    unfold specScores
    dsimp only
    rw [hstart, hl]
    simp
  have hpos : 0 < u + v := by linarith
  have hlt : u / (u + v) < v / (u + v) := div_lt_div_of_pos_right huv hpos
  have hB : (specEngine p).CalcPageRank (linkPRGraph "https://example.com/b".toList
      "https://www.example.com/x".toList) "https://example.com/b".toList = u / (u + v) := by
    show (mapGet (specScores p _) _).getD 0 = _
    rw [hs]
    rfl
  have hX : (specEngine p).CalcPageRank (linkPRGraph "https://example.com/b".toList
      "https://www.example.com/x".toList) "https://www.example.com/x".toList = v / (u + v) := by
    show (mapGet (specScores p _) _).getD 0 = _
    rw [hs]
    rfl
  have hn : ¬ (tieGraph.nodes.length = 0) := by decide
  have hN : (linkPRGraph "https://example.com/b".toList
      "https://www.example.com/x".toList).Nodes
      = [{ Id := "https://example.com/b".toList, Rank := 0,
           Outgoing := [GenerateEdgeID "https://example.com/b".toList
             "https://www.example.com/x".toList], Incoming := [] },
         { Id := "https://www.example.com/x".toList, Rank := 0, Outgoing := [],
           Incoming := [GenerateEdgeID "https://example.com/b".toList
             "https://www.example.com/x".toList] }] := rfl
  have hE : (linkPRGraph "https://example.com/b".toList
      "https://www.example.com/x".toList).Edges.length = 1 := rfl
  unfold ComputePageRankScores
  dsimp only
  rw [if_neg hn, buildPRGraph_tie, hN, hE, if_neg (by decide)]
  simp only [List.map_cons, List.map_nil]
  rw [hB, hX]
  show specOrder _ = _
  unfold specOrder
  simp [List.insertionSort, List.orderedInsert, not_lt_of_gt hlt, ne_of_lt hlt]

/-- C12 (score-based reordering, evaluated where it fails): three pages without score, so of
equal effective score -1: two pages whose URLs x and b are in the rank order, x before b,
and the page r of a redirect out of scope, whose URL is not in the rank order.  The
comparison puts x before b by rank position, and b before r and r before x by URL.
`ApplyPageRankScores` leaves the pages x, b, r in this order, r after x although r has the
smaller URL (`FinalURL` and `URL` alike) and is not ranked; and it leaves the same pages
given as r, x, b in that order, r before b although b has the smaller URL: the arrangement
follows the order the pages had before, not their scores, rank positions and URLs. -/
theorem C12_tie_break_cycle (engine : RankEngine ℚ)
    (horder : (ComputePageRankScores ratOps engine (some tieGraph)).2
      = ["https://www.example.com/x".toList, "https://example.com/b".toList]) :
    (ApplyPageRankScores ratOps engine tieResult (some tieGraph)).Pages
      = [tiePageX, tiePageB, tiePageR] ∧
    (ApplyPageRankScores ratOps engine { tieResult with Pages := [tiePageR, tiePageX, tiePageB] }
      (some tieGraph)).Pages = [tiePageR, tiePageX, tiePageB] ∧
    (tiePageX.Score = none ∧ tiePageB.Score = none ∧ tiePageR.Score = none) ∧
    mapGet (orderPosOf (ComputePageRankScores ratOps engine (some tieGraph)).2)
      (pageKey tiePageR) = none ∧
    pageKey tiePageR < pageKey tiePageX ∧ tiePageR.URL < tiePageX.URL ∧
    pageKey tiePageB < pageKey tiePageR ∧ tiePageB.URL < tiePageR.URL ∧
    pageLess ratOps (orderPosOf (ComputePageRankScores ratOps engine (some tieGraph)).2)
      tiePageX tiePageB = true ∧
    pageLess ratOps (orderPosOf (ComputePageRankScores ratOps engine (some tieGraph)).2)
      tiePageB tiePageR = true ∧
    pageLess ratOps (orderPosOf (ComputePageRankScores ratOps engine (some tieGraph)).2)
      tiePageR tiePageX = true := by
  rw [horder]
  refine ⟨?_, ?_, ⟨rfl, rfl, rfl⟩, by decide, by decide, by decide, by decide, by decide,
    by decide, by decide, by decide⟩
  · unfold ApplyPageRankScores
    dsimp only
    rw [horder]
    have hp : tieResult.Pages.map
        (attachScore ratOps (ComputePageRankScores ratOps engine (some tieGraph)).1)
        = [tiePageX, tiePageB, tiePageR] := by
      rfl
    rw [hp]
    exact SliceStable_three_sorted _ _ _ _ (by decide) (by decide)
  · unfold ApplyPageRankScores
    dsimp only
    rw [horder]
    have hp : [tiePageR, tiePageX, tiePageB].map
        (attachScore ratOps (ComputePageRankScores ratOps engine (some tieGraph)).1)
        = [tiePageR, tiePageX, tiePageB] := by
      rfl
    rw [hp]
    exact SliceStable_three_sorted _ _ _ _ (by decide) (by decide)

theorem C12_tie_break_cycle_witness :
    (ApplyPageRankScores ratOps (specEngine standardParams) tieResult (some tieGraph)).Pages
      = [tiePageX, tiePageB, tiePageR] :=
  (C12_tie_break_cycle (specEngine standardParams) (specOrder_tie standardParams (by decide))).1

/-! ## scope.go: the results of `NewScope` -/

theorem NewScopeE_okValue (L : Lib) (input : Str) :
    okValue (NewScopeE L input) = NewScope L input := by
  unfold NewScopeE NewScope okValue
  dsimp only
  by_cases h1 : trimSpace input = []
  · rw [if_pos h1, if_pos h1]
  · rw [if_neg h1, if_neg h1]
    generalize Parse _ = p
    cases p with
    | none => rfl
    | some parsed =>
      dsimp only
      by_cases h2 : parsed.Hostname = []
      · rw [if_pos h2, if_pos h2]
      · rw [if_neg h2, if_neg h2]
        generalize normalizeHost L parsed.Hostname = nh
        cases nh with
        | none => rfl
        | some host =>
          dsimp only
          split_ifs <;> rfl

/-- Every failure of `NewScope` wraps `ErrInvalidDomain` and comes with the zero scope. -/
theorem NewScopeE_failure (L : Lib) (input : Str) (e : CrawlerError)
    (h : (NewScopeE L input).2 = some e) :
    e.isInvalidDomain = true ∧ (NewScopeE L input).1 = zeroScope := by
  unfold NewScopeE at h ⊢
  dsimp only at h ⊢
  by_cases h1 : trimSpace input = []
  · rw [if_pos h1] at h ⊢
    simp only [Option.some.injEq] at h
    subst h
    exact ⟨rfl, rfl⟩
  · rw [if_neg h1] at h ⊢
    revert h
    generalize Parse _ = p
    intro h
    cases p with
    | none =>
      simp only [Option.some.injEq] at h
      subst h
      exact ⟨rfl, rfl⟩
    | some parsed =>
      dsimp only at h ⊢
      by_cases h2 : parsed.Hostname = []
      · rw [if_pos h2] at h ⊢
        simp only [Option.some.injEq] at h
        subst h
        exact ⟨rfl, rfl⟩
      · rw [if_neg h2] at h ⊢
        revert h
        generalize normalizeHost L parsed.Hostname = nh
        intro h
        cases nh with
        | none =>
          simp only [Option.some.injEq] at h
          subst h
          exact ⟨rfl, rfl⟩
        | some host =>
          dsimp only at h ⊢
          split_ifs at h ⊢
          all_goals
            simp only [Option.some.injEq] at h
            subst h
            exact ⟨rfl, rfl⟩

theorem trimPrefix_www (host : Str) :
    (if hasPrefix host "www.".toList then trimPrefix host "www.".toList else host)
      = trimPrefix host "www.".toList := by
  unfold trimPrefix
  split_ifs <;> rfl

/-- C25 (scope construction): `NewScope` succeeds with a scope `s` exactly when the trimmed
input is not empty, parses as a URL (as it stands when it contains `://`, after prefixing
`https://` otherwise), has a host name whose normalization succeeds, and that normalized
host with one leading `www.` removed is not empty; then `s.BaseDomain` is that text and
`s.AllowedHosts` is `[BaseDomain, "www." + BaseDomain]`.  `NewScope("www.Example.com")` has
the base domain `example.com`. -/
theorem C25_scope_construction (L : Lib) :
    (∀ (input : Str) (s : Scope), NewScope L input = some s ↔
      ∃ parsed host,
        trimSpace input ≠ [] ∧
        Parse (if containsSub "://".toList (trimSpace input) then trimSpace input
               else "https://".toList ++ trimSpace input) = some parsed ∧
        parsed.Hostname ≠ [] ∧
        normalizeHost L parsed.Hostname = some host ∧
        trimPrefix host "www.".toList ≠ [] ∧
        s.BaseDomain = trimPrefix host "www.".toList ∧
        s.AllowedHosts = [s.BaseDomain, "www.".toList ++ s.BaseDomain] ∧
        s.allowedSet = s.AllowedHosts) ∧
    (L.idnaFixes exampleHosts →
      (NewScope L "www.Example.com".toList).map Scope.BaseDomain = some "example.com".toList ∧
      (NewScope L "www.Example.com".toList).map Scope.AllowedHosts
        = some ["example.com".toList, "www.example.com".toList]) := by
  refine ⟨?_, ?_⟩
  · intro input s
    have hpre : (if (!containsSub "://".toList (trimSpace input)) = true
          then "https://".toList ++ trimSpace input else trimSpace input)
        = (if containsSub "://".toList (trimSpace input) then trimSpace input
           else "https://".toList ++ trimSpace input) := by
      cases containsSub "://".toList (trimSpace input) <;> rfl
    rw [NewScope_eq]
    unfold scopeHostOfInput scopeOfNormalizedHost
    dsimp only
    rw [hpre]
    constructor
    · intro h
      by_cases h1 : trimSpace input = []
      · rw [if_pos h1] at h
        exact absurd h (by simp)
      · rw [if_neg h1] at h
        cases hp : Parse (if containsSub "://".toList (trimSpace input) then trimSpace input
               else "https://".toList ++ trimSpace input) with
        | none =>
          rw [hp] at h
          exact absurd h (by simp)
        | some parsed =>
          rw [hp] at h
          dsimp only at h
          by_cases h2 : parsed.Hostname = []
          · rw [if_pos h2] at h
            exact absurd h (by simp)
          · rw [if_neg h2] at h
            simp only [Option.some_bind] at h
            cases hn : normalizeHost L parsed.Hostname with
            | none =>
              rw [hn] at h
              exact absurd h (by simp)
            | some host =>
              rw [hn] at h
              simp only [Option.some_bind, trimPrefix_www] at h
              by_cases h3 : trimPrefix host "www.".toList = []
              · rw [if_pos h3] at h
                exact absurd h (by simp)
              · rw [if_neg h3] at h
                simp only [Option.some.injEq] at h
                subst h
                exact ⟨parsed, host, h1, rfl, h2, hn, h3, rfl, rfl, rfl⟩
    · rintro ⟨parsed, host, h1, hp, h2, hn, h3, hb, ha, hs⟩
      rw [if_neg h1, hp]
      dsimp only
      rw [if_neg h2]
      simp only [Option.some_bind, hn, trimPrefix_www]
      rw [if_neg h3]
      obtain ⟨b, a, t⟩ := s
      simp only at hb ha hs
      subst hb
      subst ha
      subst hs
      rfl
  · intro hL
    have hn : normalizeHost L "www.Example.com".toList = some "www.example.com".toList :=
      normalizeHost_example L hL _ _ (by decide) (by decide) (by decide) (by decide)
    have hs : scopeHostOfInput "www.Example.com".toList = some "www.Example.com".toList := by
      decide
    rw [NewScope_eq, hs]
    simp only [Option.some_bind, hn]
    exact ⟨by decide, by decide⟩

theorem C25_scope_construction_witness :
    asciiLib.idnaFixes exampleHosts ∧
    (NewScope asciiLib "www.Example.com".toList).map Scope.BaseDomain
      = some "example.com".toList :=
  ⟨asciiLib_fixes_exampleHosts,
    ((C25_scope_construction asciiLib).2 asciiLib_fixes_exampleHosts).1⟩

/-- C26 (scope construction failure): `NewScope` returns a value exactly when its error is
nil; every error it returns wraps `ErrInvalidDomain` and comes with the zero `Scope`; it
fails when the trimmed input is empty, when the input (prefixed with `https://` unless it
contains `://`) does not parse, when the parsed URL has no host name, and when the
normalization of the host name fails. -/
theorem C26_scope_failure (L : Lib) (input : Str) :
    NewScope L input = okValue (NewScopeE L input) ∧
    (∀ e, (NewScopeE L input).2 = some e →
      e.isInvalidDomain = true ∧ (NewScopeE L input).1 = zeroScope) ∧
    (trimSpace input = [] → (NewScopeE L input).2 = some (.invalidDomain .emptyInput)) ∧
    (trimSpace input ≠ [] →
      Parse (if containsSub "://".toList (trimSpace input) then trimSpace input
             else "https://".toList ++ trimSpace input) = none →
      (NewScopeE L input).2 = some (.invalidDomain .parse)) ∧
    (∀ parsed, trimSpace input ≠ [] →
      Parse (if containsSub "://".toList (trimSpace input) then trimSpace input
             else "https://".toList ++ trimSpace input) = some parsed →
      (parsed.Hostname = [] → (NewScopeE L input).2 = some (.invalidDomain .missingHost)) ∧
      (parsed.Hostname ≠ [] → normalizeHost L parsed.Hostname = none →
        (NewScopeE L input).2 = some (.invalidDomain .host))) := by
  have hpre : (if (!containsSub "://".toList (trimSpace input)) = true
        then "https://".toList ++ trimSpace input else trimSpace input)
      = (if containsSub "://".toList (trimSpace input) then trimSpace input
         else "https://".toList ++ trimSpace input) := by
    cases containsSub "://".toList (trimSpace input) <;> rfl
  refine ⟨(NewScopeE_okValue L input).symm, NewScopeE_failure L input, ?_, ?_, ?_⟩
  · intro h
    unfold NewScopeE
    dsimp only
    rw [if_pos h]
  · intro h hp
    unfold NewScopeE
    dsimp only
    rw [if_neg h, hpre, hp]
  · intro parsed h hp
    unfold NewScopeE
    dsimp only
    rw [if_neg h, hpre, hp]
    dsimp only
    constructor
    · intro h2
      rw [if_pos h2]
    · intro h2 hn
      rw [if_neg h2, hn]

theorem C26_scope_failure_witness :
    (NewScopeE asciiLib "   ".toList).2 = some (.invalidDomain .emptyInput) ∧
    (NewScopeE asciiLib "https://".toList).2 = some (.invalidDomain .missingHost) :=
  ⟨(C26_scope_failure asciiLib "   ".toList).2.2.1 (by decide),
   ((C26_scope_failure asciiLib "https://".toList).2.2.2.2
      { Scheme := "https".toList } (by decide) (by decide)).1 (by decide)⟩

/-! ## url_normalize.go: the results with their errors -/

theorem hasPrefix_append (p s : Str) : hasPrefix (p ++ s) p = true := by
  unfold hasPrefix
  induction p with
  | nil => simp [List.isPrefixOf]
  | cons c p ih => simp [List.isPrefixOf]

theorem asciiLowerByte_ascii (c : Char) (h : (asciiLowerByte c).toNat < 128) :
    c.toNat < 128 := by
  unfold asciiLowerByte at h
  split_ifs at h with h1
  · have : 'Z'.toNat = 90 := rfl
    omega
  · exact h

theorem all_ascii_of_lowered (pre p : Str) (h : pre.map asciiLowerByte = p)
    (hp : p.all isASCIIByte = true) : pre.all isASCIIByte = true := by
  subst h
  rw [List.all_eq_true] at hp ⊢
  intro c hc
  have := hp (asciiLowerByte c) (List.mem_map_of_mem _ hc)
  unfold isASCIIByte at this ⊢
  simp only [decide_eq_true_eq] at this ⊢
  exact asciiLowerByte_ascii c this

theorem isRejectedHref_iff (L : Lib) (t : Str) :
    isRejectedHref L t = true ↔ ∃ p ∈ rejectedSchemes, hasPrefix (toLower L t) p = true := by
  unfold isRejectedHref rejectedSchemes
  simp only [Bool.or_eq_true, List.mem_cons, List.mem_singleton, List.not_mem_nil, or_false,
    exists_eq_or_imp, exists_eq_left, or_assoc]

theorem isRejectedHref_nil (L : Lib) : isRejectedHref L [] = false := by
  have : toLower L [] = [] := by simp [toLower]
  unfold isRejectedHref
  rw [this]
  rfl

/-- A trimmed href that passes the pseudo-scheme test makes `ResolveAndNormalize` fail with
`ErrUnsupportedLinkScheme`, whatever the base. -/
theorem ResolveAndNormalizeE_rejected (L : Lib) (baseURL href : Str) (clean : Bool)
    (h : isRejectedHref L (trimSpace href) = true) :
    ResolveAndNormalizeE L baseURL href clean = ([], some .unsupportedLinkScheme) ∧
      ResolveAndNormalize L baseURL href clean = none := by
  have hne : trimSpace href ≠ [] := by
    intro h0
    rw [h0, isRejectedHref_nil] at h
    exact Bool.noConfusion h
  unfold ResolveAndNormalizeE ResolveAndNormalize
  dsimp only
  rw [if_neg hne, if_neg hne, h]
  exact ⟨rfl, rfl⟩

/-- The lowered form of a text that starts with an ASCII spelling of `p` starts with
`p`. -/
theorem toLower_starts (L : Lib) (pre rest p : Str) (hp : pre.map asciiLowerByte = p)
    (hA : p.all isASCIIByte = true)
    (hr : rest.all isASCIIByte = true ∨ L.lowersASCIIStart) :
    hasPrefix (toLower L (pre ++ rest)) p = true := by
  have hpre := all_ascii_of_lowered pre p hp hA
  by_cases hall : (pre ++ rest).all isASCIIByte = true
  · rw [toLower_ascii L _ hall, List.map_append, hp]
    exact hasPrefix_append _ _
  · rcases hr with hr | hr
    · exact absurd (by rw [List.all_append, hpre, hr]; rfl) hall
    · obtain ⟨t, ht⟩ := hr pre rest hpre
      unfold toLower
      rw [if_neg hall, ht, hp]
      exact hasPrefix_append _ _

/-- C23 (pseudo-scheme rejection): whatever the base URL (it is not even parsed) and the
clean flag, an href whose trimmed and lowered form starts with `javascript:`, `mailto:`,
`tel:` or `data:` makes `ResolveAndNormalize` return no URL and the error
`ErrUnsupportedLinkScheme`; this covers every href whose trimmed form starts with one of
these words in any mix of ASCII upper and lower case. -/
theorem C23_pseudo_scheme_rejected (L : Lib) (baseURL href : Str) (clean : Bool) :
    ((∃ p ∈ rejectedSchemes, hasPrefix (toLower L (trimSpace href)) p = true) →
      ResolveAndNormalizeE L baseURL href clean = ([], some .unsupportedLinkScheme) ∧
      ResolveAndNormalize L baseURL href clean = none) ∧
    (∀ p ∈ rejectedSchemes, ∀ pre rest : Str, trimSpace href = pre ++ rest →
      pre.map asciiLowerByte = p →
      (rest.all isASCIIByte = true ∨ L.lowersASCIIStart) →
      ResolveAndNormalizeE L baseURL href clean = ([], some .unsupportedLinkScheme) ∧
      ResolveAndNormalize L baseURL href clean = none) := by
  refine ⟨?_, ?_⟩
  · intro h
    exact ResolveAndNormalizeE_rejected L baseURL href clean ((isRejectedHref_iff L _).mpr h)
  · intro p hp pre rest ht hpre hr
    have hall : ∀ q ∈ rejectedSchemes, q.all isASCIIByte = true := by decide
    have hA : p.all isASCIIByte = true := hall p hp
    refine ResolveAndNormalizeE_rejected L baseURL href clean
      ((isRejectedHref_iff L _).mpr ⟨p, hp, ?_⟩)
    rw [ht]
    exact toLower_starts L pre rest p hpre hA hr

theorem C23_pseudo_scheme_rejected_witness :
    ResolveAndNormalizeE asciiLib "::not a url".toList "  JavaScript:void(0)".toList true
        = ([], some .unsupportedLinkScheme) ∧
    ResolveAndNormalize asciiLib "::not a url".toList "  JavaScript:void(0)".toList true
        = none :=
  (C23_pseudo_scheme_rejected asciiLib "::not a url".toList "  JavaScript:void(0)".toList
      true).2 "javascript:".toList (by decide) "JavaScript:".toList "void(0)".toList
    (by decide) (by decide) (Or.inl (by decide))

theorem normalizeParsedURLE_okValue (L : Lib) (p : URL) (c : Bool) :
    okValue (normalizeParsedURLE L p c) = normalizeParsedURL L p c := by
  unfold normalizeParsedURLE normalizeParsedURL okValue
  dsimp only
  split_ifs
  · rfl
  · rfl
  · cases normalizedHostPort L (toLower L p.Scheme) p <;> rfl

theorem NormalizeURLE_okValue (L : Lib) (raw : Str) (c : Bool) :
    okValue (NormalizeURLE L raw c) = NormalizeURL L raw c := by
  unfold NormalizeURLE NormalizeURL
  cases Parse (trimSpace raw) with
  | none => rfl
  | some p => exact normalizeParsedURLE_okValue L p c

theorem ResolveAndNormalizeE_okValue (L : Lib) (b h : Str) (c : Bool) :
    okValue (ResolveAndNormalizeE L b h c) = ResolveAndNormalize L b h c := by
  unfold ResolveAndNormalizeE ResolveAndNormalize
  dsimp only
  split_ifs
  · rfl
  · rfl
  · cases Parse b with
    | none => rfl
    | some base =>
      cases Parse (trimSpace h) with
      | none => rfl
      | some ref => exact normalizeParsedURLE_okValue L _ c

theorem okValue_some {α ε : Type} (r : α × Option ε) (v : α) (h : okValue r = some v) :
    r = (v, none) := by
  obtain ⟨a, e⟩ := r
  unfold okValue at h
  cases e with
  | none =>
    simp only [Option.some.injEq] at h
    rw [h]
  | some e => exact absurd h (by simp)

/-! ### The flag `OmitHost` -/

theorem URL.setPath_OmitHost (u p : URL) (x : Str) (h : u.setPath x = some p) :
    p.OmitHost = u.OmitHost ∧ p.User = u.User := by
  unfold URL.setPath at h
  split at h
  · exact absurd h (by simp)
  · simp only [Option.some.injEq] at h
    subst h
    exact ⟨rfl, rfl⟩

theorem URL.setFragment_OmitHost (u p : URL) (x : Str) (h : u.setFragment x = some p) :
    p.OmitHost = u.OmitHost := by
  unfold URL.setFragment at h
  split at h
  · exact absurd h (by simp)
  · simp only [Option.some.injEq] at h
    subst h
    rfl

/-- A URL returned by `url.Parse` with the flag `OmitHost` has a scheme and no host. -/
theorem parseNoFragment_OmitHost (r : Str) (p : URL) (h : parseNoFragment r = some p)
    (ho : p.OmitHost = true) : p.Host = [] ∧ p.Scheme ≠ [] := by
  unfold parseNoFragment at h
  split_ifs at h with h1 h2
  · simp only [Option.some.injEq] at h
    subst h
    exact Bool.noConfusion ho
  · split at h
    · exact absurd h (by simp)
    · dsimp only at h
      split_ifs at h
      all_goals first
        | (simp only [Option.some.injEq] at h
           subst h
           exact Bool.noConfusion ho)
        | (rw [(URL.setPath_OmitHost _ _ _ h).1] at ho
           exact Bool.noConfusion ho)
        | (obtain ⟨_, e2, _, _, e5⟩ := URL.setPath_fields _ _ _ h
           rw [e2, e5]
           exact ⟨rfl, by tauto⟩)
        | (split at h
           · exact absurd h (by simp)
           · rw [(URL.setPath_OmitHost _ _ _ h).1] at ho
             exact Bool.noConfusion ho)

theorem Parse_OmitHost (u : Str) (p : URL) (h : Parse u = some p) (ho : p.OmitHost = true) :
    p.Host = [] ∧ p.Scheme ≠ [] := by
  unfold Parse at h
  dsimp only at h
  split at h
  · exact absurd h (by simp)
  · rename_i url hurl
    split_ifs at h
    · simp only [Option.some.injEq] at h
      subst h
      exact parseNoFragment_OmitHost _ _ hurl ho
    · obtain ⟨_, h2, _, _, h5⟩ := URL.setFragment_fields _ _ _ h
      rw [URL.setFragment_OmitHost _ _ _ h] at ho
      rw [h2, h5]
      exact parseNoFragment_OmitHost _ _ hurl ho

theorem URL.setPathIgnore_fields (u : URL) (x : Str) :
    (u.setPathIgnore x).Opaque = u.Opaque ∧ (u.setPathIgnore x).Host = u.Host ∧
      (u.setPathIgnore x).OmitHost = u.OmitHost ∧ (u.setPathIgnore x).Scheme = u.Scheme := by
  unfold URL.setPathIgnore
  cases h : u.setPath x with
  | none => exact ⟨rfl, rfl, rfl, rfl⟩
  | some p =>
    obtain ⟨e1, e2, _, _, e5⟩ := URL.setPath_fields _ _ _ h
    exact ⟨e1, e2, (URL.setPath_OmitHost _ _ _ h).1, e5⟩

/-- The URL `ResolveReference` returns for a parsed reference is not opaque or has no
host, and has no host when its flag `OmitHost` is set. -/
theorem ResolveReference_host (u ref : URL)
    (h1 : ref.Opaque = [] ∨ ref.Host = [])
    (h2 : ref.OmitHost = true → ref.Host = [] ∧ ref.Scheme ≠ []) :
    ((u.ResolveReference ref).Opaque = [] ∨ (u.ResolveReference ref).Host = []) ∧
    ((u.ResolveReference ref).OmitHost = true → (u.ResolveReference ref).Host = []) := by
  unfold URL.ResolveReference
  dsimp only
  by_cases hs : ref.Scheme = []
  · have hom : ref.OmitHost = false := by
      cases ho : ref.OmitHost with
      | false => rfl
      | true => exact absurd hs (h2 ho).2
    rw [if_pos hs]
    split_ifs
    all_goals first
      | (obtain ⟨e1, e2, e3, _⟩ := URL.setPathIgnore_fields { ref with Scheme := u.Scheme } _
         rw [e1, e2, e3]
         exact ⟨h1, fun ho => by rw [hom] at ho; exact Bool.noConfusion ho⟩)
      | exact ⟨Or.inr rfl, fun _ => rfl⟩
      | (refine ⟨?_, ?_⟩
         · left
           rw [(URL.setPathIgnore_fields _ _).1]
           simp_all
         · intro ho
           rw [(URL.setPathIgnore_fields _ _).2.2.1] at ho
           simp_all)
  · rw [if_neg hs, if_pos (Or.inl hs)]
    obtain ⟨e1, e2, e3, _⟩ := URL.setPathIgnore_fields ref (resolvePath ref.EscapedPath [])
    rw [e1, e2, e3]
    exact ⟨h1, fun ho => (h2 ho).1⟩

/-! ### The shape of a canonical URL text -/

theorem mem_joinWith (sep : Str) (parts : List Str) (x : Char) (h : x ∈ joinWith sep parts) :
    x ∈ sep ∨ ∃ p ∈ parts, x ∈ p := by
  induction parts with
  | nil => simp [joinWith] at h
  | cons p ps ih =>
    cases ps with
    | nil =>
      simp only [joinWith] at h
      exact Or.inr ⟨p, List.mem_cons_self _ _, h⟩
    | cons q qs =>
      simp only [joinWith, List.mem_append] at h
      rcases h with (h | h) | h
      · exact Or.inr ⟨p, List.mem_cons_self _ _, h⟩
      · exact Or.inl h
      · rcases ih h with h | ⟨r, hr, hx⟩
        · exact Or.inl h
        · exact Or.inr ⟨r, List.mem_cons_of_mem _ hr, hx⟩

theorem QueryEscape_no_hash (s : Str) : '#' ∉ QueryEscape s := fun h =>
  (escape_NoQ .encodeQueryComponent (Or.inr (Or.inr rfl)) s '#' h).2 rfl

theorem encodeSortedQuery_no_hash (values : Values) : '#' ∉ encodeSortedQuery values := by
  intro h
  unfold encodeSortedQuery at h
  rcases mem_joinWith _ _ _ h with h | ⟨p, hp, hx⟩
  · revert h
    decide
  · rw [List.mem_flatMap] at hp
    obtain ⟨key, _, hp⟩ := hp
    rw [List.mem_append] at hp
    rcases hp with hp | hp
    · rw [List.mem_map] at hp
      obtain ⟨value, _, rfl⟩ := hp
      rw [List.mem_append, List.mem_append] at hx
      rcases hx with (hx | hx) | hx
      · exact QueryEscape_no_hash _ hx
      · revert hx
        decide
      · exact QueryEscape_no_hash _ hx
    · split_ifs at hp
      · rw [List.mem_singleton] at hp
        subst hp
        rw [List.mem_append] at hx
        rcases hx with hx | hx
        · exact QueryEscape_no_hash _ hx
        · revert hx
          decide
      · exact absurd hp (List.not_mem_nil _)

theorem normalizedQuery_no_hash (L : Lib) (q : Str) (c : Bool) :
    '#' ∉ normalizedQuery L q c := by
  unfold normalizedQuery
  dsimp only
  split_ifs
  all_goals first
    | exact List.not_mem_nil _
    | exact encodeSortedQuery_no_hash _

theorem hasPrefix_slash (s : Str) (h : hasPrefix s "/".toList = true) :
    ∃ t, s = '/' :: t := by
  cases s with
  | nil => exact absurd h (by decide)
  | cons c t =>
    refine ⟨t, ?_⟩
    have : c = '/' := by
      by_contra hc
      have : hasPrefix (c :: t) "/".toList = false := by
        simp [hasPrefix, List.isPrefixOf, Ne.symm hc]
      rw [this] at h
      exact Bool.noConfusion h
    rw [this]

theorem normalizedPath_head (p : URL) : ∃ t, normalizedPath p = '/' :: t := by
  unfold normalizedPath
  dsimp only
  generalize (if pathClean p.EscapedPath = ".".toList ∨ pathClean p.EscapedPath = []
    then "/".toList else pathClean p.EscapedPath) = cp1
  have h2 : ∃ t, (if (!hasPrefix cp1 "/".toList) = true then "/".toList ++ cp1 else cp1)
      = '/' :: t := by
    cases hpre : hasPrefix cp1 "/".toList with
    | true => exact hasPrefix_slash cp1 hpre
    | false => exact ⟨cp1, rfl⟩
  obtain ⟨t, ht⟩ := h2
  rw [ht]
  split_ifs with h3
  · unfold trimSuffix
    split_ifs
    · have hl : t ≠ [] := by
        intro h0
        rw [h0] at h3
        exact h3 rfl
      cases t with
      | nil => exact absurd rfl hl
      | cons a t => exact ⟨List.take t.length (a :: t), by simp [List.take]⟩
    · exact ⟨t, rfl⟩
  · exact ⟨t, rfl⟩

theorem escape_path_slash (t : Str) :
    escape .encodePath ('/' :: t) = '/' :: escape .encodePath t := by
  rw [escape]
  rw [if_neg (by decide), if_neg (by decide)]

/-- What `(*URL).String` writes before the query for a URL with a scheme, no user, no
opaque part, the flag `OmitHost` off, no raw path and a path that starts with a slash. -/
theorem stringBody_canonical (u : URL) (t : Str) (hS : u.Scheme ≠ []) (hO : u.Opaque = [])
    (hU : u.User = none) (hOm : u.OmitHost = false) (hR : u.RawPath = [])
    (hP : u.Path = '/' :: t) :
    u.stringBody = u.Scheme ++ "://".toList ++
      (if u.Host ≠ [] then escape .encodeHost u.Host else []) ++ escape .encodePath u.Path := by
  have hstar : u.Path ≠ "*".toList := by
    rw [hP]
    intro hc
    injection hc with h1 h2
    exact absurd h1 (by decide)
  have hE : u.EscapedPath = escape .encodePath u.Path := by
    unfold URL.EscapedPath
    rw [if_neg (by simp [hR]), if_neg hstar]
  have hne : u.Path ≠ [] := by
    rw [hP]
    exact List.cons_ne_nil _ _
  unfold URL.stringBody
  simp only [hE, hS, hO, hU, hOm, hne, hP, escape_path_slash, ne_eq, not_false_eq_true,
    if_true, if_false, true_or, or_true, List.head?_cons, not_true_eq_false, false_and,
    and_false, Bool.false_eq_true, Option.isSome_none, Option.isNone_none, List.nil_append,
    List.append_assoc, List.append_nil, and_true, List.append_eq_nil, List.cons_ne_nil,
    reduceCtorEq]
  simp

theorem normalizeHost_lowered (L : Lib) (h host : Str) (hn : normalizeHost L h = some host) :
    ∃ x, host = toLower L x := by
  rw [normalizeHost_eq] at hn
  cases hb : hostBeforeIDNA (toLower L h) with
  | none =>
    rw [hb] at hn
    exact absurd hn (by simp)
  | some t =>
    rw [hb] at hn
    simp only [Option.some_bind] at hn
    cases hi : L.idnaToASCII t with
    | none =>
      rw [hi] at hn
      exact absurd hn (by simp)
    | some a =>
      rw [hi] at hn
      simp only [Option.map_some', Option.some.injEq] at hn
      exact ⟨_, hn.symm⟩

theorem escape_host_chars (s : Str) :
    ∀ c ∈ escape .encodeHost s, c ≠ '@' ∧ c ≠ '/' ∧ c ≠ '?' ∧ c ≠ '#' := by
  intro c hc
  rcases mem_escape _ _ _ hc with h | h | h | ⟨_, h⟩
  · subst h
    decide
  · subst h
    decide
  · have hd : ∀ y ∈ "0123456789ABCDEF".toList, y ≠ '@' ∧ y ≠ '/' ∧ y ≠ '?' ∧ y ≠ '#' := by
      decide
    exact hd c h
  · refine ⟨?_, ?_, ?_, ?_⟩ <;>
    · rintro rfl
      exact absurd h (by decide)

/-- Every text `normalizeParsedURL` returns for a URL that `url.Parse` or
`ResolveReference` can produce has the canonical shape. -/
theorem normalizeParsedURL_canon (L : Lib) (p : URL) (c : Bool) (v : Str)
    (hO : p.Opaque = [] ∨ p.Host = []) (hOm : p.OmitHost = true → p.Host = [])
    (h : normalizeParsedURL L p c = some v) : CanonShape L v := by
  have hOp := normalizeParsedURL_Opaque_nil L p c v hO h
  have hHost : p.Host ≠ [] := by
    intro hp
    have h' := h
    unfold normalizeParsedURL normalizedHostPort URL.Hostname at h'
    rw [hp] at h'
    have e : (splitHostPort []).1 = [] := by decide
    rw [e, normalizeHost_nil] at h'
    dsimp only at h'
    split_ifs at h'
  have hOmit : p.OmitHost = false := by
    cases ho : p.OmitHost with
    | false => rfl
    | true => exact absurd (hOm ho) hHost
  unfold normalizeParsedURL at h
  dsimp only at h
  split_ifs at h with h1 h2
  have hsch : toLower L p.Scheme = "http".toList ∨ toLower L p.Scheme = "https".toList := by
    by_contra hc
    push_neg at hc
    exact h2 hc
  cases hhp : normalizedHostPort L (toLower L p.Scheme) p with
  | none =>
    rw [hhp] at h
    exact absurd h (by simp)
  | some hp =>
    rw [hhp] at h
    simp only [Option.some.injEq] at h
    obtain ⟨t, ht⟩ := normalizedPath_head p
    have hne : toLower L p.Scheme ≠ [] := by
      rcases hsch with e | e <;> rw [e] <;> decide
    have hbody := stringBody_canonical
      { p with Scheme := toLower L p.Scheme, Host := hp, Fragment := [], User := none,
               Path := normalizedPath p, RawPath := [],
               RawQuery := normalizedQuery L p.RawQuery c } t hne hOp rfl hOmit rfl ht
    rw [URL.String_eq, hbody] at h
    dsimp only at h
    rw [if_neg (show ¬ (([] : Str) ≠ []) from fun hc => hc rfl), List.append_nil] at h
    unfold normalizedHostPort at hhp
    cases hn : normalizeHost L p.Hostname with
    | none =>
      rw [hn] at hhp
      exact absurd hhp (by simp)
    | some host =>
      rw [hn] at hhp
      simp only [Option.some.injEq] at hhp
      have hq : '#' ∉ URL.stringQuery
          { p with Scheme := toLower L p.Scheme, Host := hp, Fragment := [], User := none,
                   Path := normalizedPath p, RawPath := [],
                   RawQuery := normalizedQuery L p.RawQuery c } := by
        unfold URL.stringQuery
        dsimp only
        split_ifs
        · intro hx
          rcases List.mem_append.mp hx with hx | hx
          · revert hx
            decide
          · exact normalizedQuery_no_hash L _ _ hx
        · exact List.not_mem_nil _
      have hauth : (if hp ≠ [] then escape .encodeHost hp else []) = escape .encodeHost hp := by
        split_ifs with h0
        · rfl
        · push_neg at h0
          rw [h0]
          rfl
      rw [hauth] at h
      have hpath : '#' ∉ escape .encodePath (normalizedPath p) := fun hx =>
        (escape_NoQ .encodePath (Or.inr (Or.inl rfl)) _ '#' hx).2 rfl
      refine ⟨toLower L p.Scheme, host, hp,
        escape .encodePath (normalizedPath p) ++ URL.stringQuery
          { p with Scheme := toLower L p.Scheme, Host := hp, Fragment := [], User := none,
                   Path := normalizedPath p, RawPath := [],
                   RawQuery := normalizedQuery L p.RawQuery c },
        hsch, normalizeHost_lowered L _ _ hn, ?_, escape_host_chars hp, ?_, ?_, ?_⟩
      · have hcases : ∀ port' : Str,
            (if port' ≠ [] then netJoinHostPort host port' else host) = hp →
            (hp = host ∨ ∃ port, port ≠ [] ∧ hp = netJoinHostPort host port) := by
          intro port' e
          by_cases h0 : port' = []
          · left
            rw [← e, if_neg (fun hc => hc h0)]
          · right
            exact ⟨port', h0, by rw [← e, if_pos h0]⟩
        exact hcases _ hhp
      · rw [ht, escape_path_slash]
        rfl
      · rw [← h]
        simp only [List.mem_append, not_or]
        refine ⟨⟨⟨⟨?_, by decide⟩, ?_⟩, hpath⟩, hq⟩
        · rcases hsch with e | e <;> rw [e] <;> decide
        · exact fun hx => (escape_host_chars hp '#' hx).2.2.2 rfl
      · rw [← h]
        simp only [List.append_assoc]

theorem okValue_pair {α ε : Type} (v : α) : okValue ((v, none) : α × Option ε) = some v := rfl

theorem NormalizeURL_canon (L : Lib) (raw : Str) (c : Bool) (v : Str)
    (h : NormalizeURL L raw c = some v) : CanonShape L v := by
  cases hp : Parse (trimSpace raw) with
  | none =>
    unfold NormalizeURL at h
    rw [hp] at h
    exact absurd h (by simp)
  | some p =>
    have h2 := (NormalizeURL_Opaque_nil L raw v p c hp h).2
    exact normalizeParsedURL_canon L p c v (Parse_Opaque_or_Host _ _ hp)
      (fun ho => (Parse_OmitHost _ _ hp ho).1) h2

theorem ResolveAndNormalize_canon (L : Lib) (b h : Str) (c : Bool) (v : Str)
    (hv : ResolveAndNormalize L b h c = some v) : CanonShape L v := by
  unfold ResolveAndNormalize at hv
  dsimp only at hv
  split_ifs at hv
  cases hb : Parse b with
  | none =>
    rw [hb] at hv
    exact absurd hv (by simp)
  | some base =>
    rw [hb] at hv
    dsimp only at hv
    cases hr : Parse (trimSpace h) with
    | none =>
      rw [hr] at hv
      exact absurd hv (by simp)
    | some ref =>
      rw [hr] at hv
      dsimp only at hv
      have hres := ResolveReference_host base ref (Parse_Opaque_or_Host _ _ hr)
        (fun ho => Parse_OmitHost _ _ hr ho)
      exact normalizeParsedURL_canon L _ c v hres.1 hres.2 hv

theorem normalizeHost_bracket (L : Lib) (hL : L.idnaToASCII [] = some []) :
    normalizeHost L "]".toList = some [] :=
  normalizeHost_of_idna L "]".toList [] [] (by decide) (by decide) hL (by decide)

/-- C24 (scheme restriction, refuted on the code): when the IDNA routine maps the empty
name to itself, `NormalizeURL("https://]/x")` succeeds and returns `https:///x`, a text
whose host is empty.  What holds of every text returned by `NormalizeURL` or
`ResolveAndNormalize` is the rest of the shape: the scheme `http` or `https` and `://`, an
authority that is the escaped lowered host (with a port, possibly) and holds no `@`, then
a path that starts with a slash, and no `#` anywhere.  A parsed input whose scheme is
neither `http` nor `https` fails with `ErrUnsupportedLinkScheme`, a parsed input without
scheme fails with the missing-scheme error. -/
theorem C24_scheme_restriction (L : Lib) :
    (L.idnaToASCII [] = some [] → ∀ clean : Bool,
      NormalizeURLE L "https://]/x".toList clean = ("https:///x".toList, none)) ∧
    (∀ (raw : Str) (clean : Bool) (v : Str),
      NormalizeURLE L raw clean = (v, none) → CanonShape L v) ∧
    (∀ (b h : Str) (clean : Bool) (v : Str),
      ResolveAndNormalizeE L b h clean = (v, none) → CanonShape L v) ∧
    (∀ (raw : Str) (clean : Bool) (p : URL), Parse (trimSpace raw) = some p →
      p.Scheme ≠ [] → toLower L p.Scheme ≠ "http".toList →
      toLower L p.Scheme ≠ "https".toList →
      NormalizeURLE L raw clean = ([], some .unsupportedLinkScheme)) ∧
    (∀ (b h : Str) (clean : Bool) (base ref : URL), trimSpace h ≠ [] →
      Parse b = some base → Parse (trimSpace h) = some ref →
      (base.ResolveReference ref).Scheme ≠ [] →
      toLower L (base.ResolveReference ref).Scheme ≠ "http".toList →
      toLower L (base.ResolveReference ref).Scheme ≠ "https".toList →
      ResolveAndNormalizeE L b h clean = ([], some .unsupportedLinkScheme)) ∧
    (∀ (raw : Str) (clean : Bool) (p : URL), Parse (trimSpace raw) = some p →
      p.Scheme = [] → NormalizeURLE L raw clean = ([], some .missingScheme)) := by
  refine ⟨?_, ?_, ?_, ?_, ?_, ?_⟩
  · intro hL clean
    apply okValue_some
    rw [NormalizeURLE_okValue]
    have hn : normalizeHost L "]".toList = normalizeHost asciiLib "]".toList := by
      rw [normalizeHost_bracket L hL]
      decide
    rw [NormalizeURL_eval L _ "]".toList clean (by decide) (by decide) hn]
    cases clean <;> decide
  · intro raw clean v h
    have h2 := NormalizeURLE_okValue L raw clean
    rw [h, okValue_pair] at h2
    exact NormalizeURL_canon L raw clean v h2.symm
  · intro b h clean v hv
    have h2 := ResolveAndNormalizeE_okValue L b h clean
    rw [hv, okValue_pair] at h2
    exact ResolveAndNormalize_canon L b h clean v h2.symm
  · intro raw clean p hp hs h1 h2
    unfold NormalizeURLE normalizeParsedURLE
    rw [hp]
    dsimp only
    rw [if_neg hs, if_pos ⟨h1, h2⟩]
  · intro b h clean base ref hne hb hr hs h1 h2
    unfold ResolveAndNormalizeE normalizeParsedURLE
    dsimp only
    rw [if_neg hne]
    split_ifs
    · rfl
    · rw [hb, hr]
      dsimp only
      rw [if_neg hs, if_pos ⟨h1, h2⟩]
  · intro raw clean p hp hs
    unfold NormalizeURLE normalizeParsedURLE
    rw [hp]
    dsimp only
    rw [if_pos hs]

theorem C24_scheme_restriction_witness :
    NormalizeURLE asciiLib "https://]/x".toList true = ("https:///x".toList, none) :=
  (C24_scheme_restriction asciiLib).1 (by decide) true

/-! ## pagerank_adapter.go: the link graph is a simple directed graph -/

theorem mapSet_keys {β : Type} (m : List (Str × β)) (k : Str) (v : β) :
    (mapSet m k v).map Prod.fst = setInsert (m.map Prod.fst) k := by
  induction m with
  | nil => simp [mapSet, setInsert]
  | cons kv rest ih =>
    obtain ⟨k0, v0⟩ := kv
    unfold mapSet
    by_cases h : k0 = k
    · rw [if_pos h]
      unfold setInsert
      rw [if_pos (by rw [List.map_cons]; exact h ▸ List.mem_cons_self _ _)]
      rfl
    · rw [if_neg h, List.map_cons, ih]
      unfold setInsert
      have hne : ¬ k = k0 := fun e => h e.symm
      by_cases hm : k ∈ rest.map Prod.fst
      · rw [if_pos hm, if_pos (by simp only [List.map_cons, List.mem_cons]; exact Or.inr hm)]
        rfl
      · rw [if_neg hm, if_neg (by
          simp only [List.map_cons, List.mem_cons, not_or]
          exact ⟨hne, hm⟩)]
        rfl

theorem setInsert_nodup (set : List Str) (k : Str) (h : set.Nodup) : (setInsert set k).Nodup := by
  unfold setInsert
  split_ifs with hk
  · exact h
  · rw [List.nodup_append]
    refine ⟨h, List.nodup_singleton _, ?_⟩
    intro x hx hx'
    rw [List.mem_singleton] at hx'
    exact hk (hx' ▸ hx)

theorem setInsert_of_mem (set : List Str) (k : Str) (h : k ∈ set) : setInsert set k = set := by
  unfold setInsert
  rw [if_pos h]

theorem mem_mapSet {β : Type} (m : List (Str × β)) (k : Str) (v : β) (e : Str × β)
    (hn : (m.map Prod.fst).Nodup) :
    e ∈ mapSet m k v ↔ e = (k, v) ∨ (e ∈ m ∧ e.1 ≠ k) := by
  induction m with
  | nil => simp [mapSet]
  | cons kv rest ih =>
    obtain ⟨k0, v0⟩ := kv
    rw [List.map_cons, List.nodup_cons] at hn
    unfold mapSet
    by_cases h0 : k0 = k
    · rw [if_pos h0]
      subst h0
      simp only [List.mem_cons]
      constructor
      · rintro (h | h)
        · exact Or.inl h
        · refine Or.inr ⟨Or.inr h, ?_⟩
          intro he
          have hm := List.mem_map_of_mem Prod.fst h
          rw [he] at hm
          exact hn.1 hm
      · rintro (h | ⟨h | h, hk⟩)
        · exact Or.inl h
        · rw [h] at hk
          exact absurd rfl hk
        · exact Or.inr h
    · rw [if_neg h0]
      simp only [List.mem_cons, ih hn.2]
      constructor
      · rintro (h | h | ⟨h, hk⟩)
        · rw [h]
          exact Or.inr ⟨Or.inl rfl, h0⟩
        · exact Or.inl h
        · exact Or.inr ⟨Or.inr h, hk⟩
      · rintro (h | ⟨h | h, hk⟩)
        · exact Or.inr (Or.inl h)
        · exact Or.inl h
        · exact Or.inr (Or.inr ⟨h, hk⟩)

theorem mem_of_mapGet {β : Type} (m : List (Str × β)) (k : Str) (v : β)
    (h : mapGet m k = some v) : (k, v) ∈ m := by
  induction m with
  | nil => simp [mapGet] at h
  | cons kv rest ih =>
    obtain ⟨k0, v0⟩ := kv
    unfold mapGet at h
    by_cases h0 : k0 = k
    · rw [if_pos h0] at h
      simp only [Option.some.injEq] at h
      rw [h0, h]
      exact List.mem_cons_self _ _
    · rw [if_neg h0] at h
      exact List.mem_cons_of_mem _ (ih h)

theorem mapGet_of_mem {β : Type} (m : List (Str × β)) (k : Str) (v : β)
    (hn : (m.map Prod.fst).Nodup) (h : (k, v) ∈ m) : mapGet m k = some v := by
  induction m with
  | nil => exact absurd h (List.not_mem_nil _)
  | cons kv rest ih =>
    obtain ⟨k0, v0⟩ := kv
    rw [List.map_cons, List.nodup_cons] at hn
    unfold mapGet
    rcases List.mem_cons.mp h with h | h
    · injection h with h1 h2
      rw [if_pos h1.symm, h2]
    · have : k0 ≠ k := by
        intro e
        have hm := List.mem_map_of_mem Prod.fst h
        rw [← e] at hm
        exact hn.1 hm
      rw [if_neg this]
      exact ih hn.2 h

theorem mapGet_none {β : Type} (m : List (Str × β)) (k : Str) (h : mapGet m k = none) :
    k ∉ m.map Prod.fst := by
  induction m with
  | nil => exact List.not_mem_nil _
  | cons kv rest ih =>
    obtain ⟨k0, v0⟩ := kv
    unfold mapGet at h
    by_cases h0 : k0 = k
    · rw [if_pos h0] at h
      exact absurd h (by simp)
    · rw [if_neg h0] at h
      simp only [List.map_cons, List.mem_cons, not_or]
      exact ⟨fun e => h0 e.symm, ih h⟩

theorem mapSet_self {β : Type} (m : List (Str × β)) (k : Str) (v : β)
    (h : mapGet m k = some v) : mapSet m k v = m := by
  induction m with
  | nil => simp [mapGet] at h
  | cons kv rest ih =>
    obtain ⟨k0, v0⟩ := kv
    unfold mapGet at h
    unfold mapSet
    by_cases h0 : k0 = k
    · rw [if_pos h0] at h ⊢
      simp only [Option.some.injEq] at h
      rw [h]
    · rw [if_neg h0] at h ⊢
      rw [ih h]

theorem mem_edgePairs (g : LinkGraph) (a b : Str) :
    (a, b) ∈ g.edgePairs ↔ ∃ t, (a, t) ∈ g.edges ∧ b ∈ t := by
  unfold LinkGraph.edgePairs
  rw [List.mem_flatMap]
  constructor
  · rintro ⟨e, he, hab⟩
    rw [List.mem_map] at hab
    obtain ⟨d, hd, hab⟩ := hab
    injection hab with h1 h2
    obtain ⟨e1, e2⟩ := e
    simp only at h1 h2 hd
    subst h1
    subst h2
    exact ⟨e2, he, hd⟩
  · rintro ⟨t, ht, hb⟩
    exact ⟨(a, t), ht, List.mem_map.mpr ⟨b, hb, rfl⟩⟩

theorem AddNode_nodes (g : LinkGraph) (n x : Str) :
    x ∈ (g.AddNode n).nodes ↔ x ∈ g.nodes ∨ (x = n ∧ n ≠ []) := by
  unfold LinkGraph.AddNode
  split_ifs with h
  · constructor
    · exact Or.inl
    · rintro (h1 | h1)
      · exact h1
      · exact absurd h h1.2
  · simp only [mem_setInsert]
    constructor
    · rintro (h1 | h1)
      · exact Or.inl h1
      · exact Or.inr ⟨h1, h⟩
    · rintro (h1 | h1)
      · exact Or.inl h1
      · exact Or.inr h1.1

theorem AddNode_edges (g : LinkGraph) (n : Str) : (g.AddNode n).edges = g.edges := by
  unfold LinkGraph.AddNode
  split_ifs <;> rfl

theorem AddNode_inv (g : LinkGraph) (n : Str) (h : GraphInv g) : GraphInv (g.AddNode n) := by
  refine ⟨?_, ?_, ?_, ?_, ?_, ?_⟩
  · unfold LinkGraph.AddNode
    split_ifs
    · exact h.nodes_nodup
    · exact setInsert_nodup _ _ h.nodes_nodup
  · rw [AddNode_edges]
    exact h.sources_nodup
  · rw [AddNode_edges]
    exact h.targets_nodup
  · intro x hx
    rcases (AddNode_nodes g n x).mp hx with h1 | h1
    · exact h.nodes_ne x h1
    · rw [h1.1]
      exact h1.2
  · rw [AddNode_edges]
    intro e he
    exact (AddNode_nodes g n _).mpr (Or.inl (h.source_node e he))
  · rw [AddNode_edges]
    intro e he d hd
    exact (AddNode_nodes g n _).mpr (Or.inl (h.target_node e he d hd))

theorem AddNode_of_mem (g : LinkGraph) (n : Str) (h : n ∈ g.nodes) : g.AddNode n = g := by
  unfold LinkGraph.AddNode
  split_ifs
  · rfl
  · rw [setInsert_of_mem _ _ h]

/-- The edges after `AddEdge`: those present before, and the new one when both ends are
not empty. -/
theorem AddEdge_edgePairs (g : LinkGraph) (src dst a b : Str) (h : GraphInv g) :
    (a, b) ∈ (g.AddEdge src dst).edgePairs ↔
      (a, b) ∈ g.edgePairs ∨ (a = src ∧ b = dst ∧ src ≠ [] ∧ dst ≠ []) := by
  unfold LinkGraph.AddEdge
  by_cases h0 : src = [] ∨ dst = []
  · rw [if_pos h0]
    constructor
    · exact Or.inl
    · rintro (h1 | ⟨_, _, h2, h3⟩)
      · exact h1
      · rcases h0 with h0 | h0
        · exact absurd h0 h2
        · exact absurd h0 h3
  · rw [if_neg h0]
    push_neg at h0
    dsimp only
    rw [mem_edgePairs, mem_edgePairs]
    simp only [AddNode_edges]
    constructor
    · rintro ⟨t, ht, hb⟩
      rcases (mem_mapSet _ _ _ _ h.sources_nodup).mp ht with h1 | ⟨h1, h2⟩
      · injection h1 with h1 h2
        subst h1
        subst h2
        rcases mem_setInsert.mp hb with hb | hb
        · left
          cases hg : mapGet g.edges a with
          | none =>
            rw [hg] at hb
            exact absurd hb (List.not_mem_nil _)
          | some t0 =>
            rw [hg] at hb
            exact ⟨t0, mem_of_mapGet _ _ _ hg, hb⟩
        · exact Or.inr ⟨rfl, hb, h0.1, h0.2⟩
      · exact Or.inl ⟨t, h1, hb⟩
    · rintro (⟨t, ht, hb⟩ | ⟨h1, h2, _, _⟩)
      · by_cases hs : a = src
        · subst hs
          refine ⟨_, (mem_mapSet _ _ _ _ h.sources_nodup).mpr (Or.inl rfl), ?_⟩
          rw [mapGet_of_mem _ _ _ h.sources_nodup ht]
          exact mem_setInsert.mpr (Or.inl hb)
        · exact ⟨t, (mem_mapSet _ _ _ _ h.sources_nodup).mpr (Or.inr ⟨ht, hs⟩), hb⟩
      · subst h1
        subst h2
        exact ⟨_, (mem_mapSet _ _ _ _ h.sources_nodup).mpr (Or.inl rfl),
          mem_setInsert.mpr (Or.inr rfl)⟩

theorem AddEdge_nodes (g : LinkGraph) (src dst x : Str) :
    x ∈ (g.AddEdge src dst).nodes ↔
      x ∈ g.nodes ∨ ((x = src ∨ x = dst) ∧ src ≠ [] ∧ dst ≠ []) := by
  unfold LinkGraph.AddEdge
  by_cases h0 : src = [] ∨ dst = []
  · rw [if_pos h0]
    constructor
    · exact Or.inl
    · rintro (h1 | ⟨_, h2, h3⟩)
      · exact h1
      · rcases h0 with h0 | h0
        · exact absurd h0 h2
        · exact absurd h0 h3
  · rw [if_neg h0]
    push_neg at h0
    dsimp only
    rw [AddNode_nodes, AddNode_nodes]
    constructor
    · rintro ((h1 | h1) | h1)
      · exact Or.inl h1
      · exact Or.inr ⟨Or.inl h1.1, h0⟩
      · exact Or.inr ⟨Or.inr h1.1, h0⟩
    · rintro (h1 | ⟨h1 | h1, _⟩)
      · exact Or.inl (Or.inl h1)
      · exact Or.inl (Or.inr ⟨h1, h0.1⟩)
      · exact Or.inr ⟨h1, h0.2⟩

theorem AddEdge_inv (g : LinkGraph) (src dst : Str) (h : GraphInv g) :
    GraphInv (g.AddEdge src dst) := by
  by_cases h0 : src = [] ∨ dst = []
  · unfold LinkGraph.AddEdge
    rw [if_pos h0]
    exact h
  · have hg' : GraphInv ((g.AddNode src).AddNode dst) := AddNode_inv _ _ (AddNode_inv _ _ h)
    have hnodes : (g.AddEdge src dst).nodes = ((g.AddNode src).AddNode dst).nodes := by
      unfold LinkGraph.AddEdge
      rw [if_neg h0]
    have hedges : (g.AddEdge src dst).edges
        = mapSet g.edges src (setInsert ((mapGet g.edges src).getD []) dst) := by
      unfold LinkGraph.AddEdge
      rw [if_neg h0]
      simp only [AddNode_edges]
    push_neg at h0
    have hsrc : src ∈ ((g.AddNode src).AddNode dst).nodes :=
      (AddNode_nodes _ _ _).mpr (Or.inl ((AddNode_nodes _ _ _).mpr (Or.inr ⟨rfl, h0.1⟩)))
    have hdst : dst ∈ ((g.AddNode src).AddNode dst).nodes :=
      (AddNode_nodes _ _ _).mpr (Or.inr ⟨rfl, h0.2⟩)
    have hold : ∀ x ∈ g.nodes, x ∈ ((g.AddNode src).AddNode dst).nodes := fun x hx =>
      (AddNode_nodes _ _ _).mpr (Or.inl ((AddNode_nodes _ _ _).mpr (Or.inl hx)))
    have hmem : ∀ e ∈ (g.AddEdge src dst).edges,
        e = (src, setInsert ((mapGet g.edges src).getD []) dst) ∨ (e ∈ g.edges ∧ e.1 ≠ src) := by
      intro e he
      rw [hedges] at he
      exact (mem_mapSet _ _ _ _ h.sources_nodup).mp he
    have hget : ∀ d ∈ (mapGet g.edges src).getD [], d ∈ g.nodes := by
      intro d hd
      cases hg : mapGet g.edges src with
      | none =>
        rw [hg] at hd
        exact absurd hd (List.not_mem_nil _)
      | some t0 =>
        rw [hg] at hd
        exact h.target_node _ (mem_of_mapGet _ _ _ hg) d hd
    have hgetn : ((mapGet g.edges src).getD []).Nodup := by
      cases hg : mapGet g.edges src with
      | none => exact List.nodup_nil
      | some t0 => exact h.targets_nodup _ (mem_of_mapGet _ _ _ hg)
    refine ⟨?_, ?_, ?_, ?_, ?_, ?_⟩
    · rw [hnodes]
      exact hg'.nodes_nodup
    · rw [hedges, mapSet_keys]
      exact setInsert_nodup _ _ h.sources_nodup
    · intro e he
      rcases hmem e he with h1 | h1
      · rw [h1]
        exact setInsert_nodup _ _ hgetn
      · exact h.targets_nodup e h1.1
    · rw [hnodes]
      exact hg'.nodes_ne
    · intro e he
      rw [hnodes]
      rcases hmem e he with h1 | h1
      · rw [h1]
        exact hsrc
      · exact hold _ (h.source_node e h1.1)
    · intro e he d hd
      rw [hnodes]
      rcases hmem e he with h1 | h1
      · rw [h1] at hd
        rcases mem_setInsert.mp hd with hd | hd
        · exact hold _ (hget d hd)
        · rw [hd]
          exact hdst
      · exact hold _ (h.target_node e h1.1 d hd)

theorem NewLinkGraph_inv : GraphInv NewLinkGraph :=
  ⟨List.nodup_nil, List.nodup_nil, fun _ h => absurd h (List.not_mem_nil _),
   fun _ h => absurd h (List.not_mem_nil _), fun _ h => absurd h (List.not_mem_nil _),
   fun _ h => absurd h (List.not_mem_nil _)⟩

theorem call_inv (g : LinkGraph) (c : GraphCall) (h : GraphInv g) : GraphInv (g.call c) := by
  cases c with
  | addNode n => exact AddNode_inv g n h
  | addEdge a b => exact AddEdge_inv g a b h

theorem foldl_call_inv (calls : List GraphCall) (g : LinkGraph) (h : GraphInv g) :
    GraphInv (calls.foldl LinkGraph.call g) := by
  induction calls generalizing g with
  | nil => exact h
  | cons c cs ih => exact ih _ (call_inv g c h)

theorem foldl_call_edgePairs (calls : List GraphCall) (g : LinkGraph) (h : GraphInv g)
    (a b : Str) :
    (a, b) ∈ (calls.foldl LinkGraph.call g).edgePairs ↔
      (a, b) ∈ g.edgePairs ∨ (GraphCall.addEdge a b ∈ calls ∧ a ≠ [] ∧ b ≠ []) := by
  induction calls generalizing g with
  | nil => simp
  | cons c cs ih =>
    rw [List.foldl_cons, ih _ (call_inv g c h)]
    cases c with
    | addNode n =>
      have : (g.call (.addNode n)).edgePairs = g.edgePairs := by
        unfold LinkGraph.edgePairs LinkGraph.call
        rw [AddNode_edges]
      rw [this]
      simp only [List.mem_cons, reduceCtorEq, false_or]
    | addEdge s d =>
      have : g.call (.addEdge s d) = g.AddEdge s d := rfl
      rw [this, AddEdge_edgePairs g s d a b h]
      simp only [List.mem_cons, GraphCall.addEdge.injEq]
      constructor
      · rintro ((h1 | ⟨h1, h2, h3, h4⟩) | h1)
        · exact Or.inl h1
        · exact Or.inr ⟨Or.inl ⟨h1, h2⟩, h1 ▸ h3, h2 ▸ h4⟩
        · exact Or.inr ⟨Or.inr h1.1, h1.2⟩
      · rintro (h1 | ⟨⟨h1, h2⟩ | h1, h3, h4⟩)
        · exact Or.inl (Or.inl h1)
        · exact Or.inl (Or.inr ⟨h1, h2, h1 ▸ h3, h2 ▸ h4⟩)
        · exact Or.inr ⟨h1, h3, h4⟩

theorem foldl_call_nodes (calls : List GraphCall) (g : LinkGraph) (x : Str) :
    x ∈ (calls.foldl LinkGraph.call g).nodes ↔
      x ∈ g.nodes ∨ (x ≠ [] ∧ (GraphCall.addNode x ∈ calls ∨
        ∃ a b, GraphCall.addEdge a b ∈ calls ∧ a ≠ [] ∧ b ≠ [] ∧ (x = a ∨ x = b))) := by
  induction calls generalizing g with
  | nil => simp
  | cons c cs ih =>
    rw [List.foldl_cons, ih]
    cases c with
    | addNode n =>
      have : g.call (.addNode n) = g.AddNode n := rfl
      rw [this, AddNode_nodes]
      simp only [List.mem_cons, GraphCall.addNode.injEq, reduceCtorEq, false_or]
      constructor
      · rintro ((h1 | h1) | h1)
        · exact Or.inl h1
        · exact Or.inr ⟨h1.1 ▸ h1.2, Or.inl (Or.inl h1.1)⟩
        · rcases h1 with ⟨h1, h2 | h2⟩
          · exact Or.inr ⟨h1, Or.inl (Or.inr h2)⟩
          · exact Or.inr ⟨h1, Or.inr h2⟩
      · rintro (h1 | ⟨h1, (h2 | h2) | h2⟩)
        · exact Or.inl (Or.inl h1)
        · exact Or.inl (Or.inr ⟨h2, h2 ▸ h1⟩)
        · exact Or.inr ⟨h1, Or.inl h2⟩
        · exact Or.inr ⟨h1, Or.inr h2⟩
    | addEdge s d =>
      have : g.call (.addEdge s d) = g.AddEdge s d := rfl
      rw [this, AddEdge_nodes]
      simp only [List.mem_cons, GraphCall.addEdge.injEq, reduceCtorEq, false_or]
      constructor
      · rintro ((h1 | ⟨h1, h2, h3⟩) | h1)
        · exact Or.inl h1
        · refine Or.inr ⟨?_, Or.inr ⟨s, d, Or.inl ⟨rfl, rfl⟩, h2, h3, h1⟩⟩
          rcases h1 with h1 | h1 <;> rw [h1] <;> assumption
        · rcases h1 with ⟨h1, h2 | ⟨a, b, h2, h3⟩⟩
          · exact Or.inr ⟨h1, Or.inl h2⟩
          · exact Or.inr ⟨h1, Or.inr ⟨a, b, Or.inr h2, h3⟩⟩
      · rintro (h1 | ⟨h1, h2 | ⟨a, b, (⟨h2, h2'⟩ | h2), h3, h4, h5⟩⟩)
        · exact Or.inl (Or.inl h1)
        · exact Or.inr ⟨h1, Or.inl h2⟩
        · subst h2
          subst h2'
          exact Or.inl (Or.inr ⟨h5, h3, h4⟩)
        · exact Or.inr ⟨h1, Or.inr ⟨a, b, h2, h3, h4, h5⟩⟩

theorem edgePairs_nodup (g : LinkGraph) (h : GraphInv g) : g.edgePairs.Nodup := by
  unfold LinkGraph.edgePairs
  have key : ∀ (edges : List (Str × List Str)), (edges.map Prod.fst).Nodup →
      (∀ e ∈ edges, e.2.Nodup) →
      (edges.flatMap (fun e => e.2.map (fun dst => (e.1, dst)))).Nodup := by
    intro edges
    induction edges with
    | nil => intro _ _; exact List.nodup_nil
    | cons e rest ih =>
      intro hk ht
      rw [List.map_cons, List.nodup_cons] at hk
      rw [List.flatMap_cons, List.nodup_append]
      refine ⟨?_, ih hk.2 (fun e he => ht e (List.mem_cons_of_mem _ he)), ?_⟩
      · exact (ht e (List.mem_cons_self _ _)).map (fun x y hxy => by
          injection hxy)
      · intro x hx hx'
        rw [List.mem_map] at hx
        obtain ⟨d, _, rfl⟩ := hx
        rw [List.mem_flatMap] at hx'
        obtain ⟨e', he', hx'⟩ := hx'
        rw [List.mem_map] at hx'
        obtain ⟨d', _, hx'⟩ := hx'
        injection hx' with h1 h2
        exact hk.1 (h1 ▸ List.mem_map_of_mem Prod.fst he')
  exact key g.edges h.sources_nodup h.targets_nodup

theorem AddEdge_of_mem (g : LinkGraph) (a b : Str) (h : GraphInv g)
    (hab : (a, b) ∈ g.edgePairs) : g.AddEdge a b = g := by
  rw [mem_edgePairs] at hab
  obtain ⟨t, ht, hb⟩ := hab
  have ha : a ∈ g.nodes := h.source_node _ ht
  have hbn : b ∈ g.nodes := h.target_node _ ht b hb
  unfold LinkGraph.AddEdge
  rw [if_neg (by
    push_neg
    exact ⟨h.nodes_ne a ha, h.nodes_ne b hbn⟩)]
  dsimp only
  rw [AddNode_of_mem g a ha, AddNode_of_mem g b hbn,
    mapGet_of_mem _ _ _ h.sources_nodup ht]
  simp only [Option.getD_some]
  rw [setInsert_of_mem _ _ hb, mapSet_self _ _ _ (mapGet_of_mem _ _ _ h.sources_nodup ht)]

/-- C27 (link graph is a simple directed graph): after any sequence of `AddNode` and
`AddEdge` calls on a new `LinkGraph`, no node and no edge is listed twice, the edges are
exactly the pairs `(from, to)` of the `AddEdge` calls with both arguments non-empty (a
self-loop is kept), both ends of every edge are nodes, the nodes are the non-empty
arguments of `AddNode` and the ends of the edges, repeating an `AddEdge` call made before
leaves the graph as it is, and a call with an empty argument changes nothing. -/
theorem C27_simple_directed_graph (calls : List GraphCall) :
    (graphAfter calls).nodes.Nodup ∧
    (graphAfter calls).edgePairs.Nodup ∧
    (∀ a b, (a, b) ∈ (graphAfter calls).edgePairs ↔
      (GraphCall.addEdge a b ∈ calls ∧ a ≠ [] ∧ b ≠ [])) ∧
    (∀ a b, (a, b) ∈ (graphAfter calls).edgePairs →
      a ∈ (graphAfter calls).nodes ∧ b ∈ (graphAfter calls).nodes) ∧
    (∀ x, x ∈ (graphAfter calls).nodes ↔
      (x ≠ [] ∧ (GraphCall.addNode x ∈ calls ∨
        ∃ a b, GraphCall.addEdge a b ∈ calls ∧ a ≠ [] ∧ b ≠ [] ∧ (x = a ∨ x = b)))) ∧
    (∀ a b, GraphCall.addEdge a b ∈ calls →
      (graphAfter calls).AddEdge a b = graphAfter calls) ∧
    (∀ x, (graphAfter calls).AddNode [] = graphAfter calls ∧
      (graphAfter calls).AddEdge [] x = graphAfter calls ∧
      (graphAfter calls).AddEdge x [] = graphAfter calls) := by
  have hinv : GraphInv (graphAfter calls) := foldl_call_inv calls _ NewLinkGraph_inv
  have hedges : ∀ a b, (a, b) ∈ (graphAfter calls).edgePairs ↔
      (GraphCall.addEdge a b ∈ calls ∧ a ≠ [] ∧ b ≠ []) := by
    intro a b
    unfold graphAfter
    rw [foldl_call_edgePairs calls _ NewLinkGraph_inv]
    simp [NewLinkGraph, LinkGraph.edgePairs]
  refine ⟨hinv.nodes_nodup, edgePairs_nodup _ hinv, hedges, ?_, ?_, ?_, ?_⟩
  · intro a b hab
    rw [mem_edgePairs] at hab
    obtain ⟨t, ht, hb⟩ := hab
    exact ⟨hinv.source_node _ ht, hinv.target_node _ ht b hb⟩
  · intro x
    unfold graphAfter
    rw [foldl_call_nodes]
    simp [NewLinkGraph]
  · intro a b hab
    by_cases h0 : a = [] ∨ b = []
    · unfold LinkGraph.AddEdge
      rw [if_pos h0]
    · push_neg at h0
      exact AddEdge_of_mem _ a b hinv ((hedges a b).mpr ⟨hab, h0.1, h0.2⟩)
  · intro x
    refine ⟨?_, ?_, ?_⟩
    · unfold LinkGraph.AddNode
      rw [if_pos rfl]
    · unfold LinkGraph.AddEdge
      rw [if_pos (Or.inl rfl)]
    · unfold LinkGraph.AddEdge
      rw [if_pos (Or.inr rfl)]

theorem C27_simple_directed_graph_witness :
    (graphAfter [.addEdge "a".toList "a".toList, .addNode "b".toList]).AddEdge
        "a".toList "a".toList
      = graphAfter [.addEdge "a".toList "a".toList, .addNode "b".toList] :=
  (C27_simple_directed_graph [.addEdge "a".toList "a".toList, .addNode "b".toList]).2.2.2.2.2.1
    "a".toList "a".toList (by decide)

/-! ## cmd/sitecrawl/main.go: the checks on the flags -/

theorem crawlStart_domain (L : Lib) (cfg cfg' : Config) (w : World)
    (h : cfg.Domain = cfg'.Domain) : crawlStart L cfg w = crawlStart L cfg' w := by
  unfold crawlStart
  rw [h]

/-- C21, as stated, fails: with `--page-timeout 0s` and the other flags valid, `runCrawl`
passes its checks and hands `Crawl` a configuration whose `PageTimeout` is 0; `Crawl` puts
20 s in its place and fetches the start page.  Called directly with a page budget 0, a
maximal depth -1, a delay -1 and a time-out -1, `Crawl` puts 25, 0, 0 and 20 s in their
place and fetches the start page as well. -/
theorem C21_out_of_range_counterexample :
    runCrawlConfig asciiLib zeroTimeoutFlags = .ok (FormatMarkdown, zeroTimeoutConfig) ∧
    zeroTimeoutFlags.pageTimeout ≤ 0 ∧
    (effectiveConfig zeroTimeoutConfig).PageTimeout = 20 * 1000000000 ∧
    crawlStart asciiLib zeroTimeoutConfig exampleWorld
      = some (exampleScope, "https://example.com/".toList, exampleStartPage,
          ["https://example.com/".toList]) ∧
    (effectiveConfig outOfRangeConfig).MaxPages = 25 ∧
    (effectiveConfig outOfRangeConfig).MaxDepth = 0 ∧
    (effectiveConfig outOfRangeConfig).Delay = 0 ∧
    (effectiveConfig outOfRangeConfig).PageTimeout = 20 * 1000000000 ∧
    crawlStart asciiLib outOfRangeConfig exampleWorld
      = some (exampleScope, "https://example.com/".toList, exampleStartPage,
          ["https://example.com/".toList]) := by
  refine ⟨rfl, by decide, by decide, by decide, by decide, by decide, by decide, by decide,
    by decide⟩

/-- C21 (configuration validation, amended): `runCrawl` ends with exit code 2, before it
calls `Crawl`, when the page budget is below 1, the maximal depth below 0 or the delay
below 0; the per-page time-out is not checked and reaches `Crawl` as given.  `Crawl`
itself rejects none of the four values: it replaces a page budget below 1 by 25, a
maximal depth below 0 by 0, a delay below 0 by 0 and a time-out of 0 or less by 20 s, and
the start of its run (scope, start page fetch) depends on the domain only. -/
theorem C21_config_validation (L : Lib) :
    (∀ f : CrawlFlags, f.maxPages < 1 ∨ f.maxDepth < 0 ∨ f.delayMS < 0 →
      runCrawlConfig L f = .error 2) ∧
    (∀ (f : CrawlFlags) (format : Str) (cfg : Config),
      runCrawlConfig L f = .ok (format, cfg) →
      cfg.MaxPages = f.maxPages ∧ 1 ≤ cfg.MaxPages ∧ cfg.MaxDepth = f.maxDepth ∧
      0 ≤ cfg.MaxDepth ∧ 0 ≤ f.delayMS ∧ cfg.PageTimeout = f.pageTimeout) ∧
    (∀ cfg : Config,
      (effectiveConfig cfg).MaxPages = (if cfg.MaxPages < 1 then 25 else cfg.MaxPages) ∧
      (effectiveConfig cfg).MaxDepth = (if cfg.MaxDepth < 0 then 0 else cfg.MaxDepth) ∧
      (effectiveConfig cfg).Delay = (if cfg.Delay < 0 then 0 else cfg.Delay) ∧
      (effectiveConfig cfg).PageTimeout
        = (if cfg.PageTimeout ≤ 0 then 20 * 1000000000 else cfg.PageTimeout)) ∧
    (∀ (cfg cfg' : Config) (w : World), cfg.Domain = cfg'.Domain →
      crawlStart L cfg w = crawlStart L cfg' w) := by
  refine ⟨?_, ?_, ?_, fun cfg cfg' w h => crawlStart_domain L cfg cfg' w h⟩
  · intro f h
    unfold runCrawlConfig
    split_ifs with h1 h2 h3 h4
    · rfl
    · rfl
    · rfl
    · rfl
    · exfalso
      omega
  · intro f format cfg h
    unfold runCrawlConfig at h
    split_ifs at h with h1 h2 h3 h4
    cases hf : ParseFormat L f.formatRaw with
    | none =>
      rw [hf] at h
      exact Except.noConfusion h
    | some fmt =>
      rw [hf] at h
      dsimp only at h
      cases hs : ParseStrategy L f.strategyRaw with
      | none =>
        rw [hs] at h
        exact Except.noConfusion h
      | some st =>
        rw [hs] at h
        dsimp only at h
        injection h with h
        injection h with h5 h6
        subst h6
        dsimp only
        refine ⟨rfl, ?_, rfl, ?_, ?_, rfl⟩ <;> omega
  · intro cfg
    unfold effectiveConfig
    dsimp only
    refine ⟨?_, rfl, rfl, rfl⟩
    by_cases h : cfg.MaxPages ≤ 0
    · rw [if_pos h, if_pos (by omega)]
    · rw [if_neg h, if_neg (by omega)]

theorem C21_config_validation_witness :
    runCrawlConfig asciiLib { zeroTimeoutFlags with maxPages := 0 } = .error 2 :=
  (C21_config_validation asciiLib).1 { zeroTimeoutFlags with maxPages := 0 }
    (Or.inl (by decide))

/-! ## crawl.go: breadth-first order -/

theorem enqueueLinks_added (cfg : Config) (depth : Int) (links : List Str)
    (queue : List queueItem) (enq : List Str) :
    ∃ added : List Str,
      (links.foldl (enqueueLink cfg depth) (queue, enq)).1
        = queue ++ added.map (fun u => ({ URL := u, Depth := depth + 1 } : queueItem)) ∧
      (links.foldl (enqueueLink cfg depth) (queue, enq)).2 = enq ++ added ∧
      (∀ u ∈ added, u ∈ links ∧ u ∉ enq ∧ ¬ depthBlocked cfg depth) ∧
      (∀ u ∈ links, u ∈ enq ++ added ∨ depthBlocked cfg depth) := by
  induction links generalizing queue enq with
  | nil =>
    exact ⟨[], by simp, by simp, fun u hu => absurd hu (List.not_mem_nil _),
      fun u hu => absurd hu (List.not_mem_nil _)⟩
  | cons l ls ih =>
    rw [List.foldl_cons]
    by_cases h1 : l ∈ enq
    · have hs : enqueueLink cfg depth (queue, enq) l = (queue, enq) := by
        unfold enqueueLink
        dsimp only
        rw [if_pos h1]
      rw [hs]
      obtain ⟨added, e1, e2, h3, h4⟩ := ih queue enq
      refine ⟨added, e1, e2, fun u hu => ⟨List.mem_cons_of_mem _ (h3 u hu).1, (h3 u hu).2⟩, ?_⟩
      intro u hu
      rcases List.mem_cons.mp hu with hu | hu
      · rw [hu]
        exact Or.inl (List.mem_append_left _ h1)
      · exact h4 u hu
    · by_cases h2 : cfg.Strategy = StrategyDepth ∧ depth + 1 > cfg.MaxDepth
      · have hs : enqueueLink cfg depth (queue, enq) l = (queue, enq) := by
          unfold enqueueLink
          dsimp only
          rw [if_neg h1, if_pos h2]
        rw [hs]
        obtain ⟨added, e1, e2, h3, h4⟩ := ih queue enq
        refine ⟨added, e1, e2,
          fun u hu => ⟨List.mem_cons_of_mem _ (h3 u hu).1, (h3 u hu).2⟩, ?_⟩
        intro u hu
        exact Or.inr h2
      · have hins : setInsert enq l = enq ++ [l] := by
          unfold setInsert
          rw [if_neg h1]
        have hs : enqueueLink cfg depth (queue, enq) l
            = (queue ++ [{ URL := l, Depth := depth + 1 }], enq ++ [l]) := by
          unfold enqueueLink
          dsimp only
          rw [if_neg h1, if_neg h2, hins]
        rw [hs]
        obtain ⟨added, e1, e2, h3, h4⟩ :=
          ih (queue ++ [{ URL := l, Depth := depth + 1 }]) (enq ++ [l])
        refine ⟨l :: added, ?_, ?_, ?_, ?_⟩
        · rw [e1]
          simp
        · rw [e2]
          simp
        · intro u hu
          rcases List.mem_cons.mp hu with hu | hu
          · rw [hu]
            exact ⟨List.mem_cons_self _ _, h1, h2⟩
          · refine ⟨List.mem_cons_of_mem _ (h3 u hu).1, ?_, h2⟩
            intro hc
            exact (h3 u hu).2.1 (List.mem_append_left _ hc)
        · intro u hu
          rcases List.mem_cons.mp hu with hu | hu
          · rw [hu]
            left
            simp
          · rcases h4 u hu with h | h
            · left
              simpa using h
            · exact Or.inr h

theorem firstDiscoverer_append {F : Type} (pages : List (Page F)) (page P : Page F) (u : Str)
    (h : firstDiscoverer pages u = some P) : firstDiscoverer (pages ++ [page]) u = some P := by
  unfold firstDiscoverer at h ⊢
  rw [List.find?_append, h]
  rfl

theorem firstDiscoverer_new {F : Type} (pages : List (Page F)) (page : Page F) (u : Str)
    (h1 : ∀ P ∈ pages, ¬ (P.Status = StatusOK ∧ u ∈ P.Links))
    (h2 : page.Status = StatusOK) (h3 : u ∈ page.Links) :
    firstDiscoverer (pages ++ [page]) u = some page := by
  unfold firstDiscoverer
  have hn : pages.find? (fun p => decide (p.Status = StatusOK ∧ u ∈ p.Links)) = none := by
    rw [List.find?_eq_none]
    intro P hP
    simpa using h1 P hP
  rw [List.find?_append, hn]
  simp [List.find?, h2, h3]

/-- Taking the head off the queue keeps the breadth-first invariant, and tells where the
head stands: after all pages, before the rest of the queue. -/
theorem BfsCore.popFront {F : Type} {cfg : Config} {startURL : Str} {cur : queueItem}
    {tail : List queueItem} {enq proc : List Str} {pages : List (Page F)}
    (h : BfsCore cfg startURL (cur :: tail) enq proc pages) (hf : cur.URL ∉ proc) :
    BfsCore cfg startURL tail enq (setInsert proc cur.URL) pages ∧
    setInsert proc cur.URL = proc ++ [cur.URL] ∧
    (pages.map Page.URL).Sublist proc ∧
    (∀ p ∈ pages, p.Depth ≤ cur.Depth) ∧
    (∀ q ∈ tail, cur.Depth ≤ q.Depth ∧ q.Depth ≤ cur.Depth + 1) ∧
    (cur.URL = startURL → cur.Depth = 0) ∧
    (cur.URL ≠ startURL →
      ∃ P, firstDiscoverer pages cur.URL = some P ∧ cur.Depth = P.Depth + 1) := by
  have hins : setInsert proc cur.URL = proc ++ [cur.URL] := by
    unfold setInsert
    rw [if_neg hf]
  have hs := h.queue_sorted
  rw [List.pairwise_cons] at hs
  refine ⟨⟨?_, ?_, h.pages_sorted, hs.2,
    fun p hp q hq => h.pages_le_queue p hp q (List.mem_cons_of_mem _ hq),
    fun q hq q' hq' => h.near q (List.mem_cons_of_mem _ hq) q' (List.mem_cons_of_mem _ hq'),
    fun q hq => h.seed_queue q (List.mem_cons_of_mem _ hq), h.seed_pages,
    fun q hq => h.disc_queue q (List.mem_cons_of_mem _ hq), h.disc_pages, h.links, h.start⟩,
    hins, h.pages_sub, fun p hp => h.pages_le_queue p hp cur (List.mem_cons_self _ _),
    fun q hq => ⟨hs.1 q hq, h.near cur (List.mem_cons_self _ _) q (List.mem_cons_of_mem _ hq)⟩,
    h.seed_queue cur (List.mem_cons_self _ _), h.disc_queue cur (List.mem_cons_self _ _)⟩
  · rw [hins, h.fifo]
    simp
  · rw [hins]
    exact h.pages_sub.trans (List.sublist_append_left _ _)

/-- Recording the page of the URL just taken off the queue, and enqueuing the new links
of that page, keeps the breadth-first invariant. -/
theorem BfsCore.record {F : Type} {cfg : Config} {startURL : Str}
    {tail : List queueItem} {enq proc : List Str} {pages : List (Page F)}
    (page : Page F) (added : List Str)
    (h : BfsCore cfg startURL tail enq (proc ++ [page.URL]) pages)
    (hsub : (pages.map Page.URL).Sublist proc)
    (hle : ∀ p ∈ pages, p.Depth ≤ page.Depth)
    (htail : ∀ q ∈ tail, page.Depth ≤ q.Depth ∧ q.Depth ≤ page.Depth + 1)
    (hseed : page.URL = startURL → page.Depth = 0)
    (hdisc : page.URL ≠ startURL →
      ∃ P, firstDiscoverer pages page.URL = some P ∧ page.Depth = P.Depth + 1)
    (hadd : ∀ u ∈ added, u ∉ enq ∧ ¬ depthBlocked cfg page.Depth ∧
      page.Status = StatusOK ∧ u ∈ page.Links)
    (hlinks : page.Status = StatusOK → ∀ u ∈ page.Links,
      u ∈ enq ++ added ∨ depthBlocked cfg page.Depth) :
    BfsCore cfg startURL
      (tail ++ added.map (fun u => ({ URL := u, Depth := page.Depth + 1 } : queueItem)))
      (enq ++ added) (proc ++ [page.URL]) (pages ++ [page]) := by
  have hitem : ∀ q ∈ added.map (fun u => ({ URL := u, Depth := page.Depth + 1 } : queueItem)),
      q.Depth = page.Depth + 1 ∧ q.URL ∈ added := by
    intro q hq
    rw [List.mem_map] at hq
    obtain ⟨u, hu, rfl⟩ := hq
    exact ⟨rfl, hu⟩
  refine ⟨?_, ?_, ?_, ?_, ?_, ?_, ?_, ?_, ?_, ?_, ?_, ?_⟩
  · rw [h.fifo]
    simp [Function.comp_def]
  · rw [List.map_append, List.map_singleton]
    exact List.Sublist.append hsub (List.Sublist.refl _)
  · rw [List.pairwise_append]
    refine ⟨h.pages_sorted, List.pairwise_singleton _ _, ?_⟩
    intro p hp q hq
    rw [List.mem_singleton.mp hq]
    exact hle p hp
  · rw [List.pairwise_append]
    refine ⟨h.queue_sorted, ?_, ?_⟩
    · rw [List.pairwise_iff_forall_sublist]
      intro a b hab
      have ha := (hitem a (hab.subset (List.mem_cons_self _ _))).1
      have hb := (hitem b (hab.subset (List.mem_cons_of_mem _ (List.mem_singleton.mpr rfl)))).1
      omega
    · intro q hq q' hq'
      have := (hitem q' hq').1
      have := (htail q hq).2
      omega
  · intro p hp q hq
    rcases List.mem_append.mp hp with hp | hp
    · rcases List.mem_append.mp hq with hq | hq
      · exact h.pages_le_queue p hp q hq
      · have := (hitem q hq).1
        have := hle p hp
        omega
    · rw [List.mem_singleton.mp hp]
      rcases List.mem_append.mp hq with hq | hq
      · exact (htail q hq).1
      · have := (hitem q hq).1
        omega
  · intro q hq q' hq'
    rcases List.mem_append.mp hq with hq | hq
    · rcases List.mem_append.mp hq' with hq' | hq'
      · exact h.near q hq q' hq'
      · have := (hitem q' hq').1
        have := (htail q hq).1
        omega
    · have := (hitem q hq).1
      rcases List.mem_append.mp hq' with hq' | hq'
      · have := (htail q' hq').2
        omega
      · have := (hitem q' hq').1
        omega
  · intro q hq hst
    rcases List.mem_append.mp hq with hq | hq
    · exact h.seed_queue q hq hst
    · exfalso
      have hin := (hitem q hq).2
      rw [hst] at hin
      exact (hadd _ hin).1 h.start
  · intro p hp hst
    rcases List.mem_append.mp hp with hp | hp
    · exact h.seed_pages p hp hst
    · rw [List.mem_singleton.mp hp] at hst ⊢
      exact hseed hst
  · intro q hq hst
    rcases List.mem_append.mp hq with hq | hq
    · obtain ⟨P, hP, hd⟩ := h.disc_queue q hq hst
      exact ⟨P, firstDiscoverer_append pages page P _ hP, hd⟩
    · obtain ⟨hd, hin⟩ := hitem q hq
      obtain ⟨h1, h2, h3, h4⟩ := hadd _ hin
      refine ⟨page, firstDiscoverer_new pages page _ ?_ h3 h4, hd⟩
      rintro P hP ⟨hok, hmem⟩
      rcases h.links P hP hok _ hmem with hc | hc
      · exact h1 hc
      · apply h2
        have := hle P hP
        exact ⟨hc.1, by have := hc.2; omega⟩
  · intro p hp hst
    rcases List.mem_append.mp hp with hp | hp
    · obtain ⟨P, hP, hd⟩ := h.disc_pages p hp hst
      exact ⟨P, firstDiscoverer_append pages page P _ hP, hd⟩
    · rw [List.mem_singleton.mp hp] at hst ⊢
      obtain ⟨P, hP, hd⟩ := hdisc hst
      exact ⟨P, firstDiscoverer_append pages page P _ hP, hd⟩
  · intro P hP hok u hu
    rcases List.mem_append.mp hP with hP | hP
    · rcases h.links P hP hok u hu with hc | hc
      · exact Or.inl (List.mem_append_left _ hc)
      · exact Or.inr hc
    · rw [List.mem_singleton.mp hP] at hok hu ⊢
      exact hlinks hok u hu
  · exact List.mem_append_left _ h.start

theorem afterFetch_bfs {F : Type} (L : Lib) (cfg : Config) (scope : Scope) (startURL : Str)
    (s : CrawlState F) (current : queueItem) (fetched : fetchedPage) (proc : List Str)
    (h : BfsInv cfg startURL s)
    (hproc : s.processed = proc ++ [current.URL])
    (hsub : (s.result.Pages.map Page.URL).Sublist proc)
    (hle : ∀ p ∈ s.result.Pages, p.Depth ≤ current.Depth)
    (htail : ∀ q ∈ s.queue, current.Depth ≤ q.Depth ∧ q.Depth ≤ current.Depth + 1)
    (hseed : current.URL = startURL → current.Depth = 0)
    (hdisc : current.URL ≠ startURL →
      ∃ P, firstDiscoverer s.result.Pages current.URL = some P ∧ current.Depth = P.Depth + 1) :
    BfsInv cfg startURL (afterFetch L cfg scope s current fetched) := by
  unfold BfsInv at h
  rw [hproc] at h
  unfold afterFetch
  dsimp only
  split_ifs with hs
  · unfold BfsInv
    dsimp only [CrawlResult.addPage]
    have key := BfsCore.record
      ({ URL := current.URL,
         FinalURL := (NormalizeURL L fetched.FinalURL cfg.Clean).getD current.URL,
         Depth := current.Depth, Status := StatusSkippedOutOfHost,
         Error := "redirected out of allowed host scope".toList } : Page F) []
      h hsub hle htail hseed hdisc
      (fun u hu => absurd hu (List.not_mem_nil _))
      (fun hst => absurd hst (show StatusSkippedOutOfHost ≠ StatusOK by decide))
    rw [hproc]
    simpa using key
  · unfold BfsInv
    dsimp only [CrawlResult.addPage]
    obtain ⟨added, e1, e2, h3, h4⟩ := enqueueLinks_added cfg current.Depth
      (sortStrings (fetched.Links.foldl (classifyLink L scope cfg.Clean
        ((NormalizeURL L fetched.FinalURL cfg.Clean).getD current.URL))
        ([], [], s.result.Totals)).1) s.queue s.enqueued
    rw [e1, e2, hproc]
    exact BfsCore.record
      ({ URL := current.URL,
         FinalURL := (NormalizeURL L fetched.FinalURL cfg.Clean).getD current.URL,
         Depth := current.Depth, Status := StatusOK, Title := fetched.Title,
         Description := fetched.Description,
         Links := sortStrings (fetched.Links.foldl (classifyLink L scope cfg.Clean
           ((NormalizeURL L fetched.FinalURL cfg.Clean).getD current.URL))
           ([], [], s.result.Totals)).1,
         MainText := fetched.MainText, MainHTML := fetched.MainHTML,
         BodyHTML := fetched.BodyHTML, RawHTML := fetched.RawHTML } : Page F) added
      h hsub hle htail hseed hdisc
      (fun u hu => ⟨(h3 u hu).2.1, (h3 u hu).2.2, rfl, (h3 u hu).1⟩)
      (fun _ u hu => h4 u hu)

/-- One round of the loop of `Crawl` keeps the breadth-first invariant. -/
theorem crawlStep_bfs {F : Type} (L : Lib) (cfg : Config) (scope : Scope) (startURL : Str)
    (s : CrawlState F) (r : Response) (hc : CrawlInv cfg s) (h : BfsInv cfg startURL s) :
    BfsInv cfg startURL (crawlStep L cfg scope s r) := by
  unfold crawlStep
  split
  · exact h
  · split
    · exact h
    · rename_i current queue hq
      have hc' : InvCore cfg s.result.Totals.Visited (current :: queue) s.enqueued s.processed
          s.result.Pages := by
        have := hc
        unfold CrawlInv at this
        rwa [hq] at this
      have hfresh := hc'.pop.2.1
      have h' : BfsCore cfg startURL (current :: queue) s.enqueued s.processed
          s.result.Pages := by
        have := h
        unfold BfsInv at this
        rwa [hq] at this
      obtain ⟨hpop, hins, hsub, hle, htail, hseed, hdisc⟩ := h'.popFront hfresh
      dsimp only
      split
      · rename_i hin
        exact absurd hin hfresh
      · split
        · exact hpop
        · have hrec : ∀ page : Page F, page.URL = current.URL → page.Depth = current.Depth →
              page.Status ≠ StatusOK →
              BfsCore cfg startURL queue s.enqueued (setInsert s.processed current.URL)
                (s.result.Pages ++ [page]) := by
            intro page hu hd hst
            have hpop' := hpop
            rw [hins, ← hu] at hpop'
            have key := BfsCore.record page [] hpop' hsub (fun p hp => hd ▸ hle p hp)
              (fun q hq => hd ▸ htail q hq) (fun e => hd ▸ hseed (hu ▸ e))
              (fun e => by
                rw [hu, hd]
                exact hdisc (hu ▸ e))
              (fun u hu => absurd hu (List.not_mem_nil _))
              (fun e => absurd e hst)
            rw [hins, ← hu]
            simpa using key
          split
          · exact hrec _ rfl rfl (show StatusSkippedRobots ≠ StatusOK by decide)
          · split
            · exact afterFetch_bfs L cfg scope startURL _ current _ s.processed hpop hins
                hsub hle htail hseed hdisc
            · split
              · exact hpop
              · split
                · exact hrec _ rfl rfl (show StatusError ≠ StatusOK by decide)
                · exact afterFetch_bfs L cfg scope startURL _ current _ s.processed hpop hins
                    hsub hle htail hseed hdisc

theorem runLoop_bfs {F : Type} (L : Lib) (cfg : Config) (scope : Scope) (startURL : Str)
    (rs : List Response) (s : CrawlState F) (hc : CrawlInv cfg s)
    (h : BfsInv cfg startURL s) : BfsInv cfg startURL (runLoop L cfg scope rs s) := by
  induction rs generalizing s with
  | nil => exact h
  | cons r rs ih =>
    unfold runLoop
    split_ifs with hrun
    · exact ih _ (crawlStep_inv L cfg scope s r hc hrun) (crawlStep_bfs L cfg scope startURL s r hc h)
    · exact h

theorem initialState_bfs {F : Type} (cfg : Config) (scope : Scope) (startURL : Str)
    (startFetch : fetchedPage) (navs : List Str) :
    BfsInv cfg startURL (initialState cfg scope startURL startFetch navs : CrawlState F) := by
  unfold BfsInv initialState
  dsimp only
  refine ⟨rfl, List.Sublist.refl _, List.Pairwise.nil, List.pairwise_singleton _ _,
    fun p hp => absurd hp (List.not_mem_nil _), ?_, ?_,
    fun p hp => absurd hp (List.not_mem_nil _), ?_,
    fun p hp => absurd hp (List.not_mem_nil _),
    fun p hp => absurd hp (List.not_mem_nil _), List.mem_singleton.mpr rfl⟩
  · intro q hq q' hq'
    rw [List.mem_singleton.mp hq, List.mem_singleton.mp hq']
    omega
  · intro q hq _
    rw [List.mem_singleton.mp hq]
  · intro q hq hne
    rw [List.mem_singleton.mp hq] at hne
    exact absurd rfl hne

/-- C22 (breadth-first order without reordering): under the strategies limit and depth
the pages of the result are the pages the loop of `Crawl` recorded, in the order in which
their queue entries were taken off the queue (the list of their URLs is a sublist of the
URLs processed, and the queue is first-in first-out); `Depth` never decreases along the
pages; the page of the start URL has depth 0 and every other page has the depth of the
first ok page whose links hold its URL, plus one. -/
theorem C22_breadth_first_order {F : Type} (L : Lib) (ops : Float64Ops F)
    (engine : RankEngine F) (cfg : Config)
    (hst : cfg.Strategy = StrategyLimit ∨ cfg.Strategy = StrategyDepth) :
    (∀ (scope : Scope) (startURL : Str) (startFetch : fetchedPage) (navs : List Str)
        (rs : List Response) (s : CrawlState F),
      s = runLoop L (effectiveConfig cfg) scope rs
        (initialState (effectiveConfig cfg) scope startURL startFetch navs) →
      (finishCrawl ops engine (effectiveConfig cfg) s).Pages = s.result.Pages ∧
      s.enqueued = s.processed ++ s.queue.map queueItem.URL ∧
      (s.result.Pages.map Page.URL).Sublist s.processed ∧
      s.result.Pages.Pairwise (fun p q => p.Depth ≤ q.Depth) ∧
      (∀ p ∈ s.result.Pages, p.URL = startURL → p.Depth = 0) ∧
      (∀ p ∈ s.result.Pages, p.URL ≠ startURL →
        ∃ P, firstDiscoverer s.result.Pages p.URL = some P ∧ p.Depth = P.Depth + 1)) ∧
    (∀ (w : World) (res : CrawlResult F) (err : Option GoError),
      Crawl L ops engine cfg w = some (some res, err) →
      ∃ startURL,
        res.Pages.Pairwise (fun p q => p.Depth ≤ q.Depth) ∧
        (∀ p ∈ res.Pages, p.URL = startURL → p.Depth = 0) ∧
        (∀ p ∈ res.Pages, p.URL ≠ startURL →
          ∃ P, firstDiscoverer res.Pages p.URL = some P ∧ p.Depth = P.Depth + 1)) := by
  have hne : (effectiveConfig cfg).Strategy ≠ StrategyPageRank := by
    rw [(effectiveConfig_bounds cfg).2.2.2]
    rcases hst with e | e <;> rw [e] <;> decide
  have hb := effectiveConfig_bounds cfg
  have main : ∀ (scope : Scope) (startURL : Str) (startFetch : fetchedPage) (navs : List Str)
      (rs : List Response),
      BfsInv (effectiveConfig cfg) startURL
        (runLoop L (effectiveConfig cfg) scope rs
          (initialState (effectiveConfig cfg) scope startURL startFetch navs : CrawlState F)) := by
    intro scope startURL startFetch navs rs
    exact runLoop_bfs L _ scope startURL rs _
      (initialState_inv _ scope startURL startFetch navs (by omega) hb.2.1)
      (initialState_bfs _ scope startURL startFetch navs)
  refine ⟨?_, ?_⟩
  · intro scope startURL startFetch navs rs s hs
    have hm := main scope startURL startFetch navs rs
    rw [← hs] at hm
    refine ⟨?_, hm.fifo, hm.pages_sub, hm.pages_sorted, hm.seed_pages, hm.disc_pages⟩
    rw [(finishCrawl_pages ops engine (effectiveConfig cfg) s).2 hne]
  · intro w res err h
    obtain ⟨scope, startURL, startFetch, navs, _, hr | hr⟩ :=
      Crawl_result L ops engine cfg w res err h
    · refine ⟨startURL, ?_, ?_, ?_⟩
      · rw [hr]
        exact List.Pairwise.nil
      · rw [hr]
        intro p hp
        exact absurd hp (List.not_mem_nil _)
      · rw [hr]
        intro p hp
        exact absurd hp (List.not_mem_nil _)
    · have hm := main scope startURL startFetch navs w.responses
      rw [(finishCrawl_pages ops engine (effectiveConfig cfg) _).2 hne] at hr
      rw [hr]
      exact ⟨startURL, hm.pages_sorted, hm.seed_pages, hm.disc_pages⟩

theorem C22_breadth_first_order_witness :
    (exampleFinal StrategyLimit 0).result.Pages.Pairwise (fun p q => p.Depth ≤ q.Depth) :=
  ((C22_breadth_first_order asciiLib ratOps nullEngine (exampleConfig StrategyLimit 0)
    (Or.inl rfl)).1 exampleScope "https://example.com/".toList exampleStartPage
    ["https://example.com/".toList] exampleWorld.responses (exampleFinal StrategyLimit 0)
    rfl).2.2.2.1

/-! ## package strconv: decimal texts -/

theorem decimalDigit_val (d : Nat) (h : d < 10) : (decimalDigit d).toNat - 48 = d := by
  unfold decimalDigit
  rw [Nat.mod_eq_of_lt h]
  interval_cases d <;> rfl

theorem decimalFrom_append (fuel n : Nat) (acc : Str) :
    decimalFrom fuel n acc = decimalFrom fuel n [] ++ acc := by
  induction fuel generalizing n acc with
  | zero => rfl
  | succ f ih =>
    unfold decimalFrom
    split_ifs
    · rfl
    · rw [ih (n / 10) (decimalDigit (n % 10) :: acc), ih (n / 10) [decimalDigit (n % 10)]]
      simp

theorem decimalFrom_value (fuel n : Nat) (h : n < fuel) :
    (decimalFrom fuel n []).foldl (fun v c => 10 * v + (c.toNat - 48)) 0 = n := by
  induction fuel generalizing n with
  | zero => omega
  | succ f ih =>
    unfold decimalFrom
    split_ifs with h10
    · simp only [List.foldl_cons, List.foldl_nil, Nat.mul_zero, Nat.zero_add]
      exact decimalDigit_val n h10
    · rw [decimalFrom_append, List.foldl_append, ih (n / 10) (by omega)]
      simp only [List.foldl_cons, List.foldl_nil]
      rw [decimalDigit_val (n % 10) (Nat.mod_lt _ (by decide))]
      omega

theorem itoa_injective (a b : Nat) (h : itoa a = itoa b) : a = b := by
  have ha := decimalFrom_value (a + 1) a (by omega)
  have hb := decimalFrom_value (b + 1) b (by omega)
  unfold itoa at h
  rw [h, hb] at ha
  exact ha.symm

/-! ## output/filename.go -/

theorem freeFor_false (m : FilenameMapper) (name u : Str) (h : m.freeFor name u = false) :
    ∃ e, mapGet m.used name = some e ∧ e ≠ u := by
  unfold FilenameMapper.freeFor at h
  cases hg : mapGet m.used name with
  | none =>
    rw [hg] at h
    exact Bool.noConfusion h
  | some e =>
    rw [hg] at h
    exact ⟨e, rfl, by simpa using h⟩

theorem freeFor_of_get (m : FilenameMapper) (name u : Str) (h : mapGet m.used name = some u) :
    m.freeFor name u = true := by
  unfold FilenameMapper.freeFor
  rw [h]
  simp

theorem candidateName_numbered (name hash ext : Str) (i : Nat) (h : 2 ≤ i) :
    candidateName name hash ext i
      = name ++ "_".toList ++ hash ++ "_".toList ++ itoa i ++ ".".toList ++ ext := by
  obtain ⟨k, rfl⟩ : ∃ k, i = k + 2 := ⟨i - 2, by omega⟩
  rfl

theorem candidateName_injective (name hash ext : Str) (i j : Nat) (hi : 2 ≤ i) (hj : 2 ≤ j)
    (h : candidateName name hash ext i = candidateName name hash ext j) : i = j := by
  rw [candidateName_numbered _ _ _ i hi, candidateName_numbered _ _ _ j hj] at h
  simp only [List.append_assoc, List.append_cancel_left_eq] at h
  exact itoa_injective i j (List.append_cancel_right h)

/-- What a returning run of the numbered loop returns: the first numbered name, from `i`
on, that is unused or used for this URL. -/
theorem numberedLoop_some (m : FilenameMapper) (name hash u : Str) (fuel i : Nat)
    (f : Str) (m' : FilenameMapper) (hi : 2 ≤ i)
    (h : m.numberedLoop name hash u fuel i = some (f, m')) :
    ∃ k, i ≤ k ∧ f = candidateName name hash m.format k ∧ m.freeFor f u = true ∧
      (∀ j, i ≤ j → j < k → m.freeFor (candidateName name hash m.format j) u = false) ∧
      m' = { m with used := mapSet m.used f u } := by
  induction fuel generalizing i with
  | zero =>
    unfold FilenameMapper.numberedLoop at h
    exact absurd h (by simp)
  | succ n ih =>
    unfold FilenameMapper.numberedLoop at h
    dsimp only at h
    rw [← candidateName_numbered name hash m.format i hi] at h
    by_cases hfree : m.freeFor (candidateName name hash m.format i) u = true
    · rw [if_pos hfree] at h
      simp only [Option.some.injEq, Prod.mk.injEq] at h
      refine ⟨i, le_refl _, h.1.symm, h.1 ▸ hfree, fun j h1 h2 => absurd h2 (by omega), ?_⟩
      rw [← h.2, ← h.1]
    · rw [if_neg hfree] at h
      obtain ⟨k, hk, hf, hfr, hbefore, hm⟩ := ih (i + 1) (by omega) h
      refine ⟨k, by omega, hf, hfr, ?_, hm⟩
      intro j h1 h2
      by_cases hj : j = i
      · rw [hj]
        simpa using hfree
      · exact hbefore j (by omega) h2

theorem numberedLoop_none (m : FilenameMapper) (name hash u : Str) (fuel i : Nat)
    (hi : 2 ≤ i) (h : m.numberedLoop name hash u fuel i = none) :
    ∀ j, i ≤ j → j < i + fuel → m.freeFor (candidateName name hash m.format j) u = false := by
  induction fuel generalizing i with
  | zero =>
    intro j h1 h2
    omega
  | succ n ih =>
    unfold FilenameMapper.numberedLoop at h
    dsimp only at h
    rw [← candidateName_numbered name hash m.format i hi] at h
    by_cases hfree : m.freeFor (candidateName name hash m.format i) u = true
    · rw [if_pos hfree] at h
      exact absurd h (by simp)
    · rw [if_neg hfree] at h
      intro j h1 h2
      by_cases hj : j = i
      · rw [hj]
        simpa using hfree
      · exact ih (i + 1) (by omega) h j (by omega) (by omega)

/-- The numbered loop returns within one round more than the map has entries: the names
it tries are pairwise distinct, so they cannot all be in use. -/
theorem numberedLoop_returns (m : FilenameMapper) (name hash u : Str) :
    ∃ r, m.numberedLoop name hash u (m.used.length + 1) 2 = some r := by
  cases h : m.numberedLoop name hash u (m.used.length + 1) 2 with
  | some r => exact ⟨r, rfl⟩
  | none =>
    exfalso
    have hall := numberedLoop_none m name hash u _ 2 (le_refl _) h
    have hsub : (List.range' 2 (m.used.length + 1)).map (candidateName name hash m.format)
        ⊆ m.used.map Prod.fst := by
      intro x hx
      rw [List.mem_map] at hx
      obtain ⟨j, hj, rfl⟩ := hx
      rw [List.mem_range'_1] at hj
      obtain ⟨e, he, _⟩ := freeFor_false m _ u (hall j hj.1 (by omega))
      exact List.mem_map.mpr ⟨(_, e), mem_of_mapGet _ _ _ he, rfl⟩
    have hnd : ((List.range' 2 (m.used.length + 1)).map
        (candidateName name hash m.format)).Nodup := by
      rw [List.nodup_map_iff_inj_on (List.nodup_range' _ _)]
      intro a ha b hb hab
      rw [List.mem_range'_1] at ha hb
      exact candidateName_injective name hash m.format a b ha.1 hb.1 hab
    have hlen := (List.subperm_of_subset hnd hsub).length_le
    simp at hlen

/-- What `FilenameForURL` returns: the first candidate name of the URL that is unused or
used for this very URL, which the map then gives the URL for. -/
theorem FilenameForURL_spec (T : UnicodeTables) (m : FilenameMapper) (u f : Str)
    (m' : FilenameMapper) (h : m.FilenameForURL T u = some (f, m')) :
    ∃ k, f = m.candidate T u k ∧ m.freeFor f u = true ∧
      (∀ j < k, m.freeFor (m.candidate T u j) u = false) ∧
      m'.format = m.format ∧ m'.used = mapSet m.used f u := by
  unfold FilenameMapper.FilenameForURL at h
  dsimp only at h
  have hbase : m.candidate T u 0 = sanitizeURLPathToName T u ++ ".".toList ++ m.format := rfl
  have hcand : m.candidate T u 1
      = sanitizeURLPathToName T u ++ "_".toList ++ shortHash u ++ ".".toList ++ m.format := rfl
  rw [← hbase, ← hcand] at h
  cases hg : mapGet m.used (m.candidate T u 0) with
  | none =>
    rw [hg] at h
    simp only [Option.some.injEq, Prod.mk.injEq] at h
    refine ⟨0, h.1.symm, ?_, fun j hj => absurd hj (by omega), ?_, ?_⟩
    · rw [← h.1]
      unfold FilenameMapper.freeFor
      rw [hg]
    · rw [← h.2]
    · rw [← h.2, ← h.1]
  | some existing =>
    rw [hg] at h
    dsimp only at h
    by_cases he : existing = u
    · rw [if_pos he] at h
      simp only [Option.some.injEq, Prod.mk.injEq] at h
      rw [he] at hg
      refine ⟨0, h.1.symm, ?_, fun j hj => absurd hj (by omega), ?_, ?_⟩
      · rw [← h.1]
        exact freeFor_of_get m _ u hg
      · rw [← h.2]
      · rw [← h.2, ← h.1, mapSet_self _ _ _ hg]
    · rw [if_neg he] at h
      have h0 : m.freeFor (m.candidate T u 0) u = false := by
        unfold FilenameMapper.freeFor
        rw [hg]
        simpa using he
      by_cases hfree : m.freeFor (m.candidate T u 1) u = true
      · rw [if_pos hfree] at h
        simp only [Option.some.injEq, Prod.mk.injEq] at h
        refine ⟨1, h.1.symm, h.1 ▸ hfree, ?_, ?_, ?_⟩
        · intro j hj
          have : j = 0 := by omega
          rw [this]
          exact h0
        · rw [← h.2]
        · rw [← h.2, ← h.1]
      · rw [if_neg hfree] at h
        obtain ⟨k, hk, hf, hfr, hbefore, hm⟩ :=
          numberedLoop_some m _ _ u _ 2 f m' (le_refl _) h
        refine ⟨k, hf, hfr, ?_, ?_, ?_⟩
        · intro j hj
          by_cases hj0 : j = 0
          · rw [hj0]
            exact h0
          · by_cases hj1 : j = 1
            · rw [hj1]
              simpa using hfree
            · exact hbefore j (by omega) hj
        · rw [hm]
        · rw [hm]

/-- `FilenameForURL` returns, whatever the mapper and the URL: the loop of the source
ends. -/
theorem FilenameForURL_returns (T : UnicodeTables) (m : FilenameMapper) (u : Str) :
    ∃ r, m.FilenameForURL T u = some r := by
  unfold FilenameMapper.FilenameForURL
  dsimp only
  cases mapGet m.used (sanitizeURLPathToName T u ++ ".".toList ++ m.format) with
  | none => exact ⟨_, rfl⟩
  | some existing =>
    dsimp only
    split_ifs
    · exact ⟨_, rfl⟩
    · exact ⟨_, rfl⟩
    · exact numberedLoop_returns m _ _ u

theorem candidate_format (T : UnicodeTables) (m m' : FilenameMapper) (u : Str) (k : Nat)
    (h : m'.format = m.format) : m'.candidate T u k = m.candidate T u k := by
  unfold FilenameMapper.candidate
  rw [h]

/-- A call of `FilenameForURL` leaves every entry of the map as it is. -/
theorem FilenameForURL_keeps (T : UnicodeTables) (m : FilenameMapper) (u f : Str)
    (m' : FilenameMapper) (h : m.FilenameForURL T u = some (f, m')) (x e : Str)
    (hx : mapGet m.used x = some e) : mapGet m'.used x = some e := by
  obtain ⟨k, hf, hfree, _, _, hused⟩ := FilenameForURL_spec T m u f m' h
  rw [hused, mapGet_mapSet]
  split_ifs with hfx
  · rw [hfx] at hfree
    unfold FilenameMapper.freeFor at hfree
    rw [hx] at hfree
    simp only [decide_eq_true_eq] at hfree
    rw [hfree]
  · exact hx

theorem freeFor_keeps (T : UnicodeTables) (m : FilenameMapper) (u f : Str)
    (m' : FilenameMapper) (h : m.FilenameForURL T u = some (f, m')) (x v : Str)
    (hx : m.freeFor x v = false) : m'.freeFor x v = false := by
  obtain ⟨e, he, hne⟩ := freeFor_false m x v hx
  unfold FilenameMapper.freeFor
  rw [FilenameForURL_keeps T m u f m' h x e he]
  simpa using hne

/-- After a call the mapper keeps the name returned for the URL of the call. -/
theorem FilenameForURL_assigned (T : UnicodeTables) (m : FilenameMapper) (u f : Str)
    (m' : FilenameMapper) (h : m.FilenameForURL T u = some (f, m')) :
    m'.Assigned T u f := by
  obtain ⟨k, hf, hfree, hbefore, hfmt, hused⟩ := FilenameForURL_spec T m u f m' h
  refine ⟨k, ?_, ?_, ?_⟩
  · rw [candidate_format T m m' u k hfmt]
    exact hf
  · rw [hused, mapGet_mapSet, if_pos rfl]
  · intro j hj
    rw [candidate_format T m m' u j hfmt]
    exact freeFor_keeps T m u f m' h _ _ (hbefore j hj)

/-- A call keeps the names the mapper has for the URLs of the calls before. -/
theorem Assigned_keeps (T : UnicodeTables) (m : FilenameMapper) (u0 f0 : Str)
    (m' : FilenameMapper) (h : m.FilenameForURL T u0 = some (f0, m')) (u f : Str)
    (ha : m.Assigned T u f) : m'.Assigned T u f := by
  obtain ⟨k, hf, hget, hbefore⟩ := ha
  have hfmt := (FilenameForURL_spec T m u0 f0 m' h).choose_spec.2.2.2.1
  refine ⟨k, ?_, FilenameForURL_keeps T m u0 f0 m' h f u hget, ?_⟩
  · rw [candidate_format T m m' u k hfmt]
    exact hf
  · intro j hj
    rw [candidate_format T m m' u j hfmt]
    exact freeFor_keeps T m u0 f0 m' h _ _ (hbefore j hj)

/-- The mapper keeps one name for a URL, and a name for one URL. -/
theorem Assigned_unique (T : UnicodeTables) (m : FilenameMapper) (u1 u2 f1 f2 : Str)
    (h1 : m.Assigned T u1 f1) (h2 : m.Assigned T u2 f2) : f1 = f2 ↔ u1 = u2 := by
  obtain ⟨k1, hf1, hg1, hb1⟩ := h1
  obtain ⟨k2, hf2, hg2, hb2⟩ := h2
  constructor
  · intro hf
    rw [hf, hg2] at hg1
    simp only [Option.some.injEq] at hg1
    exact hg1.symm
  · intro hu
    subst hu
    rcases Nat.lt_trichotomy k1 k2 with hlt | heq | hgt
    · exfalso
      have := hb2 k1 hlt
      rw [← hf1, freeFor_of_get m f1 u1 hg1] at this
      exact Bool.noConfusion this
    · rw [hf1, hf2, heq]
    · exfalso
      have := hb1 k2 hgt
      rw [← hf2, freeFor_of_get m f2 u1 hg2] at this
      exact Bool.noConfusion this

/-- A sequence of calls returns, and the mapper keeps the names it returned. -/
theorem mapAll_assigned (T : UnicodeTables) (us : List Str) (m : FilenameMapper) :
    ∃ fs m', m.mapAll T us = some (fs, m') ∧ m'.format = m.format ∧
      List.Forall₂ (fun u f => m'.Assigned T u f) us fs ∧
      (∀ u f, m.Assigned T u f → m'.Assigned T u f) := by
  induction us generalizing m with
  | nil => exact ⟨[], m, rfl, rfl, List.Forall₂.nil, fun _ _ h => h⟩
  | cons u us ih =>
    obtain ⟨⟨f, m1⟩, h1⟩ := FilenameForURL_returns T m u
    obtain ⟨fs, m2, h2, hfmt2, hall, hkeep⟩ := ih m1
    have hfmt1 := (FilenameForURL_spec T m u f m1 h1).choose_spec.2.2.2.1
    refine ⟨f :: fs, m2, ?_, hfmt2.trans hfmt1, ?_, ?_⟩
    · unfold FilenameMapper.mapAll
      rw [h1]
      dsimp only
      rw [h2]
    · exact List.Forall₂.cons (hkeep u f (FilenameForURL_assigned T m u f m1 h1)) hall
    · intro u' f' ha
      exact hkeep u' f' (Assigned_keeps T m u f m1 h1 u' f' ha)

theorem forall₂_get {α β : Type} (R : α → β → Prop) (l1 : List α) (l2 : List β)
    (h : List.Forall₂ R l1 l2) (i : Nat) (a : α) (b : β) (ha : l1.get? i = some a)
    (hb : l2.get? i = some b) : R a b := by
  induction h generalizing i with
  | nil => simp at ha
  | cons hab _ ih =>
    cases i with
    | zero =>
      simp only [List.get?_cons_zero, Option.some.injEq] at ha hb
      rw [← ha, ← hb]
      exact hab
    | succ i =>
      simp only [List.get?_cons_succ] at ha hb
      exact ih i ha hb

theorem FilenameForURL_congr (T T' : UnicodeTables) (m : FilenameMapper) (u : Str)
    (h : sanitizeURLPathToName T u = sanitizeURLPathToName T' u) :
    m.FilenameForURL T u = m.FilenameForURL T' u := by
  unfold FilenameMapper.FilenameForURL
  rw [h]

theorem mapAll_congr (T T' : UnicodeTables) (us : List Str) (m : FilenameMapper)
    (h : ∀ u ∈ us, sanitizeURLPathToName T u = sanitizeURLPathToName T' u) :
    m.mapAll T us = m.mapAll T' us := by
  induction us generalizing m with
  | nil => rfl
  | cons u us ih =>
    unfold FilenameMapper.mapAll
    rw [FilenameForURL_congr T T' m u (h u (List.mem_cons_self _ _))]
    cases m.FilenameForURL T' u with
    | none => rfl
    | some r =>
      obtain ⟨f, m'⟩ := r
      dsimp only
      rw [ih m' (fun x hx => h x (List.mem_cons_of_mem _ hx))]

theorem sanitize_docsURL (T : UnicodeTables) :
    sanitizeURLPathToName T docsURL = "docs".toList := by rfl

theorem sanitize_docsQueryURL (T : UnicodeTables) :
    sanitizeURLPathToName T docsQueryURL = "docs".toList := by rfl

set_option maxRecDepth 100000 in
theorem shortHash_docsQueryURL : shortHash docsQueryURL = "a942cc95".toList := by decide

set_option maxRecDepth 100000 in
theorem mapAll_docs :
    ((NewFilenameMapper FormatJSON).mapAll noTables [docsURL, docsQueryURL]).map Prod.fst
      = some ["docs.json".toList, "docs_a942cc95.json".toList] := by decide

set_option maxRecDepth 100000 in
theorem mapAll_docsHash :
    ((NewFilenameMapper FormatJSON).mapAll noTables [docsHashURL, docsURL, docsQueryURL]).map
        Prod.fst
      = some ["docs_a942cc95.json".toList, "docs.json".toList,
          "docs_a942cc95_2.json".toList] := by decide

/-- C28, as stated, fails on the form of the name: after `https://example.com/docs_a942cc95`
(file `docs_a942cc95.json`) and `https://example.com/docs` (file `docs.json`), the URL
`https://example.com/docs?x=1`, whose sanitized path is `docs` and whose short hash is
`a942cc95`, finds both `docs.json` and `docs_a942cc95.json` in use for other URLs and
receives `docs_a942cc95_2.json`, which is not `docs_a942cc95.json`. -/
theorem C28_hash_name_in_use_counterexample :
    ((NewFilenameMapper FormatJSON).mapAll noTables [docsHashURL, docsURL, docsQueryURL]).map
        Prod.fst
      = some ["docs_a942cc95.json".toList, "docs.json".toList,
          "docs_a942cc95_2.json".toList] ∧
    sanitizeURLPathToName noTables docsQueryURL = "docs".toList ∧
    shortHash docsQueryURL = "a942cc95".toList ∧
    candidateName "docs".toList "a942cc95".toList FormatJSON 1 = "docs_a942cc95.json".toList ∧
    "docs_a942cc95_2.json".toList ≠ "docs_a942cc95.json".toList :=
  ⟨mapAll_docsHash, sanitize_docsQueryURL noTables, shortHash_docsQueryURL, by decide,
    by decide⟩

/-- C28 (file names, amended): `FilenameForURL` always returns; the name it returns for a
URL is the first of the candidates `name.ext`, `name_hash.ext`, `name_hash_2.ext`,
`name_hash_3.ext`, ... that is unused or in use for this very URL, so that a URL whose
base name is in use for another URL receives `name_hash.ext` when that name is free or
its own, and a numbered name otherwise; over any sequence of calls on a new mapper, two
calls return the same name exactly when they were given the same URL.  On a new mapper
for json, `https://example.com/docs` gives `docs.json` and then
`https://example.com/docs?x=1` gives `docs_a942cc95.json`. -/
theorem C28_filename_stability (T : UnicodeTables) :
    (∀ (format : Str) (urls : List Str), ∃ names m',
      (NewFilenameMapper format).mapAll T urls = some (names, m') ∧
      names.length = urls.length ∧
      (∀ (i j : Nat) (ui uj fi fj : Str), urls.get? i = some ui → urls.get? j = some uj →
        names.get? i = some fi → names.get? j = some fj → (fi = fj ↔ ui = uj)) ∧
      (∀ (i : Nat) (u f : Str), urls.get? i = some u → names.get? i = some f →
        ∃ k, f = candidateName (sanitizeURLPathToName T u) (shortHash u) format k)) ∧
    (∀ (m : FilenameMapper) (u : Str), ∃ f m' k, m.FilenameForURL T u = some (f, m') ∧
      f = candidateName (sanitizeURLPathToName T u) (shortHash u) m.format k ∧
      m.freeFor f u = true ∧
      (∀ j < k, m.freeFor
        (candidateName (sanitizeURLPathToName T u) (shortHash u) m.format j) u = false) ∧
      m'.format = m.format ∧ m'.used = mapSet m.used f u) ∧
    ((NewFilenameMapper FormatJSON).mapAll T [docsURL, docsQueryURL]).map Prod.fst
      = some ["docs.json".toList, "docs_a942cc95.json".toList] := by
  refine ⟨?_, ?_, ?_⟩
  · intro format urls
    obtain ⟨fs, m', h, hfmt, hall, _⟩ := mapAll_assigned T urls (NewFilenameMapper format)
    refine ⟨fs, m', h, hall.length_eq.symm, ?_, ?_⟩
    · intro i j ui uj fi fj hui huj hfi hfj
      exact Assigned_unique T m' ui uj fi fj (forall₂_get _ _ _ hall i ui fi hui hfi)
        (forall₂_get _ _ _ hall j uj fj huj hfj)
    · intro i u f hu hf
      obtain ⟨k, hk, _⟩ := forall₂_get _ _ _ hall i u f hu hf
      refine ⟨k, ?_⟩
      rw [hk]
      unfold FilenameMapper.candidate
      rw [hfmt]
      rfl
  · intro m u
    obtain ⟨⟨f, m'⟩, h⟩ := FilenameForURL_returns T m u
    obtain ⟨k, h1, h2, h3, h4, h5⟩ := FilenameForURL_spec T m u f m' h
    exact ⟨f, m', k, h, h1, h2, h3, h4, h5⟩
  · rw [mapAll_congr T noTables _ _ (by
      intro u hu
      simp only [List.mem_cons, List.mem_singleton, List.not_mem_nil, or_false] at hu
      rcases hu with rfl | rfl
      · rw [sanitize_docsURL, sanitize_docsURL]
      · rw [sanitize_docsQueryURL, sanitize_docsQueryURL])]
    exact mapAll_docs

theorem C28_filename_stability_witness :
    ("docs.json".toList = "docs_a942cc95.json".toList ↔ docsURL = docsQueryURL) := by
  obtain ⟨names, m', h, _, hiff, _⟩ :=
    (C28_filename_stability noTables).1 FormatJSON [docsURL, docsQueryURL]
  have hn := mapAll_docs
  rw [h] at hn
  simp only [Option.map_some', Option.some.injEq] at hn
  exact hiff 0 1 docsURL docsQueryURL _ _ rfl rfl (by rw [hn]; rfl) (by rw [hn]; rfl)

theorem ite_pred {α : Type} (P : α → Prop) {c : Prop} [Decidable c] {a b : α}
    (ha : P a) (hb : P b) : P (if c then a else b) := by
  split_ifs
  · exact ha
  · exact hb

theorem decodeRune_size_pos (c : Char) (s : Str) : 1 ≤ (decodeRune (c :: s)).2 := by
  unfold decodeRune
  dsimp only
  repeat' apply ite_pred (fun r : Nat × Nat => 1 ≤ r.2)
  all_goals exact Nat.le_of_ble_eq_true rfl

/-- The fuel of `runesFrom` never runs out on a text that is not longer than the fuel:
every rune read takes one byte at least. -/
theorem runesFrom_fuel (fuel fuel' : Nat) (s : Str) (h : s.length ≤ fuel)
    (h' : s.length ≤ fuel') : runesFrom fuel s = runesFrom fuel' s := by
  induction fuel generalizing fuel' s with
  | zero =>
    have : s = [] := List.length_eq_zero.mp (by omega)
    rw [this]
    cases fuel' <;> rfl
  | succ n ih =>
    cases s with
    | nil => cases fuel' <;> rfl
    | cons c t =>
      cases fuel' with
      | zero => simp at h'
      | succ n' =>
        unfold runesFrom
        dsimp only
        have hpos := decodeRune_size_pos c t
        have hlen : ((c :: t).drop (decodeRune (c :: t)).2).length ≤ t.length := by
          rw [List.length_drop]
          simp only [List.length_cons]
          omega
        simp only [List.length_cons] at h h'
        rw [ih n' _ (by omega) (by omega)]

/-! ### The name derived from the path -/

theorem lowerAlnum_range (c : Char) (h : isLowerAlnum c = true) :
    (97 ≤ c.toNat ∧ c.toNat ≤ 122) ∨ (48 ≤ c.toNat ∧ c.toNat ≤ 57) := by
  unfold isLowerAlnum at h
  simpa using h

theorem char_ne_of_toNat (c d : Char) (h : c.toNat ≠ d.toNat) : c ≠ d := fun e => h (e ▸ rfl)

theorem lowerAlnum_ne (c : Char) (h : isLowerAlnum c = true) :
    c ≠ '/' ∧ c ≠ '%' ∧ c ≠ '+' ∧ c ≠ '_' ∧ c.toNat < 128 ∧ isAsciiSpace c = false := by
  have hr := lowerAlnum_range c h
  have h1 : '/'.toNat = 47 := rfl
  have h2 : '%'.toNat = 37 := rfl
  have h3 : '+'.toNat = 43 := rfl
  have h4 : '_'.toNat = 95 := rfl
  refine ⟨char_ne_of_toNat _ _ (by omega), char_ne_of_toNat _ _ (by omega),
    char_ne_of_toNat _ _ (by omega), char_ne_of_toNat _ _ (by omega), by omega, ?_⟩
  have e1 : '\t'.toNat = 9 := rfl
  have e2 : '\n'.toNat = 10 := rfl
  have e3 : (Char.ofNat 11).toNat = 11 := rfl
  have e4 : (Char.ofNat 12).toNat = 12 := rfl
  have e5 : '\r'.toNat = 13 := rfl
  have e6 : ' '.toNat = 32 := rfl
  unfold isAsciiSpace
  simp only [Bool.or_eq_false_iff, decide_eq_false_iff_not]
  exact ⟨⟨⟨⟨⟨char_ne_of_toNat _ _ (by omega), char_ne_of_toNat _ _ (by omega)⟩,
    char_ne_of_toNat _ _ (by omega)⟩, char_ne_of_toNat _ _ (by omega)⟩,
    char_ne_of_toNat _ _ (by omega)⟩, char_ne_of_toNat _ _ (by omega)⟩

theorem decodeRune_ascii (c : Char) (s : Str) (h : c.toNat < 128) :
    decodeRune (c :: s) = (c.toNat, 1) := by
  unfold decodeRune
  dsimp only
  rw [if_pos h]

theorem runesFrom_ascii (fuel : Nat) (s : Str) (hf : s.length ≤ fuel)
    (h : ∀ c ∈ s, c.toNat < 128) : runesFrom fuel s = s.map Char.toNat := by
  induction fuel generalizing s with
  | zero =>
    have : s = [] := List.length_eq_zero.mp (by omega)
    rw [this]
    rfl
  | succ n ih =>
    cases s with
    | nil => rfl
    | cons c t =>
      unfold runesFrom
      dsimp only
      rw [decodeRune_ascii c t (h c (List.mem_cons_self _ _))]
      dsimp only
      rw [List.drop_one, List.tail_cons,
        ih t (by simpa using hf) (fun x hx => h x (List.mem_cons_of_mem _ hx))]
      rfl

theorem sanitizeRunes_lowerAlnum (T : UnicodeTables) (b : Bool) (s : Str)
    (h : ∀ c ∈ s, isLowerAlnum c = true) : sanitizeRunes T b (s.map Char.toNat) = s := by
  induction s generalizing b with
  | nil => rfl
  | cons c t ih =>
    have hr := lowerAlnum_range c (h c (List.mem_cons_self _ _))
    have hkeep : (unicodeIsLetter T c.toNat || unicodeIsDigit T c.toNat) = true := by
      unfold unicodeIsLetter unicodeIsDigit
      rw [if_pos (by omega), if_pos (by omega)]
      rcases hr with hr | hr
      · have h1 : decide (0x61 ≤ c.toNat) = true := decide_eq_true hr.1
        have h2 : decide (c.toNat ≤ 0x7A) = true := decide_eq_true hr.2
        simp [h1, h2]
      · have h1 : decide (0x30 ≤ c.toNat) = true := decide_eq_true hr.1
        have h2 : decide (c.toNat ≤ 0x39) = true := decide_eq_true hr.2
        simp [h1, h2]
    have hlow : unicodeToLower T c.toNat = c.toNat := by
      unfold unicodeToLower
      rw [if_pos (by omega), if_neg (by omega)]
    have henc : encodeRune c.toNat = [c] := by
      unfold encodeRune
      rw [if_pos (by omega), Char.ofNat_toNat]
    rw [List.map_cons, sanitizeRunes, if_pos hkeep, hlow, henc,
      ih false (fun x hx => h x (List.mem_cons_of_mem _ hx))]
    rfl

theorem dropWhile_head {α : Type} (p : α → Bool) (c : α) (t : List α) (h : p c = false) :
    (c :: t).dropWhile p = c :: t := by
  rw [List.dropWhile_cons, h]
  rfl

theorem reverse_head {α : Type} (s : List α) (h : s ≠ []) :
    ∃ c t, s.reverse = c :: t ∧ c ∈ s := by
  cases hr : s.reverse with
  | nil =>
    exact absurd (List.reverse_eq_nil_iff.mp hr) h
  | cons c t =>
    refine ⟨c, t, rfl, ?_⟩
    have : c ∈ s.reverse := hr ▸ List.mem_cons_self _ _
    exact List.mem_reverse.mp this

theorem trimByte_id (x : Char) (s : Str) (h : ∀ c ∈ s, c ≠ x) : trimByte x s = s := by
  cases s with
  | nil => rfl
  | cons c t =>
    unfold trimByte
    have hc : (c == x) = false := by simpa using h c (List.mem_cons_self _ _)
    rw [dropWhile_head _ c t hc]
    obtain ⟨d, r, hr, hd⟩ := reverse_head (c :: t) (List.cons_ne_nil _ _)
    have hdx : (d == x) = false := by simpa using h d hd
    rw [hr, dropWhile_head _ d r hdx, ← hr, List.reverse_reverse]

theorem sanitizeSegment_lowerAlnum (T : UnicodeTables) (s : Str)
    (h : ∀ c ∈ s, isLowerAlnum c = true) : sanitizeSegment T s = s := by
  unfold sanitizeSegment runesOf
  rw [runesFrom_ascii _ s (le_refl _) (fun c hc => (lowerAlnum_ne c (h c hc)).2.2.2.2.1),
    sanitizeRunes_lowerAlnum T false s h]
  exact trimByte_id '_' s (fun c hc => (lowerAlnum_ne c (h c hc)).2.2.2.1)

theorem unescape_plain (mode : Encoding) (s : Str)
    (hm : mode ≠ .encodeHost ∧ mode ≠ .encodeZone)
    (h : ∀ c ∈ s, c ≠ '%' ∧ c ≠ '+') : unescape mode s = some s := by
  induction s with
  | nil => rfl
  | cons c t ih =>
    have hc := h c (List.mem_cons_self _ _)
    rw [unescape_other mode c t hc.1, if_neg hc.2, if_neg (by
      intro hcon
      rcases hcon.1 with e | e
      · exact hm.1 e
      · exact hm.2 e), ih (fun x hx => h x (List.mem_cons_of_mem _ hx))]
    rfl

theorem sanitizePart_lowerAlnum (T : UnicodeTables) (s : Str) (hne : s ≠ [])
    (h : ∀ c ∈ s, isLowerAlnum c = true) : sanitizePart T s = some s := by
  unfold sanitizePart
  rw [if_neg hne]
  dsimp only
  rw [unescape_plain .encodePathSegment s (by decide)
    (fun c hc => ⟨(lowerAlnum_ne c (h c hc)).2.1, (lowerAlnum_ne c (h c hc)).2.2.1⟩)]
  simp only [Option.getD_some]
  rw [sanitizeSegment_lowerAlnum T s h, if_pos hne]

theorem splitAll_append (sep : Char) (p rest : Str) (h : sep ∉ p) :
    splitAll sep (p ++ sep :: rest) = p :: splitAll sep rest := by
  induction p with
  | nil => simp [splitAll]
  | cons d p ih =>
    have hd : d ≠ sep := fun e => h (e ▸ List.mem_cons_self _ _)
    have ih' := ih (fun hm => h (List.mem_cons_of_mem _ hm))
    rw [List.cons_append, splitAll, if_neg hd, ih']

theorem splitAll_single (sep : Char) (p : Str) (h : sep ∉ p) : splitAll sep p = [p] := by
  induction p with
  | nil => rfl
  | cons d p ih =>
    have hd : d ≠ sep := fun e => h (e ▸ List.mem_cons_self _ _)
    rw [splitAll, if_neg hd, ih (fun hm => h (List.mem_cons_of_mem _ hm))]

theorem splitAll_joinWith (sep : Char) (parts : List Str) (hne : parts ≠ [])
    (h : ∀ p ∈ parts, sep ∉ p) : splitAll sep (joinWith [sep] parts) = parts := by
  induction parts with
  | nil => exact absurd rfl hne
  | cons p ps ih =>
    cases ps with
    | nil => exact splitAll_single sep p (h p (List.mem_cons_self _ _))
    | cons q qs =>
      have ih' := ih (List.cons_ne_nil _ _) (fun x hx => h x (List.mem_cons_of_mem _ hx))
      show splitAll sep (p ++ [sep] ++ joinWith [sep] (q :: qs)) = _
      rw [List.append_assoc, List.singleton_append,
        splitAll_append sep p _ (h p (List.mem_cons_self _ _)), ih']

theorem leadingSpaceLen_ascii (rev : Bool) (c : Char) (s : Str) (h1 : c.toNat < 128)
    (h2 : isAsciiSpace c = false) : leadingSpaceLen rev (c :: s) = 0 := by
  unfold leadingSpaceLen
  dsimp only
  rw [h2]
  have hfind : unicodeSpaceSeqs.find?
      (fun q => (if rev then q.reverse else q).isPrefixOf (c :: s)) = none := by
    rw [List.find?_eq_none]
    intro q hq
    have hall : ∀ q ∈ unicodeSpaceSeqs, ∀ x ∈ q, 128 ≤ x.toNat := by decide
    have hqne : ∀ q ∈ unicodeSpaceSeqs, q ≠ [] := by decide
    have key : ∀ l : Str, l ≠ [] → (∀ x ∈ l, 128 ≤ x.toNat) → l.isPrefixOf (c :: s) = false := by
      intro l hl hx
      cases l with
      | nil => exact absurd rfl hl
      | cons d l' =>
        have hd := hx d (List.mem_cons_self _ _)
        have hne : d ≠ c := char_ne_of_toNat _ _ (by omega)
        simp [List.isPrefixOf, hne]
    cases rev with
    | false =>
      simp only [Bool.false_eq_true, if_false]
      rw [key q (hqne q hq) (hall q hq)]
      simp
    | true =>
      simp only [if_true]
      rw [key q.reverse (fun e => hqne q hq (List.reverse_eq_nil_iff.mp e))
        (fun x hx => hall q hq x (List.mem_reverse.mp hx))]
      simp
  rw [hfind]
  rfl

theorem dropSpaces_ascii (rev : Bool) (fuel : Nat) (c : Char) (s : Str) (h1 : c.toNat < 128)
    (h2 : isAsciiSpace c = false) : dropSpaces rev fuel (c :: s) = c :: s := by
  cases fuel with
  | zero => rfl
  | succ n =>
    unfold dropSpaces
    rw [leadingSpaceLen_ascii rev c s h1 h2]

/-- `strings.TrimSpace` leaves a text that starts and ends with ASCII bytes other than
white space as it is. -/
theorem trimSpace_id (s : Str) (c d : Char) (t r : Str) (hs : s = c :: t)
    (hr : s.reverse = d :: r) (hc : c.toNat < 128 ∧ isAsciiSpace c = false)
    (hd : d.toNat < 128 ∧ isAsciiSpace d = false) : trimSpace s = s := by
  unfold trimSpace
  dsimp only
  rw [hs, dropSpaces_ascii false _ c t hc.1 hc.2, ← hs, hr,
    dropSpaces_ascii true _ d r hd.1 hd.2, ← hr, List.reverse_reverse]

theorem joinWith_mem_last (sep : Str) (parts : List Str) (hne : parts ≠ [])
    (hp : ∀ p ∈ parts, p ≠ []) :
    ∃ d r, (joinWith sep parts).reverse = d :: r ∧ ∃ p ∈ parts, d ∈ p := by
  induction parts with
  | nil => exact absurd rfl hne
  | cons p ps ih =>
    cases ps with
    | nil =>
      obtain ⟨d, r, h1, h2⟩ := reverse_head p (hp p (List.mem_cons_self _ _))
      exact ⟨d, r, h1, p, List.mem_cons_self _ _, h2⟩
    | cons q qs =>
      obtain ⟨d, r, h1, p', hp', hd⟩ :=
        ih (List.cons_ne_nil _ _) (fun x hx => hp x (List.mem_cons_of_mem _ hx))
      refine ⟨d, r ++ (p ++ sep).reverse, ?_, p', List.mem_cons_of_mem _ hp', hd⟩
      show (p ++ sep ++ joinWith sep (q :: qs)).reverse = _
      rw [List.reverse_append, h1]
      rfl

theorem hasSuffix_false (s : Str) (x d : Char) (r : Str) (hr : s.reverse = d :: r)
    (h : d ≠ x) : hasSuffix s [x] = false := by
  unfold hasSuffix
  show List.isPrefixOf [x].reverse s.reverse = false
  rw [hr]
  simp [List.isPrefixOf, Ne.symm h]

theorem FilenameForURL_fresh (T : UnicodeTables) (f u : Str) :
    (NewFilenameMapper f).FilenameForURL T u
      = some (sanitizeURLPathToName T u ++ ".".toList ++ f,
          { format := f, used := [(sanitizeURLPathToName T u ++ ".".toList ++ f, u)] }) := by
  rfl

theorem sanitize_segments (T : UnicodeTables) (rawURL : Str) (p : URL) (segs : List Str)
    (hp : Parse rawURL = some p) (hne : segs ≠ [])
    (hs : ∀ s ∈ segs, s ≠ [] ∧ ∀ c ∈ s, isLowerAlnum c = true)
    (hpath : p.Path = "/".toList ++ joinWith "/".toList segs) :
    sanitizeURLPathToName T rawURL = joinWith "_".toList segs := by
  obtain ⟨d, r, hrev, q, hq, hd⟩ :=
    joinWith_mem_last "/".toList segs hne (fun s h => (hs s h).1)
  have hdl := lowerAlnum_ne d ((hs q hq).2 d hd)
  have hjne : joinWith "/".toList segs ≠ [] := by
    intro e
    rw [e] at hrev
    exact absurd hrev (by simp)
  have hrev2 : ("/".toList ++ joinWith "/".toList segs).reverse = d :: (r ++ ['/']) := by
    rw [List.reverse_append, hrev]
    rfl
  have htrim : trimSpace p.Path = "/".toList ++ joinWith "/".toList segs := by
    rw [hpath]
    exact trimSpace_id _ '/' d _ _ rfl hrev2 (by decide) ⟨hdl.2.2.2.2.1, hdl.2.2.2.2.2⟩
  have hpre : trimPrefix ("/".toList ++ joinWith "/".toList segs) "/".toList
      = joinWith "/".toList segs := by
    unfold trimPrefix
    rw [hasPrefix_append]
    rfl
  have hsuf : trimSuffix (joinWith "/".toList segs) "/".toList = joinWith "/".toList segs := by
    have hsf : hasSuffix (joinWith "/".toList segs) "/".toList = false :=
      hasSuffix_false _ '/' d r hrev hdl.1
    unfold trimSuffix
    rw [hsf]
    rfl
  have hsplit : splitAll '/' (joinWith "/".toList segs) = segs :=
    splitAll_joinWith '/' segs hne (fun s h hc => (lowerAlnum_ne _ ((hs s h).2 _ hc)).1 rfl)
  have hfm : segs.filterMap (sanitizePart T) = segs := by
    have : ∀ l : List Str, (∀ s ∈ l, s ≠ [] ∧ ∀ c ∈ s, isLowerAlnum c = true) →
        l.filterMap (sanitizePart T) = l := by
      intro l
      induction l with
      | nil => intro _; rfl
      | cons a l ih =>
        intro h
        rw [List.filterMap_cons,
          sanitizePart_lowerAlnum T a (h a (List.mem_cons_self _ _)).1
            (h a (List.mem_cons_self _ _)).2,
          ih (fun s hs => h s (List.mem_cons_of_mem _ hs))]
    exact this segs hs
  unfold sanitizeURLPathToName
  rw [hp]
  dsimp only
  rw [htrim, if_neg (by
    intro hc
    rcases hc with hc | hc
    · exact absurd hc (by simp)
    · exact hjne (by simpa using hc)), hpre, hsuf, if_neg hjne, hsplit, hfm, if_neg (by
    intro hc
    exact hne (List.length_eq_zero.mp hc))]

/-- C29 (file name derivation): on a new mapper for the format `f`, a URL that parses with
an empty path or the path `/` gives `index.f`, and a URL that parses with a path made of
a slash and segments of ASCII lower-case letters and digits separated by slashes gives
the segments joined by `_`, followed by `.f`; `https://example.com/` gives `index.md`,
`https://example.com/docs` gives `docs.md` and `https://example.com/docs/a` gives
`docs_a.md`. -/
theorem C29_filename_derivation (T : UnicodeTables) (f : Str) :
    (∀ (rawURL : Str) (p : URL), Parse rawURL = some p →
      p.Path = [] ∨ p.Path = "/".toList →
      ((NewFilenameMapper f).FilenameForURL T rawURL).map Prod.fst
        = some ("index".toList ++ ".".toList ++ f)) ∧
    (∀ (rawURL : Str) (p : URL) (segs : List Str), Parse rawURL = some p → segs ≠ [] →
      (∀ s ∈ segs, s ≠ [] ∧ ∀ c ∈ s, isLowerAlnum c = true) →
      p.Path = "/".toList ++ joinWith "/".toList segs →
      ((NewFilenameMapper f).FilenameForURL T rawURL).map Prod.fst
        = some (joinWith "_".toList segs ++ ".".toList ++ f)) ∧
    ((NewFilenameMapper FormatMarkdown).FilenameForURL T "https://example.com/".toList).map
        Prod.fst = some "index.md".toList ∧
    ((NewFilenameMapper FormatMarkdown).FilenameForURL T "https://example.com/docs".toList).map
        Prod.fst = some "docs.md".toList ∧
    ((NewFilenameMapper FormatMarkdown).FilenameForURL T
        "https://example.com/docs/a".toList).map Prod.fst = some "docs_a.md".toList := by
  have hidx : ∀ (rawURL : Str) (p : URL), Parse rawURL = some p →
      p.Path = [] ∨ p.Path = "/".toList → sanitizeURLPathToName T rawURL = "index".toList := by
    intro rawURL p hp hpath
    unfold sanitizeURLPathToName
    rw [hp]
    dsimp only
    have ht : trimSpace p.Path = [] ∨ trimSpace p.Path = "/".toList := by
      rcases hpath with e | e
      · left
        rw [e]
        rfl
      · right
        rw [e]
        rfl
    rw [if_pos ht]
  have hseg : ∀ (rawURL : Str) (p : URL) (segs : List Str), Parse rawURL = some p →
      segs ≠ [] → (∀ s ∈ segs, s ≠ [] ∧ ∀ c ∈ s, isLowerAlnum c = true) →
      p.Path = "/".toList ++ joinWith "/".toList segs →
      ((NewFilenameMapper f).FilenameForURL T rawURL).map Prod.fst
        = some (joinWith "_".toList segs ++ ".".toList ++ f) := by
    intro rawURL p segs hp hne hs hpath
    rw [FilenameForURL_fresh, sanitize_segments T rawURL p segs hp hne hs hpath]
    rfl
  refine ⟨?_, hseg, ?_, ?_, ?_⟩
  · intro rawURL p hp hpath
    rw [FilenameForURL_fresh, hidx rawURL p hp hpath]
    rfl
  · rw [FilenameForURL_fresh,
      hidx _ { Scheme := "https".toList, Host := "example.com".toList, Path := "/".toList }
        (by decide) (Or.inr rfl)]
    rfl
  · rw [FilenameForURL_fresh,
      sanitize_segments T _
        { Scheme := "https".toList, Host := "example.com".toList, Path := "/docs".toList }
        ["docs".toList] (by decide) (by decide) (by decide) (by decide)]
    rfl
  · rw [FilenameForURL_fresh,
      sanitize_segments T _
        { Scheme := "https".toList, Host := "example.com".toList, Path := "/docs/a".toList }
        ["docs".toList, "a".toList] (by decide) (by decide) (by decide) (by decide)]
    rfl

theorem C29_filename_derivation_witness :
    ((NewFilenameMapper FormatJSON).FilenameForURL noTables
        "https://example.com/docs/a".toList).map Prod.fst = some "docs_a.json".toList :=
  (C29_filename_derivation noTables FormatJSON).2.1 "https://example.com/docs/a".toList
    { Scheme := "https".toList, Host := "example.com".toList, Path := "/docs/a".toList }
    ["docs".toList, "a".toList] (by decide) (by decide) (by decide) (by decide)

/-! ## package sort: `SliceStable` sorts -/

theorem get?_lt {α : Type} (l : List α) (i : Nat) (x : α) (h : l.get? i = some x) :
    i < l.length := by
  by_contra hc
  rw [List.get?_eq_none.mpr (by omega)] at h
  exact absurd h (by simp)

theorem get?_some_of_lt {α : Type} (l : List α) (i : Nat) (h : i < l.length) :
    ∃ x, l.get? i = some x := ⟨l.get ⟨i, h⟩, List.get?_eq_get h⟩

theorem goSwap_length {α : Type} (l : List α) (i j : Nat) :
    (goSwap l i j).length = l.length := by
  unfold goSwap
  split
  · simp
  · rfl

theorem goSwap_get? {α : Type} (l : List α) (i j k : Nat) (hi : i < l.length)
    (hj : j < l.length) :
    (goSwap l i j).get? k =
      if k = j then l.get? i else if k = i then l.get? j else l.get? k := by
  obtain ⟨a, ha⟩ := get?_some_of_lt l i hi
  obtain ⟨b, hb⟩ := get?_some_of_lt l j hj
  unfold goSwap
  rw [ha, hb]
  dsimp only
  by_cases hkj : k = j
  · rw [if_pos hkj, hkj, get?_set_same _ _ _ (by simpa using hj)]
  · rw [if_neg hkj, get?_set_other _ _ _ _ (fun e => hkj e.symm)]
    by_cases hki : k = i
    · rw [if_pos hki, hki, get?_set_same _ _ _ hi]
    · rw [if_neg hki, get?_set_other _ _ _ _ (fun e => hki e.symm)]

theorem Within.refl {α : Type} (l : List α) (a b : Nat) : Within l l a b :=
  ⟨rfl, fun _ _ => rfl, fun k _ h1 h2 h3 => ⟨k, h1, h2, h3⟩⟩

theorem Within.trans {α : Type} {l l' l'' : List α} {a b : Nat} (h1 : Within l l' a b)
    (h2 : Within l' l'' a b) : Within l l'' a b := by
  refine ⟨h2.length_eq.trans h1.length_eq, fun k hk => (h2.outside k hk).trans (h1.outside k hk),
    ?_⟩
  intro k x ha hb hx
  obtain ⟨k', ha', hb', hx'⟩ := h2.inside k x ha hb hx
  exact h1.inside k' x ha' hb' hx'

theorem Within.widen {α : Type} {l l' : List α} {a b a' b' : Nat} (h : Within l l' a b)
    (ha : a' ≤ a) (hb : b ≤ b') : Within l l' a' b' := by
  refine ⟨h.length_eq, fun k hk => h.outside k (by omega), ?_⟩
  intro k x h1 h2 hx
  by_cases hin : a ≤ k ∧ k < b
  · obtain ⟨k', h3, h4, h5⟩ := h.inside k x hin.1 hin.2 hx
    exact ⟨k', by omega, by omega, h5⟩
  · refine ⟨k, h1, h2, ?_⟩
    rw [← h.outside k (by omega)]
    exact hx

theorem goSwap_within {α : Type} (l : List α) (i j a b : Nat) (hi : a ≤ i ∧ i < b)
    (hj : a ≤ j ∧ j < b) : Within l (goSwap l i j) a b := by
  by_cases hlen : i < l.length ∧ j < l.length
  · refine ⟨goSwap_length l i j, ?_, ?_⟩
    · intro k hk
      rw [goSwap_get? l i j k hlen.1 hlen.2, if_neg (by omega), if_neg (by omega)]
    · intro k x h1 h2 hx
      rw [goSwap_get? l i j k hlen.1 hlen.2] at hx
      split_ifs at hx
      · exact ⟨i, hi.1, hi.2, hx⟩
      · exact ⟨j, hj.1, hj.2, hx⟩
      · exact ⟨k, h1, h2, hx⟩
  · have : goSwap l i j = l := by
      unfold goSwap
      cases h1 : l.get? i with
      | none => rfl
      | some x =>
        cases h2 : l.get? j with
        | none => rfl
        | some y => exact absurd ⟨get?_lt l i x h1, get?_lt l j y h2⟩ hlen
    rw [this]
    exact Within.refl l a b

/-- Rearranging elements outside a range keeps the range in order. -/
theorem SortedOn.of_outside {α : Type} {less : α → α → Bool} {l l' : List α} {a b x y : Nat}
    (h : SortedOn less l x y) (hw : Within l l' a b) (hd : y ≤ a ∨ b ≤ x) :
    SortedOn less l' x y := by
  intro i j u v h1 h2 h3 hu hv
  rw [hw.outside i (by omega)] at hu
  rw [hw.outside j (by omega)] at hv
  exact h i j u v h1 h2 h3 hu hv

theorem SortedOn.mono {α : Type} {less : α → α → Bool} {l : List α} {a b a' b' : Nat}
    (h : SortedOn less l a b) (ha : a ≤ a') (hb : b' ≤ b) : SortedOn less l a' b' := by
  intro i j u v h1 h2 h3 hu hv
  exact h i j u v (by omega) h2 (by omega) hu hv

/-! ### `swapRange_func` and `rotate_func` -/

theorem swapRangeFrom_length {α : Type} (a b n fuel i : Nat) (l : List α) :
    (swapRangeFrom a b n fuel i l).length = l.length := by
  induction fuel generalizing i l with
  | zero => rfl
  | succ f ih =>
    unfold swapRangeFrom
    split_ifs
    · rw [ih, goSwap_length]
    · rfl

/-- The loop of `swapRange_func` from round `i`: the elements at `a+i .. a+n-1` and at
`b+i .. b+n-1` change places. -/
theorem swapRangeFrom_get? {α : Type} (a b n fuel i : Nat) (l : List α) (hab : a + n ≤ b)
    (hb : b + n ≤ l.length) (hf : n ≤ fuel + i) (k : Nat) :
    (swapRangeFrom a b n fuel i l).get? k =
      if a + i ≤ k ∧ k < a + n then l.get? (k - a + b)
      else if b + i ≤ k ∧ k < b + n then l.get? (k - b + a)
      else l.get? k := by
  induction fuel generalizing i l with
  | zero =>
    unfold swapRangeFrom
    rw [if_neg (by omega), if_neg (by omega)]
  | succ f ih =>
    unfold swapRangeFrom
    by_cases hin : i < n
    · rw [if_pos hin, ih (i + 1) (goSwap l (a + i) (b + i)) (by rw [goSwap_length]; exact hb)
        (by omega)]
      have hs : ∀ x, (goSwap l (a + i) (b + i)).get? x =
          if x = b + i then l.get? (a + i) else if x = a + i then l.get? (b + i) else l.get? x :=
        fun x => goSwap_get? l (a + i) (b + i) x (by omega) (by omega)
      simp only [hs]
      split_ifs <;> first
        | rfl
        | (exfalso; omega)
        | (congr 1; omega)
    · rw [if_neg hin, if_neg (by omega), if_neg (by omega)]

theorem swapRangeFunc_get? {α : Type} (a b n : Nat) (l : List α) (hab : a + n ≤ b)
    (hb : b + n ≤ l.length) (k : Nat) :
    (swapRangeFunc l a b n).get? k =
      if a ≤ k ∧ k < a + n then l.get? (k - a + b)
      else if b ≤ k ∧ k < b + n then l.get? (k - b + a)
      else l.get? k := by
  unfold swapRangeFunc
  rw [swapRangeFrom_get? a b n n 0 l hab hb (by omega) k]
  simp only [Nat.add_zero]

theorem swapRangeFunc_length {α : Type} (a b n : Nat) (l : List α) :
    (swapRangeFunc l a b n).length = l.length := swapRangeFrom_length a b n n 0 l

theorem rotateLoop_length {α : Type} (m fuel i j : Nat) (l : List α) :
    (rotateLoop m fuel i j l).length = l.length := by
  induction fuel generalizing i j l with
  | zero => exact swapRangeFunc_length _ _ _ _
  | succ f ih =>
    unfold rotateLoop
    split_ifs
    · rw [ih, swapRangeFunc_length]
    · rw [ih, swapRangeFunc_length]
    · exact swapRangeFunc_length _ _ _ _

/-- The loop of `rotate_func`: the block of `i` elements before `m` and the block of `j`
elements from `m` on change places, each keeping its order. -/
theorem rotateLoop_get? {α : Type} (m fuel i j : Nat) (l : List α) (hi : 0 < i) (hj : 0 < j)
    (him : i ≤ m) (hjl : m + j ≤ l.length) (hf : i ≤ fuel ∧ j ≤ fuel) (k : Nat) :
    (rotateLoop m fuel i j l).get? k =
      if m - i ≤ k ∧ k < m - i + j then l.get? (k + i)
      else if m - i + j ≤ k ∧ k < m + j then l.get? (k - j)
      else l.get? k := by
  induction fuel generalizing i j l with
  | zero =>
    exfalso
    omega
  | succ f ih =>
    unfold rotateLoop
    by_cases hij : i = j
    · subst hij
      rw [if_neg (by simp), swapRangeFunc_get? (m - i) m i l (by omega) (by omega) k]
      split_ifs <;> first
        | rfl
        | (exfalso; omega)
        | (congr 1; omega)
    · rw [if_pos hij]
      by_cases hgt : i > j
      · rw [if_pos hgt, ih (i - j) j (swapRangeFunc l (m - i) m j) (by omega) hj (by omega)
          (by rw [swapRangeFunc_length]; exact hjl)
          (by omega)]
        have hs : ∀ x, (swapRangeFunc l (m - i) m j).get? x =
            if m - i ≤ x ∧ x < m - i + j then l.get? (x - (m - i) + m)
            else if m ≤ x ∧ x < m + j then l.get? (x - m + (m - i))
            else l.get? x :=
          fun x => swapRangeFunc_get? (m - i) m j l (by omega) (by omega) x
        simp only [hs]
        split_ifs <;> first
          | rfl
          | (exfalso; omega)
          | (congr 1; omega)
      · rw [if_neg hgt, ih i (j - i) (swapRangeFunc l (m - i) (m + j - i) i) hi (by omega) him
          (by rw [swapRangeFunc_length]; omega)
          (by omega)]
        have hs : ∀ x, (swapRangeFunc l (m - i) (m + j - i) i).get? x =
            if m - i ≤ x ∧ x < m - i + i then l.get? (x - (m - i) + (m + j - i))
            else if m + j - i ≤ x ∧ x < m + j - i + i then l.get? (x - (m + j - i) + (m - i))
            else l.get? x :=
          fun x => swapRangeFunc_get? (m - i) (m + j - i) i l (by omega) (by omega) x
        simp only [hs]
        split_ifs <;> first
          | rfl
          | (exfalso; omega)
          | (congr 1; omega)

/-- The function `rotate_func`: the blocks `data[a:m]` and `data[m:b]` change places, each
keeping its order. -/
theorem rotateFunc_get? {α : Type} (l : List α) (a m b : Nat) (ham : a < m) (hmb : m < b)
    (hb : b ≤ l.length) (k : Nat) :
    (rotateFunc l a m b).get? k =
      if a ≤ k ∧ k < a + (b - m) then l.get? (k + (m - a))
      else if a + (b - m) ≤ k ∧ k < b then l.get? (k - (b - m))
      else l.get? k := by
  unfold rotateFunc
  rw [rotateLoop_get? m (b - a) (m - a) (b - m) l (by omega) (by omega) (by omega) (by omega)
    (by omega) k]
  split_ifs <;> first
    | rfl
    | (exfalso; omega)

theorem rotateFunc_length {α : Type} (l : List α) (a m b : Nat) :
    (rotateFunc l a m b).length = l.length := rotateLoop_length _ _ _ _ _

/-! ### The loops that move one element -/

theorem swapForward_length {α : Type} (bound fuel k : Nat) (l : List α) :
    (swapForward bound fuel k l).length = l.length := by
  induction fuel generalizing k l with
  | zero => rfl
  | succ f ih =>
    unfold swapForward
    split_ifs
    · rw [ih, goSwap_length]
    · rfl

/-- The loop `for k := a; k < bound; k++ { data.Swap(k, k+1) }`: the element at `k` moves
up to `bound`, those between move down by one. -/
theorem swapForward_get? {α : Type} (bound fuel k : Nat) (l : List α) (hk : k ≤ bound)
    (hb : bound < l.length) (hf : bound ≤ fuel + k) (x : Nat) :
    (swapForward bound fuel k l).get? x =
      if k ≤ x ∧ x < bound then l.get? (x + 1)
      else if x = bound then l.get? k
      else l.get? x := by
  induction fuel generalizing k l with
  | zero =>
    unfold swapForward
    have : k = bound := by omega
    subst this
    rw [if_neg (by omega)]
    split_ifs with h
    · rw [h]
    · rfl
  | succ f ih =>
    unfold swapForward
    by_cases hlt : k < bound
    · rw [if_pos hlt, ih (k + 1) (goSwap l k (k + 1)) (by omega)
        (by rw [goSwap_length]; exact hb) (by omega)]
      have hs : ∀ y, (goSwap l k (k + 1)).get? y =
          if y = k + 1 then l.get? k else if y = k then l.get? (k + 1) else l.get? y :=
        fun y => goSwap_get? l k (k + 1) y (by omega) (by omega)
      simp only [hs]
      split_ifs <;> first
        | rfl
        | (exfalso; omega)
        | (congr 1; omega)
    · have : k = bound := by omega
      subst this
      rw [if_neg hlt, if_neg (by omega)]
      split_ifs with h
      · rw [h]
      · rfl

theorem swapBackward_length {α : Type} (i k : Nat) (l : List α) :
    (swapBackward i k l).length = l.length := by
  induction k generalizing l with
  | zero => rfl
  | succ k ih =>
    unfold swapBackward
    split_ifs
    · rw [ih, goSwap_length]
    · rfl

/-- The loop `for k := m; k > i; k-- { data.Swap(k, k-1) }`: the element at `k` moves
down to `i`, those between move up by one. -/
theorem swapBackward_get? {α : Type} (i k : Nat) (l : List α) (hik : i ≤ k)
    (hk : k < l.length) (x : Nat) :
    (swapBackward i k l).get? x =
      if x = i then l.get? k
      else if i < x ∧ x ≤ k then l.get? (x - 1)
      else l.get? x := by
  induction k generalizing l with
  | zero =>
    unfold swapBackward
    have : i = 0 := by omega
    subst this
    split_ifs with h
    · rw [h]
    · exfalso
      omega
    · rfl
  | succ k ih =>
    unfold swapBackward
    by_cases hgt : k + 1 > i
    · rw [if_pos hgt, ih (goSwap l (k + 1) k) (by omega) (by rw [goSwap_length]; omega)]
      have hs : ∀ y, (goSwap l (k + 1) k).get? y =
          if y = k then l.get? (k + 1) else if y = k + 1 then l.get? k else l.get? y :=
        fun y => goSwap_get? l (k + 1) k y (by omega) (by omega)
      simp only [hs]
      split_ifs <;> first
        | rfl
        | (exfalso; omega)
        | (congr 1; omega)
    · have : i = k + 1 := by omega
      subst this
      rw [if_neg hgt]
      split_ifs with h
      · rw [h]
      · exfalso
        omega
      · rfl

/-! ### The binary search -/

/-- The binary search of `symMerge_func` on a test that holds up to some index and fails
from there on returns that index. -/
theorem searchLoop_spec (test : Nat → Bool) (fuel i j : Nat) (hij : i ≤ j)
    (hf : j - i ≤ fuel)
    (hmono : ∀ x y, i ≤ x → x < y → y < j → test y = true → test x = true) :
    i ≤ searchLoop test fuel i j ∧ searchLoop test fuel i j ≤ j ∧
      (∀ x, i ≤ x → x < searchLoop test fuel i j → test x = true) ∧
      (∀ x, searchLoop test fuel i j ≤ x → x < j → test x = false) := by
  induction fuel generalizing i j with
  | zero =>
    unfold searchLoop
    have : i = j := by omega
    subst this
    exact ⟨le_refl _, le_refl _, fun x h1 h2 => absurd h2 (by omega),
      fun x h1 h2 => absurd h2 (by omega)⟩
  | succ f ih =>
    unfold searchLoop
    by_cases hlt : i < j
    · rw [if_pos hlt]
      have hh1 : i ≤ (i + j) / 2 := by omega
      have hh2 : (i + j) / 2 < j := by omega
      by_cases ht : test ((i + j) / 2) = true
      · rw [if_pos ht]
        obtain ⟨h1, h2, h3, h4⟩ := ih ((i + j) / 2 + 1) j (by omega) (by omega)
          (fun x y hx hxy hy hty => hmono x y (by omega) hxy hy hty)
        refine ⟨by omega, h2, ?_, h4⟩
        intro x hx1 hx2
        by_cases hxm : x ≤ (i + j) / 2
        · by_cases hxe : x = (i + j) / 2
          · rw [hxe]
            exact ht
          · exact hmono x ((i + j) / 2) hx1 (by omega) hh2 ht
        · exact h3 x (by omega) hx2
      · rw [if_neg ht]
        obtain ⟨h1, h2, h3, h4⟩ := ih i ((i + j) / 2) hh1 (by omega)
          (fun x y hx hxy hy hty => hmono x y hx hxy (by omega) hty)
        refine ⟨h1, by omega, h3, ?_⟩
        intro x hx1 hx2
        by_cases hxm : x < (i + j) / 2
        · exact h4 x hx1 hxm
        · cases htx : test x with
          | false => rfl
          | true =>
            exfalso
            by_cases hxe : x = (i + j) / 2
            · rw [hxe] at htx
              exact ht htx
            · exact ht (hmono ((i + j) / 2) x hh1 (by omega) hx2 htx)
    · rw [if_neg hlt]
      have : i = j := by omega
      subst this
      exact ⟨le_refl _, le_refl _, fun x h1 h2 => absurd h2 (by omega),
        fun x h1 h2 => absurd h2 (by omega)⟩

/-! ### `insertionSort_func` -/

theorem goLess_eq {α : Type} (less : α → α → Bool) (l : List α) (i j : Nat) (x y : α)
    (hx : l.get? i = some x) (hy : l.get? j = some y) : goLess less l i j = less x y := by
  unfold goLess
  rw [hx, hy]

theorem SortedOn.single {α : Type} (less : α → α → Bool) (l : List α) (a b : Nat)
    (h : b ≤ a + 1) : SortedOn less l a b := by
  intro i j _ _ h1 h2 h3 _ _
  omega

/-- The inner loop of `insertionSort_func` puts the element at `j` in its place among the
ordered elements before it. -/
theorem insertionInner_sorted {α : Type} {less : α → α → Bool} (hw : WeakOrder less)
    (a e j : Nat) (l : List α) (hj : a ≤ j) (hje : j < e) (he : e ≤ l.length)
    (h1 : SortedOn less l a j) (h2 : SortedOn less l j e)
    (h3 : ∀ i k x y, a ≤ i → i < j → j < k → k < e → l.get? i = some x →
      l.get? k = some y → less y x = false) :
    SortedOn less (insertionInner less a j l) a e ∧ Within l (insertionInner less a j l) a e := by
  induction j generalizing l with
  | zero =>
    have ha : a = 0 := by omega
    subst ha
    exact ⟨h2, Within.refl _ _ _⟩
  | succ j ih =>
    unfold insertionInner
    obtain ⟨u, hu⟩ := get?_some_of_lt l (j + 1) (by omega)
    obtain ⟨v, hv⟩ := get?_some_of_lt l j (by omega)
    rw [goLess_eq less l (j + 1) j u v hu hv]
    by_cases hc : j + 1 > a ∧ less u v = true
    · rw [if_pos hc]
      have hs : ∀ y, (goSwap l (j + 1) j).get? y =
          if y = j then l.get? (j + 1) else if y = j + 1 then l.get? j else l.get? y :=
        fun y => goSwap_get? l (j + 1) j y (by omega) (by omega)
      have hsw : Within l (goSwap l (j + 1) j) a e :=
        goSwap_within l (j + 1) j a e ⟨by omega, by omega⟩ ⟨by omega, by omega⟩
      obtain ⟨r1, r2⟩ := ih (goSwap l (j + 1) j) (by omega) (by omega)
        (by rw [goSwap_length]; exact he)
        (by
          intro i k x y hi hik hk hx hy
          rw [hs, if_neg (by omega), if_neg (by omega)] at hx hy
          exact h1 i k x y hi hik (by omega) hx hy)
        (by
          intro i k x y hi hik hk hx hy
          rw [hs] at hx hy
          by_cases hij : i = j
          · rw [if_pos hij] at hx
            rw [if_neg (by omega)] at hy
            rw [hu] at hx
            simp only [Option.some.injEq] at hx
            subst hx
            by_cases hkj : k = j + 1
            · rw [if_pos hkj, hv] at hy
              simp only [Option.some.injEq] at hy
              subst hy
              exact hw.asymm _ _ hc.2
            · rw [if_neg hkj] at hy
              exact h2 (j + 1) k _ y (le_refl _) (by omega) hk hu hy
          · rw [if_neg hij] at hx
            rw [if_neg (by omega), if_neg (by omega)] at hy
            by_cases hij1 : i = j + 1
            · rw [if_pos hij1, hv] at hx
              simp only [Option.some.injEq] at hx
              subst hx
              exact h3 j k _ y (by omega) (by omega) (by omega) hk hv hy
            · rw [if_neg hij1] at hx
              exact h2 i k x y (by omega) hik hk hx hy)
        (by
          intro i k x y hi hij hjk hk hx hy
          rw [hs, if_neg (by omega), if_neg (by omega)] at hx
          rw [hs, if_neg (by omega)] at hy
          by_cases hkj : k = j + 1
          · rw [if_pos hkj, hv] at hy
            simp only [Option.some.injEq] at hy
            subst hy
            exact h1 i j x _ hi hij (by omega) hx hv
          · rw [if_neg hkj] at hy
            exact h3 i k x y hi (by omega) (by omega) hk hx hy)
      exact ⟨r1, hsw.trans r2⟩
    · rw [if_neg hc]
      refine ⟨?_, Within.refl _ _ _⟩
      intro i k x y hi hik hk hx hy
      by_cases hk1 : k < j + 1
      · exact h1 i k x y hi hik hk1 hx hy
      · by_cases hi1 : j + 1 ≤ i
        · exact h2 i k x y hi1 hik hk hx hy
        · by_cases hke : k = j + 1
          · subst hke
            rw [hu] at hy
            simp only [Option.some.injEq] at hy
            subst hy
            have hja : j + 1 > a := by omega
            have hnl : less u v = false := by
              cases hl : less u v with
              | false => rfl
              | true => exact absurd ⟨hja, hl⟩ hc
            by_cases hij : i = j
            · subst hij
              rw [hv] at hx
              simp only [Option.some.injEq] at hx
              subst hx
              exact hnl
            · have hxv := h1 i j x v hi (by omega) (by omega) hx hv
              exact hw.negTrans x v u hxv hnl
          · exact h3 i k x y hi (by omega) (by omega) hk hx hy

theorem insertionOuter_sorted {α : Type} {less : α → α → Bool} (hw : WeakOrder less)
    (a b fuel i : Nat) (l : List α) (hai : a < i) (hb : b ≤ l.length) (hf : b ≤ fuel + i)
    (h : SortedOn less l a i) :
    SortedOn less (insertionOuter less a b fuel i l) a b ∧
      Within l (insertionOuter less a b fuel i l) a b := by
  induction fuel generalizing i l with
  | zero =>
    unfold insertionOuter
    exact ⟨h.mono (le_refl _) (by omega), Within.refl _ _ _⟩
  | succ f ih =>
    unfold insertionOuter
    by_cases hib : i < b
    · rw [if_pos hib]
      obtain ⟨r1, r2⟩ := insertionInner_sorted hw a (i + 1) i l (by omega) (by omega) (by omega)
        h (SortedOn.single less l i (i + 1) (le_refl _))
        (fun i' k x y _ _ h3 h4 _ _ => absurd h4 (by omega))
      obtain ⟨r3, r4⟩ := ih (i + 1) (insertionInner less a i l) (by omega)
        (by rw [r2.length_eq]; exact hb) (by omega) r1
      exact ⟨r3, (r2.widen (le_refl _) (by omega)).trans r4⟩
    · rw [if_neg hib]
      exact ⟨h.mono (le_refl _) (by omega), Within.refl _ _ _⟩

/-- The function `insertionSort_func` puts `data[a:b]` in order. -/
theorem insertionSortFunc_sorted {α : Type} {less : α → α → Bool} (hw : WeakOrder less)
    (l : List α) (a b : Nat) (hb : b ≤ l.length) :
    SortedOn less (insertionSortFunc less l a b) a b ∧
      Within l (insertionSortFunc less l a b) a b := by
  unfold insertionSortFunc
  exact insertionOuter_sorted hw a b (b - a) (a + 1) l (by omega) hb (by omega)
    (SortedOn.single less l a (a + 1) (le_refl _))

/-! ### Comparisons by index -/

theorem SortedOn.leAt {α : Type} {less : α → α → Bool} {l : List α} {a b : Nat}
    (h : SortedOn less l a b) (i j : Nat) (hi : a ≤ i) (hij : i < j) (hj : j < b) :
    LeAt less l i j := fun x y hx hy => h i j x y hi hij hj hx hy

theorem SortedOn.of_leAt {α : Type} {less : α → α → Bool} {l : List α} {a b : Nat}
    (h : ∀ i j, a ≤ i → i < j → j < b → LeAt less l i j) : SortedOn less l a b :=
  fun i j x y hi hij hj hx hy => h i j hi hij hj x y hx hy

theorem LeAt.chain {α : Type} {less : α → α → Bool} (hw : WeakOrder less) {l : List α}
    {i j k : Nat} (h1 : LeAt less l i j) (h2 : LeAt less l j k) (hj : j < l.length) :
    LeAt less l i k := by
  intro x z hx hz
  obtain ⟨y, hy⟩ := get?_some_of_lt l j hj
  exact hw.negTrans x y z (h1 x y hx hy) (h2 y z hy hz)

theorem LeAt.congr {α : Type} {less : α → α → Bool} {l l' : List α} {i j i' j' : Nat}
    (hi : l'.get? i = l.get? i') (hj : l'.get? j = l.get? j') (h : LeAt less l i' j') :
    LeAt less l' i j := by
  intro x y hx hy
  rw [hi] at hx
  rw [hj] at hy
  exact h x y hx hy

theorem LeAt.of_goLess {α : Type} {less : α → α → Bool} (hw : WeakOrder less) {l : List α}
    {i j : Nat} (h : goLess less l i j = true) : LeAt less l i j := by
  intro x y hx hy
  rw [goLess_eq less l i j x y hx hy] at h
  exact hw.asymm x y h

theorem LeAt.of_not_goLess {α : Type} {less : α → α → Bool} {l : List α}
    {i j : Nat} (h : goLess less l i j = false) : LeAt less l j i := by
  intro x y hx hy
  rw [goLess_eq less l i j y x hy hx] at h
  exact h

theorem LeAt.not_goLess {α : Type} {less : α → α → Bool} {l : List α}
    {i j : Nat} (h : LeAt less l j i) : goLess less l i j = false := by
  unfold goLess
  cases hx : l.get? i with
  | none => rfl
  | some x =>
    cases hy : l.get? j with
    | none => rfl
    | some y => exact h y x hy hx

theorem goLess_of_leAt {α : Type} {less : α → α → Bool} (hw : WeakOrder less) {l : List α}
    {i j k : Nat} (h1 : LeAt less l i j) (h2 : goLess less l j k = true) (hi : i < l.length) :
    goLess less l i k = true := by
  obtain ⟨x, hx⟩ := get?_some_of_lt l i hi
  cases hy : l.get? j with
  | none =>
    unfold goLess at h2
    rw [hy] at h2
    exact absurd h2 (by simp)
  | some y =>
    cases hz : l.get? k with
    | none =>
      unfold goLess at h2
      rw [hy, hz] at h2
      exact absurd h2 (by simp)
    | some z =>
      rw [goLess_eq less l j k y z hy hz] at h2
      rw [goLess_eq less l i k x z hx hz]
      cases hxz : less x z with
      | true => rfl
      | false =>
        have := hw.negTrans z x y hxz (h1 x y hx hy)
        rw [h2] at this
        exact absurd this (by simp)

/-- A slice whose elements are those of `l` at the indices `f k`, where `f` is the
identity outside `[a, b)` and maps `[a, b)` into itself, is `l` rearranged in `[a, b)`. -/
theorem Within.of_get? {α : Type} {l l' : List α} {a b : Nat} (f : Nat → Nat)
    (hlen : l'.length = l.length) (hf : ∀ k, l'.get? k = l.get? (f k))
    (hout : ∀ k, k < a ∨ b ≤ k → f k = k) (hin : ∀ k, a ≤ k → k < b → a ≤ f k ∧ f k < b) :
    Within l l' a b := by
  refine ⟨hlen, fun k hk => by rw [hf, hout k hk], ?_⟩
  intro k x h1 h2 hx
  rw [hf] at hx
  exact ⟨f k, (hin k h1 h2).1, (hin k h1 h2).2, hx⟩

/-! ### `symMerge_func`: the two cases of one element -/

/-- The case `m - a == 1` of `symMerge_func`: the single element of the first block is
put in its place among the ordered elements of the second. -/
theorem symMerge_first {α : Type} {less : α → α → Bool} (hw : WeakOrder less) (l : List α)
    (a b : Nat) (hab : a + 1 ≤ b) (hb : b ≤ l.length) (h2 : SortedOn less l (a + 1) b)
    (i : Nat) (hi : i = searchLoop (fun h => goLess less l h a) (b - (a + 1)) (a + 1) b) :
    SortedOn less (swapForward (i - 1) (i - 1 - a) a l) a b ∧
      Within l (swapForward (i - 1) (i - 1 - a) a l) a b := by
  obtain ⟨hi1, hi2, hi3, hi4⟩ := searchLoop_spec (fun h => goLess less l h a) (b - (a + 1))
    (a + 1) b hab (le_refl _) (by
      intro x y hx hxy hy hty
      exact goLess_of_leAt hw (h2.leAt x y hx hxy hy) hty (by omega))
  rw [← hi] at hi1 hi2 hi3 hi4
  have hs := swapForward_get? (i - 1) (i - 1 - a) a l (by omega) (by omega) (by omega)
  have hlo : ∀ x, a ≤ x → x < i - 1 → (swapForward (i - 1) (i - 1 - a) a l).get? x =
      l.get? (x + 1) := fun x h1 h2 => by rw [hs, if_pos ⟨h1, h2⟩]
  have hmid : (swapForward (i - 1) (i - 1 - a) a l).get? (i - 1) = l.get? a := by
    rw [hs, if_neg (by omega), if_pos rfl]
  have hhi : ∀ x, x < a ∨ i - 1 < x → (swapForward (i - 1) (i - 1 - a) a l).get? x =
      l.get? x := fun x h1 => by rw [hs, if_neg (by omega), if_neg (by omega)]
  constructor
  · apply SortedOn.of_leAt
    intro x y hx hxy hy
    by_cases hy1 : y < i - 1
    · exact LeAt.congr (hlo x hx (by omega)) (hlo y (by omega) hy1)
        (h2.leAt (x + 1) (y + 1) (by omega) (by omega) (by omega))
    · by_cases hy2 : y = i - 1
      · subst hy2
        exact LeAt.congr (hlo x hx hxy) hmid (LeAt.of_goLess hw (hi3 (x + 1) (by omega) (by omega)))
      · have hya : LeAt less l a y := LeAt.of_not_goLess (hi4 y (by omega) hy)
        by_cases hx1 : x < i - 1
        · exact LeAt.congr (hlo x hx hx1) (hhi y (by omega))
            (h2.leAt (x + 1) y (by omega) (by omega) hy)
        · by_cases hx2 : x = i - 1
          · subst hx2
            exact LeAt.congr hmid (hhi y (by omega)) hya
          · exact LeAt.congr (hhi x (by omega)) (hhi y (by omega))
              (h2.leAt x y (by omega) hxy hy)
  · refine Within.of_get? (fun x => if a ≤ x ∧ x < i - 1 then x + 1 else if x = i - 1 then a
      else x) (swapForward_length _ _ _ _) ?_ ?_ ?_
    · intro k
      rw [hs]
      dsimp only
      split_ifs <;> rfl
    · intro k hk
      dsimp only
      rw [if_neg (by omega), if_neg (by omega)]
    · intro k h1 h2
      dsimp only
      split_ifs <;> omega

/-- The case `b - m == 1` of `symMerge_func`: the single element of the second block is
put in its place among the ordered elements of the first. -/
theorem symMerge_last {α : Type} {less : α → α → Bool} (hw : WeakOrder less) (l : List α)
    (a m : Nat) (ham : a ≤ m) (hb : m + 1 ≤ l.length) (h1 : SortedOn less l a m)
    (i : Nat) (hi : i = searchLoop (fun h => !goLess less l m h) (m - a) a m) :
    SortedOn less (swapBackward i m l) a (m + 1) ∧ Within l (swapBackward i m l) a (m + 1) := by
  obtain ⟨hi1, hi2, hi3, hi4⟩ := searchLoop_spec (fun h => !goLess less l m h) (m - a)
    a m ham (le_refl _) (by
      intro x y hx hxy hy hty
      simp only [Bool.not_eq_true'] at hty ⊢
      exact LeAt.not_goLess (LeAt.chain hw (h1.leAt x y hx hxy hy) (LeAt.of_not_goLess hty)
        (by omega)))
  rw [← hi] at hi1 hi2 hi3 hi4
  simp only [Bool.not_eq_true', Bool.not_eq_false'] at hi3 hi4
  have hs := swapBackward_get? i m l hi2 (by omega)
  have hlo : ∀ x, x < i ∨ m < x → (swapBackward i m l).get? x = l.get? x :=
    fun x h1 => by rw [hs, if_neg (by omega), if_neg (by omega)]
  have hmid : (swapBackward i m l).get? i = l.get? m := by rw [hs, if_pos rfl]
  have hhi : ∀ x, i < x → x ≤ m → (swapBackward i m l).get? x = l.get? (x - 1) :=
    fun x h1 h2 => by rw [hs, if_neg (by omega), if_pos ⟨h1, h2⟩]
  constructor
  · apply SortedOn.of_leAt
    intro x y hx hxy hy
    by_cases hx1 : i < x
    · exact LeAt.congr (hhi x hx1 (by omega)) (hhi y (by omega) (by omega))
        (h1.leAt (x - 1) (y - 1) (by omega) (by omega) (by omega))
    · by_cases hx2 : x = i
      · subst hx2
        exact LeAt.congr hmid (hhi y (by omega) (by omega))
          (LeAt.of_goLess hw (hi4 (y - 1) (by omega) (by omega)))
      · have hxm : LeAt less l x m := LeAt.of_not_goLess (hi3 x hx (by omega))
        by_cases hy1 : i < y
        · exact LeAt.congr (hlo x (by omega)) (hhi y hy1 (by omega))
            (h1.leAt x (y - 1) hx (by omega) (by omega))
        · by_cases hy2 : y = i
          · subst hy2
            exact LeAt.congr (hlo x (by omega)) hmid hxm
          · exact LeAt.congr (hlo x (by omega)) (hlo y (by omega))
              (h1.leAt x y hx hxy (by omega))
  · refine Within.of_get? (fun x => if x = i then m else if i < x ∧ x ≤ m then x - 1 else x)
      (swapBackward_length _ _ _) ?_ ?_ ?_
    · intro k
      rw [hs]
      dsimp only
      split_ifs <;> rfl
    · intro k hk
      dsimp only
      rw [if_neg (by omega), if_neg (by omega)]
    · intro k h1 h2
      dsimp only
      split_ifs <;> omega

/-! ### `symMerge_func`: the general case -/

theorem less_irrefl {α : Type} {less : α → α → Bool} (hw : WeakOrder less) (x : α) :
    less x x = false := by
  cases h : less x x with
  | false => rfl
  | true =>
    have := hw.asymm x x h
    rw [h] at this
    exact this

theorem SortedOn.leAt_le {α : Type} {less : α → α → Bool} (hw : WeakOrder less) {l : List α}
    {a b : Nat} (h : SortedOn less l a b) (i j : Nat) (hi : a ≤ i) (hij : i ≤ j) (hj : j < b) :
    LeAt less l i j := by
  by_cases he : i = j
  · subst he
    intro x y hx hy
    rw [hx] at hy
    simp only [Option.some.injEq] at hy
    subst hy
    exact less_irrefl hw x
  · exact h.leAt i j hi (by omega) hj

/-- The general case of `symMerge_func` up to the rotation: the slice is cut at `start`,
`mid` and `stop` into four ordered runs, and no element from `mid` on is less than one
before `mid`. -/
theorem symMerge_split_core {α : Type} {less : α → α → Bool} (hw : WeakOrder less)
    (l l1 : List α) (a m b mid start0 r0 start : Nat) (ham : a < m) (hmb : m < b)
    (hb : b ≤ l.length) (h1 : SortedOn less l a m) (h2 : SortedOn less l m b)
    (hA : a ≤ start0) (hB : start0 ≤ r0) (hC : r0 ≤ m) (hD : r0 ≤ mid)
    (hE : ∀ c, start0 ≤ c → c < r0 → m ≤ mid + m - 1 - c ∧ mid + m - 1 - c < b)
    (hF : start0 = a ∨ mid + m - start0 = b) (hG : r0 = m ∨ r0 = mid)
    (hH : mid + m - start0 ≤ b)
    (hstart : start = searchLoop (fun c => !goLess less l (mid + m - 1 - c) c) (r0 - start0)
      start0 r0)
    (hl1 : l1 = if start < m ∧ m < mid + m - start then rotateFunc l start m (mid + m - start)
      else l) :
    a ≤ start ∧ start ≤ mid ∧ mid ≤ mid + m - start ∧ mid + m - start ≤ b ∧
      SortedOn less l1 a start ∧ SortedOn less l1 start mid ∧
      SortedOn less l1 mid (mid + m - start) ∧ SortedOn less l1 (mid + m - start) b ∧
      (∀ i j, a ≤ i → i < mid → mid ≤ j → j < b → LeAt less l1 i j) ∧
      Within l l1 a b := by
  obtain ⟨hs1, hs2, hs3, hs4⟩ := searchLoop_spec
    (fun c => !goLess less l (mid + m - 1 - c) c) (r0 - start0) start0 r0 hB (le_refl _) (by
      intro x y hx hxy hy hty
      simp only [Bool.not_eq_true'] at hty ⊢
      have e1 := hE x hx (by omega)
      have e2 := hE y (by omega) hy
      refine LeAt.not_goLess ?_
      refine LeAt.chain hw (LeAt.chain hw (h1.leAt x y (by omega) hxy (by omega))
        (LeAt.of_not_goLess hty) (by omega)) (h2.leAt (mid + m - 1 - y) (mid + m - 1 - x)
        (by omega) (by omega) (by omega)) (by omega))
  rw [← hstart] at hs1 hs2 hs3 hs4
  simp only [Bool.not_eq_true', Bool.not_eq_false'] at hs3 hs4
  have hlen : l1.length = l.length := by
    rw [hl1]
    split_ifs
    · exact rotateFunc_length _ _ _ _
    · rfl
  have hget : ∀ k, l1.get? k =
      if start ≤ k ∧ k < mid then l.get? (k + (m - start))
      else if mid ≤ k ∧ k < mid + m - start then l.get? (k - (mid + m - start - m))
      else l.get? k := by
    intro k
    by_cases hrot : start < m ∧ m < mid + m - start
    · rw [hl1, if_pos hrot, rotateFunc_get? l start m (mid + m - start) hrot.1 hrot.2
        (by omega) k]
      have e : start + (mid + m - start - m) = mid := by omega
      rw [e]
    · rw [hl1, if_neg hrot]
      split_ifs <;> first
        | rfl
        | (exfalso; omega)
        | (congr 1; omega)
  have gU : ∀ k, k < start ∨ mid + m - start ≤ k → l1.get? k = l.get? k := by
    intro k hk
    rw [hget, if_neg (by omega), if_neg (by omega)]
  have gY : ∀ k, start ≤ k → k < mid → l1.get? k = l.get? (k + (m - start)) := by
    intro k hk1 hk2
    rw [hget, if_pos ⟨hk1, hk2⟩]
  have gX : ∀ k, mid ≤ k → k < mid + m - start →
      l1.get? k = l.get? (k - (mid + m - start - m)) := by
    intro k hk1 hk2
    rw [hget, if_neg (by omega), if_pos ⟨hk1, hk2⟩]
  refine ⟨by omega, by omega, by omega, by omega, ?_, ?_, ?_, ?_, ?_, ?_⟩
  · apply SortedOn.of_leAt
    intro i j hi hij hj
    exact LeAt.congr (gU i (by omega)) (gU j (by omega)) (h1.leAt i j hi hij (by omega))
  · apply SortedOn.of_leAt
    intro i j hi hij hj
    exact LeAt.congr (gY i hi (by omega)) (gY j (by omega) hj)
      (h2.leAt _ _ (by omega) (by omega) (by omega))
  · apply SortedOn.of_leAt
    intro i j hi hij hj
    exact LeAt.congr (gX i hi (by omega)) (gX j (by omega) hj)
      (h1.leAt _ _ (by omega) (by omega) (by omega))
  · apply SortedOn.of_leAt
    intro i j hi hij hj
    exact LeAt.congr (gU i (by omega)) (gU j (by omega)) (h2.leAt i j (by omega) hij hj)
  · intro i j hi1 hi2 hj1 hj2
    by_cases hiU : i < start
    · by_cases hjX : j < mid + m - start
      · exact LeAt.congr (gU i (Or.inl hiU)) (gX j hj1 hjX)
          (h1.leAt _ _ hi1 (by omega) (by omega))
      · have hgt : start0 < start := by omega
        have hb1 := hs3 (start - 1) (by omega) (by omega)
        have e : mid + m - 1 - (start - 1) = mid + m - start := by omega
        rw [e] at hb1
        refine LeAt.congr (gU i (Or.inl hiU)) (gU j (by omega)) ?_
        exact LeAt.chain hw (LeAt.chain hw (h1.leAt_le hw i (start - 1) hi1 (by omega) (by omega))
          (LeAt.of_not_goLess hb1) (by omega))
          (h2.leAt_le hw (mid + m - start) j (by omega) (by omega) hj2) (by omega)
    · by_cases hjX : j < mid + m - start
      · have hlt : start < r0 := by omega
        have hb1 := hs4 start (le_refl _) hlt
        refine LeAt.congr (gY i (by omega) hi2) (gX j hj1 hjX) ?_
        have e := hE start hs1 hlt
        exact LeAt.chain hw (LeAt.chain hw
          (h2.leAt_le hw (i + (m - start)) (mid + m - 1 - start) (by omega) (by omega) (by omega))
          (LeAt.of_goLess hw hb1) (by omega))
          (h1.leAt_le hw start (j - (mid + m - start - m)) (by omega) (by omega) (by omega))
          (by omega)
      · exact LeAt.congr (gY i (by omega) hi2) (gU j (by omega))
          (h2.leAt _ _ (by omega) (by omega) hj2)
  · refine Within.of_get? (fun k => if start ≤ k ∧ k < mid then k + (m - start)
      else if mid ≤ k ∧ k < mid + m - start then k - (mid + m - start - m) else k) hlen ?_ ?_ ?_
    · intro k
      rw [hget]
      dsimp only
      split_ifs <;> rfl
    · intro k hk
      dsimp only
      rw [if_neg (by omega), if_neg (by omega)]
    · intro k h1 h2
      dsimp only
      split_ifs <;> omega

theorem symMergeFunc_general {α : Type} (less : α → α → Bool) (fuel : Nat) (l l1 l2 : List α)
    (a m b mid start0 r0 start : Nat) (hc1 : ¬ m - a = 1) (hc2 : ¬ b - m = 1)
    (hmid : mid = (a + b) / 2) (hs0 : start0 = if m > mid then mid + m - b else a)
    (hr0 : r0 = if m > mid then mid else m)
    (hstart : start = searchLoop (fun c => !goLess less l (mid + m - 1 - c) c) (r0 - start0)
      start0 r0)
    (hl1 : l1 = if start < m ∧ m < mid + m - start then rotateFunc l start m (mid + m - start)
      else l)
    (hl2 : l2 = if a < start ∧ start < mid then symMergeFunc less fuel l1 a start mid else l1) :
    symMergeFunc less (fuel + 1) l a m b =
      if mid < mid + m - start ∧ mid + m - start < b then
        symMergeFunc less fuel l2 mid (mid + m - start) b
      else l2 := by
  subst hl2 hl1 hstart hr0 hs0 hmid
  rw [symMergeFunc, if_neg hc1, if_neg hc2]

/-- The function `symMerge_func` merges two neighbouring ordered blocks `data[a:m]` and
`data[m:b]` into one ordered block. -/
theorem symMergeFunc_sorted {α : Type} {less : α → α → Bool} (hw : WeakOrder less)
    (fuel : Nat) (l : List α) (a m b : Nat) (ham : a < m) (hmb : m < b) (hb : b ≤ l.length)
    (hf : b - a ≤ fuel) (h1 : SortedOn less l a m) (h2 : SortedOn less l m b) :
    SortedOn less (symMergeFunc less fuel l a m b) a b ∧
      Within l (symMergeFunc less fuel l a m b) a b := by
  induction fuel generalizing l a m b with
  | zero =>
    exfalso
    omega
  | succ f ih =>
    by_cases hc1 : m - a = 1
    · have hm : m = a + 1 := by omega
      subst hm
      rw [symMergeFunc, if_pos hc1]
      exact symMerge_first hw l a b (by omega) hb h2 _ rfl
    · by_cases hc2 : b - m = 1
      · have hm : b = m + 1 := by omega
        subst hm
        rw [symMergeFunc, if_neg hc1, if_pos hc2]
        exact symMerge_last hw l a m (by omega) hb h1 _ rfl
      · have key : ∀ (mid start0 r0 start : Nat) (l1 l2 : List α), mid = (a + b) / 2 →
            (start0 = if m > mid then mid + m - b else a) →
            (r0 = if m > mid then mid else m) →
            start = searchLoop (fun c => !goLess less l (mid + m - 1 - c) c) (r0 - start0)
              start0 r0 →
            (l1 = if start < m ∧ m < mid + m - start then
              rotateFunc l start m (mid + m - start) else l) →
            (l2 = if a < start ∧ start < mid then symMergeFunc less f l1 a start mid
              else l1) →
            SortedOn less (symMergeFunc less (f + 1) l a m b) a b ∧
              Within l (symMergeFunc less (f + 1) l a m b) a b := by
          intro mid start0 r0 start l1 l2 hmid hs0 hr0 hstart hl1 hl2
          rw [symMergeFunc_general less f l l1 l2 a m b mid start0 r0 start hc1 hc2 hmid hs0
            hr0 hstart hl1 hl2]
          have hsplit : a ≤ start ∧ start ≤ mid ∧ mid ≤ mid + m - start ∧
              mid + m - start ≤ b ∧
              SortedOn less l1 a start ∧ SortedOn less l1 start mid ∧
              SortedOn less l1 mid (mid + m - start) ∧ SortedOn less l1 (mid + m - start) b ∧
              (∀ i j, a ≤ i → i < mid → mid ≤ j → j < b → LeAt less l1 i j) ∧
              Within l l1 a b := by
            by_cases hm : m > mid
            · rw [if_pos hm] at hs0 hr0
              exact symMerge_split_core hw l l1 a m b mid start0 r0 start ham hmb hb h1 h2
                (by omega) (by omega) (by omega) (by omega)
                (fun c hc1 hc2 => by omega) (by omega) (by omega) (by omega) hstart hl1
            · rw [if_neg hm] at hs0 hr0
              exact symMerge_split_core hw l l1 a m b mid start0 r0 start ham hmb hb h1 h2
                (by omega) (by omega) (by omega) (by omega)
                (fun c hc1 hc2 => by omega) (by omega) (by omega) (by omega) hstart hl1
          obtain ⟨q1, q2, q3, q4, s1, s2, s3, s4, hcross, hw1⟩ := hsplit
          have hlen1 : l1.length = l.length := hw1.length_eq
          have step2 : SortedOn less l2 a mid ∧ Within l1 l2 a mid := by
            by_cases hcall : a < start ∧ start < mid
            · rw [hl2, if_pos hcall]
              exact ih l1 a start mid hcall.1 hcall.2 (by omega) (by omega) s1 s2
            · rw [hl2, if_neg hcall]
              refine ⟨?_, Within.refl _ _ _⟩
              by_cases hsa : start = a
              · rw [hsa] at s2
                exact s2
              · have hsm : start = mid := by omega
                rw [hsm] at s1
                exact s1
          obtain ⟨t1, t2⟩ := step2
          have hlen2 : l2.length = l.length := t2.length_eq.trans hlen1
          have s3' : SortedOn less l2 mid (mid + m - start) :=
            s3.of_outside t2 (Or.inr (le_refl _))
          have s4' : SortedOn less l2 (mid + m - start) b :=
            s4.of_outside t2 (Or.inr (by omega))
          have step3 : ∀ l3, (l3 = if mid < mid + m - start ∧ mid + m - start < b then
              symMergeFunc less f l2 mid (mid + m - start) b else l2) →
              SortedOn less l3 mid b ∧ Within l2 l3 mid b := by
            intro l3 hl3
            by_cases hcall : mid < mid + m - start ∧ mid + m - start < b
            · rw [hl3, if_pos hcall]
              exact ih l2 mid (mid + m - start) b hcall.1 hcall.2 (by omega) (by omega) s3' s4'
            · rw [hl3, if_neg hcall]
              refine ⟨?_, Within.refl _ _ _⟩
              by_cases hsa : mid + m - start = mid
              · rw [hsa] at s4'
                exact s4'
              · have hsm : mid + m - start = b := by omega
                rw [hsm] at s3'
                exact s3'
          obtain ⟨u1, u2⟩ := step3 _ rfl
          refine ⟨?_, (hw1.trans (t2.widen (le_refl _) (by omega))).trans
            (u2.widen (by omega) (le_refl _))⟩
          apply SortedOn.of_leAt
          intro i j hi hij hj
          by_cases hjm : j < mid
          · exact (t1.of_outside u2 (Or.inl (le_refl _))).leAt i j hi hij hjm
          · by_cases him : mid ≤ i
            · exact u1.leAt i j him hij hj
            · intro x y hx hy
              rw [u2.outside i (by omega)] at hx
              obtain ⟨i', hi1, hi2, hx'⟩ := t2.inside i x hi (by omega) hx
              obtain ⟨j', hj1, hj2, hy'⟩ := u2.inside j y (by omega) hj hy
              rw [t2.outside j' (by omega)] at hy'
              exact hcross i' j' hi1 hi2 hj1 hj2 x y hx' hy'
        exact key _ _ _ _ _ _ rfl rfl rfl rfl rfl rfl

/-! ### `stable_func` -/

theorem mul_succ_le (k q B : Nat) (h : k < q) : k * B + B ≤ q * B := by
  have := Nat.mul_le_mul_right B (Nat.succ_le_of_lt h)
  rw [Nat.succ_mul] at this
  exact this

/-- The first loop of `stable_func` puts every block of `blockSize` elements in order. -/
theorem stableBlocks_sorted {α : Type} {less : α → α → Bool} (hw : WeakOrder less)
    (bs n : Nat) (hbs : 0 < bs) (fuel q : Nat) (l : List α) (hn : n ≤ l.length)
    (hf : n ≤ fuel + q * bs)
    (hdone : ∀ k, k < q → SortedOn less l (k * bs) (min (k * bs + bs) n)) :
    BlocksSorted less (stableBlocks less bs n fuel (q * bs) l) bs n ∧
      (stableBlocks less bs n fuel (q * bs) l).length = l.length := by
  have last : ∀ (q : Nat) (l : List α), n ≤ l.length → n < q * bs + bs →
      (∀ k, k < q → SortedOn less l (k * bs) (min (k * bs + bs) n)) →
      BlocksSorted less (insertionSortFunc less l (q * bs) n) bs n ∧
      (insertionSortFunc less l (q * bs) n).length = l.length := by
    intro q l hn hlt hdone
    obtain ⟨r1, r2⟩ := insertionSortFunc_sorted hw l (q * bs) n hn
    refine ⟨?_, r2.length_eq⟩
    intro k
    by_cases hk : k < q
    · have := mul_succ_le k q bs hk
      exact (hdone k hk).of_outside r2 (Or.inl (by omega))
    · by_cases hkq : k = q
      · subst hkq
        exact r1.mono (le_refl _) (by omega)
      · have := mul_succ_le q k bs (by omega)
        exact SortedOn.single less _ _ _ (by omega)
  induction fuel generalizing q l with
  | zero =>
    rw [stableBlocks]
    exact last q l hn (by omega) hdone
  | succ f ih =>
    rw [stableBlocks]
    by_cases hc : q * bs + bs ≤ n
    · rw [if_pos hc]
      obtain ⟨r1, r2⟩ := insertionSortFunc_sorted hw l (q * bs) (q * bs + bs) (by omega)
      have e : (q + 1) * bs = q * bs + bs := Nat.succ_mul q bs
      obtain ⟨t1, t2⟩ := ih (q + 1) (insertionSortFunc less l (q * bs) (q * bs + bs))
        (by rw [r2.length_eq]; exact hn) (by omega) (by
          intro k hk
          by_cases hkq : k < q
          · have := mul_succ_le k q bs hkq
            exact (hdone k hkq).of_outside r2 (Or.inl (by omega))
          · have hkq : k = q := by omega
            subst hkq
            exact r1.mono (le_refl _) (by omega))
      rw [e] at t1 t2
      exact ⟨t1, t2.trans r2.length_eq⟩
    · rw [if_neg hc]
      exact last q l hn (by omega) hdone

/-- One pass of the second loop of `stable_func` merges the ordered blocks of `blockSize`
elements two by two into ordered blocks of twice the size. -/
theorem stablePass_sorted {α : Type} {less : α → α → Bool} (hw : WeakOrder less)
    (bs n : Nat) (hbs : 0 < bs) (fuel q : Nat) (l : List α) (hn : n = l.length)
    (hq : q * (bs * 2) ≤ n) (hf : n < fuel + q * (bs * 2))
    (hdone : ∀ k, k < q → SortedOn less l (k * (bs * 2)) (min (k * (bs * 2) + bs * 2) n))
    (htodo : ∀ k, 2 * q ≤ k → SortedOn less l (k * bs) (min (k * bs + bs) n)) :
    BlocksSorted less (stablePass less bs n fuel (q * (bs * 2)) l) (bs * 2) n ∧
      (stablePass less bs n fuel (q * (bs * 2)) l).length = l.length := by
  induction fuel generalizing q l with
  | zero =>
    exfalso
    omega
  | succ f ih =>
    have e0 : (2 * q) * bs = q * (bs * 2) := by ring
    have e1 : (2 * q + 1) * bs = q * (bs * 2) + bs := by ring
    have hS1 := htodo (2 * q) (le_refl _)
    have hS2 := htodo (2 * q + 1) (by omega)
    rw [e0] at hS1
    rw [e1] at hS2
    have rest : ∀ l2 : List α, Within l l2 (q * (bs * 2)) n →
        SortedOn less l2 (q * (bs * 2)) n → n < q * (bs * 2) + 2 * bs →
        BlocksSorted less l2 (bs * 2) n ∧ l2.length = l.length := by
      intro l2 w s hlt
      refine ⟨?_, w.length_eq⟩
      intro k
      by_cases hk : k < q
      · have := mul_succ_le k q (bs * 2) hk
        exact (hdone k hk).of_outside w (Or.inl (by omega))
      · by_cases hkq : k = q
        · subst hkq
          exact s.mono (le_refl _) (by omega)
        · have := mul_succ_le q k (bs * 2) (by omega)
          exact SortedOn.single less _ _ _ (by omega)
    rw [stablePass]
    by_cases hc : q * (bs * 2) + 2 * bs ≤ n
    · rw [if_pos hc]
      obtain ⟨m1, m2⟩ := symMergeFunc_sorted hw n l (q * (bs * 2)) (q * (bs * 2) + bs)
        (q * (bs * 2) + 2 * bs) (by omega) (by omega) (by omega) (by omega)
        (hS1.mono (le_refl _) (by omega)) (hS2.mono (le_refl _) (by omega))
      have e : (q + 1) * (bs * 2) = q * (bs * 2) + 2 * bs := by ring
      obtain ⟨t1, t2⟩ := ih (q + 1)
        (symMergeFunc less n l (q * (bs * 2)) (q * (bs * 2) + bs) (q * (bs * 2) + 2 * bs))
        (by rw [m2.length_eq]; exact hn) (by omega) (by omega) (by
          intro k hk
          by_cases hkq : k < q
          · have := mul_succ_le k q (bs * 2) hkq
            exact (hdone k hkq).of_outside m2 (Or.inl (by omega))
          · have hkq : k = q := by omega
            subst hkq
            exact m1.mono (le_refl _) (by omega)) (by
          intro k hk
          have h4 : (2 * (q + 1)) * bs ≤ k * bs := Nat.mul_le_mul_right bs hk
          have e4 : (2 * (q + 1)) * bs = q * (bs * 2) + 2 * bs := by ring
          exact (htodo k (by omega)).of_outside m2 (Or.inr (by omega)))
      rw [e] at t1 t2
      exact ⟨t1, t2.trans m2.length_eq⟩
    · rw [if_neg hc]
      by_cases hc2 : q * (bs * 2) + bs < n
      · rw [if_pos hc2]
        obtain ⟨m1, m2⟩ := symMergeFunc_sorted hw n l (q * (bs * 2)) (q * (bs * 2) + bs)
          n (by omega) hc2 (by omega) (by omega)
          (hS1.mono (le_refl _) (by omega)) (hS2.mono (le_refl _) (by omega))
        exact rest _ m2 m1 (by omega)
      · rw [if_neg hc2]
        exact rest l (Within.refl _ _ _) (hS1.mono (le_refl _) (by omega)) (by omega)

/-- The second loop of `stable_func`: from ordered blocks to an ordered slice. -/
theorem stablePasses_sorted {α : Type} {less : α → α → Bool} (hw : WeakOrder less)
    (n fuel bs : Nat) (l : List α) (hbs : 0 < bs) (hn : n = l.length) (hf : n < fuel + bs)
    (h : BlocksSorted less l bs n) :
    SortedOn less (stablePasses less n fuel bs l) 0 n := by
  have last : ∀ (bs : Nat) (l : List α), ¬ bs < n → BlocksSorted less l bs n →
      SortedOn less l 0 n := by
    intro bs l hlt h
    have := h 0
    rw [Nat.zero_mul] at this
    exact this.mono (le_refl _) (by omega)
  induction fuel generalizing bs l with
  | zero =>
    rw [stablePasses]
    exact last bs l (by omega) h
  | succ f ih =>
    rw [stablePasses]
    by_cases hc : bs < n
    · rw [if_pos hc]
      have hp := stablePass_sorted hw bs n hbs (n + 1) 0 l hn (by omega) (by omega)
        (fun k hk => absurd hk (by omega)) (fun k _ => h k)
      rw [Nat.zero_mul] at hp
      exact ih (bs * 2) _ (by omega) (by rw [hp.2]; exact hn) (by omega) hp.1
    · rw [if_neg hc]
      exact last bs l hc h

/-- The function `sort.SliceStable` puts the slice in order: no element is less than one
before it. -/
theorem SliceStable_sortedOn {α : Type} {less : α → α → Bool} (hw : WeakOrder less)
    (l : List α) : SortedOn less (SliceStable less l) 0 l.length := by
  unfold SliceStable
  have hb := stableBlocks_sorted hw 20 l.length (by omega) l.length 0 l (le_refl _) (by omega)
    (fun k hk => absurd hk (by omega))
  rw [Nat.zero_mul] at hb
  exact stablePasses_sorted hw l.length l.length 20 _ (by omega) hb.2.symm (by omega) hb.1

theorem SortedOn.pairwise {α : Type} {less : α → α → Bool} {l : List α}
    (h : SortedOn less l 0 l.length) : l.Pairwise (fun x y => less y x = false) := by
  rw [List.pairwise_iff_get]
  intro i j hij
  exact h i.1 j.1 _ _ (Nat.zero_le _) hij j.2 (List.get?_eq_get i.2) (List.get?_eq_get j.2)

/-- The function `sort.SliceStable` returns the elements of the slice in order. -/
theorem SliceStable_sorted {α : Type} {less : α → α → Bool} (hw : WeakOrder less)
    (l : List α) : (SliceStable less l).Pairwise (fun x y => less y x = false) := by
  have h := SliceStable_sortedOn hw l
  rw [← (SliceStable_perm less l).length_eq] at h
  exact h.pairwise

/-! ## writer.go: the order of the report -/

/-- A comparison that is the strict order of a key in a linear order is a strict weak
order. -/
theorem WeakOrder.of_key {α κ : Type} [LinearOrder κ] (less : α → α → Bool) (key : α → κ)
    (h : ∀ a b, less a b = true ↔ key a < key b) : WeakOrder less := by
  have hf : ∀ a b, less a b = false ↔ key b ≤ key a := by
    intro a b
    rw [← not_lt, ← h a b]
    cases less a b <;> simp
  constructor
  · intro a b hab
    rw [hf]
    exact le_of_lt ((h a b).mp hab)
  · intro a b c h1 h2
    rw [hf] at h1 h2 ⊢
    exact le_trans h1 h2

theorem reportLess_iff {F : Type} [LinearOrder F] (ops : Float64Ops F)
    (hne : ∀ x y, ops.ne x y = decide (x ≠ y)) (hgt : ∀ x y, ops.gt x y = decide (x > y))
    (a b : reportPage F) :
    reportLess ops a b = true ↔
      toLex (OrderDual.toDual (reportScore ops a), a.URL) <
        toLex (OrderDual.toDual (reportScore ops b), b.URL) := by
  rw [Prod.Lex.lt_iff]
  unfold reportLess
  simp only [hne, hgt]
  by_cases he : reportScore ops a = reportScore ops b
  · simp [he]
  · simp [he]

theorem reportLess_weakOrder {F : Type} [LinearOrder F] (ops : Float64Ops F)
    (hne : ∀ x y, ops.ne x y = decide (x ≠ y)) (hgt : ∀ x y, ops.gt x y = decide (x > y)) :
    WeakOrder (reportLess ops) :=
  WeakOrder.of_key (reportLess ops)
    (fun e => toLex (OrderDual.toDual (reportScore ops e), e.URL))
    (reportLess_iff ops hne hgt)

theorem reportLess_false {F : Type} [LinearOrder F] (ops : Float64Ops F)
    (hne : ∀ x y, ops.ne x y = decide (x ≠ y)) (hgt : ∀ x y, ops.gt x y = decide (x > y))
    (a b : reportPage F) (h : reportLess ops b a = false) :
    reportScore ops b < reportScore ops a ∨
      (reportScore ops a = reportScore ops b ∧ a.URL ≤ b.URL) := by
  have h1 : ¬ (toLex (OrderDual.toDual (reportScore ops b), b.URL) <
      toLex (OrderDual.toDual (reportScore ops a), a.URL)) := by
    rw [← reportLess_iff ops hne hgt, h]
    simp
  rw [not_lt, Prod.Lex.le_iff] at h1
  exact h1

theorem SliceStable_two {α : Type} (less : α → α → Bool) (x y : α) (h : less y x = true) :
    SliceStable less [x, y] = [y, x] := by
  simp [SliceStable, stableBlocks, insertionSortFunc, insertionOuter, insertionInner, goLess,
    goSwap, stablePasses, h]

/-- C30 (report ordering): the entries of the report `buildReport` makes are a
rearrangement of the entries made of the pages of the result one by one, each with
`LinksCount` the number of links of its page and with the score, URL and other fields of its
page.  When the strategy is pagerank and the comparisons of float64 are those of a linear
order, the entries are ordered: of two entries the earlier one has the greater score (an
entry without a score counting as `-1.0`), or the same score and a URL that is not after
the other's, so that the first entry has the highest score.  For every other strategy the
entries are in the order of the pages of the result. -/
theorem C30_report_ordering {F : Type} [LinearOrder F] (ops : Float64Ops F)
    (result : CrawlResult F) :
    (buildReport ops result).Pages.Perm (result.Pages.map toReportPage) ∧
    (buildReport ops result).Pages.length = result.Pages.length ∧
    (∀ page : Page F, (toReportPage page).LinksCount = (page.Links.length : Int) ∧
      (toReportPage page).Score = page.Score ∧ (toReportPage page).URL = page.URL ∧
      (toReportPage page).FinalURL = page.FinalURL ∧ (toReportPage page).Depth = page.Depth ∧
      (toReportPage page).Status = page.Status ∧ (toReportPage page).Title = page.Title ∧
      (toReportPage page).Description = page.Description ∧
      (toReportPage page).OutPath = page.OutPath ∧ (toReportPage page).Error = page.Error) ∧
    (result.Strategy = StrategyPageRank →
      (∀ x y, ops.ne x y = decide (x ≠ y)) → (∀ x y, ops.gt x y = decide (x > y)) →
      (buildReport ops result).Pages.Pairwise (fun e1 e2 =>
        reportScore ops e2 < reportScore ops e1 ∨
          (reportScore ops e1 = reportScore ops e2 ∧ e1.URL ≤ e2.URL)) ∧
      ∀ first rest, (buildReport ops result).Pages = first :: rest →
        ∀ e ∈ rest, reportScore ops e ≤ reportScore ops first) ∧
    (result.Strategy ≠ StrategyPageRank →
      (buildReport ops result).Pages = result.Pages.map toReportPage) := by
  have hperm : (buildReport ops result).Pages.Perm (result.Pages.map toReportPage) := by
    unfold buildReport
    dsimp only
    split_ifs
    · exact SliceStable_perm _ _
    · exact List.Perm.refl _
  have hpair : result.Strategy = StrategyPageRank →
      (∀ x y, ops.ne x y = decide (x ≠ y)) → (∀ x y, ops.gt x y = decide (x > y)) →
      (buildReport ops result).Pages.Pairwise (fun e1 e2 =>
        reportScore ops e2 < reportScore ops e1 ∨
          (reportScore ops e1 = reportScore ops e2 ∧ e1.URL ≤ e2.URL)) := by
    intro hs hne hgt
    have h := SliceStable_sorted (reportLess_weakOrder ops hne hgt)
      (result.Pages.map toReportPage)
    have e : (buildReport ops result).Pages =
        SliceStable (reportLess ops) (result.Pages.map toReportPage) := by
      unfold buildReport
      dsimp only
      rw [if_pos hs]
    rw [e]
    exact h.imp (fun {a b} hab => reportLess_false ops hne hgt a b hab)
  refine ⟨hperm, ?_, fun page => ⟨rfl, rfl, rfl, rfl, rfl, rfl, rfl, rfl, rfl, rfl⟩, ?_, ?_⟩
  · rw [hperm.length_eq, List.length_map]
  · intro hs hne hgt
    refine ⟨hpair hs hne hgt, ?_⟩
    intro first rest hfr e he
    have h := hpair hs hne hgt
    rw [hfr, List.pairwise_cons] at h
    rcases h.1 e he with h1 | h1
    · exact le_of_lt h1
    · exact le_of_eq h1.1.symm
  · intro hs
    unfold buildReport
    dsimp only
    rw [if_neg hs]

theorem C30_report_ordering_witness :
    scoredResult.Strategy = StrategyPageRank ∧
    (∀ x y : ℚ, ratOps.ne x y = decide (x ≠ y)) ∧ (∀ x y : ℚ, ratOps.gt x y = decide (x > y)) ∧
    (buildReport ratOps scoredResult).Pages.Pairwise (fun e1 e2 =>
      reportScore ratOps e2 < reportScore ratOps e1 ∨
        (reportScore ratOps e1 = reportScore ratOps e2 ∧ e1.URL ≤ e2.URL)) ∧
    (buildReport ratOps scoredResult).Pages.map (fun e => e.URL) =
      ["https://example.com/b".toList, "https://example.com/a".toList] :=
  ⟨rfl, fun _ _ => rfl, fun _ _ => rfl,
    ((C30_report_ordering ratOps scoredResult).2.2.2.1 rfl (fun _ _ => rfl)
      (fun _ _ => rfl)).1, by
    unfold buildReport
    dsimp only
    rw [if_pos (show scoredResult.Strategy = StrategyPageRank from rfl)]
    unfold scoredResult
    dsimp only
    rw [List.map_cons, List.map_cons, List.map_nil, SliceStable_two]
    · rfl
    · unfold reportLess reportScore toReportPage ratOps
      simp
      norm_num⟩

/-! ## browser.go: the classification of errors -/

/-- Go `strings.Contains`: the text holds the needle as a run of consecutive bytes. -/
theorem containsSub_iff (sub s : Str) :
    containsSub sub s = true ↔ ∃ pre post, s = pre ++ sub ++ post := by
  induction s with
  | nil =>
    unfold containsSub
    constructor
    · intro h
      have : sub = [] := by simpa using h
      exact ⟨[], [], by rw [this]; rfl⟩
    · rintro ⟨pre, post, h⟩
      have h2 : sub = [] := by
        have := congrArg List.length h
        simp only [List.length_nil, List.length_append] at this
        exact List.length_eq_zero.mp (by omega)
      rw [h2]
      rfl
  | cons c cs ih =>
    unfold containsSub
    rw [Bool.or_eq_true, ih]
    constructor
    · rintro (h | ⟨pre, post, h⟩)
      · obtain ⟨t, ht⟩ := List.isPrefixOf_iff_prefix.mp h
        exact ⟨[], t, by rw [← ht]; rfl⟩
      · exact ⟨c :: pre, post, by rw [h]; rfl⟩
    · rintro ⟨pre, post, h⟩
      cases pre with
      | nil =>
        left
        rw [h]
        exact List.isPrefixOf_iff_prefix.mpr ⟨post, by simp⟩
      | cons d pre =>
        right
        simp only [List.cons_append, List.cons.injEq] at h
        exact ⟨pre, post, h.2⟩

/-- C33 (transient classification): `isTransientNavigationError(e)` is true exactly when
`e` is not nil and either is a deadline-exceeded or a cancellation error (as `errors.Is`
tells) or its message, lowered by `strings.ToLower`, holds one of `timeout`, `net::err_`,
`connection reset`, `connection refused`, `temporary`, `no such host` as a run of
consecutive bytes. -/
theorem C33_transient_classification (L : Lib) (e : Option GoError) :
    isTransientNavigationErrorOpt L e = true ↔
      ∃ err, e = some err ∧
        (err.isDeadlineExceeded = true ∨ err.isCanceled = true ∨
          ∃ needle ∈ ["timeout".toList, "net::err_".toList, "connection reset".toList,
              "connection refused".toList, "temporary".toList, "no such host".toList],
            ∃ pre post, toLower L err.message = pre ++ needle ++ post) := by
  cases e with
  | none =>
    constructor
    · intro h
      exact absurd h (by simp [isTransientNavigationErrorOpt])
    · rintro ⟨err, h, _⟩
      exact absurd h (by simp)
  | some err =>
    have key : isTransientNavigationError L err = true ↔
        (err.isDeadlineExceeded = true ∨ err.isCanceled = true ∨
          ∃ needle ∈ ["timeout".toList, "net::err_".toList, "connection reset".toList,
              "connection refused".toList, "temporary".toList, "no such host".toList],
            ∃ pre post, toLower L err.message = pre ++ needle ++ post) := by
      unfold isTransientNavigationError
      by_cases hd : (err.isDeadlineExceeded || err.isCanceled) = true
      · rw [if_pos hd]
        rw [Bool.or_eq_true] at hd
        constructor
        · intro _
          rcases hd with h | h
          · exact Or.inl h
          · exact Or.inr (Or.inl h)
        · intro _
          rfl
      · rw [if_neg hd]
        rw [Bool.or_eq_true, not_or] at hd
        dsimp only
        rw [List.any_eq_true]
        constructor
        · rintro ⟨needle, hn, hc⟩
          exact Or.inr (Or.inr ⟨needle, hn, (containsSub_iff _ _).mp hc⟩)
        · rintro (h | h | ⟨needle, hn, hc⟩)
          · exact absurd h hd.1
          · exact absurd h hd.2
          · exact ⟨needle, hn, (containsSub_iff _ _).mpr hc⟩
    constructor
    · intro h
      exact ⟨err, rfl, key.mp h⟩
    · rintro ⟨err', he, h⟩
      simp only [Option.some.injEq] at he
      subst he
      exact key.mpr h

theorem C33_transient_classification_witness :
    isTransientNavigationErrorOpt asciiLib
      (some { message := "navigate: net::ERR_CONNECTION_RESET".toList }) = true :=
  (C33_transient_classification asciiLib
    (some { message := "navigate: net::ERR_CONNECTION_RESET".toList })).mpr
    ⟨_, rfl, Or.inr (Or.inr ⟨"net::err_".toList, by decide, "navigate: ".toList,
      "connection_reset".toList, by decide⟩)⟩

/-! ## crawl.go: the fetch of the start page -/

theorem shouldFallbackToHTTP_iff (L : Lib) (err : GoError) :
    shouldFallbackToHTTP L err = true ↔
      ∃ needle ∈ ["net::err_ssl".toList, "net::err_cert".toList, "tls".toList, "x509".toList,
          "unsupported protocol scheme".toList, "net::err_connection_refused".toList,
          "net::err_empty_response".toList],
        ∃ pre post, toLower L err.message = pre ++ needle ++ post := by
  unfold shouldFallbackToHTTP
  dsimp only
  rw [List.any_eq_true]
  constructor
  · rintro ⟨needle, hn, hc⟩
    exact ⟨needle, hn, (containsSub_iff _ _).mp hc⟩
  · rintro ⟨needle, hn, hc⟩
    exact ⟨needle, hn, (containsSub_iff _ _).mpr hc⟩

theorem crawlStart_of_startFetch (L : Lib) (cfg : Config) (w : World) (scope : Scope)
    (hs : NewScope L cfg.Domain = some scope) (u : Str) (page : fetchedPage)
    (h : (startFetch L scope w).2 = .ok (u, page)) :
    crawlStart L cfg w = some (scope, u, page, (startFetch L scope w).1) := by
  unfold crawlStart
  rw [hs]
  unfold startFetch shouldFallbackToHTTPOpt at h ⊢
  dsimp only at h ⊢
  cases h1 : w.startHTTPS with
  | ok p1 =>
    rw [h1] at h
    dsimp only at h ⊢
    injection h with h
    injection h with ha hb
    rw [ha, hb]
  | error e1 =>
    rw [h1] at h
    dsimp only at h ⊢
    by_cases hf : shouldFallbackToHTTP L e1 = true
    · rw [if_pos hf] at h ⊢
      cases h2 : w.startHTTP with
      | ok p2 =>
        rw [h2] at h
        dsimp only at h ⊢
        injection h with h
        injection h with ha hb
        rw [ha, hb, if_pos hf]
      | error e2 =>
        rw [h2] at h
        exact Except.noConfusion h
    · rw [if_neg hf] at h
      exact Except.noConfusion h

theorem Crawl_of_startFetch_error {F : Type} (L : Lib) (ops : Float64Ops F)
    (engine : RankEngine F) (cfg : Config) (w : World) (scope : Scope)
    (hs : NewScope L cfg.Domain = some scope) (err : GoError)
    (h : (startFetch L scope w).2 = .error err) :
    Crawl L ops engine cfg w = some (some (emptyResult cfg scope), some err) := by
  unfold Crawl
  rw [hs]
  unfold startFetch shouldFallbackToHTTPOpt at h
  dsimp only at h ⊢
  cases h1 : w.startHTTPS with
  | ok p1 =>
    rw [h1] at h
    exact Except.noConfusion h
  | error e1 =>
    rw [h1] at h
    dsimp only at h ⊢
    by_cases hf : shouldFallbackToHTTP L e1 = true
    · rw [if_pos hf] at h ⊢
      cases h2 : w.startHTTP with
      | ok p2 =>
        rw [h2] at h
        exact Except.noConfusion h
      | error e2 =>
        rw [h2] at h
        dsimp only at h ⊢
        injection h with h
        rw [h]
        rfl
    · rw [if_neg hf] at h ⊢
      injection h with h
      rw [h]
      rfl

/-- C32 (start-URL fallback): `Crawl` first fetches `https://<baseDomain>/`.  When that
succeeds it is the start URL and nothing else is fetched for the start.  When it fails
with an error whose lowered message holds one of `net::err_ssl`, `net::err_cert`, `tls`,
`x509`, `unsupported protocol scheme`, `net::err_connection_refused`,
`net::err_empty_response` (which is when `shouldFallbackToHTTP` is true), `Crawl` fetches
`http://<baseDomain>/` next: on success that is the start URL, on failure `Crawl` returns
the error of the http fetch.  When the https error is not of this kind, `Crawl` returns
it and the only fetch made is the https one.  The start URL enters the queue alone, with
depth 0, and the page fetched for it is kept as seed. -/
theorem C32_start_fallback {F : Type} (L : Lib) (ops : Float64Ops F) (engine : RankEngine F)
    (cfg : Config) (w : World) (scope : Scope) (hs : NewScope L cfg.Domain = some scope) :
    (∀ err, shouldFallbackToHTTP L err = true ↔
      ∃ needle ∈ ["net::err_ssl".toList, "net::err_cert".toList, "tls".toList, "x509".toList,
          "unsupported protocol scheme".toList, "net::err_connection_refused".toList,
          "net::err_empty_response".toList],
        ∃ pre post, toLower L err.message = pre ++ needle ++ post) ∧
    (∀ page, w.startHTTPS = .ok page →
      startFetch L scope w = (["https://".toList ++ scope.BaseDomain ++ "/".toList],
        .ok ("https://".toList ++ scope.BaseDomain ++ "/".toList, page))) ∧
    (∀ err page, w.startHTTPS = .error err → shouldFallbackToHTTP L err = true →
      w.startHTTP = .ok page →
      startFetch L scope w = (["https://".toList ++ scope.BaseDomain ++ "/".toList,
          "http://".toList ++ scope.BaseDomain ++ "/".toList],
        .ok ("http://".toList ++ scope.BaseDomain ++ "/".toList, page))) ∧
    (∀ err err2, w.startHTTPS = .error err → shouldFallbackToHTTP L err = true →
      w.startHTTP = .error err2 →
      startFetch L scope w = (["https://".toList ++ scope.BaseDomain ++ "/".toList,
          "http://".toList ++ scope.BaseDomain ++ "/".toList], .error err2)) ∧
    (∀ err, w.startHTTPS = .error err → shouldFallbackToHTTP L err = false →
      startFetch L scope w = (["https://".toList ++ scope.BaseDomain ++ "/".toList],
        .error err)) ∧
    (∀ err, (startFetch L scope w).2 = .error err →
      Crawl L ops engine cfg w = some (some (emptyResult cfg scope), some err)) ∧
    (∀ u page, (startFetch L scope w).2 = .ok (u, page) →
      (initialState (effectiveConfig cfg) scope u page (startFetch L scope w).1 :
        CrawlState F).queue = [{ URL := u, Depth := 0 }] ∧
      (initialState (effectiveConfig cfg) scope u page (startFetch L scope w).1 :
        CrawlState F).seedPages = [(u, page)] ∧
      (initialState (effectiveConfig cfg) scope u page (startFetch L scope w).1 :
        CrawlState F).navigations = (startFetch L scope w).1 ∧
      Crawl L ops engine cfg w =
        if loopRunning (effectiveConfig cfg)
            (runLoop L (effectiveConfig cfg) scope w.responses
              (initialState (effectiveConfig cfg) scope u page (startFetch L scope w).1 :
                CrawlState F))
        then none
        else some (some (finishCrawl ops engine (effectiveConfig cfg)
            (runLoop L (effectiveConfig cfg) scope w.responses
              (initialState (effectiveConfig cfg) scope u page (startFetch L scope w).1))),
          w.ctxErrAtReturn)) := by
  refine ⟨shouldFallbackToHTTP_iff L, ?_, ?_, ?_, ?_, ?_, ?_⟩
  · intro page h
    unfold startFetch
    rw [h]
  · intro err page h hf h2
    unfold startFetch shouldFallbackToHTTPOpt
    rw [h]
    dsimp only
    rw [if_pos hf, h2]
  · intro err err2 h hf h2
    unfold startFetch shouldFallbackToHTTPOpt
    rw [h]
    dsimp only
    rw [if_pos hf, h2]
  · intro err h hf
    unfold startFetch shouldFallbackToHTTPOpt
    rw [h]
    dsimp only
    rw [if_neg (by rw [hf]; simp)]
  · intro err h
    exact Crawl_of_startFetch_error L ops engine cfg w scope hs err h
  · intro u page h
    exact ⟨rfl, rfl, rfl,
      Crawl_of_start L ops engine cfg w scope u page _
        (crawlStart_of_startFetch L cfg w scope hs u page h)⟩

theorem C32_start_fallback_witness :
    startFetch asciiLib exampleScope fallbackWorld
      = (["https://example.com/".toList, "http://example.com/".toList],
        .ok ("http://example.com/".toList, { FinalURL := "http://example.com/".toList })) :=
  ((C32_start_fallback asciiLib ratOps nullEngine (exampleConfig StrategyLimit 0)
    fallbackWorld exampleScope (by decide)).2.2.1
      { message := "net::ERR_CERT_AUTHORITY_INVALID".toList }
      { FinalURL := "http://example.com/".toList } rfl (by decide) rfl)

/-! ## url_normalize.go: what `encodeSortedQuery` writes for a key -/

/-- The parts `encodeSortedQuery` joins: for every key in ascending order, `key=value` for
each value of the key in ascending order, and the single part `key=` when the key has no
value. -/
theorem encodeSortedQuery_parts (m : Values) :
    encodeSortedQuery m = joinWith "&".toList
      ((sortStrings (m.map Prod.fst)).flatMap (fun k =>
        if m.get k = [] then [QueryEscape k ++ "=".toList]
        else (sortStrings (m.get k)).map (fun v => encodePair (k, v)))) := by
  unfold encodeSortedQuery
  dsimp only
  congr 1
  apply flatMap_congr_mem
  intro k _
  by_cases h : m.get k = []
  · rw [if_pos h, h]
    rfl
  · rw [if_neg h]
    have hlen : (sortStrings (m.get k)).length ≠ 0 := by
      rw [(sortStrings_perm (m.get k)).length_eq]
      exact fun e => h (List.length_eq_zero.mp e)
    rw [if_neg hlen, List.append_nil]
    rfl

theorem flatMap_valueless (m : Values) :
    m.flatMap (fun kv => if kv.2 = [] then [QueryEscape kv.1 ++ "=".toList] else [])
      = (m.filter (fun kv => kv.2 = [])).map (fun kv => QueryEscape kv.1 ++ "=".toList) := by
  induction m with
  | nil => rfl
  | cons kv rest ih =>
    rw [List.flatMap_cons, ih, List.filter_cons]
    by_cases h : kv.2 = []
    · simp [h]
    · simp [h]

/-- C34, as stated, fails: for a key without value `encodeSortedQuery` writes the part
`key=`; the values `{"a": []}` give `a=` and the values `{"a": [], "b": ["1"]}` give
`a=&b=1`. -/
theorem C34_valueless_key_counterexample :
    encodeSortedQuery [("a".toList, [])] = "a=".toList ∧
    encodeSortedQuery [("a".toList, []), ("b".toList, ["1".toList])] = "a=&b=1".toList := by
  constructor <;> decide

/-- C34 (query encoding, amended): for values with one entry per key, the parts of the
text `encodeSortedQuery` writes (the pieces between the `&`) are, for the keys in
ascending order, one part `key=value` for each value of the key, the values ascending, and
the one part `key=` for a key without value; they are, up to order, the parts of the
key/value pairs and the parts `key=` of the keys without value.  When no key is without
value the parts are those of the pairs, one each.  The values `normalizeParsedURL` hands
to `encodeSortedQuery`, the parsed query with the tracking keys deleted in clean mode,
have no key without value. -/
theorem C34_query_encoding :
    (∀ m : Values, (m.map Prod.fst).Nodup →
      splitPieces '&' (encodeSortedQuery m) =
        (sortStrings (m.map Prod.fst)).flatMap (fun k =>
          if m.get k = [] then [QueryEscape k ++ "=".toList]
          else (sortStrings (m.get k)).map (fun v => encodePair (k, v))) ∧
      (splitPieces '&' (encodeSortedQuery m)).Perm
        ((pairsOf m).map encodePair ++
          (m.filter (fun kv => kv.2 = [])).map (fun kv => QueryEscape kv.1 ++ "=".toList))) ∧
    (∀ m : Values, m.WF →
      splitPieces '&' (encodeSortedQuery m) = (sortedPairs m).map encodePair ∧
      (sortedPairs m).Perm (pairsOf m)) ∧
    (∀ (L : Lib) (rawQuery : Str) (clean : Bool),
      Values.WF (if clean then (ParseQuery rawQuery).filter (fun kv => !isTrackingKey L kv.1)
        else ParseQuery rawQuery)) ∧
    (∀ key : Str, encodeSortedQuery [(key, [])] = QueryEscape key ++ "=".toList) := by
  have hsplit : ∀ parts : List Str, (∀ p ∈ parts, ∃ k t, p = QueryEscape k ++ '=' :: QueryEscape t)
      → splitPieces '&' (joinWith "&".toList parts) = parts := by
    intro parts h
    apply splitPieces_joinWith
    intro p hp
    obtain ⟨k, t, e⟩ := h p hp
    rw [e]
    refine ⟨by simp, ?_⟩
    intro hx
    rcases List.mem_append.mp hx with hx | hx
    · exact (QueryEscape_no_separator k _ hx).1 rfl
    · rcases List.mem_cons.mp hx with hx | hx
      · exact absurd hx (by decide)
      · exact (QueryEscape_no_separator t _ hx).1 rfl
  have hparts : ∀ m : Values,
      splitPieces '&' (encodeSortedQuery m) =
        (sortStrings (m.map Prod.fst)).flatMap (fun k =>
          if m.get k = [] then [QueryEscape k ++ "=".toList]
          else (sortStrings (m.get k)).map (fun v => encodePair (k, v))) := by
    intro m
    rw [encodeSortedQuery_parts]
    apply hsplit
    intro p hp
    obtain ⟨k, _, hpk⟩ := List.mem_flatMap.mp hp
    by_cases h : m.get k = []
    · rw [if_pos h] at hpk
      rw [List.mem_singleton.mp hpk]
      exact ⟨k, [], by simp [QueryEscape, escape]⟩
    · rw [if_neg h] at hpk
      obtain ⟨v, _, hv⟩ := List.mem_map.mp hpk
      exact ⟨k, v, by rw [← hv]; simp [encodePair]⟩
  refine ⟨?_, ?_, ?_, ?_⟩
  · intro m hnd
    refine ⟨hparts m, ?_⟩
    rw [hparts m]
    refine ((sortStrings_perm (m.map Prod.fst)).flatMap_right _).trans ?_
    rw [List.flatMap_map]
    refine (List.Perm.flatMap_left m
      (g := fun kv => kv.2.map (fun v => encodePair (kv.1, v)) ++
        (if kv.2 = [] then [QueryEscape kv.1 ++ "=".toList] else [])) ?_).trans ?_
    · intro kv hkv
      dsimp only
      rw [Values.get_of_mem m kv.1 kv.2 hnd hkv]
      by_cases h : kv.2 = []
      · rw [if_pos h, if_pos h, h]
        exact List.Perm.refl _
      · rw [if_neg h, if_neg h, List.append_nil]
        exact (sortStrings_perm kv.2).map _
    · refine (List.flatMap_append_perm m _ _).symm.trans ?_
      rw [flatMap_valueless]
      apply List.Perm.append_right
      apply List.Perm.of_eq
      unfold pairsOf
      rw [List.map_flatMap]
      apply flatMap_congr_mem
      intro kv _
      rw [List.map_map]
      rfl
  · intro m h
    refine ⟨?_, sortedPairs_perm m h⟩
    rw [encodeSortedQuery_eq m h]
    apply hsplit
    intro p hp
    obtain ⟨kv, _, hkv⟩ := List.mem_map.mp hp
    exact ⟨kv.1, kv.2, by rw [← hkv]; simp [encodePair]⟩
  · intro L rawQuery clean
    cases clean with
    | false => exact ParseQuery_WF rawQuery
    | true => exact Values.filter_WF _ _ (ParseQuery_WF rawQuery)
  · intro key
    rw [encodeSortedQuery_parts]
    simp [sortStrings, Values.get, joinWith]

theorem C34_query_encoding_witness :
    splitPieces '&' (encodeSortedQuery [("b".toList, ["2".toList, "1".toList]), ("a".toList, [])])
      = ["a=".toList, "b=1".toList, "b=2".toList] := by
  rw [(C34_query_encoding.1 [("b".toList, ["2".toList, "1".toList]), ("a".toList, [])]
    (by decide)).1]
  decide

/-! ## pagerank_adapter.go: is the comparison of `ApplyPageRankScores` an order? -/

theorem pageLess_eq {F : Type} (ops : Float64Ops F) (orderPos : List (Str × Int))
    (a b : Page F) :
    pageLess ops orderPos a b =
      if ops.ne (pageScore ops a) (pageScore ops b) then
        ops.gt (pageScore ops a) (pageScore ops b)
      else
        match mapGet orderPos (pageKey a), mapGet orderPos (pageKey b) with
        | some iPos, some jPos =>
          if iPos ≠ jPos then decide (iPos < jPos) else decide (pageKey a < pageKey b)
        | _, _ => decide (pageKey a < pageKey b) := rfl

/-- Between two pages whose URLs both have a rank position the comparison is the order by
score descending, then position, then URL. -/
theorem pageLess_iff_ranked {F : Type} [LinearOrder F] (ops : Float64Ops F)
    (hne : ∀ x y, ops.ne x y = decide (x ≠ y)) (hgt : ∀ x y, ops.gt x y = decide (x > y))
    (orderPos : List (Str × Int)) (a b : Page F) (i j : Int)
    (ha : mapGet orderPos (pageKey a) = some i) (hb : mapGet orderPos (pageKey b) = some j) :
    pageLess ops orderPos a b = true ↔
      toLex (OrderDual.toDual (pageScore ops a), toLex (i, pageKey a)) <
        toLex (OrderDual.toDual (pageScore ops b), toLex (j, pageKey b)) := by
  rw [pageLess_eq, ha, hb, Prod.Lex.lt_iff]
  simp only [hne, hgt]
  by_cases he : pageScore ops a = pageScore ops b
  · simp only [he, ne_eq, not_true_eq_false, decide_False, Bool.false_eq_true, if_false,
      lt_self_iff_false, true_and, false_or]
    rw [Prod.Lex.lt_iff]
    by_cases hij : i = j
    · simp [hij]
    · simp [hij]
  · simp [he]

/-- Between two pages of which one has a URL without rank position the comparison is the
order by score descending, then URL. -/
theorem pageLess_iff_unranked {F : Type} [LinearOrder F] (ops : Float64Ops F)
    (hne : ∀ x y, ops.ne x y = decide (x ≠ y)) (hgt : ∀ x y, ops.gt x y = decide (x > y))
    (orderPos : List (Str × Int)) (a b : Page F)
    (h : mapGet orderPos (pageKey a) = none ∨ mapGet orderPos (pageKey b) = none) :
    pageLess ops orderPos a b = true ↔
      toLex (OrderDual.toDual (pageScore ops a), pageKey a) <
        toLex (OrderDual.toDual (pageScore ops b), pageKey b) := by
  have hm : (match mapGet orderPos (pageKey a), mapGet orderPos (pageKey b) with
        | some iPos, some jPos =>
          if iPos ≠ jPos then decide (iPos < jPos) else decide (pageKey a < pageKey b)
        | _, _ => decide (pageKey a < pageKey b)) = decide (pageKey a < pageKey b) := by
    rcases h with h | h
    · rw [h]
    · rw [h]
      cases mapGet orderPos (pageKey a) <;> rfl
  rw [pageLess_eq, hm, Prod.Lex.lt_iff]
  simp only [hne, hgt]
  by_cases he : pageScore ops a = pageScore ops b
  · simp [he]
  · simp [he]

/-- C37 (the comparison of `ApplyPageRankScores`, refuted on the code): when the
comparisons of float64 are those of a linear order, the comparison is irreflexive and
asymmetric, and it is transitive on three pages whose URLs all have a rank position and
on three pages whose URLs have none.  It is not transitive when only some URLs have a
rank position: with the rank order x, b and three pages without score, the page of x is
before the page of b by position, the page of b before the page r of a URL that is not
ranked by URL, and r before the page of x by URL, while the page of x is not before r. -/
theorem C37_comparison_order {F : Type} [LinearOrder F] (ops : Float64Ops F)
    (hne : ∀ x y, ops.ne x y = decide (x ≠ y)) (hgt : ∀ x y, ops.gt x y = decide (x > y))
    (orderPos : List (Str × Int)) :
    (∀ p : Page F, pageLess ops orderPos p p = false) ∧
    (∀ a b : Page F, pageLess ops orderPos a b = true → pageLess ops orderPos b a = false) ∧
    (∀ a b c : Page F,
      ((mapGet orderPos (pageKey a)).isSome ∧ (mapGet orderPos (pageKey b)).isSome ∧
          (mapGet orderPos (pageKey c)).isSome) ∨
        (mapGet orderPos (pageKey a) = none ∧ mapGet orderPos (pageKey b) = none ∧
          mapGet orderPos (pageKey c) = none) →
      pageLess ops orderPos a b = true → pageLess ops orderPos b c = true →
      pageLess ops orderPos a c = true) ∧
    (mapGet (orderPosOf tieOrder) (pageKey tiePageX) = some 0 ∧
      mapGet (orderPosOf tieOrder) (pageKey tiePageB) = some 1 ∧
      mapGet (orderPosOf tieOrder) (pageKey tiePageR) = none ∧
      pageScore ratOps tiePageX = -1 ∧ pageScore ratOps tiePageB = -1 ∧
      pageScore ratOps tiePageR = -1 ∧
      pageLess ratOps (orderPosOf tieOrder) tiePageX tiePageB = true ∧
      pageLess ratOps (orderPosOf tieOrder) tiePageB tiePageR = true ∧
      pageLess ratOps (orderPosOf tieOrder) tiePageR tiePageX = true ∧
      pageLess ratOps (orderPosOf tieOrder) tiePageX tiePageR = false) := by
  have hasym : ∀ a b : Page F, pageLess ops orderPos a b = true →
      pageLess ops orderPos b a = false := by
    intro a b hab
    cases hba : pageLess ops orderPos b a with
    | false => rfl
    | true =>
      exfalso
      cases ha : mapGet orderPos (pageKey a) with
      | none =>
        rw [pageLess_iff_unranked ops hne hgt orderPos a b (Or.inl ha)] at hab
        rw [pageLess_iff_unranked ops hne hgt orderPos b a (Or.inr ha)] at hba
        exact lt_asymm hab hba
      | some i =>
        cases hb : mapGet orderPos (pageKey b) with
        | none =>
          rw [pageLess_iff_unranked ops hne hgt orderPos a b (Or.inr hb)] at hab
          rw [pageLess_iff_unranked ops hne hgt orderPos b a (Or.inl hb)] at hba
          exact lt_asymm hab hba
        | some j =>
          rw [pageLess_iff_ranked ops hne hgt orderPos a b i j ha hb] at hab
          rw [pageLess_iff_ranked ops hne hgt orderPos b a j i hb ha] at hba
          exact lt_asymm hab hba
  refine ⟨?_, hasym, ?_, ?_⟩
  · intro p
    cases hp : pageLess ops orderPos p p with
    | false => rfl
    | true =>
      have := hasym p p hp
      rw [hp] at this
      exact this
  · intro a b c hpos hab hbc
    rcases hpos with ⟨ha, hb, hc⟩ | ⟨ha, hb, hc⟩
    · obtain ⟨i, ha⟩ := Option.isSome_iff_exists.mp ha
      obtain ⟨j, hb⟩ := Option.isSome_iff_exists.mp hb
      obtain ⟨k, hc⟩ := Option.isSome_iff_exists.mp hc
      rw [pageLess_iff_ranked ops hne hgt orderPos a b i j ha hb] at hab
      rw [pageLess_iff_ranked ops hne hgt orderPos b c j k hb hc] at hbc
      rw [pageLess_iff_ranked ops hne hgt orderPos a c i k ha hc]
      exact lt_trans hab hbc
    · rw [pageLess_iff_unranked ops hne hgt orderPos a b (Or.inl ha)] at hab
      rw [pageLess_iff_unranked ops hne hgt orderPos b c (Or.inl hb)] at hbc
      rw [pageLess_iff_unranked ops hne hgt orderPos a c (Or.inl ha)]
      exact lt_trans hab hbc
  · refine ⟨by decide, by decide, by decide, rfl, rfl, rfl, by decide, by decide, by decide,
      by decide⟩

theorem C37_comparison_order_witness :
    (∀ x y : ℚ, ratOps.ne x y = decide (x ≠ y)) ∧ (∀ x y : ℚ, ratOps.gt x y = decide (x > y)) ∧
    pageLess ratOps (orderPosOf tieOrder) tiePageX tiePageX = false ∧
    pageLess ratOps (orderPosOf tieOrder) tiePageB tiePageX = false :=
  ⟨fun _ _ => rfl, fun _ _ => rfl,
    (C37_comparison_order ratOps (fun _ _ => rfl) (fun _ _ => rfl) (orderPosOf tieOrder)).1
      tiePageX,
    (C37_comparison_order ratOps (fun _ _ => rfl) (fun _ _ => rfl) (orderPosOf tieOrder)).2.1
      tiePageX tiePageB (by decide)⟩

/-! ## crawl.go: the links kept for a page -/

theorem classifyLink_eq (L : Lib) (scope : Scope) (clean : Bool) (nf : Str)
    (acc : List Str × List Str × Totals) (href : Str) :
    classifyLink L scope clean nf acc href =
      match resolveLink L scope clean nf href with
      | none => acc
      | some (l, .allowed) =>
        if l ∈ acc.2.1 then acc else (acc.1 ++ [l], setInsert acc.2.1 l, acc.2.2)
      | some (_, .outOfScope) =>
        (acc.1, acc.2.1, { acc.2.2 with SkippedOutOfScope := acc.2.2.SkippedOutOfScope + 1 })
      | some (_, .external) =>
        (acc.1, acc.2.1, { acc.2.2 with SkippedExternal := acc.2.2.SkippedExternal + 1 }) := by
  unfold classifyLink resolveLink
  cases ResolveAndNormalize L nf href clean with
  | none => rfl
  | some v =>
    dsimp only
    cases Parse v with
    | none => rfl
    | some p =>
      dsimp only
      cases scope.ClassifyHost L p.Hostname <;> rfl

/-- The class of a resolved link is the class of the host of the link. -/
theorem resolveLink_class (L : Lib) (scope : Scope) (clean : Bool) (nf href l : Str)
    (cls : ScopeClass) (h : resolveLink L scope clean nf href = some (l, cls)) :
    ResolveAndNormalize L nf href clean = some l ∧
      ∃ parsed, Parse l = some parsed ∧ scope.ClassifyHost L parsed.Hostname = cls := by
  unfold resolveLink at h
  cases hr : ResolveAndNormalize L nf href clean with
  | none =>
    rw [hr] at h
    exact absurd h (by simp)
  | some v =>
    rw [hr] at h
    dsimp only at h
    cases hp : Parse v with
    | none =>
      rw [hp] at h
      exact absurd h (by simp)
    | some p =>
      rw [hp] at h
      simp only [Option.some.injEq, Prod.mk.injEq] at h
      obtain ⟨h1, h2⟩ := h
      subst h1
      exact ⟨rfl, p, hp, h2⟩

/-- The loop of `Crawl` over the hrefs of the fetched page: the links kept are without
repetition and are the resolved links of class allowed; each resolved link of class
out_of_scope or external adds one to its counter. -/
theorem classifyLinks_spec (L : Lib) (scope : Scope) (clean : Bool) (nf : Str)
    (hrefs : List Str) (acc : List Str × List Str × Totals)
    (hnd : acc.1.Nodup) (hset : ∀ l, l ∈ acc.2.1 ↔ l ∈ acc.1) :
    (hrefs.foldl (classifyLink L scope clean nf) acc).1.Nodup ∧
    (∀ l, l ∈ (hrefs.foldl (classifyLink L scope clean nf) acc).1 ↔
      l ∈ acc.1 ∨ ∃ href ∈ hrefs, resolveLink L scope clean nf href = some (l, .allowed)) ∧
    (hrefs.foldl (classifyLink L scope clean nf) acc).2.2.SkippedOutOfScope =
      acc.2.2.SkippedOutOfScope + (countClass L scope clean nf .outOfScope hrefs : Int) ∧
    (hrefs.foldl (classifyLink L scope clean nf) acc).2.2.SkippedExternal =
      acc.2.2.SkippedExternal + (countClass L scope clean nf .external hrefs : Int) := by
  induction hrefs generalizing acc with
  | nil =>
    refine ⟨hnd, fun l => ?_, ?_, ?_⟩
    · simp
    · unfold countClass
      rw [List.countP_nil, Int.ofNat_zero, Int.add_zero]
      rfl
    · unfold countClass
      rw [List.countP_nil, Int.ofNat_zero, Int.add_zero]
      rfl
  | cons href rest ih =>
    rw [List.foldl_cons]
    have hstep : (classifyLink L scope clean nf acc href).1.Nodup ∧
        (∀ l, l ∈ (classifyLink L scope clean nf acc href).2.1 ↔
          l ∈ (classifyLink L scope clean nf acc href).1) ∧
        (∀ l, l ∈ (classifyLink L scope clean nf acc href).1 ↔
          l ∈ acc.1 ∨ resolveLink L scope clean nf href = some (l, .allowed)) ∧
        (classifyLink L scope clean nf acc href).2.2.SkippedOutOfScope =
          acc.2.2.SkippedOutOfScope +
            (if (resolveLink L scope clean nf href).map Prod.snd = some .outOfScope
              then 1 else 0) ∧
        (classifyLink L scope clean nf acc href).2.2.SkippedExternal =
          acc.2.2.SkippedExternal +
            (if (resolveLink L scope clean nf href).map Prod.snd = some .external
              then 1 else 0) := by
      have hno : ∀ (c c' : ScopeClass) (l : Str), c ≠ c' →
          (if Option.map Prod.snd (some (l, c)) = some c' then (1 : Int) else 0) = 0 := by
        intro c c' l hcc
        rw [if_neg]
        intro h
        exact hcc (Option.some.inj h)
      have hyes : ∀ (c : ScopeClass) (l : Str),
          (if Option.map Prod.snd (some (l, c)) = some c then (1 : Int) else 0) = 1 :=
        fun c l => if_pos rfl
      have hnone : ∀ c' : ScopeClass,
          (if Option.map Prod.snd (none : Option (Str × ScopeClass)) = some c'
            then (1 : Int) else 0) = 0 := fun c' => if_neg (fun h => Option.noConfusion h)
      rw [classifyLink_eq]
      cases hr : resolveLink L scope clean nf href with
      | none =>
        dsimp only
        refine ⟨hnd, hset, fun l => ?_, ?_, ?_⟩
        · simp
        · rw [hnone, Int.add_zero]
        · rw [hnone, Int.add_zero]
      | some lc =>
        obtain ⟨l0, c⟩ := lc
        cases c with
        | allowed =>
          dsimp only
          by_cases hin : l0 ∈ acc.2.1
          · rw [if_pos hin]
            refine ⟨hnd, hset, fun l => ?_, ?_, ?_⟩
            · constructor
              · exact fun h => Or.inl h
              · rintro (h | h)
                · exact h
                · simp only [Option.some.injEq, Prod.mk.injEq, and_true] at h
                  rw [← h]
                  exact (hset l0).mp hin
            · rw [hno _ _ _ (by decide), Int.add_zero]
            · rw [hno _ _ _ (by decide), Int.add_zero]
          · rw [if_neg hin]
            dsimp only
            refine ⟨?_, fun l => ?_, fun l => ?_, ?_, ?_⟩
            · rw [List.nodup_append]
              refine ⟨hnd, List.nodup_singleton _, ?_⟩
              intro x hx hx'
              rw [List.mem_singleton] at hx'
              subst hx'
              exact hin ((hset x).mpr hx)
            · rw [mem_setInsert, List.mem_append, List.mem_singleton, hset]
            · rw [List.mem_append, List.mem_singleton]
              simp only [Option.some.injEq, Prod.mk.injEq, and_true]
              constructor
              · rintro (h | h)
                · exact Or.inl h
                · exact Or.inr h.symm
              · rintro (h | h)
                · exact Or.inl h
                · exact Or.inr h.symm
            · rw [hno _ _ _ (by decide), Int.add_zero]
            · rw [hno _ _ _ (by decide), Int.add_zero]
        | external =>
          dsimp only
          refine ⟨hnd, hset, fun l => ?_, ?_, ?_⟩
          · simp
          · rw [hno _ _ _ (by decide), Int.add_zero]
          · rw [hyes]
        | outOfScope =>
          dsimp only
          refine ⟨hnd, hset, fun l => ?_, ?_, ?_⟩
          · simp
          · rw [hyes]
          · rw [hno _ _ _ (by decide), Int.add_zero]
    obtain ⟨s1, s2, s3, s4, s5⟩ := hstep
    obtain ⟨r1, r2, r3, r4⟩ := ih (classifyLink L scope clean nf acc href) s1 s2
    refine ⟨r1, fun l => ?_, ?_, ?_⟩
    · rw [r2, s3]
      simp only [List.mem_cons, exists_eq_or_imp]
      tauto
    · rw [r3, s4]
      unfold countClass
      rw [List.countP_cons]
      by_cases hc : (resolveLink L scope clean nf href).map Prod.snd = some .outOfScope
      · rw [if_pos hc, if_pos (decide_eq_true hc)]
        push_cast
        ring
      · rw [if_neg hc, if_neg (by rw [decide_eq_true_iff]; exact hc)]
        push_cast
        ring
    · rw [r4, s5]
      unfold countClass
      rw [List.countP_cons]
      by_cases hc : (resolveLink L scope clean nf href).map Prod.snd = some .external
      · rw [if_pos hc, if_pos (decide_eq_true hc)]
        push_cast
        ring
      · rw [if_neg hc, if_neg (by rw [decide_eq_true_iff]; exact hc)]
        push_cast
        ring

theorem sortStrings_strict (l : List Str) (h : l.Nodup) :
    (sortStrings l).Pairwise (· < ·) :=
  (sortStrings_sorted l).lt_of_le ((sortStrings_perm l).nodup_iff.mpr h)

/-- The round of the loop of `Crawl` after the fetch, when it records a page with status
ok: the final URL is allowed, the links of the page are strictly ascending and are the
resolved links of class allowed of the hrefs of the fetched page, and the counters of the
links skipped grow by the numbers of hrefs that resolve to a link of their class. -/
theorem afterFetch_ok_page {F : Type} (L : Lib) (cfg : Config) (scope : Scope)
    (s : CrawlState F) (current : queueItem) (fetched : fetchedPage) (page : Page F)
    (h : (afterFetch L cfg scope s current fetched).result.Pages = s.result.Pages ++ [page])
    (hok : page.Status = StatusOK) :
    page.URL = current.URL ∧
    page.FinalURL = (NormalizeURL L fetched.FinalURL cfg.Clean).getD current.URL ∧
    scope.IsAllowedURL L page.FinalURL = true ∧
    page.Links.Pairwise (· < ·) ∧
    (∀ l, l ∈ page.Links ↔
      ∃ href ∈ fetched.Links,
        resolveLink L scope cfg.Clean page.FinalURL href = some (l, .allowed)) ∧
    (afterFetch L cfg scope s current fetched).result.Totals.SkippedOutOfScope =
      s.result.Totals.SkippedOutOfScope +
        (countClass L scope cfg.Clean page.FinalURL .outOfScope fetched.Links : Int) ∧
    (afterFetch L cfg scope s current fetched).result.Totals.SkippedExternal =
      s.result.Totals.SkippedExternal +
        (countClass L scope cfg.Clean page.FinalURL .external fetched.Links : Int) := by
  unfold afterFetch at h ⊢
  dsimp only at h ⊢
  split_ifs at h ⊢ with hs
  · exfalso
    dsimp only [CrawlResult.addPage] at h
    have e := List.append_cancel_left h
    simp only [List.cons.injEq, and_true] at e
    rw [← e] at hok
    exact absurd hok (show StatusSkippedOutOfHost ≠ StatusOK by decide)
  · dsimp only [CrawlResult.addPage] at h ⊢
    have e := List.append_cancel_left h
    simp only [List.cons.injEq, and_true] at e
    obtain ⟨r1, r2, r3, r4⟩ := classifyLinks_spec L scope cfg.Clean
      ((NormalizeURL L fetched.FinalURL cfg.Clean).getD current.URL) fetched.Links
      ([], [], s.result.Totals) List.nodup_nil (fun l => Iff.rfl)
    rw [← e]
    dsimp only
    refine ⟨rfl, rfl, ?_, sortStrings_strict _ r1, ?_, r3, r4⟩
    · cases hc : scope.IsAllowedURL L ((NormalizeURL L fetched.FinalURL cfg.Clean).getD
        current.URL) with
      | true => rfl
      | false =>
        rw [hc] at hs
        exact absurd rfl hs
    · intro l
      rw [mem_sortStrings, r2]
      simp

/-- What a round of the loop of `Crawl` is, as far as the pages go: it records no page, or
a page whose status is not ok, or it is the part after the fetch, run on the seed page or
on the page fetched. -/
theorem crawlStep_cases {F : Type} (L : Lib) (cfg : Config) (scope : Scope)
    (s : CrawlState F) (r : Response) :
    (crawlStep L cfg scope s r).result = s.result ∨
    (∃ page : Page F, (crawlStep L cfg scope s r).result.Pages = s.result.Pages ++ [page] ∧
      page.Status ≠ StatusOK) ∨
    (∃ (current : queueItem) (s1 : CrawlState F) (fetched : fetchedPage),
      crawlStep L cfg scope s r = afterFetch L cfg scope s1 current fetched ∧
      s1.result = s.result ∧
      (mapGet s.seedPages current.URL = some fetched ∨ r.fetch = .ok fetched)) := by
  unfold crawlStep
  split
  · exact Or.inl rfl
  · split
    · exact Or.inl rfl
    · rename_i current queue hq
      dsimp only
      split
      · exact Or.inl rfl
      · split
        · exact Or.inl rfl
        · split
          · exact Or.inr (Or.inl ⟨_, rfl, show StatusSkippedRobots ≠ StatusOK by decide⟩)
          · split
            · rename_i seed hseed
              exact Or.inr (Or.inr ⟨current, _, seed, rfl, rfl, Or.inl hseed⟩)
            · split
              · exact Or.inl rfl
              · split
                · exact Or.inr (Or.inl ⟨_, rfl, show StatusError ≠ StatusOK by decide⟩)
                · rename_i fetched hf
                  exact Or.inr (Or.inr ⟨current, _, fetched, rfl, rfl, Or.inr hf⟩)

/-- A round of the loop of `Crawl` that records a page with status ok: the page fetched
for it is the seed page or the page of the round's fetch; the final URL of the page is
allowed; its links are strictly ascending and are the resolved links of class allowed of
the hrefs of the fetched page; the counters of the links skipped grow by the numbers of
hrefs that resolve to a link of their class. -/
theorem crawlStep_ok_page {F : Type} (L : Lib) (cfg : Config) (scope : Scope)
    (s : CrawlState F) (r : Response) (page : Page F)
    (h : (crawlStep L cfg scope s r).result.Pages = s.result.Pages ++ [page])
    (hok : page.Status = StatusOK) :
    ∃ fetched : fetchedPage,
      (mapGet s.seedPages page.URL = some fetched ∨ r.fetch = .ok fetched) ∧
      page.FinalURL = (NormalizeURL L fetched.FinalURL cfg.Clean).getD page.URL ∧
      scope.IsAllowedURL L page.FinalURL = true ∧
      page.Links.Pairwise (· < ·) ∧
      (∀ l, l ∈ page.Links ↔
        ∃ href ∈ fetched.Links,
          resolveLink L scope cfg.Clean page.FinalURL href = some (l, .allowed)) ∧
      (crawlStep L cfg scope s r).result.Totals.SkippedOutOfScope =
        s.result.Totals.SkippedOutOfScope +
          (countClass L scope cfg.Clean page.FinalURL .outOfScope fetched.Links : Int) ∧
      (crawlStep L cfg scope s r).result.Totals.SkippedExternal =
        s.result.Totals.SkippedExternal +
          (countClass L scope cfg.Clean page.FinalURL .external fetched.Links : Int) := by
  rcases crawlStep_cases L cfg scope s r with hc | ⟨page', hc, hne⟩ | ⟨cur, s1, fetched, hc, hs1, hsrc⟩
  · exfalso
    rw [hc] at h
    have := congrArg List.length h
    simp at this
  · exfalso
    rw [hc] at h
    have e := List.append_cancel_left h
    simp only [List.cons.injEq, and_true] at e
    rw [e] at hne
    exact hne hok
  · rw [hc] at h ⊢
    rw [← hs1] at h ⊢
    obtain ⟨p1, p2, p3, p4, p5, p6, p7⟩ := afterFetch_ok_page L cfg scope s1 cur fetched page h hok
    refine ⟨fetched, ?_, ?_, p3, p4, p5, p6, p7⟩
    · rw [p1]
      exact hsrc
    · rw [p1]
      exact p2

theorem crawlStep_kept {F : Type} (L : Lib) (cfg : Config) (scope : Scope)
    (s : CrawlState F) (r : Response)
    (h : ∀ p ∈ s.result.Pages, p.Status = StatusOK → KeptLinks L scope cfg.Clean p) :
    ∀ p ∈ (crawlStep L cfg scope s r).result.Pages, p.Status = StatusOK →
      KeptLinks L scope cfg.Clean p := by
  rcases crawlStep_cases L cfg scope s r with hc | ⟨page', hc, hne⟩ | ⟨cur, s1, fetched, hc, hs1, hsrc⟩
  · rw [hc]
    exact h
  · rw [hc]
    intro p hp hok
    rcases List.mem_append.mp hp with hp | hp
    · exact h p hp hok
    · rw [List.mem_singleton.mp hp] at hok
      exact absurd hok hne
  · obtain ⟨page, hpg, _⟩ := afterFetch_effect L cfg scope s1 cur fetched
    rw [← hc, hs1] at hpg
    rw [hpg]
    intro p hp hok
    rcases List.mem_append.mp hp with hp | hp
    · exact h p hp hok
    · rw [List.mem_singleton.mp hp] at hok ⊢
      obtain ⟨fetched', _, _, _, q4, q5, _, _⟩ := crawlStep_ok_page L cfg scope s r page hpg hok
      refine ⟨q4, fun l hl => ?_⟩
      obtain ⟨href, _, hr⟩ := (q5 l).mp hl
      exact ⟨href, hr⟩

theorem runLoop_kept {F : Type} (L : Lib) (cfg : Config) (scope : Scope) (rs : List Response)
    (s : CrawlState F)
    (h : ∀ p ∈ s.result.Pages, p.Status = StatusOK → KeptLinks L scope cfg.Clean p) :
    ∀ p ∈ (runLoop L cfg scope rs s).result.Pages, p.Status = StatusOK →
      KeptLinks L scope cfg.Clean p := by
  induction rs generalizing s with
  | nil => exact h
  | cons r rs ih =>
    unfold runLoop
    split_ifs
    · exact ih _ (crawlStep_kept L cfg scope s r h)
    · exact h

theorem KeptLinks_score {F : Type} (L : Lib) (scope : Scope) (clean : Bool) (p q : Page F)
    (hq : q = { p with Score := q.Score }) (h : KeptLinks L scope clean p) :
    KeptLinks L scope clean q := by
  rw [hq]
  exact h

theorem forall₂_right_mem {α β : Type} {R : α → β → Prop} {l1 : List α} {l2 : List β}
    (h : List.Forall₂ R l1 l2) (b : β) (hb : b ∈ l2) : ∃ a ∈ l1, R a b := by
  induction h with
  | nil => exact absurd hb (List.not_mem_nil _)
  | cons hab _ ih =>
    rcases List.mem_cons.mp hb with e | hb'
    · subst e
      exact ⟨_, List.mem_cons_self _ _, hab⟩
    · obtain ⟨a, ha, hr⟩ := ih hb'
      exact ⟨a, List.mem_cons_of_mem _ ha, hr⟩

/-- C31 (kept links): in the result of a run of `Crawl`, the links of every page with
status ok are strictly ascending, and each of them is a text `ResolveAndNormalize`
returned for an href against the final URL of the page, has the shape of a normalized
URL, parses, and has a host the scope classifies as allowed.  In a round of the loop that
records a page with status ok, for the page fetched (the seed page or the page of the
round's fetch), the links of the page are exactly the resolved links of class allowed of
its hrefs; a link an href resolves to with class out of scope or external is not among
them; and the counters `SkippedOutOfScope` and `SkippedExternal` grow by the number of
hrefs that resolve to a link of class out of scope and of class external. -/
theorem C31_kept_links {F : Type} (L : Lib) (ops : Float64Ops F) (engine : RankEngine F)
    (cfg : Config) :
    (∀ (w : World) (res : CrawlResult F) (err : Option GoError),
      Crawl L ops engine cfg w = some (some res, err) →
      ∃ scope, NewScope L cfg.Domain = some scope ∧
        ∀ p ∈ res.Pages, p.Status = StatusOK →
          p.Links.Pairwise (· < ·) ∧
          ∀ l ∈ p.Links,
            (∃ href, ResolveAndNormalize L p.FinalURL href cfg.Clean = some l) ∧
            CanonShape L l ∧
            ∃ parsed, Parse l = some parsed ∧
              scope.ClassifyHost L parsed.Hostname = .allowed) ∧
    (∀ (scope : Scope) (s : CrawlState F) (r : Response) (page : Page F),
      (crawlStep L cfg scope s r).result.Pages = s.result.Pages ++ [page] →
      page.Status = StatusOK →
      ∃ fetched : fetchedPage,
        (mapGet s.seedPages page.URL = some fetched ∨ r.fetch = .ok fetched) ∧
        (∀ l, l ∈ page.Links ↔
          ∃ href ∈ fetched.Links,
            resolveLink L scope cfg.Clean page.FinalURL href = some (l, .allowed)) ∧
        (∀ href l cls, href ∈ fetched.Links →
          resolveLink L scope cfg.Clean page.FinalURL href = some (l, cls) →
          cls ≠ .allowed → l ∉ page.Links) ∧
        (crawlStep L cfg scope s r).result.Totals.SkippedOutOfScope =
          s.result.Totals.SkippedOutOfScope +
            (countClass L scope cfg.Clean page.FinalURL .outOfScope fetched.Links : Int) ∧
        (crawlStep L cfg scope s r).result.Totals.SkippedExternal =
          s.result.Totals.SkippedExternal +
            (countClass L scope cfg.Clean page.FinalURL .external fetched.Links : Int)) := by
  have hkept : ∀ (scope : Scope) (p : Page F), KeptLinks L scope cfg.Clean p →
      p.Links.Pairwise (· < ·) ∧
      ∀ l ∈ p.Links,
        (∃ href, ResolveAndNormalize L p.FinalURL href cfg.Clean = some l) ∧
        CanonShape L l ∧
        ∃ parsed, Parse l = some parsed ∧ scope.ClassifyHost L parsed.Hostname = .allowed := by
    intro scope p hk
    refine ⟨hk.1, fun l hl => ?_⟩
    obtain ⟨href, hr⟩ := hk.2 l hl
    obtain ⟨h1, h2⟩ := resolveLink_class L scope cfg.Clean p.FinalURL href l .allowed hr
    exact ⟨⟨href, h1⟩, ResolveAndNormalize_canon L _ _ _ _ h1, h2⟩
  refine ⟨?_, ?_⟩
  · intro w res err h
    obtain ⟨scope, startURL, startFetch, navs, hs, hr | hr⟩ :=
      Crawl_result L ops engine cfg w res err h
    · refine ⟨scope, hs, ?_⟩
      rw [hr]
      intro p hp
      exact absurd hp (List.not_mem_nil _)
    · refine ⟨scope, hs, ?_⟩
      intro p hp hok
      apply hkept
      obtain ⟨scored, hperm, hall⟩ := (finishCrawl_pages ops engine (effectiveConfig cfg)
        (runLoop L (effectiveConfig cfg) scope w.responses
          (initialState (effectiveConfig cfg) scope startURL startFetch navs))).1
      rw [hr] at hp
      obtain ⟨p0, hp0, hpq⟩ := forall₂_right_mem hall p (hperm.mem_iff.mp hp)
      have hok0 : p0.Status = StatusOK := by
        rw [hpq] at hok
        exact hok
      have := runLoop_kept L (effectiveConfig cfg) scope w.responses
        (initialState (effectiveConfig cfg) scope startURL startFetch navs)
        (fun q hq => absurd hq (List.not_mem_nil _)) p0 hp0 hok0
      exact KeptLinks_score L scope cfg.Clean p0 p hpq this
  · intro scope s r page h hok
    obtain ⟨fetched, q1, _, _, _, q5, q6, q7⟩ := crawlStep_ok_page L cfg scope s r page h hok
    refine ⟨fetched, q1, q5, ?_, q6, q7⟩
    intro href l cls _ hr hne hl
    obtain ⟨href', _, hr'⟩ := (q5 l).mp hl
    obtain ⟨_, parsed, hp, hc⟩ := resolveLink_class L scope cfg.Clean _ href l cls hr
    obtain ⟨_, parsed', hp', hc'⟩ := resolveLink_class L scope cfg.Clean _ href' l .allowed hr'
    rw [hp] at hp'
    simp only [Option.some.injEq] at hp'
    rw [← hp', hc] at hc'
    exact hne hc'

theorem C31_kept_links_witness :
    ∃ scope, NewScope asciiLib (exampleConfig StrategyLimit 0).Domain = some scope ∧
      ∀ p ∈ (finishCrawl ratOps nullEngine (effectiveConfig (exampleConfig StrategyLimit 0))
          (exampleFinal StrategyLimit 0)).Pages, p.Status = StatusOK →
        p.Links.Pairwise (· < ·) ∧
        ∀ l ∈ p.Links,
          (∃ href, ResolveAndNormalize asciiLib p.FinalURL href
            (exampleConfig StrategyLimit 0).Clean = some l) ∧
          CanonShape asciiLib l ∧
          ∃ parsed, Parse l = some parsed ∧
            scope.ClassifyHost asciiLib parsed.Hostname = .allowed :=
  (C31_kept_links asciiLib ratOps nullEngine (exampleConfig StrategyLimit 0)).1
    exampleWorld _ none exampleRun_limit

/-! ## crawl.go: the loop ends -/

theorem afterFetch_measure {F : Type} (L : Lib) (cfg : Config) (scope : Scope)
    (s : CrawlState F) (current : queueItem) (fetched : fetchedPage) :
    (afterFetch L cfg scope s current fetched).result.Totals.Visited
        = s.result.Totals.Visited + 1 ∨
      ((afterFetch L cfg scope s current fetched).result.Totals.Visited
          = s.result.Totals.Visited ∧
        (afterFetch L cfg scope s current fetched).queue = s.queue) := by
  unfold afterFetch
  dsimp only
  split_ifs
  · exact Or.inr ⟨rfl, rfl⟩
  · left
    dsimp only [CrawlResult.addPage]
    rw [(classifyLinks_visited L scope cfg.Clean _ fetched.Links _).1]

/-- A round of the loop of `Crawl` leaves the loop by `break`, or counts one more page as
visited, or leaves the counter as it is and the queue shorter: the queue grows only in a
round that counts a page. -/
theorem crawlStep_measure {F : Type} (L : Lib) (cfg : Config) (scope : Scope)
    (s : CrawlState F) (r : Response) (hq : s.queue ≠ []) :
    (crawlStep L cfg scope s r).broke = true ∨
    (crawlStep L cfg scope s r).result.Totals.Visited = s.result.Totals.Visited + 1 ∨
    ((crawlStep L cfg scope s r).result.Totals.Visited = s.result.Totals.Visited ∧
      (crawlStep L cfg scope s r).queue.length < s.queue.length) := by
  unfold crawlStep
  split
  · exact Or.inl rfl
  · split
    · rename_i hnil
      exact absurd hnil hq
    · rename_i current queue hcq
      have hlen : queue.length < s.queue.length := by
        rw [hcq]
        simp
      dsimp only
      split
      · exact Or.inr (Or.inr ⟨rfl, hlen⟩)
      · split
        · exact Or.inr (Or.inr ⟨rfl, hlen⟩)
        · split
          · exact Or.inr (Or.inr ⟨rfl, hlen⟩)
          · split
            · rcases afterFetch_measure L cfg scope
                { s with queue := queue, processed := setInsert s.processed current.URL,
                         seedPages := s.seedPages.filter (fun kv => kv.1 ≠ current.URL) }
                current _ with h | h
              · exact Or.inr (Or.inl h)
              · refine Or.inr (Or.inr ⟨h.1, ?_⟩)
                rw [h.2]
                exact hlen
            · split
              · exact Or.inl rfl
              · split
                · exact Or.inr (Or.inl rfl)
                · rcases afterFetch_measure L cfg scope
                    { s with queue := queue, processed := setInsert s.processed current.URL,
                             firstNavigation := false,
                             navigations := s.navigations ++ [current.URL] }
                    current _ with h | h
                  · exact Or.inr (Or.inl h)
                  · refine Or.inr (Or.inr ⟨h.1, ?_⟩)
                    rw [h.2]
                    exact hlen

theorem loopRunning_iff {F : Type} (cfg : Config) (s : CrawlState F) :
    loopRunning cfg s = false ↔
      s.queue = [] ∨ cfg.MaxPages ≤ s.result.Totals.Visited ∨ s.broke = true := by
  unfold loopRunning
  cases hq : s.queue with
  | nil => simp
  | cons q qs =>
    cases hb : s.broke with
    | true => simp
    | false =>
      simp only [List.isEmpty_cons, Bool.not_false, Bool.true_and, Bool.and_true,
        decide_eq_false_iff_not, not_lt, false_or, or_false, Bool.false_eq_true,
        reduceCtorEq]

theorem runLoop_stable {F : Type} (L : Lib) (cfg : Config) (scope : Scope)
    (rs more : List Response) (s : CrawlState F)
    (h : loopRunning cfg (runLoop L cfg scope rs s) = false) :
    runLoop L cfg scope (rs ++ more) s = runLoop L cfg scope rs s := by
  induction rs generalizing s with
  | nil =>
    rw [List.nil_append]
    unfold runLoop at h ⊢
    cases more with
    | nil => rfl
    | cons r more =>
      dsimp only
      rw [if_neg (by rw [h]; simp)]
  | cons r rs ih =>
    rw [List.cons_append]
    unfold runLoop at h ⊢
    by_cases hrun : loopRunning cfg s = true
    · rw [if_pos hrun] at h
      rw [if_pos hrun, if_pos hrun]
      exact ih _ h
    · simp only [if_neg hrun]

theorem firstAnswers_add (f : Nat → Response) (n m : Nat) :
    firstAnswers f (n + m) = firstAnswers f n ++ firstAnswers (fun k => f (k + n)) m := by
  induction n generalizing f with
  | zero =>
    rw [Nat.zero_add]
    rfl
  | succ n ih =>
    rw [Nat.add_right_comm, firstAnswers, firstAnswers, ih, List.cons_append]
    congr 2

/-- The loop of `Crawl` ends, whatever the environment answers: after some number of
rounds, each begun with the loop condition true, the loop condition is false. -/
theorem runLoop_ends {F : Type} (L : Lib) (cfg : Config) (scope : Scope) (a : Nat) :
    ∀ (s : CrawlState F) (f : Nat → Response),
      (cfg.MaxPages - s.result.Totals.Visited).toNat ≤ a →
      ∃ n, (∀ k, k < n → loopRunning cfg (runLoop L cfg scope (firstAnswers f k) s) = true) ∧
        loopRunning cfg (runLoop L cfg scope (firstAnswers f n) s) = false := by
  induction a with
  | zero =>
    intro s f ha
    refine ⟨0, fun k hk => absurd hk (Nat.not_lt_zero _), ?_⟩
    rw [firstAnswers, runLoop, loopRunning_iff]
    right
    left
    omega
  | succ a iha =>
    suffices inner : ∀ (len : Nat) (s : CrawlState F), s.queue.length = len →
        ∀ f : Nat → Response, (cfg.MaxPages - s.result.Totals.Visited).toNat ≤ a + 1 →
        ∃ n, (∀ k, k < n →
            loopRunning cfg (runLoop L cfg scope (firstAnswers f k) s) = true) ∧
          loopRunning cfg (runLoop L cfg scope (firstAnswers f n) s) = false from
      fun s f ha => inner _ s rfl f ha
    intro len
    induction len using Nat.strong_induction_on with
    | _ len ihq =>
      intro s hl f ha
      by_cases hrun : loopRunning cfg s = true
      · have hq : s.queue ≠ [] := by
          intro hc
          have := (loopRunning_iff cfg s).mpr (Or.inl hc)
          rw [hrun] at this
          exact absurd this (by simp)
        have hv : s.result.Totals.Visited < cfg.MaxPages := by
          by_contra hc
          have := (loopRunning_iff cfg s).mpr (Or.inr (Or.inl (not_lt.mp hc)))
          rw [hrun] at this
          exact absurd this (by simp)
        have step : ∀ n, runLoop L cfg scope (firstAnswers f (n + 1)) s
            = runLoop L cfg scope (firstAnswers (fun k => f (k + 1)) n)
                (crawlStep L cfg scope s (f 0)) := by
          intro n
          rw [firstAnswers, runLoop, if_pos hrun]
        have lift : (∃ n, (∀ k, k < n → loopRunning cfg (runLoop L cfg scope
              (firstAnswers (fun k => f (k + 1)) k) (crawlStep L cfg scope s (f 0))) = true) ∧
            loopRunning cfg (runLoop L cfg scope (firstAnswers (fun k => f (k + 1)) n)
              (crawlStep L cfg scope s (f 0))) = false) →
            ∃ n, (∀ k, k < n →
              loopRunning cfg (runLoop L cfg scope (firstAnswers f k) s) = true) ∧
              loopRunning cfg (runLoop L cfg scope (firstAnswers f n) s) = false := by
          rintro ⟨n, h1, h2⟩
          refine ⟨n + 1, ?_, ?_⟩
          · intro k hk
            cases k with
            | zero =>
              rw [firstAnswers, runLoop]
              exact hrun
            | succ k =>
              rw [step]
              exact h1 k (by omega)
          · rw [step]
            exact h2
        apply lift
        rcases crawlStep_measure L cfg scope s (f 0) hq with hb | hvis | ⟨hvis, hlen⟩
        · refine ⟨0, fun k hk => absurd hk (Nat.not_lt_zero _), ?_⟩
          rw [firstAnswers, runLoop, loopRunning_iff]
          exact Or.inr (Or.inr hb)
        · exact iha _ _ (by rw [hvis]; omega)
        · exact ihq _ (by rw [← hl]; exact hlen) _ rfl _ (by rw [hvis]; exact ha)
      · refine ⟨0, fun k hk => absurd hk (Nat.not_lt_zero _), ?_⟩
        rw [firstAnswers, runLoop]
        cases hc : loopRunning cfg s with
        | false => rfl
        | true => exact absurd hc hrun

theorem runLoop_broke_of {F : Type} (L : Lib) (cfg : Config) (scope : Scope)
    (rs : List Response) (s : CrawlState F)
    (h : (runLoop L cfg scope rs s).broke = true) :
    s.broke = true ∨ ∃ r ∈ rs, r.cancelled = true ∨ r.sleepCompleted = false := by
  induction rs generalizing s with
  | nil => exact Or.inl h
  | cons r rs ih =>
    unfold runLoop at h
    by_cases hrun : loopRunning cfg s = true
    · rw [if_pos hrun] at h
      rcases ih _ h with hb | ⟨r', hr', hc⟩
      · cases hs : s.broke with
        | true => exact Or.inl rfl
        | false =>
          exact Or.inr ⟨r, List.mem_cons_self _ _,
            (crawlStep_broke L cfg scope s r hs hb).1⟩
      · exact Or.inr ⟨r', List.mem_cons_of_mem _ hr', hc⟩
    · rw [if_neg hrun] at h
      exact Or.inl h

theorem runLoop_ends_stable {F : Type} (L : Lib) (cfg : Config) (scope : Scope)
    (s : CrawlState F) (f : Nat → Response) :
    ∃ n, (∀ k, k < n → loopRunning cfg (runLoop L cfg scope (firstAnswers f k) s) = true) ∧
      loopRunning cfg (runLoop L cfg scope (firstAnswers f n) s) = false ∧
      ∀ m, n ≤ m → runLoop L cfg scope (firstAnswers f m) s
        = runLoop L cfg scope (firstAnswers f n) s := by
  obtain ⟨n, h1, h2⟩ := runLoop_ends L cfg scope _ s f (le_refl _)
  refine ⟨n, h1, h2, fun m hm => ?_⟩
  obtain ⟨d, rfl⟩ := Nat.exists_eq_add_of_le hm
  rw [firstAnswers_add]
  exact runLoop_stable L cfg scope _ _ s h2

theorem crawlStart_responses (L : Lib) (cfg : Config) (w : World) (rs : List Response) :
    crawlStart L cfg { w with responses := rs } = crawlStart L cfg w := rfl

/-! ## output/filename.go: the file name is safe -/

theorem toNat_ofNat_valid (k : Nat) (h : k < 0xD800) : (Char.ofNat k).toNat = k := by
  have hv : k.isValidChar := Or.inl h
  unfold Char.ofNat
  rw [dif_pos hv]
  rfl

theorem ofNat_toNat_ascii (c : Char) : Char.ofNat c.toNat = c := by
  apply Char.ext
  have hv : c.toNat.isValidChar := c.valid
  unfold Char.ofNat
  rw [dif_pos hv]
  rfl

theorem encodeRune_ascii (r : Nat) (h : r ≤ 0x7F) : encodeRune r = [Char.ofNat r] := by
  unfold encodeRune
  rw [if_pos h]

/-- The bytes of the encoding of a rune above U+007F are above 0x7F. -/
theorem encodeRune_high (r : Nat) (h : 0x7F < r) : ∀ c ∈ encodeRune r, 0x80 ≤ c.toNat := by
  unfold encodeRune
  rw [if_neg (by omega)]
  intro c hc
  split_ifs at hc with h1 h2 h3
  · simp only [List.mem_cons, List.mem_singleton, List.not_mem_nil, or_false] at hc
    rcases hc with rfl | rfl
    · rw [toNat_ofNat_valid _ (by omega)]
      omega
    · rw [toNat_ofNat_valid _ (by omega)]
      omega
  · simp only [List.mem_cons, List.mem_singleton, List.not_mem_nil, or_false] at hc
    rcases hc with rfl | rfl | rfl <;> decide
  · simp only [List.mem_cons, List.mem_singleton, List.not_mem_nil, or_false] at hc
    rcases hc with rfl | rfl | rfl
    · rw [toNat_ofNat_valid _ (by omega)]
      omega
    · rw [toNat_ofNat_valid _ (by omega)]
      omega
    · rw [toNat_ofNat_valid _ (by omega)]
      omega
  · simp only [List.mem_cons, List.mem_singleton, List.not_mem_nil, or_false] at hc
    have hr : r ≤ 0x10FFFF := by omega
    rcases hc with rfl | rfl | rfl | rfl
    · rw [toNat_ofNat_valid _ (by omega)]
      omega
    · rw [toNat_ofNat_valid _ (by omega)]
      omega
    · rw [toNat_ofNat_valid _ (by omega)]
      omega
    · rw [toNat_ofNat_valid _ (by omega)]
      omega

theorem encodeRune_ne_nil (r : Nat) : encodeRune r ≠ [] := by
  unfold encodeRune
  split_ifs <;> simp

/-- The encoding of a rune other than the underscore holds no underscore. -/
theorem encodeRune_no_underscore (r : Nat) (h : r ≠ 0x5F) : ∀ c ∈ encodeRune r, c ≠ '_' := by
  intro c hc
  by_cases hr : r ≤ 0x7F
  · rw [encodeRune_ascii r hr, List.mem_singleton] at hc
    rw [hc]
    apply char_ne_of_toNat
    rw [toNat_ofNat_valid _ (by omega)]
    exact h
  · have := encodeRune_high r (by omega) c hc
    apply char_ne_of_toNat
    intro e
    rw [e] at this
    exact absurd this (by decide)

theorem encodeRune_underscore : encodeRune 0x5F = ['_'] := by decide

/-- The bytes of the encoding of a letter, a digit or an underscore. -/
theorem encodeRune_nameByte (T : UnicodeTables) (r : Nat) (h : isNameRune T r = true) :
    ∀ c ∈ encodeRune r, isNameByte c = true := by
  intro c hc
  by_cases hr : r ≤ 0x7F
  · rw [encodeRune_ascii r hr, List.mem_singleton] at hc
    have hn : c.toNat = r := by
      rw [hc]
      exact toNat_ofNat_valid _ (by omega)
    unfold isNameRune unicodeIsLetter unicodeIsDigit at h
    rw [if_pos (by omega), if_pos (by omega)] at h
    unfold isNameByte
    rw [hn]
    simp only [Bool.or_eq_true, Bool.and_eq_true, decide_eq_true_eq] at h ⊢
    omega
  · have := encodeRune_high r (by omega) c hc
    unfold isNameByte
    simp only [Bool.or_eq_true, Bool.and_eq_true, decide_eq_true_eq]
    omega

theorem NameText.empty (T : UnicodeTables) : NameText T [] := ⟨[], rfl, fun _ h => absurd h (List.not_mem_nil _)⟩

theorem NameText.concat {T : UnicodeTables} {s t : Str} (hs : NameText T s) (ht : NameText T t) :
    NameText T (s ++ t) := by
  obtain ⟨rs, e1, h1⟩ := hs
  obtain ⟨rt, e2, h2⟩ := ht
  refine ⟨rs ++ rt, by rw [List.flatMap_append, e1, e2], ?_⟩
  intro r hr
  rcases List.mem_append.mp hr with h | h
  · exact h1 r h
  · exact h2 r h

theorem NameText.bytes {T : UnicodeTables} {s : Str} (h : NameText T s) :
    ∀ c ∈ s, isNameByte c = true := by
  obtain ⟨rs, e, hr⟩ := h
  intro c hc
  rw [e] at hc
  obtain ⟨r, hrm, hcr⟩ := List.mem_flatMap.mp hc
  exact encodeRune_nameByte T r (hr r hrm) c hcr

/-- A text of ASCII letters, ASCII digits and underscores is a text of letters, digits and
underscores. -/
theorem NameText.of_ascii (T : UnicodeTables) (s : Str)
    (h : ∀ c ∈ s, c.toNat ≤ 0x7F ∧ isNameByte c = true) : NameText T s := by
  refine ⟨s.map Char.toNat, ?_, ?_⟩
  · induction s with
    | nil => rfl
    | cons c t ih =>
      rw [List.map_cons, List.flatMap_cons, encodeRune_ascii _ (h c (List.mem_cons_self _ _)).1,
        ofNat_toNat_ascii, ← ih (fun d hd => h d (List.mem_cons_of_mem _ hd))]
      rfl
  · intro r hr
    obtain ⟨c, hc, rfl⟩ := List.mem_map.mp hr
    obtain ⟨h1, h2⟩ := h c hc
    unfold isNameRune unicodeIsLetter unicodeIsDigit
    rw [if_pos (by omega), if_pos (by omega)]
    unfold isNameByte at h2
    simp only [Bool.or_eq_true, Bool.and_eq_true, decide_eq_true_eq] at h2 ⊢
    omega

/-- What `sanitizeSegment` writes to its builder is a text of letters, digits and
underscores. -/
theorem sanitizeRunes_nameText (T : UnicodeTables) (hT : T.LowerKeeps) (b : Bool)
    (rs : List Nat) : NameText T (sanitizeRunes T b rs) := by
  induction rs generalizing b with
  | nil => exact NameText.empty T
  | cons r rs ih =>
    unfold sanitizeRunes
    split_ifs with h1 h2
    · refine NameText.concat ⟨[unicodeToLower T r], by simp, ?_⟩ (ih false)
      intro x hx
      rw [List.mem_singleton.mp hx]
      unfold isNameRune
      have := hT r h1
      rw [Bool.or_assoc, this, Bool.or_true]
    · have := NameText.concat (T := T) ⟨[0x5F], encodeRune_underscore.symm, by
        intro x hx
        rw [List.mem_singleton.mp hx]
        rfl⟩ (ih true)
      exact this
    · exact ih true

/-- Cutting the underscores off the front of a text of letters, digits and underscores
leaves such a text. -/
theorem NameText.dropWhile {T : UnicodeTables} {s : Str} (h : NameText T s) :
    NameText T (s.dropWhile (· == '_')) := by
  obtain ⟨rs, e, hr⟩ := h
  subst e
  induction rs with
  | nil => exact NameText.empty T
  | cons r rs ih =>
    rw [List.flatMap_cons]
    by_cases hu : r = 0x5F
    · rw [hu, encodeRune_underscore]
      show NameText T (List.dropWhile (· == '_') ('_' :: rs.flatMap encodeRune))
      rw [List.dropWhile_cons_of_pos (by decide)]
      exact ih (fun x hx => hr x (List.mem_cons_of_mem _ hx))
    · cases he : encodeRune r with
      | nil => exact absurd he (encodeRune_ne_nil r)
      | cons c t =>
        have hc : c ≠ '_' := encodeRune_no_underscore r hu c (by rw [he]; exact List.mem_cons_self _ _)
        rw [List.cons_append, List.dropWhile_cons_of_neg (by simpa using hc), ← List.cons_append,
          ← he, ← List.flatMap_cons]
        exact ⟨r :: rs, rfl, hr⟩

/-- Cutting the underscores off the end of a text of letters, digits and underscores
leaves such a text. -/
theorem NameText.rdropWhile {T : UnicodeTables} {s : Str} (h : NameText T s) :
    NameText T (s.rdropWhile (· == '_')) := by
  obtain ⟨rs, e, hr⟩ := h
  subst e
  induction rs using List.reverseRecOn with
  | nil => exact NameText.empty T
  | append_singleton rs r ih =>
    rw [List.flatMap_append, List.flatMap_singleton]
    by_cases hu : r = 0x5F
    · rw [hu, encodeRune_underscore, List.rdropWhile_concat_pos _ _ _ (by decide)]
      exact ih (fun x hx => hr x (List.mem_append_left _ hx))
    · have hne := encodeRune_ne_nil r
      obtain ⟨t, c, he⟩ : ∃ t c, encodeRune r = t ++ [c] :=
        ⟨(encodeRune r).dropLast, (encodeRune r).getLast hne,
          (List.dropLast_append_getLast hne).symm⟩
      have hc : c ≠ '_' := encodeRune_no_underscore r hu c (by rw [he]; simp)
      rw [he, ← List.append_assoc, List.rdropWhile_concat_neg _ _ _ (by simpa using hc),
        List.append_assoc, ← he, ← List.flatMap_singleton (f := encodeRune) (x := r),
        ← List.flatMap_append]
      exact ⟨rs ++ [r], rfl, hr⟩

theorem trimByte_eq (c : Char) (s : Str) :
    trimByte c s = (s.dropWhile (· == c)).rdropWhile (· == c) := rfl

theorem sanitizeSegment_nameText (T : UnicodeTables) (hT : T.LowerKeeps) (segment : Str) :
    NameText T (sanitizeSegment T segment) := by
  unfold sanitizeSegment
  rw [trimByte_eq]
  exact (sanitizeRunes_nameText T hT false _).dropWhile.rdropWhile

/-- A text cut by `strings.Trim(s, "_")` that is not empty neither starts nor ends with an
underscore. -/
theorem trimByte_ends (c : Char) (s : Str) (h : trimByte c s ≠ []) :
    (trimByte c s).head? ≠ some c ∧ (trimByte c s).getLast? ≠ some c := by
  rw [trimByte_eq] at h ⊢
  constructor
  · have hd : s.dropWhile (· == c) ≠ [] := by
      intro e
      rw [e] at h
      exact h rfl
    obtain ⟨t, ht⟩ := List.rdropWhile_prefix (· == c) (s.dropWhile (· == c))
    have hh := List.head_dropWhile_not (· == c) s hd
    cases hr : (s.dropWhile (· == c)).rdropWhile (· == c) with
    | nil => exact absurd hr h
    | cons x xs =>
      rw [hr] at ht
      intro e
      simp only [List.head?_cons, Option.some.injEq] at e
      have hx : (s.dropWhile (· == c)).head hd = x := by
        simp only [← ht, List.cons_append, List.head_cons]
      rw [hx, e] at hh
      simp at hh
  · have hl := List.rdropWhile_last_not (· == c) (s.dropWhile (· == c)) h
    rw [List.getLast?_eq_getLast _ h]
    intro e
    simp only [Option.some.injEq] at e
    rw [e] at hl
    simp at hl

theorem joinWith_head (sep p : Str) (ps : List Str) (hp : p ≠ []) :
    (joinWith sep (p :: ps)).head? = p.head? := by
  cases p with
  | nil => exact absurd rfl hp
  | cons c t =>
    cases ps with
    | nil => rfl
    | cons q qs => rfl

theorem joinWith_getLast (sep : Str) (ps : List Str) (hne : ps ≠ [])
    (hall : ∀ p ∈ ps, p ≠ []) :
    (joinWith sep ps).getLast? = (ps.getLast hne).getLast? := by
  induction ps with
  | nil => exact absurd rfl hne
  | cons p ps ih =>
    cases ps with
    | nil => rfl
    | cons q qs =>
      have hq : joinWith sep (q :: qs) ≠ [] :=
        joinWith_ne_nil sep q qs (hall q (by simp))
      rw [joinWith, List.getLast?_append_of_ne_nil _ hq,
        ih (List.cons_ne_nil q qs) (fun x hx => hall x (List.mem_cons_of_mem _ hx))]
      congr 1

theorem joinWith_nameText (T : UnicodeTables) (ps : List Str) (h : ∀ p ∈ ps, NameText T p) :
    NameText T (joinWith "_".toList ps) := by
  induction ps with
  | nil => exact NameText.empty T
  | cons p ps ih =>
    cases ps with
    | nil => exact h p (List.mem_cons_self _ _)
    | cons q qs =>
      rw [joinWith]
      refine ((h p (List.mem_cons_self _ _)).concat ?_).concat
        (ih (fun x hx => h x (List.mem_cons_of_mem _ hx)))
      exact NameText.of_ascii T _ (by decide)

/-- The name `sanitizeURLPathToName` returns is `index`, or sanitized segments, none
empty, joined by underscores. -/
theorem sanitizeURLPathToName_form (T : UnicodeTables) (rawURL : Str) :
    sanitizeURLPathToName T rawURL = "index".toList ∨
      ∃ segs : List Str, segs ≠ [] ∧
        sanitizeURLPathToName T rawURL = joinWith "_".toList segs ∧
        ∀ s ∈ segs, s ≠ [] ∧ ∃ part, s = sanitizeSegment T part := by
  unfold sanitizeURLPathToName
  cases Parse rawURL with
  | none => exact Or.inl rfl
  | some parsed =>
    dsimp only
    split_ifs with h1 h2 h3
    · exact Or.inl rfl
    · exact Or.inl rfl
    · exact Or.inl rfl
    · right
      refine ⟨_, fun e => h3 (by rw [e]; rfl), rfl, ?_⟩
      intro s hs
      obtain ⟨part, _, hp⟩ := List.mem_filterMap.mp hs
      unfold sanitizePart at hp
      split_ifs at hp with h4
      dsimp only at hp
      split_ifs at hp with h5
      simp only [Option.some.injEq] at hp
      rw [← hp]
      exact ⟨h5, _, rfl⟩

theorem sanitizeURLPathToName_ends (T : UnicodeTables) (rawURL : Str) :
    sanitizeURLPathToName T rawURL ≠ [] ∧
    (sanitizeURLPathToName T rawURL).head? ≠ some '_' ∧
    (sanitizeURLPathToName T rawURL).getLast? ≠ some '_' := by
  rcases sanitizeURLPathToName_form T rawURL with h | ⟨segs, hne, h, hall⟩
  · rw [h]
    decide
  · rw [h]
    have hseg : ∀ s ∈ segs, s ≠ [] ∧ s.head? ≠ some '_' ∧ s.getLast? ≠ some '_' := by
      intro s hs
      obtain ⟨h1, part, h2⟩ := hall s hs
      refine ⟨h1, ?_⟩
      rw [h2] at h1 ⊢
      unfold sanitizeSegment at h1 ⊢
      exact trimByte_ends '_' _ h1
    cases hs : segs with
    | nil => exact absurd hs hne
    | cons p ps =>
      rw [hs] at hseg hne
      refine ⟨joinWith_ne_nil _ p ps (hseg p (List.mem_cons_self _ _)).1, ?_, ?_⟩
      · rw [joinWith_head _ p ps (hseg p (List.mem_cons_self _ _)).1]
        exact (hseg p (List.mem_cons_self _ _)).2.1
      · rw [joinWith_getLast _ (p :: ps) hne (fun x hx => (hseg x hx).1)]
        exact (hseg _ (List.getLast_mem hne)).2.2

theorem sanitizeURLPathToName_nameText (T : UnicodeTables) (hT : T.LowerKeeps)
    (rawURL : Str) : NameText T (sanitizeURLPathToName T rawURL) := by
  rcases sanitizeURLPathToName_form T rawURL with h | ⟨segs, _, h, hall⟩
  · rw [h]
    exact NameText.of_ascii T _ (by decide)
  · rw [h]
    apply joinWith_nameText
    intro s hs
    obtain ⟨_, part, h2⟩ := hall s hs
    rw [h2]
    exact sanitizeSegment_nameText T hT part

theorem hexEncode_ascii (src : List Nat) :
    ∀ c ∈ hexEncode src, c.toNat ≤ 0x7F ∧ isNameByte c = true := by
  have hd : ∀ k, k < 16 → ("0123456789abcdef".toList.getD k '0').toNat ≤ 0x7F ∧
      isNameByte ("0123456789abcdef".toList.getD k '0') = true := by
    intro k hk
    interval_cases k <;> decide
  intro c hc
  unfold hexEncode at hc
  obtain ⟨v, _, hv⟩ := List.mem_flatMap.mp hc
  simp only [List.mem_cons, List.mem_singleton, List.not_mem_nil, or_false] at hv
  rcases hv with e | e
  · rw [e]
    exact hd _ (Nat.mod_lt _ (by decide))
  · rw [e]
    exact hd _ (Nat.mod_lt _ (by decide))

theorem decimalDigit_ascii (d : Nat) :
    (decimalDigit d).toNat ≤ 0x7F ∧ isNameByte (decimalDigit d) = true := by
  unfold decimalDigit
  have h : d % 10 < 10 := Nat.mod_lt _ (by decide)
  generalize d % 10 = k at h
  interval_cases k <;> decide

theorem decimalFrom_ascii (fuel n : Nat) (acc : Str)
    (hacc : ∀ c ∈ acc, c.toNat ≤ 0x7F ∧ isNameByte c = true) :
    ∀ c ∈ decimalFrom fuel n acc, c.toNat ≤ 0x7F ∧ isNameByte c = true := by
  induction fuel generalizing n acc with
  | zero => exact hacc
  | succ f ih =>
    unfold decimalFrom
    split_ifs
    · intro c hc
      rcases List.mem_cons.mp hc with e | e
      · rw [e]
        exact decimalDigit_ascii n
      · exact hacc c e
    · apply ih
      intro c hc
      rcases List.mem_cons.mp hc with e | e
      · rw [e]
        exact decimalDigit_ascii _
      · exact hacc c e

theorem itoa_ascii (n : Nat) : ∀ c ∈ itoa n, c.toNat ≤ 0x7F ∧ isNameByte c = true :=
  decimalFrom_ascii _ _ [] (fun _ h => absurd h (List.not_mem_nil _))

/-- Every candidate name is a stem followed by a dot and the extension; the stem is the
sanitized name, or the sanitized name, an underscore and the hash, or these followed by an
underscore and a number. -/
theorem candidateName_stem (name hash ext : Str) (k : Nat) :
    ∃ more : Str, candidateName name hash ext k = name ++ more ++ ".".toList ++ ext ∧
      (more = [] ∨ more = "_".toList ++ hash ∨
        ∃ i, more = "_".toList ++ hash ++ "_".toList ++ itoa i) := by
  match k with
  | 0 => exact ⟨[], by simp [candidateName], Or.inl rfl⟩
  | 1 => exact ⟨"_".toList ++ hash, by simp [candidateName], Or.inr (Or.inl rfl)⟩
  | i + 2 =>
    exact ⟨"_".toList ++ hash ++ "_".toList ++ itoa (i + 2), by simp [candidateName],
      Or.inr (Or.inr ⟨i + 2, rfl⟩)⟩

theorem noTables_lowerKeeps : noTables.LowerKeeps := by
  intro r h
  by_cases hr : r ≤ 0x7F
  · unfold unicodeIsLetter unicodeIsDigit at h ⊢
    unfold unicodeToLower
    rw [if_pos (by omega), if_pos (by omega)] at h
    rw [if_pos hr]
    simp only [Bool.or_eq_true, Bool.and_eq_true, decide_eq_true_eq] at h
    by_cases hu : 0x41 ≤ r ∧ r ≤ 0x5A
    · rw [if_pos hu, if_pos (by omega), if_pos (by omega)]
      simp only [Bool.or_eq_true, Bool.and_eq_true, decide_eq_true_eq]
      omega
    · rw [if_neg hu, if_pos (by omega), if_pos (by omega)]
      simp only [Bool.or_eq_true, Bool.and_eq_true, decide_eq_true_eq]
      omega
  · have e : unicodeToLower noTables r = r := by
      unfold unicodeToLower
      rw [if_neg hr]
      rfl
    rw [e]
    exact h

theorem not_nameByte (s : Str) (h : ∀ c ∈ s, isNameByte c = true) (x : Char)
    (hx : isNameByte x = false) : x ∉ s := by
  intro hm
  rw [h x hm] at hx
  exact absurd hx (by simp)

/-- C39 (file name safety): for every mapper and every URL text, parseable or not,
`FilenameForURL` returns a name that is a stem followed by a dot and the format of the
mapper; the stem is the sanitized name of the URL, followed by nothing, or by an
underscore and the short hash, or by these, an underscore and a number.  The sanitized
name is not empty and neither starts nor ends with an underscore.  When the lower-case
mapping sends letters and digits to letters and digits (as that of Unicode does), the
stem is the UTF-8 encoding of letters, digits and underscores, so each of its bytes is an
ASCII letter, an ASCII digit, an underscore or a byte above 0x7F; and for the formats md,
html and json the name holds one dot, no slash, no backslash and no `..`. -/
theorem C39_filename_safety (T : UnicodeTables) (m : FilenameMapper) (u : Str) :
    (∃ name m' more,
      m.FilenameForURL T u = some (name, m') ∧
      name = sanitizeURLPathToName T u ++ more ++ ".".toList ++ m.format ∧
      (more = [] ∨ more = "_".toList ++ shortHash u ∨
        ∃ i, more = "_".toList ++ shortHash u ++ "_".toList ++ itoa i) ∧
      (T.LowerKeeps →
        NameText T (sanitizeURLPathToName T u ++ more) ∧
        (∀ c ∈ sanitizeURLPathToName T u ++ more, isNameByte c = true) ∧
        (m.format = FormatMarkdown ∨ m.format = FormatHTML ∨ m.format = FormatJSON →
          name.count '.' = 1 ∧ '/' ∉ name ∧ '\\' ∉ name ∧
          containsSub "..".toList name = false))) ∧
    sanitizeURLPathToName T u ≠ [] ∧
    (sanitizeURLPathToName T u).head? ≠ some '_' ∧
    (sanitizeURLPathToName T u).getLast? ≠ some '_' := by
  refine ⟨?_, sanitizeURLPathToName_ends T u⟩
  obtain ⟨⟨name, m'⟩, hret⟩ := FilenameForURL_returns T m u
  obtain ⟨k, hk, _⟩ := FilenameForURL_spec T m u name m' hret
  unfold FilenameMapper.candidate at hk
  obtain ⟨more, hmore, hform⟩ := candidateName_stem (sanitizeURLPathToName T u) (shortHash u)
    m.format k
  rw [hmore] at hk
  refine ⟨name, m', more, hret, hk, hform, ?_⟩
  intro hT
  have hhash : NameText T ("_".toList ++ shortHash u) := by
    apply NameText.concat (NameText.of_ascii T _ (by decide))
    exact NameText.of_ascii T _ (hexEncode_ascii _)
  have hm : NameText T more := by
    rcases hform with e | e | ⟨i, e⟩
    · rw [e]
      exact NameText.empty T
    · rw [e]
      exact hhash
    · rw [e]
      exact (hhash.concat (NameText.of_ascii T _ (by decide))).concat
        (NameText.of_ascii T _ (itoa_ascii i))
  have hstem := (sanitizeURLPathToName_nameText T hT u).concat hm
  refine ⟨hstem, hstem.bytes, ?_⟩
  intro hf
  have hdot : (sanitizeURLPathToName T u ++ more).count '.' = 0 :=
    List.count_eq_zero.mpr (not_nameByte _ hstem.bytes '.' (by decide))
  have hfmt : m.format.count '.' = 0 ∧ '/' ∉ m.format ∧ '\\' ∉ m.format := by
    rcases hf with e | e | e <;> rw [e] <;> decide
  have hcount : name.count '.' = 1 := by
    rw [hk, List.count_append, List.count_append, hdot, hfmt.1]
    rfl
  refine ⟨hcount, ?_, ?_, ?_⟩
  · rw [hk]
    intro hx
    rcases List.mem_append.mp hx with hx | hx
    · rcases List.mem_append.mp hx with hx | hx
      · exact not_nameByte _ hstem.bytes '/' (by decide) hx
      · exact absurd hx (by decide)
    · exact hfmt.2.1 hx
  · rw [hk]
    intro hx
    rcases List.mem_append.mp hx with hx | hx
    · rcases List.mem_append.mp hx with hx | hx
      · exact not_nameByte _ hstem.bytes '\\' (by decide) hx
      · exact absurd hx (by decide)
    · exact hfmt.2.2 hx
  · cases hc : containsSub "..".toList name with
    | false => rfl
    | true =>
      exfalso
      obtain ⟨pre, post, e⟩ := (containsSub_iff _ _).mp hc
      rw [e, List.count_append, List.count_append] at hcount
      have : List.count '.' "..".toList = 2 := by decide
      omega

theorem C39_filename_safety_witness :
    ∃ name m' more,
      (NewFilenameMapper FormatJSON).FilenameForURL noTables docsURL = some (name, m') ∧
      name = sanitizeURLPathToName noTables docsURL ++ more ++ ".".toList ++ FormatJSON ∧
      name.count '.' = 1 ∧ '/' ∉ name ∧ '\\' ∉ name ∧
      containsSub "..".toList name = false := by
  obtain ⟨⟨name, m', more, h1, h2, _, h4⟩, _⟩ :=
    C39_filename_safety noTables (NewFilenameMapper FormatJSON) docsURL
  exact ⟨name, m', more, h1, h2, (h4 noTables_lowerKeeps).2.2 (Or.inr (Or.inr rfl))⟩

/-! ## package path: what `Clean` returns for a rooted path -/

theorem joinWith_snoc (sep : Str) (segs : List Str) (s : Str) (h : segs ≠ []) :
    joinWith sep (segs ++ [s]) = joinWith sep segs ++ sep ++ s := by
  induction segs with
  | nil => exact absurd rfl h
  | cons p ps ih =>
    cases ps with
    | nil => rfl
    | cons q qs =>
      have e : joinWith sep (q :: (qs ++ [s])) = joinWith sep (q :: qs) ++ sep ++ s :=
        ih (List.cons_ne_nil q qs)
      show joinWith sep (p :: q :: (qs ++ [s])) = joinWith sep (p :: q :: qs) ++ sep ++ s
      rw [joinWith, e, joinWith]
      simp only [List.append_assoc]

theorem joinWith_extend (sep : Str) (segs : List Str) (cur : Str) (c : Char) :
    joinWith sep (segs ++ [cur]) ++ [c] = joinWith sep (segs ++ [cur ++ [c]]) := by
  by_cases h : segs = []
  · rw [h]
    rfl
  · rw [joinWith_snoc sep segs cur h, joinWith_snoc sep segs _ h]
    simp only [List.append_assoc]

theorem joinWith_good_ne_nil (segs : List Str) (h : segs ≠ [])
    (hg : ∀ s ∈ segs, GoodSegment s) : joinWith ['/'] segs ≠ [] := by
  cases segs with
  | nil => exact absurd rfl h
  | cons p ps => exact joinWith_ne_nil _ p ps (hg p (List.mem_cons_self _ _)).1

theorem cleanBacktrack_snoc (dotdot f : Nat) (l : Str) (d : Char) :
    cleanBacktrack dotdot (f + 1) (l ++ [d]) =
      if l.length > dotdot ∧ d ≠ '/' then cleanBacktrack dotdot f l else l := by
  rw [cleanBacktrack, List.getLast?_append, List.dropLast_concat]
  rfl

/-- The backtracking step of `Clean` over the last element, when another element stands
before it: the element goes, with the slash before it. -/
theorem cleanBacktrack_inner (b s : Str) (fuel : Nat) (hb : 1 ≤ b.length) (hs : '/' ∉ s)
    (hf : s.length < fuel) : cleanBacktrack 1 fuel (b ++ '/' :: s) = b := by
  induction s using List.reverseRecOn generalizing fuel with
  | nil =>
    obtain ⟨f, rfl⟩ : ∃ f, fuel = f + 1 := ⟨fuel - 1, by simp at hf; omega⟩
    rw [cleanBacktrack_snoc, if_neg (by simp)]
  | append_singleton s d ih =>
    obtain ⟨f, rfl⟩ : ∃ f, fuel = f + 1 := ⟨fuel - 1, by simp at hf; omega⟩
    have e : b ++ '/' :: (s ++ [d]) = (b ++ '/' :: s) ++ [d] := by simp
    have hd : d ≠ '/' := fun hc => hs (by rw [← hc]; simp)
    rw [e, cleanBacktrack_snoc, if_pos ⟨by simp; omega, hd⟩]
    exact ih f (fun hm => hs (List.mem_append_left _ hm)) (by simp at hf; omega)

/-- The backtracking step of `Clean` over the only element: the root is left. -/
theorem cleanBacktrack_first (s : Str) (fuel : Nat) (hne : s ≠ []) (hs : '/' ∉ s)
    (hf : s.length < fuel) : cleanBacktrack 1 fuel ('/' :: s) = ['/'] := by
  induction s using List.reverseRecOn generalizing fuel with
  | nil => exact absurd rfl hne
  | append_singleton s d ih =>
    obtain ⟨f, rfl⟩ : ∃ f, fuel = f + 1 := ⟨fuel - 1, by simp at hf; omega⟩
    have e : '/' :: (s ++ [d]) = ('/' :: s) ++ [d] := by simp
    have hd : d ≠ '/' := fun hc => hs (by rw [← hc]; simp)
    rw [e, cleanBacktrack_snoc]
    by_cases hnil : s = []
    · rw [hnil, if_neg (by simp)]
    · rw [if_pos ⟨by
        have : 0 < s.length := List.length_pos.mpr hnil
        simp
        omega, hd⟩]
      exact ih f hnil (fun hm => hs (List.mem_append_left _ hm)) (by simp at hf; omega)

theorem cleanBacktrack_rooted (segs : List Str) (s : Str) (hs : GoodSegment s) :
    cleanBacktrack 1 ('/' :: joinWith ['/'] (segs ++ [s])).length
      ('/' :: joinWith ['/'] (segs ++ [s])) = '/' :: joinWith ['/'] segs := by
  by_cases h : segs = []
  · rw [h]
    exact cleanBacktrack_first s _ hs.1 hs.2.1 (by simp [joinWith])
  · rw [joinWith_snoc _ segs s h]
    have e : '/' :: (joinWith ['/'] segs ++ ['/'] ++ s)
        = ('/' :: joinWith ['/'] segs) ++ '/' :: s := by simp
    rw [e]
    exact cleanBacktrack_inner _ s _ (by simp) hs.2.1 (by simp; omega)

theorem cleanLoop_nil (rooted copying : Bool) (out : Str) (dotdot : Nat) :
    cleanLoop rooted copying [] out dotdot = out := by
  rw [cleanLoop.eq_def]
  cases copying <;> rfl

theorem cleanLoop_copying (rooted : Bool) (c : Char) (rest out : Str) (dotdot : Nat) :
    cleanLoop rooted true (c :: rest) out dotdot
      = if c = '/' then cleanLoop rooted false rest out dotdot
        else cleanLoop rooted true rest (out ++ [c]) dotdot := by
  rw [cleanLoop.eq_def]

theorem cleanLoop_start (rooted : Bool) (c : Char) (rest out : Str) (dotdot : Nat) :
    cleanLoop rooted false (c :: rest) out dotdot
      = if c = '/' then cleanLoop rooted false rest out dotdot
        else if c = '.' ∧ (rest = [] ∨ rest.head? = some '/') then
          cleanLoop rooted false rest out dotdot
        else if c = '.' ∧ rest.head? = some '.' ∧
            (rest.tail = [] ∨ rest.tail.head? = some '/') then
          match rest with
          | [] => out
          | _ :: rest2 =>
            if out.length > dotdot then
              cleanLoop rooted false rest2 (cleanBacktrack dotdot out.length out) dotdot
            else if !rooted then
              cleanLoop rooted false rest2
                ((if out.length > 0 then out ++ "/".toList else out) ++ "..".toList)
                ((if out.length > 0 then out ++ "/".toList else out) ++ "..".toList).length
            else cleanLoop rooted false rest2 out dotdot
        else
          cleanLoop rooted true rest
            ((if (rooted ∧ out.length ≠ 1) ∨ (!rooted ∧ out.length ≠ 0)
              then out ++ "/".toList else out) ++ [c]) dotdot := by
  rw [cleanLoop.eq_def]
  rfl

theorem takeWhile_nil_iff (rest : Str) :
    rest.takeWhile (· ≠ '/') = [] ↔ rest = [] ∨ rest.head? = some '/' := by
  cases rest with
  | nil => simp
  | cons c t =>
    by_cases h : c = '/'
    · simp [h]
    · simp [List.takeWhile_cons, h]

/-- The loop of `Clean` on a rooted path keeps the buffer a slash followed by good
segments, separated by single slashes. -/
theorem cleanLoop_rooted (n : Nat) :
    ∀ (rest : Str) (segs : List Str), rest.length ≤ n → (∀ s ∈ segs, GoodSegment s) →
      CleanRooted (cleanLoop true false rest ('/' :: joinWith ['/'] segs) 1) ∧
      ∀ cur : Str, cur ≠ [] → '/' ∉ cur →
        cur ++ rest.takeWhile (· ≠ '/') ≠ ".".toList →
        cur ++ rest.takeWhile (· ≠ '/') ≠ "..".toList →
        CleanRooted (cleanLoop true true rest ('/' :: joinWith ['/'] (segs ++ [cur])) 1) := by
  induction n using Nat.strong_induction_on with
  | _ n ih =>
    intro rest segs hlen hg
    cases rest with
    | nil =>
      refine ⟨?_, ?_⟩
      · rw [cleanLoop_nil]
        exact ⟨segs, rfl, hg⟩
      · intro cur h1 h2 h3 h4
        rw [cleanLoop_nil]
        refine ⟨segs ++ [cur], rfl, ?_⟩
        intro s hs
        rcases List.mem_append.mp hs with hs | hs
        · exact hg s hs
        · rw [List.mem_singleton.mp hs]
          simp only [List.takeWhile_nil, List.append_nil] at h3 h4
          exact ⟨h1, h2, h3, h4⟩
    | cons c rest =>
      have hlt : rest.length < n := by
        simp only [List.length_cons] at hlen
        omega
      have iha := fun segs hg => (ih rest.length hlt rest segs (le_refl _) hg).1
      have ihb := fun segs hg => (ih rest.length hlt rest segs (le_refl _) hg).2
      refine ⟨?_, ?_⟩
      · rw [cleanLoop_start]
        by_cases h1 : c = '/'
        · rw [if_pos h1]
          exact iha segs hg
        · rw [if_neg h1]
          by_cases h2 : c = '.' ∧ (rest = [] ∨ rest.head? = some '/')
          · rw [if_pos h2]
            exact iha segs hg
          · rw [if_neg h2]
            by_cases h3 : c = '.' ∧ rest.head? = some '.' ∧
                (rest.tail = [] ∨ rest.tail.head? = some '/')
            · rw [if_pos h3]
              cases rest with
              | nil => exact ⟨segs, rfl, hg⟩
              | cons d rest2 =>
                dsimp only
                have hlt2 : rest2.length < n := by
                  simp only [List.length_cons] at hlt
                  omega
                by_cases hs : segs = []
                · rw [hs]
                  rw [if_neg (by simp [joinWith])]
                  rw [if_neg (by simp)]
                  exact (ih rest2.length hlt2 rest2 [] (le_refl _)
                    (fun s h => absurd h (List.not_mem_nil _))).1
                · have hj := joinWith_good_ne_nil segs hs hg
                  rw [if_pos (by
                    have : 0 < (joinWith ['/'] segs).length := List.length_pos.mpr hj
                    simp only [List.length_cons]
                    omega)]
                  have hsplit : segs = segs.dropLast ++ [segs.getLast hs] :=
                    (List.dropLast_append_getLast hs).symm
                  have hb := cleanBacktrack_rooted segs.dropLast (segs.getLast hs)
                    (hg _ (List.getLast_mem hs))
                  rw [← hsplit] at hb
                  rw [hb]
                  exact (ih rest2.length hlt2 rest2 segs.dropLast (le_refl _)
                    (fun s h => hg s (List.mem_of_mem_dropLast h))).1
            · rw [if_neg h3]
              have hout : (if (true = true ∧ ('/' :: joinWith ['/'] segs).length ≠ 1) ∨
                    ((!true) = true ∧ ('/' :: joinWith ['/'] segs).length ≠ 0)
                  then '/' :: joinWith ['/'] segs ++ "/".toList
                  else '/' :: joinWith ['/'] segs) ++ [c]
                  = '/' :: joinWith ['/'] (segs ++ [[c]]) := by
                by_cases hs : segs = []
                · rw [hs]
                  rw [if_neg (by simp [joinWith])]
                  rfl
                · have hj := joinWith_good_ne_nil segs hs hg
                  rw [if_pos (Or.inl ⟨rfl, by
                    have : 0 < (joinWith ['/'] segs).length := List.length_pos.mpr hj
                    simp only [List.length_cons]
                    omega⟩), joinWith_snoc _ segs [c] hs]
                  simp
              rw [hout]
              apply ihb segs hg [c] (by simp) (by simpa using Ne.symm h1)
              · intro e
                simp only [String.toList, List.cons_append, List.nil_append,
                  List.cons.injEq] at e
                exact h2 ⟨e.1, (takeWhile_nil_iff rest).mp e.2⟩
              · intro e
                simp only [String.toList, List.cons_append, List.nil_append,
                  List.cons.injEq] at e
                apply h3
                refine ⟨e.1, ?_⟩
                cases rest with
                | nil => exact absurd e.2 (by simp)
                | cons d rest2 =>
                  by_cases hd : d = '/'
                  · rw [hd] at e
                    exact absurd e.2 (by simp)
                  · rw [List.takeWhile_cons, if_pos (by simpa using hd)] at e
                    simp only [List.cons.injEq] at e
                    exact ⟨by rw [e.2.1]; rfl, (takeWhile_nil_iff rest2).mp e.2.2⟩
      · intro cur hc1 hc2 hc3 hc4
        rw [cleanLoop_copying]
        by_cases h1 : c = '/'
        · rw [if_pos h1]
          apply iha (segs ++ [cur])
          intro s hs
          rcases List.mem_append.mp hs with hs | hs
          · exact hg s hs
          · rw [List.mem_singleton.mp hs]
            rw [h1] at hc3 hc4
            simp only [List.takeWhile_cons, ne_eq, not_true_eq_false, decide_False,
              Bool.false_eq_true, if_false, List.append_nil] at hc3 hc4
            exact ⟨hc1, hc2, hc3, hc4⟩
        · rw [if_neg h1]
          have e : '/' :: joinWith ['/'] (segs ++ [cur]) ++ [c]
              = '/' :: joinWith ['/'] (segs ++ [cur ++ [c]]) := by
            rw [List.cons_append, joinWith_extend]
          rw [e]
          have htw : cur ++ [c] ++ rest.takeWhile (· ≠ '/')
              = cur ++ (c :: rest).takeWhile (· ≠ '/') := by
            rw [List.takeWhile_cons, if_pos (by simpa using h1)]
            simp
          apply ihb segs hg (cur ++ [c]) (by simp)
          · intro hm
            rcases List.mem_append.mp hm with hm | hm
            · exact hc2 hm
            · exact h1 (List.mem_singleton.mp hm).symm
          · rw [htw]
            exact hc3
          · rw [htw]
            exact hc4


theorem indexByte_drop (c : Char) (s : Str) (i : Nat) (h : indexByte c s = some i) :
    (s.drop i).head? = some c := by
  induction s generalizing i with
  | nil => simp [indexByte] at h
  | cons d ds ih =>
    unfold indexByte at h
    split_ifs at h with hd
    · simp only [Option.some.injEq] at h
      subst h
      simp [hd]
    · cases hi : indexByte c ds with
      | none =>
        rw [hi] at h
        exact absurd h (by simp)
      | some j =>
        rw [hi] at h
        simp only [Option.map_some', Option.some.injEq] at h
        subst h
        simpa using ih j hi

theorem unescape_eq_nil (mode : Encoding) (s : Str) (h : unescape mode s = some []) :
    s = [] := by
  cases s with
  | nil => rfl
  | cons c rest =>
    exfalso
    by_cases hc : c = '%'
    · subst hc
      match rest, h with
      | [], h => simp [unescape] at h
      | [a], h => simp [unescape] at h
      | a :: b :: r, h =>
        rw [unescape_percent] at h
        split_ifs at h
        cases hr : unescape mode r <;> rw [hr] at h <;> simp at h
    · rw [unescape_other _ _ _ hc] at h
      split_ifs at h
      all_goals (cases hr : unescape mode rest <;> rw [hr] at h <;> simp at h)

theorem escapedPath_of_empty (u : URL) (h : u.Path = []) : u.EscapedPath = [] := by
  unfold URL.EscapedPath
  rw [h]
  split_ifs with h1 h2
  · exact absurd (unescape_eq_nil _ _ h1.2.2) h1.1
  · exact absurd h2 (by decide)
  · rfl

/-- The escaped path of a URL whose path was set from a text that is empty or starts
with a slash is empty or starts with a slash. -/
theorem URL.setPath_rooted (u p : URL) (x : Str) (h : u.setPath x = some p)
    (hx : x = [] ∨ x.head? = some '/') :
    p.EscapedPath = [] ∨ p.EscapedPath.head? = some '/' := by
  unfold URL.setPath at h
  cases hu : unescape .encodePath x with
  | none =>
    rw [hu] at h
    exact absurd h (by simp)
  | some path =>
    rw [hu] at h
    simp only [Option.some.injEq] at h
    have hrp : p.RawPath = [] ∨ p.RawPath = x := by
      rw [← h]
      dsimp only
      split_ifs
      · exact Or.inl rfl
      · exact Or.inr rfl
    have hpp : p.Path = path := by
      rw [← h]
    rcases hx with hx | hx
    · subst hx
      left
      apply escapedPath_of_empty
      rw [hpp]
      simpa [unescape] using hu.symm
    · cases x with
      | nil => exact absurd hx (by simp)
      | cons c t =>
        simp only [List.head?_cons, Option.some.injEq] at hx
        subst hx
        rw [unescape_other _ _ _ (by decide), if_neg (by decide), if_neg (by decide)] at hu
        cases ht : unescape .encodePath t with
        | none =>
          rw [ht] at hu
          exact absurd hu (by simp)
        | some path2 =>
          rw [ht] at hu
          simp only [Option.map_some', Option.some.injEq] at hu
          right
          unfold URL.EscapedPath
          rw [hpp, ← hu]
          split_ifs with h1 h2
          · rcases hrp with e | e
            · exact absurd e h1.1
            · rw [e]
              rfl
          · injection h2 with h3 _
            exact absurd h3 (by decide)
          · rw [escape_path_slash]
            rfl

theorem URL.setFragment_path (u p : URL) (x : Str) (h : u.setFragment x = some p) :
    p.EscapedPath = u.EscapedPath := by
  unfold URL.setFragment at h
  split at h
  · exact absurd h (by simp)
  · simp only [Option.some.injEq] at h
    subst h
    rfl

theorem parseNoFragment_rooted (r : Str) (p : URL) (h : parseNoFragment r = some p)
    (hh : p.Host ≠ []) : p.EscapedPath = [] ∨ p.EscapedPath.head? = some '/' := by
  unfold parseNoFragment at h
  split_ifs at h with h1 h2
  · simp only [Option.some.injEq] at h
    subst h
    exact absurd rfl hh
  · split at h
    · exact absurd h (by simp)
    · dsimp only at h
      split_ifs at h
      all_goals first
        | (simp only [Option.some.injEq] at h
           subst h
           exact absurd rfl hh)
        | exact absurd (URL.setPath_fields _ _ _ h).2.1 hh
        | (split at h
           · exact absurd h (by simp)
           · apply URL.setPath_rooted _ _ _ h
             split
             · rename_i i hi
               exact Or.inr (indexByte_drop _ _ _ hi)
             · exact Or.inl rfl)

/-- The escaped path of a URL that `url.Parse` returns with a host is empty or starts
with a slash. -/
theorem Parse_rooted (u : Str) (p : URL) (h : Parse u = some p) (hh : p.Host ≠ []) :
    p.EscapedPath = [] ∨ p.EscapedPath.head? = some '/' := by
  unfold Parse at h
  dsimp only at h
  split at h
  · exact absurd h (by simp)
  · rename_i url hurl
    split_ifs at h
    · simp only [Option.some.injEq] at h
      subst h
      exact parseNoFragment_rooted _ _ hurl hh
    · rw [URL.setFragment_path _ _ _ h]
      apply parseNoFragment_rooted _ _ hurl
      rw [← (URL.setFragment_fields _ _ _ h).2.1]
      exact hh

theorem pathClean_rooted (t : Str) : CleanRooted (pathClean ('/' :: t)) := by
  have h := (cleanLoop_rooted t.length t [] (le_refl _)
    (fun s hs => absurd hs (List.not_mem_nil _))).1
  have e : pathClean ('/' :: t)
      = if cleanLoop true false t "/".toList 1 = [] then ".".toList
        else cleanLoop true false t "/".toList 1 := rfl
  rw [e]
  have e2 : '/' :: joinWith ['/'] [] = "/".toList := rfl
  rw [e2] at h
  obtain ⟨segs, hs, hg⟩ := h
  rw [if_neg (by rw [hs]; exact List.cons_ne_nil _ _)]
  exact ⟨segs, hs, hg⟩

theorem cleanRooted_last (t : Str) (h : CleanRooted t) (hne : t ≠ "/".toList) :
    hasSuffix t "/".toList = false := by
  obtain ⟨segs, hs, hg⟩ := h
  have hsegs : segs ≠ [] := by
    intro e
    rw [e] at hs
    exact hne hs
  have hall : ∀ p ∈ segs, p ≠ [] := fun p hp => (hg p hp).1
  have hl := joinWith_getLast ['/'] segs hsegs hall
  have hlast := hg _ (List.getLast_mem hsegs)
  obtain ⟨ys, d, hyd⟩ : ∃ ys d, segs.getLast hsegs = ys ++ [d] :=
    ⟨_, _, (List.dropLast_append_getLast hlast.1).symm⟩
  have hd : d ≠ '/' := by
    intro e
    apply hlast.2.1
    rw [hyd, e]
    simp
  rw [hyd, List.getLast?_concat] at hl
  have hj : joinWith ['/'] segs ≠ [] := joinWith_good_ne_nil segs hsegs hg
  obtain ⟨zs, e, hze⟩ : ∃ zs e, joinWith ['/'] segs = zs ++ [e] :=
    ⟨_, _, (List.dropLast_append_getLast hj).symm⟩
  rw [hze, List.getLast?_concat] at hl
  simp only [Option.some.injEq] at hl
  apply hasSuffix_false t '/' d (('/' :: zs).reverse)
  · rw [hs, hze, hl]
    simp
  · exact hd

/-- The value `normalizeParsedURL` gives to the path when the escaped path it reads is
empty or starts with a slash. -/
theorem normalizedPath_rooted (p : URL)
    (h : p.EscapedPath = [] ∨ p.EscapedPath.head? = some '/') :
    CleanRooted (normalizedPath p) ∧ (p.EscapedPath = [] → normalizedPath p = "/".toList) := by
  have hempty : p.EscapedPath = [] → normalizedPath p = "/".toList := by
    intro he
    unfold normalizedPath
    rw [he]
    rfl
  refine ⟨?_, hempty⟩
  rcases h with h | h
  · rw [hempty h]
    exact ⟨[], rfl, fun s hs => absurd hs (List.not_mem_nil _)⟩
  · cases hp : p.EscapedPath with
    | nil =>
      rw [hp] at h
      exact absurd h (by simp)
    | cons c t =>
      rw [hp] at h
      simp only [List.head?_cons, Option.some.injEq] at h
      subst h
      have hc := pathClean_rooted t
      have hc2 := hc
      obtain ⟨segs, hs, hg⟩ := hc2
      have e : normalizedPath p = pathClean ('/' :: t) := by
        unfold normalizedPath
        rw [hp]
        dsimp only
        have h1 : ¬ (pathClean ('/' :: t) = ".".toList ∨ pathClean ('/' :: t) = []) := by
          rw [hs]
          intro hx
          rcases hx with hx | hx
          · injection hx with hx1 _
            exact absurd hx1 (by decide)
          · exact List.cons_ne_nil _ _ hx
        rw [if_neg h1]
        have h2 : hasPrefix (pathClean ('/' :: t)) "/".toList = true := by
          rw [hs]
          exact hasPrefix_append "/".toList _
        rw [h2]
        simp only [Bool.not_true, Bool.false_eq_true, if_false]
        split_ifs with h3
        · unfold trimSuffix
          rw [cleanRooted_last _ hc h3]
          rfl
        · rfl
      rw [e]
      exact hc


theorem escape_append (mode : Encoding) (a b : Str) :
    escape mode (a ++ b) = escape mode a ++ escape mode b := by
  induction a with
  | nil => rfl
  | cons c a ih =>
    rw [List.cons_append, escape, escape, ih]
    split_ifs <;> rfl

theorem escape_joinWith (segs : List Str) :
    escape .encodePath (joinWith ['/'] segs)
      = joinWith ['/'] (segs.map (escape .encodePath)) := by
  induction segs with
  | nil => rfl
  | cons p ps ih =>
    cases ps with
    | nil => rfl
    | cons q qs =>
      show escape .encodePath (p ++ ['/'] ++ joinWith ['/'] (q :: qs))
        = escape .encodePath p ++ ['/'] ++ joinWith ['/'] ((q :: qs).map (escape .encodePath))
      rw [escape_append, escape_append, ih]
      rfl

/-- A text whose escaped form consists of dots only is that escaped form. -/
theorem escape_dots (s : Str) : ∀ t : Str, (∀ c ∈ t, c = '.') →
    escape .encodePath s = t → s = t := by
  induction s with
  | nil =>
    intro t _ h
    exact h
  | cons c r ih =>
    intro t ht h
    rw [escape, if_neg (by simp)] at h
    by_cases hc : shouldEscape c .encodePath = true
    · rw [if_pos hc] at h
      have := ht '%' (by rw [← h]; exact List.mem_cons_self _ _)
      exact absurd this (by decide)
    · rw [if_neg hc] at h
      cases t with
      | nil => exact absurd h (List.cons_ne_nil _ _)
      | cons d t =>
        injection h with h1 h2
        rw [h1, ih t (fun x hx => ht x (List.mem_cons_of_mem _ hx)) h2]

theorem escape_good (s : Str) (h : GoodSegment s) : GoodSegment (escape .encodePath s) := by
  obtain ⟨h1, h2, h3, h4⟩ := h
  refine ⟨?_, ?_, ?_, ?_⟩
  · cases s with
    | nil => exact absurd rfl h1
    | cons c r =>
      rw [escape]
      split_ifs <;> exact List.cons_ne_nil _ _
  · intro hx
    rcases mem_escape _ _ _ hx with e | e | e | e
    · exact absurd e (by decide)
    · exact absurd e (by decide)
    · exact absurd e (by decide)
    · exact h2 e.1
  · intro e
    exact h3 (escape_dots s _ (by decide) e)
  · intro e
    exact h4 (escape_dots s _ (by decide) e)

theorem escape_cleanRooted (t : Str) (h : CleanRooted t) :
    CleanRooted (escape .encodePath t) := by
  obtain ⟨segs, hs, hg⟩ := h
  refine ⟨segs.map (escape .encodePath), ?_, ?_⟩
  · rw [hs, escape_path_slash, escape_joinWith]
  · intro s hs2
    obtain ⟨x, hx, e⟩ := List.mem_map.mp hs2
    rw [← e]
    exact escape_good x (hg x hx)

theorem escape_root (t : Str) (h : escape .encodePath t = "/".toList) : t = "/".toList := by
  cases t with
  | nil => exact absurd h (by decide)
  | cons c r =>
    rw [escape, if_neg (by simp)] at h
    split_ifs at h
    · injection h with h1 _
      exact absurd h1 (by decide)
    · injection h with h1 h2
      cases r with
      | nil => rw [h1]; rfl
      | cons d r =>
        rw [escape] at h2
        split_ifs at h2

theorem cleanRooted_canonical (t : Str) (h : CleanRooted t) : PathCanonical t := by
  have hh := h
  obtain ⟨segs, hs, hg⟩ := hh
  refine ⟨by rw [hs]; rfl, ?_, ?_⟩
  · by_cases hsegs : segs = []
    · left
      rw [hs, hsegs]
      rfl
    · right
      rw [hs]
      simp only [List.drop_succ_cons, List.drop_zero]
      rw [splitAll_joinWith '/' segs hsegs (fun p hp => (hg p hp).2.1)]
      exact fun s hs2 => ⟨(hg s hs2).1, (hg s hs2).2.2.1, (hg s hs2).2.2.2⟩
  · intro hl
    by_contra hne
    have hsuf := cleanRooted_last t h hne
    obtain ⟨ys, e⟩ : ∃ ys, t = ys ++ ['/'] := by
      have hne2 : t ≠ [] := by
        rw [hs]
        exact List.cons_ne_nil _ _
      refine ⟨t.dropLast, ?_⟩
      have := (List.dropLast_append_getLast hne2).symm
      rw [List.getLast?_eq_getLast _ hne2] at hl
      simp only [Option.some.injEq] at hl
      rw [hl] at this
      exact this
    rw [e] at hsuf
    unfold hasSuffix at hsuf
    have : List.isSuffixOf "/".toList (ys ++ ['/']) = true := by
      show List.isPrefixOf ['/'].reverse (ys ++ ['/']).reverse = true
      simp [List.isPrefixOf]
    rw [this] at hsuf
    exact absurd hsuf (by decide)

theorem dropWhile_append_stop (p : Char → Bool) (a b : Str) (x : Char)
    (ha : ∀ c ∈ a, p c = true) (hb : b.head? = some x) (hx : p x = false) :
    (a ++ b).dropWhile p = b := by
  induction a with
  | nil =>
    cases b with
    | nil => exact absurd hb (by simp)
    | cons d b =>
      simp only [List.head?_cons, Option.some.injEq] at hb
      subst hb
      rw [List.nil_append, List.dropWhile_cons, hx]
      rfl
  | cons c a ih =>
    rw [List.cons_append, List.dropWhile_cons, ha c (List.mem_cons_self _ _)]
    exact ih (fun y hy => ha y (List.mem_cons_of_mem _ hy))

/-- The path read off a text made of the scheme `http` or `https`, the text `://`, an
authority without slash or question mark, a path that starts with a slash and holds no
question mark, and a query part that is empty or starts with a question mark. -/
theorem urlPathOf_text (scheme eh ep q : Str)
    (hs : scheme = "http".toList ∨ scheme = "https".toList)
    (heh : ∀ c ∈ eh, c ≠ '/' ∧ c ≠ '?') (hep : ep.head? = some '/') (hepq : '?' ∉ ep)
    (hq : q = [] ∨ q.head? = some '?') :
    urlPathOf (scheme ++ "://".toList ++ eh ++ ep ++ q) = ep := by
  have hno : '?' ∉ scheme ++ "://".toList ++ eh ++ ep := by
    intro hx
    rcases List.mem_append.mp hx with hx | hx
    · rcases List.mem_append.mp hx with hx | hx
      · rcases hs with e | e <;> rw [e] at hx <;> revert hx <;> decide
      · exact (heh _ hx).2 rfl
    · exact hepq hx
  have hcut : (cutByte '?' (scheme ++ "://".toList ++ eh ++ ep ++ q)).1
      = scheme ++ "://".toList ++ eh ++ ep := by
    rcases hq with e | e
    · rw [e, List.append_nil, cutByte_not_mem _ _ hno]
    · cases q with
      | nil => exact absurd e (by simp)
      | cons d q =>
        simp only [List.head?_cons, Option.some.injEq] at e
        subst e
        rw [cutByte_append _ _ _ hno]
  unfold urlPathOf
  dsimp only
  rw [hcut]
  have hdw : (eh ++ ep).dropWhile (· ≠ '/') = ep :=
    dropWhile_append_stop _ eh ep '/' (fun c hc => by simpa using (heh c hc).1) hep (by simp)
  rcases hs with e | e
  · subst e
    have hi : indexSub "://".toList ("http".toList ++ "://".toList ++ eh ++ ep) = some 4 := by
      simp [indexSub, List.isPrefixOf]
    rw [hi]
    exact hdw
  · subst e
    have hi : indexSub "://".toList ("https".toList ++ "://".toList ++ eh ++ ep) = some 5 := by
      simp [indexSub, List.isPrefixOf]
    rw [hi]
    exact hdw

/-- The text `normalizeParsedURL` returns for a URL that `url.Parse` can produce: scheme,
`://`, escaped host, escaped normalized path, query part. -/
theorem normalizeParsedURL_text (L : Lib) (p : URL) (c : Bool) (v : Str)
    (hO : p.Opaque = [] ∨ p.Host = []) (hOm : p.OmitHost = true → p.Host = [])
    (h : normalizeParsedURL L p c = some v) :
    p.Host ≠ [] ∧ ∃ hp q : Str,
      (toLower L p.Scheme = "http".toList ∨ toLower L p.Scheme = "https".toList) ∧
      (q = [] ∨ q.head? = some '?') ∧
      v = toLower L p.Scheme ++ "://".toList ++ escape .encodeHost hp ++
        escape .encodePath (normalizedPath p) ++ q := by
  have hOp := normalizeParsedURL_Opaque_nil L p c v hO h
  have hHost : p.Host ≠ [] := by
    intro hp
    have h2 := h
    unfold normalizeParsedURL normalizedHostPort URL.Hostname at h2
    rw [hp] at h2
    have e : (splitHostPort []).1 = [] := by decide
    rw [e, normalizeHost_nil] at h2
    dsimp only at h2
    split_ifs at h2
  have hOmit : p.OmitHost = false := by
    cases ho : p.OmitHost with
    | false => rfl
    | true => exact absurd (hOm ho) hHost
  refine ⟨hHost, ?_⟩
  unfold normalizeParsedURL at h
  dsimp only at h
  split_ifs at h with h1 h2
  have hsch : toLower L p.Scheme = "http".toList ∨ toLower L p.Scheme = "https".toList := by
    by_contra hc
    push_neg at hc
    exact h2 hc
  cases hhp : normalizedHostPort L (toLower L p.Scheme) p with
  | none =>
    rw [hhp] at h
    exact absurd h (by simp)
  | some hp =>
    rw [hhp] at h
    simp only [Option.some.injEq] at h
    obtain ⟨t, ht⟩ := normalizedPath_head p
    have hne : toLower L p.Scheme ≠ [] := by
      rcases hsch with e | e <;> rw [e] <;> decide
    have hbody := stringBody_canonical
      { p with Scheme := toLower L p.Scheme, Host := hp, Fragment := [], User := none,
               Path := normalizedPath p, RawPath := [],
               RawQuery := normalizedQuery L p.RawQuery c } t hne hOp rfl hOmit rfl ht
    rw [URL.String_eq, hbody] at h
    dsimp only at h
    rw [if_neg (show ¬ (([] : Str) ≠ []) from fun hc => hc rfl), List.append_nil] at h
    have hauth : (if hp ≠ [] then escape .encodeHost hp else []) = escape .encodeHost hp := by
      split_ifs with h0
      · rfl
      · push_neg at h0
        rw [h0]
        rfl
    rw [hauth] at h
    refine ⟨hp, _, hsch, ?_, h.symm⟩
    unfold URL.stringQuery
    split_ifs
    · exact Or.inr rfl
    · exact Or.inl rfl


/-- C35 (path canonical form): when `NormalizeURL` succeeds on a text that `url.Parse`
reads as `p`, the path of the returned text (what follows the authority, up to the query)
is the escaped form of the value the code gives to the path field, and both that value
and the path of the returned text start with a slash, have no empty, `.` or `..` element
between slashes and end with a slash only when they are the root `/`; when the path of
the input is empty both are the root `/`. -/
theorem C35_path_canonical_form (L : Lib) (raw : Str) (clean : Bool) (p : URL) (v : Str)
    (hp : Parse (trimSpace raw) = some p) (h : NormalizeURL L raw clean = some v) :
    urlPathOf v = escape .encodePath (normalizedPath p) ∧
    PathCanonical (normalizedPath p) ∧
    PathCanonical (urlPathOf v) ∧
    (p.Path = [] → normalizedPath p = "/".toList ∧ urlPathOf v = "/".toList) := by
  obtain ⟨_, h2⟩ := NormalizeURL_Opaque_nil L raw v p clean hp h
  obtain ⟨hHost, hpq, q, hsch, hq, hv⟩ := normalizeParsedURL_text L p clean v
    (Parse_Opaque_or_Host _ _ hp) (fun ho => (Parse_OmitHost _ _ hp ho).1) h2
  obtain ⟨hcr, hemp⟩ := normalizedPath_rooted p (Parse_rooted _ _ hp hHost)
  have hecr := escape_cleanRooted _ hcr
  have hpath : urlPathOf v = escape .encodePath (normalizedPath p) := by
    rw [hv]
    apply urlPathOf_text _ _ _ _ hsch
    · exact fun c hc => ⟨(escape_host_chars hpq c hc).2.1, (escape_host_chars hpq c hc).2.2.1⟩
    · obtain ⟨segs, e, _⟩ := hecr
      rw [e]
      rfl
    · exact fun hx => (escape_NoQ .encodePath (Or.inr (Or.inl rfl)) _ '?' hx).1 rfl
    · exact hq
  refine ⟨hpath, cleanRooted_canonical _ hcr, ?_, ?_⟩
  · rw [hpath]
    exact cleanRooted_canonical _ hecr
  · intro he
    have e := hemp (escapedPath_of_empty p he)
    refine ⟨e, ?_⟩
    rw [hpath, e]
    rfl

theorem C35_path_canonical_form_witness :
    Parse (trimSpace "https://example.com/a/./b/../c/".toList) = some dottedParsed ∧
    NormalizeURL asciiLib "https://example.com/a/./b/../c/".toList true
      = some "https://example.com/a/c".toList ∧
    urlPathOf "https://example.com/a/c".toList
      = escape .encodePath (normalizedPath dottedParsed) ∧
    PathCanonical (urlPathOf "https://example.com/a/c".toList) :=
  have h := C35_path_canonical_form asciiLib "https://example.com/a/./b/../c/".toList true
    dottedParsed "https://example.com/a/c".toList (by decide) (by decide)
  ⟨by decide, by decide, h.1, h.2.2.1⟩


theorem foldl_edgePairs {F : Type} (f : Graph F → Str → Str → Graph F)
    (edges : List (Str × List Str)) (g0 : Graph F) :
    edges.foldl (fun pg e => e.2.foldl (fun pg dst => f pg e.1 dst) pg) g0
      = (edges.flatMap (fun e => e.2.map (fun dst => (e.1, dst)))).foldl
          (fun pg p => f pg p.1 p.2) g0 := by
  induction edges generalizing g0 with
  | nil => rfl
  | cons e es ih =>
    rw [List.foldl_cons, List.flatMap_cons, List.foldl_append, List.foldl_map, ih]

theorem foldl_AddNode_Nodes {F : Type} (ops : Float64Ops F) (nodes : List Str) (g : Graph F)
    (hn : nodes.Nodup) (hd : ∀ n ∈ nodes, ∀ x ∈ g.Nodes, x.Id ≠ n) :
    (nodes.foldl (fun pg node => pg.AddNode ops node) g).Nodes
      = g.Nodes ++ nodes.map (NewNode ops) := by
  induction nodes generalizing g with
  | nil => simp
  | cons n ns ih =>
    rw [List.nodup_cons] at hn
    have hc : g.CheckIfNodeExists n = false := by
      unfold Graph.CheckIfNodeExists
      rw [List.any_eq_false]
      intro x hx
      simpa using hd n (List.mem_cons_self _ _) x hx
    have e : g.AddNode ops n = { g with Nodes := g.Nodes ++ [NewNode ops n] } := by
      unfold Graph.AddNode
      rw [hc]
      rfl
    rw [List.foldl_cons, e, ih _ hn.2]
    · simp
    · intro m hm x hx
      rcases List.mem_append.mp hx with hx | hx
      · exact hd m (List.mem_cons_of_mem _ hm) x hx
      · rw [List.mem_singleton.mp hx]
        intro e2
        apply hn.1
        have : n = m := e2
        rw [this]
        exact hm

theorem CheckIfNodeExists_nodeWith {F : Type} (ops : Float64Ops F) (ids : List Str)
    (ps : List (Str × Str)) (es : List (Edge F)) (id : Str) (h : id ∈ ids) :
    Graph.CheckIfNodeExists { Nodes := ids.map (nodeWith ops ps), Edges := es } id = true := by
  unfold Graph.CheckIfNodeExists
  rw [List.any_eq_true]
  exact ⟨nodeWith ops ps id, List.mem_map_of_mem _ h, by simp [nodeWith]⟩

theorem filter_snoc_map (ps : List (Str × Str)) (p : Str × Str) (q : Str × Str → Bool) :
    ((ps ++ [p]).filter q).map (fun p => GenerateEdgeID p.1 p.2)
      = (ps.filter q).map (fun p => GenerateEdgeID p.1 p.2)
        ++ (if q p = true then [GenerateEdgeID p.1 p.2] else []) := by
  rw [List.filter_append, List.map_append]
  congr 1
  by_cases h : q p = true
  · rw [if_pos h, List.filter_cons_of_pos h]
    rfl
  · rw [if_neg h, List.filter_cons_of_neg h]
    rfl

/-- One call of `Graph.AddEdge` for a pair whose ends are nodes and whose edge id is new
adds the edge to the graph, to `Outgoing` of the source and to `Incoming` of the target. -/
theorem AddEdge_step {F : Type} (ops : Float64Ops F) (ids : List Str)
    (done : List (Str × Str)) (p : Str × Str) (hf : p.1 ∈ ids) (ht : p.2 ∈ ids)
    (hnew : ∀ q ∈ done, GenerateEdgeID q.1 q.2 ≠ GenerateEdgeID p.1 p.2) :
    Graph.AddEdge ops { Nodes := ids.map (nodeWith ops done), Edges := done.map (edgeOf ops) }
        p.1 p.2
      = { Nodes := ids.map (nodeWith ops (done ++ [p])),
          Edges := (done ++ [p]).map (edgeOf ops) } := by
  unfold Graph.AddEdge
  dsimp only
  rw [CheckIfNodeExists_nodeWith ops ids done _ p.1 hf]
  simp only [Bool.not_true, Bool.false_eq_true, if_false]
  rw [CheckIfNodeExists_nodeWith ops ids done _ p.2 ht]
  simp only [Bool.not_true, Bool.false_eq_true, if_false]
  have hc : Graph.CheckIfEdgeExists
      ({ Nodes := ids.map (nodeWith ops done), Edges := done.map (edgeOf ops) } : Graph F)
      (GenerateEdgeID p.1 p.2) = false := by
    unfold Graph.CheckIfEdgeExists
    rw [List.any_eq_false]
    intro x hx
    obtain ⟨q, hq, e⟩ := List.mem_map.mp hx
    rw [← e]
    simpa [edgeOf] using hnew q hq
  rw [hc]
  simp only [Bool.not_false, if_true]
  unfold Graph.insertEdge
  dsimp only
  have hout : ∀ (l : List (Str × Str)), (∀ q ∈ l, q ∈ done) →
      GenerateEdgeID p.1 p.2 ∉ l.map (fun p => GenerateEdgeID p.1 p.2) := by
    intro l hl hx
    obtain ⟨q, hq, e⟩ := List.mem_map.mp hx
    exact hnew q (hl q hq) e
  congr 1
  · rw [List.map_map]
    apply List.map_congr_left
    intro id _
    have ho := hout (done.filter (fun q => q.1 = id)) (fun q hq => (List.mem_filter.mp hq).1)
    have hi := hout (done.filter (fun q => q.2 = id)) (fun q hq => (List.mem_filter.mp hq).1)
    simp only [Function.comp]
    unfold nodeWith
    dsimp only
    rw [filter_snoc_map, filter_snoc_map]
    by_cases h1 : id = p.1
    · have e1 : decide (p.1 = id) = true := by simp [h1]
      by_cases h2 : id = p.2
      · have e2 : decide (p.2 = id) = true := by simp [h2]
        rw [if_pos h1, if_pos h2]
        simp only [setInsert, if_neg ho, if_neg hi, e1, e2, if_true]
      · have e2 : ¬ (decide (p.2 = id) = true) := by simpa using Ne.symm h2
        rw [if_pos h1, if_neg h2]
        simp only [setInsert, if_neg ho, e1, if_neg e2, if_true, List.append_nil]
    · have e1 : ¬ (decide (p.1 = id) = true) := by simpa using Ne.symm h1
      by_cases h2 : id = p.2
      · have e2 : decide (p.2 = id) = true := by simp [h2]
        rw [if_neg h1, if_pos h2]
        simp only [setInsert, if_neg hi, e2, if_neg e1, if_true, List.append_nil]
      · have e2 : ¬ (decide (p.2 = id) = true) := by simpa using Ne.symm h2
        rw [if_neg h1, if_neg h2]
        simp only [if_neg e1, if_neg e2, List.append_nil]
  · rw [List.map_append]
    rfl

theorem foldl_AddEdge_pairs {F : Type} (ops : Float64Ops F) (ids : List Str) :
    ∀ (ps done : List (Str × Str)), (done ++ ps).Nodup →
      (∀ p ∈ ps, p.1 ∈ ids ∧ p.2 ∈ ids) →
      (∀ p ∈ done ++ ps, ∀ q ∈ done ++ ps,
        GenerateEdgeID p.1 p.2 = GenerateEdgeID q.1 q.2 → p = q) →
      ps.foldl (fun pg p => Graph.AddEdge ops pg p.1 p.2)
          { Nodes := ids.map (nodeWith ops done), Edges := done.map (edgeOf ops) }
        = { Nodes := ids.map (nodeWith ops (done ++ ps)),
            Edges := (done ++ ps).map (edgeOf ops) } := by
  intro ps
  induction ps with
  | nil =>
    intro done _ _ _
    rw [List.append_nil]
    rfl
  | cons p ps ih =>
    intro done hn hends hinj
    have hp : p ∉ done := by
      intro hm
      rw [List.nodup_append] at hn
      exact hn.2.2 hm (List.mem_cons_self _ _)
    have e : done ++ p :: ps = (done ++ [p]) ++ ps := by simp
    rw [List.foldl_cons, AddEdge_step ops ids done p (hends p (List.mem_cons_self _ _)).1
      (hends p (List.mem_cons_self _ _)).2, e]
    · rw [e] at hn hinj
      exact ih (done ++ [p]) hn (fun q hq => hends q (List.mem_cons_of_mem _ hq)) hinj
    · intro q hq e2
      apply hp
      have := hinj q (List.mem_append_left _ hq) p
        (List.mem_append_right _ (List.mem_cons_self _ _)) e2
      rw [← this]
      exact hq

/-- The ranking graph the adapter builds from a link graph on which the edge ids tell the
edges apart: one node per node, one edge per edge. -/
theorem buildPRGraph_pairs {F : Type} (ops : Float64Ops F) (g : LinkGraph) (hg : GraphInv g)
    (hinj : ∀ p ∈ g.edgePairs, ∀ q ∈ g.edgePairs,
      GenerateEdgeID p.1 p.2 = GenerateEdgeID q.1 q.2 → p = q) :
    buildPRGraph ops g
      = { Nodes := g.nodes.map (nodeWith ops g.edgePairs),
          Edges := g.edgePairs.map (edgeOf ops) } := by
  unfold buildPRGraph
  dsimp only
  rw [foldl_edgePairs (fun pg a b => Graph.AddEdge ops pg a b)]
  have h0 : g.nodes.foldl (fun pg node => pg.AddNode ops node) (NewGraph : Graph F)
      = { Nodes := g.nodes.map (nodeWith ops []), Edges := ([] : List (Str × Str)).map (edgeOf ops) } := by
    have h1 := foldl_AddNode_Nodes ops g.nodes (NewGraph : Graph F) hg.nodes_nodup
      (fun _ _ x hx => absurd hx (List.not_mem_nil _))
    have h2 := foldl_AddNode_Edges ops g.nodes (NewGraph : Graph F)
    cases hgr : g.nodes.foldl (fun pg node => pg.AddNode ops node) (NewGraph : Graph F) with
    | mk ns es =>
      rw [hgr] at h1 h2
      dsimp only at h1 h2
      rw [h1, h2]
      rfl
  rw [h0]
  have hpairs := foldl_AddEdge_pairs ops g.nodes g.edgePairs []
    (by rw [List.nil_append]; exact edgePairs_nodup g hg)
    (fun p hp => by
      obtain ⟨a, b⟩ := p
      obtain ⟨t, ht, hb⟩ := (mem_edgePairs g a b).mp hp
      exact ⟨hg.source_node _ ht, hg.target_node _ ht b hb⟩)
    (by rw [List.nil_append]; exact hinj)
  rw [List.nil_append] at hpairs
  exact hpairs


theorem scheme_colon_split (s m k : Str) (hs : s = "http".toList ∨ s = "https".toList)
    (h : s ++ "://".toList = m ++ ':' :: k) : m = s ∧ k = "//".toList := by
  have hcount : List.count ':' (s ++ "://".toList) = 1 := by
    rcases hs with e | e <;> rw [e] <;> decide
  rw [h, List.count_append, List.count_cons_self] at hcount
  have hm : ':' ∉ m := by
    intro hx
    have := List.count_pos_iff.mpr hx
    omega
  have hsno : ':' ∉ s := by
    rcases hs with e | e <;> rw [e] <;> decide
  have c1 := cutByte_append ':' s "//".toList hsno
  have c2 := cutByte_append ':' m k hm
  have e : s ++ ':' :: "//".toList = m ++ ':' :: k := h
  rw [e, c2] at c1
  injection c1 with h1 h2
  injection h2 with h3 _
  exact ⟨h1, h3⟩

theorem oneScheme_no_tail (b d m : Str) (hb : OneScheme b) (hd : OneScheme d)
    (h : ':' :: b = m ++ ':' :: d) : m = [] := by
  cases m with
  | nil => rfl
  | cons x m =>
    exfalso
    rw [List.cons_append] at h
    injection h with _ h
    obtain ⟨sb, rb, hsb, eb, hnb⟩ := hb
    obtain ⟨sd, rd, hsd, ed, _⟩ := hd
    have hin : ∀ k : Str, rb = k ++ ':' :: d → False := by
      intro k e
      have hc : containsSub "://".toList rb = true := by
        rw [containsSub_iff]
        refine ⟨k ++ ':' :: sd, rd, ?_⟩
        rw [e, ed]
        simp
      rw [hc] at hnb
      exact absurd hnb (by decide)
    rw [eb] at h
    rcases List.append_eq_append_iff.mp h with ⟨k, _, e2⟩ | ⟨k, e1, e2⟩
    · exact hin k e2
    · cases k with
      | nil =>
        rw [List.nil_append] at e2
        exact hin [] (by rw [List.nil_append]; exact e2.symm)
      | cons y k =>
        rw [List.cons_append] at e2
        injection e2 with e3 e4
        rw [← e3] at e1
        have hk := (scheme_colon_split sb m k hsb e1).2
        rw [hk, ed] at e4
        rcases hsd with e | e <;> rw [e] at e4 <;> injection e4 with e5 _ <;>
          exact absurd e5 (by decide)

/-- The edge id tells the pairs apart when the targets are `http://` or `https://`
followed by a text without `://`. -/
theorem GenerateEdgeID_oneScheme (a b c d : Str) (hb : OneScheme b) (hd : OneScheme d)
    (h : GenerateEdgeID a b = GenerateEdgeID c d) : a = c ∧ b = d := by
  unfold GenerateEdgeID at h
  have h2 : a ++ ':' :: b = c ++ ':' :: d := by
    simpa using h
  rcases List.append_eq_append_iff.mp h2 with ⟨k, e1, e2⟩ | ⟨k, e1, e2⟩
  · have hk := oneScheme_no_tail b d k hb hd e2
    rw [hk, List.nil_append] at e2
    rw [hk, List.append_nil] at e1
    injection e2 with _ e3
    exact ⟨e1.symm, e3⟩
  · have hk := oneScheme_no_tail d b k hd hb e2
    rw [hk, List.nil_append] at e2
    rw [hk, List.append_nil] at e1
    injection e2 with _ e3
    exact ⟨e1, e3.symm⟩


theorem neighbours_nodup (g : LinkGraph) (hg : GraphInv g) (n : Str) :
    (g.outNeighbours n).Nodup ∧ (g.inNeighbours n).Nodup := by
  have hn := edgePairs_nodup g hg
  constructor
  · unfold LinkGraph.outNeighbours
    apply List.Nodup.map_on _ (hn.filter _)
    intro p hp q hq e
    have h1 := (List.mem_filter.mp hp).2
    have h2 := (List.mem_filter.mp hq).2
    simp only [decide_eq_true_eq] at h1 h2
    exact Prod.ext (h1.trans h2.symm) e
  · unfold LinkGraph.inNeighbours
    apply List.Nodup.map_on _ (hn.filter _)
    intro p hp q hq e
    have h1 := (List.mem_filter.mp hp).2
    have h2 := (List.mem_filter.mp hq).2
    simp only [decide_eq_true_eq] at h1 h2
    exact Prod.ext e (h1.trans h2.symm)

/-- C38 (no edge lost in the adapter; the code loses edges when node strings hold a
colon): `GenerateEdgeID` joins the two node ids with a colon, so the pairs `("a", "b:c")`
and `("a:b", "c")` have the same edge id, and of the two edges of the link graph built by
`AddEdge("a", "b:c")` and `AddEdge("a:b", "c")` the ranking graph holds only the first:
node `a:b` has out-degree 0 and node `c` in-degree 0, each with one neighbour in the link
graph.  On every link graph built by its methods on which the edge ids tell the edges
apart, the ranking graph holds one node per node and exactly one edge per pair, in the
order of the link graph, with distinct ids, and the out-degree and in-degree of every node
are the numbers of its distinct out-neighbours and in-neighbours.  The edge ids tell two
pairs apart whenever the targets are `http://` or `https://` followed by a text without
`://`. -/
theorem C38_no_edge_lost {F : Type} (ops : Float64Ops F) :
    (GraphInv colonGraph ∧
      colonGraph.edgePairs
        = [("a".toList, "b:c".toList), ("a:b".toList, "c".toList)] ∧
      GenerateEdgeID "a".toList "b:c".toList = GenerateEdgeID "a:b".toList "c".toList ∧
      (buildPRGraph ratOps colonGraph).Edges.map (fun e => (e.From, e.To))
        = [("a".toList, "b:c".toList)] ∧
      (buildPRGraph ratOps colonGraph).Nodes.map (fun n => (n.Id, n.OutDegree, n.InDegree))
        = [("a".toList, 1, 0), ("b:c".toList, 0, 1), ("a:b".toList, 0, 0),
           ("c".toList, 0, 0)] ∧
      colonGraph.outNeighbours "a:b".toList = ["c".toList] ∧
      colonGraph.inNeighbours "c".toList = ["a:b".toList]) ∧
    (∀ g : LinkGraph, GraphInv g →
      (∀ p ∈ g.edgePairs, ∀ q ∈ g.edgePairs,
        GenerateEdgeID p.1 p.2 = GenerateEdgeID q.1 q.2 → p = q) →
      (buildPRGraph ops g).Edges.map (fun e => (e.From, e.To)) = g.edgePairs ∧
      g.edgePairs.Nodup ∧
      ((buildPRGraph ops g).Edges.map (fun e => e.Id)).Nodup ∧
      (∀ e ∈ (buildPRGraph ops g).Edges, e.Id = GenerateEdgeID e.From e.To) ∧
      (buildPRGraph ops g).Nodes.map (fun n => n.Id) = g.nodes ∧
      ∀ n ∈ (buildPRGraph ops g).Nodes,
        n.OutDegree = (g.outNeighbours n.Id).length ∧
        n.InDegree = (g.inNeighbours n.Id).length ∧
        (g.outNeighbours n.Id).Nodup ∧ (g.inNeighbours n.Id).Nodup) ∧
    (∀ a b c d : Str, OneScheme b → OneScheme d →
      GenerateEdgeID a b = GenerateEdgeID c d → a = c ∧ b = d) := by
  refine ⟨⟨foldl_call_inv _ _ NewLinkGraph_inv, by decide, by decide, by decide, by decide,
    by decide, by decide⟩, ?_, GenerateEdgeID_oneScheme⟩
  intro g hg hinj
  have hb := buildPRGraph_pairs ops g hg hinj
  have hn := edgePairs_nodup g hg
  rw [hb]
  dsimp only
  refine ⟨?_, hn, ?_, ?_, ?_, ?_⟩
  · rw [List.map_map]
    have : ((fun e : Edge F => (e.From, e.To)) ∘ edgeOf ops) = id := by
      funext p
      rfl
    rw [this, List.map_id]
  · rw [List.map_map]
    apply List.Nodup.map_on _ hn
    intro p hp q hq e
    exact hinj p hp q hq e
  · intro e he
    obtain ⟨p, _, hp⟩ := List.mem_map.mp he
    rw [← hp]
    rfl
  · rw [List.map_map]
    have : ((fun n : Node F => n.Id) ∘ nodeWith ops g.edgePairs) = id := by
      funext p
      rfl
    rw [this, List.map_id]
  · intro n hnode
    obtain ⟨i, _, hi⟩ := List.mem_map.mp hnode
    rw [← hi]
    refine ⟨?_, ?_, neighbours_nodup g hg _⟩
    · simp [Node.OutDegree, nodeWith, LinkGraph.outNeighbours]
    · simp [Node.InDegree, nodeWith, LinkGraph.inNeighbours]

theorem C38_no_edge_lost_witness :
    GraphInv abcGraph ∧
    (∀ p ∈ abcGraph.edgePairs, ∀ q ∈ abcGraph.edgePairs,
      GenerateEdgeID p.1 p.2 = GenerateEdgeID q.1 q.2 → p = q) ∧
    (buildPRGraph ratOps abcGraph).Edges.map (fun e => (e.From, e.To)) = abcGraph.edgePairs ∧
    abcGraph.edgePairs.Nodup :=
  have hinv : GraphInv abcGraph :=
    AddEdge_inv _ _ _ (AddEdge_inv _ _ _ (AddEdge_inv _ _ _ NewLinkGraph_inv))
  have hinj : ∀ p ∈ abcGraph.edgePairs, ∀ q ∈ abcGraph.edgePairs,
      GenerateEdgeID p.1 p.2 = GenerateEdgeID q.1 q.2 → p = q := by decide
  have h := (C38_no_edge_lost ratOps).2.1 abcGraph hinv hinj
  ⟨hinv, hinj, h.1, h.2.1⟩


/-- Under a library whose IDNA routine returns the names of `trailingDotHosts` unchanged,
`normalizeHost` removes two of the three trailing dots of `example.com...`, the one
trailing dot of `example.com.`, and leaves `example.com` as it is. -/
theorem normalizeHost_trailing_dots (L : Lib) (hL : L.idnaFixes trailingDotHosts) :
    normalizeHost L "example.com...".toList = some "example.com.".toList ∧
    normalizeHost L "example.com.".toList = some "example.com".toList ∧
    normalizeHost L "example.com".toList = some "example.com".toList := by
  refine ⟨?_, ?_, ?_⟩
  · rw [normalizeHost_of_idna L "example.com...".toList "example.com..".toList
      "example.com..".toList (by decide) (by decide) (hL _ (by decide)) (by decide)]
    decide
  · rw [normalizeHost_of_idna L "example.com.".toList "example.com".toList
      "example.com".toList (by decide) (by decide) (hL _ (by decide)) (by decide)]
    decide
  · rw [normalizeHost_of_idna L "example.com".toList "example.com".toList
      "example.com".toList (by decide) (by decide) (hL _ (by decide)) (by decide)]
    decide

theorem asciiLib_fixes_trailingDotHosts : asciiLib.idnaFixes trailingDotHosts := by
  unfold Lib.idnaFixes
  decide

/-- C3 (host classification; the code departs from it on hosts with several trailing
dots): `ClassifyHost h` is `allowed` exactly when `h` normalizes and `IsAllowedHost`
accepts the normalized form, `out_of_scope` exactly when the normalized form is not
accepted but ends with a dot followed by the base domain, and `external` in every other
case, a failed normalization included; so it returns exactly one of the three.
`IsAllowedHost` normalizes its argument once more.  For a host whose normalized form `n`
is left unchanged by `normalizeHost`, this is the stated classification: `allowed` when
`h` is in the allowed set (`IsAllowedHost h`, which is then `n` being a member of the
set), `out_of_scope` when it is not but `n` ends with a dot followed by the base domain,
`external` otherwise.  For other hosts it is not: `normalizeHost` removes one trailing
dot before and one after the IDNA conversion, so `example.com...` normalizes to
`example.com.` and that to `example.com`.  With the scope of example.com the host
`example.com...` is classified `allowed` although it is not in the allowed set
(`IsAllowedHost` rejects it); with the scope `NewScope` builds from `example.com...`,
whose allowed set holds `example.com.`, the hosts `example.com.` (a member of the set)
and `example.com...` (accepted by `IsAllowedHost`) are classified `external`.  For the
base domain example.com, www.example.com is allowed, blog.example.com is out of scope,
example.org is external, and so is notexample.com, which ends with the base domain
without a separating dot. -/
theorem C3_classify_host (L : Lib) :
    (∀ (s : Scope) (h : Str),
      (s.ClassifyHost L h = .allowed ↔
        ∃ n, normalizeHost L h = some n ∧ s.IsAllowedHost L n = true) ∧
      (s.ClassifyHost L h = .outOfScope ↔
        ∃ n, normalizeHost L h = some n ∧ s.IsAllowedHost L n = false ∧
          hasSuffix n (".".toList ++ s.BaseDomain) = true) ∧
      (s.ClassifyHost L h = .external ↔
        normalizeHost L h = none ∨
        ∃ n, normalizeHost L h = some n ∧ s.IsAllowedHost L n = false ∧
          hasSuffix n (".".toList ++ s.BaseDomain) = false)) ∧
    (∀ (s : Scope) (h n : Str), normalizeHost L h = some n → normalizeHost L n = some n →
      s.IsAllowedHost L h = decide (n ∈ s.allowedSet) ∧
      (s.ClassifyHost L h = .allowed ↔ s.IsAllowedHost L h = true) ∧
      (s.ClassifyHost L h = .outOfScope ↔
        s.IsAllowedHost L h = false ∧ hasSuffix n (".".toList ++ s.BaseDomain) = true) ∧
      (s.ClassifyHost L h = .external ↔
        s.IsAllowedHost L h = false ∧ hasSuffix n (".".toList ++ s.BaseDomain) = false)) ∧
    (∀ (s : Scope) (h : Str), normalizeHost L h = none →
      s.ClassifyHost L h = .external ∧ s.IsAllowedHost L h = false) ∧
    (L.idnaFixes trailingDotHosts →
      normalizeHost L "example.com...".toList = some "example.com.".toList ∧
      normalizeHost L "example.com.".toList = some "example.com".toList ∧
      "example.com...".toList ∉ exampleScope.allowedSet ∧
      exampleScope.IsAllowedHost L "example.com...".toList = false ∧
      exampleScope.ClassifyHost L "example.com...".toList = .allowed ∧
      NewScope L "example.com...".toList = some trailingDotScope ∧
      "example.com.".toList ∈ trailingDotScope.allowedSet ∧
      trailingDotScope.ClassifyHost L "example.com.".toList = .external ∧
      trailingDotScope.IsAllowedHost L "example.com...".toList = true ∧
      trailingDotScope.ClassifyHost L "example.com...".toList = .external) ∧
    (L.idnaFixes exampleHosts →
      exampleScope.ClassifyHost L "www.example.com".toList = .allowed ∧
      exampleScope.ClassifyHost L "blog.example.com".toList = .outOfScope ∧
      exampleScope.ClassifyHost L "example.org".toList = .external ∧
      exampleScope.ClassifyHost L "notexample.com".toList = .external) := by
  have hcode : ∀ (s : Scope) (h : Str),
      (s.ClassifyHost L h = .allowed ↔
        ∃ n, normalizeHost L h = some n ∧ s.IsAllowedHost L n = true) ∧
      (s.ClassifyHost L h = .outOfScope ↔
        ∃ n, normalizeHost L h = some n ∧ s.IsAllowedHost L n = false ∧
          hasSuffix n (".".toList ++ s.BaseDomain) = true) ∧
      (s.ClassifyHost L h = .external ↔
        normalizeHost L h = none ∨
        ∃ n, normalizeHost L h = some n ∧ s.IsAllowedHost L n = false ∧
          hasSuffix n (".".toList ++ s.BaseDomain) = false) := by
    intro s h
    unfold Scope.ClassifyHost
    cases hn : normalizeHost L h with
    | none => simp
    | some n =>
      by_cases ha : s.IsAllowedHost L n = true
      · simp [ha]
      · have ha' : s.IsAllowedHost L n = false := by simpa using ha
        by_cases hs : hasSuffix n (".".toList ++ s.BaseDomain) = true
        · simp at hs
          simp [ha', hs]
        · simp at hs
          simp [ha', hs]
  refine ⟨hcode, ?_, ?_, ?_, ?_⟩
  · intro s h n hn hnn
    have hsame : s.IsAllowedHost L n = s.IsAllowedHost L h := by
      unfold Scope.IsAllowedHost
      rw [hn, hnn]
    have hmem : s.IsAllowedHost L h = decide (n ∈ s.allowedSet) := by
      unfold Scope.IsAllowedHost
      rw [hn]
    obtain ⟨c1, c2, c3⟩ := hcode s h
    refine ⟨hmem, ?_, ?_, ?_⟩
    · rw [c1, ← hsame]
      constructor
      · rintro ⟨m, hm, ha⟩
        rw [hn] at hm
        injection hm with hm
        rw [hm]
        exact ha
      · exact fun ha => ⟨n, hn, ha⟩
    · rw [c2, ← hsame]
      constructor
      · rintro ⟨m, hm, ha⟩
        rw [hn] at hm
        injection hm with hm
        rw [hm]
        exact ha
      · exact fun ha => ⟨n, hn, ha⟩
    · rw [c3, ← hsame]
      constructor
      · rintro (hx | ⟨m, hm, ha⟩)
        · rw [hn] at hx
          exact absurd hx (by simp)
        · rw [hn] at hm
          injection hm with hm
          rw [hm]
          exact ha
      · exact fun ha => Or.inr ⟨n, hn, ha⟩
  · intro s h hn
    refine ⟨((hcode s h).2.2).mpr (Or.inl hn), ?_⟩
    unfold Scope.IsAllowedHost
    rw [hn]
  · intro hL
    obtain ⟨e1, e2, e3⟩ := normalizeHost_trailing_dots L hL
    have p1 : scopeHostOfInput "example.com...".toList = some "example.com...".toList := by
      decide
    have q1 : scopeOfNormalizedHost "example.com.".toList = some trailingDotScope := by
      decide
    refine ⟨e1, e2, by decide, ?_, ?_, ?_, by decide, ?_, ?_, ?_⟩
    · unfold Scope.IsAllowedHost; rw [e1]; decide
    · unfold Scope.ClassifyHost Scope.IsAllowedHost; rw [e1]; simp only [e2]; decide
    · rw [NewScope_eq, p1, Option.some_bind, e1, Option.some_bind, q1]
    · unfold Scope.ClassifyHost Scope.IsAllowedHost; rw [e2]; simp only [e3]; decide
    · unfold Scope.IsAllowedHost; rw [e1]; decide
    · unfold Scope.ClassifyHost Scope.IsAllowedHost; rw [e1]; simp only [e2]; decide
  · intro hL
    have e2 := normalizeHost_example L hL "www.example.com".toList "www.example.com".toList
      (by decide) (by decide) (by decide) (by decide)
    have e5 := normalizeHost_example L hL "blog.example.com".toList "blog.example.com".toList
      (by decide) (by decide) (by decide) (by decide)
    have e7 := normalizeHost_example L hL "example.org".toList "example.org".toList
      (by decide) (by decide) (by decide) (by decide)
    have e8 := normalizeHost_example L hL "notexample.com".toList "notexample.com".toList
      (by decide) (by decide) (by decide) (by decide)
    refine ⟨?_, ?_, ?_, ?_⟩
    · unfold Scope.ClassifyHost Scope.IsAllowedHost; rw [e2]; simp only [e2]; decide
    · unfold Scope.ClassifyHost Scope.IsAllowedHost; rw [e5]; simp only [e5]; decide
    · unfold Scope.ClassifyHost Scope.IsAllowedHost; rw [e7]; simp only [e7]; decide
    · unfold Scope.ClassifyHost Scope.IsAllowedHost; rw [e8]; simp only [e8]; decide

theorem C3_classify_host_witness :
    normalizeHost asciiLib "WWW.Example.com.".toList = some "www.example.com".toList ∧
    normalizeHost asciiLib "www.example.com".toList = some "www.example.com".toList ∧
    (exampleScope.ClassifyHost asciiLib "WWW.Example.com.".toList = .allowed ↔
      exampleScope.IsAllowedHost asciiLib "WWW.Example.com.".toList = true) ∧
    asciiLib.idnaFixes trailingDotHosts ∧
    exampleScope.IsAllowedHost asciiLib "example.com...".toList = false ∧
    exampleScope.ClassifyHost asciiLib "example.com...".toList = .allowed ∧
    trailingDotScope.IsAllowedHost asciiLib "example.com...".toList = true ∧
    trailingDotScope.ClassifyHost asciiLib "example.com...".toList = .external :=
  have h := (C3_classify_host asciiLib).2.2.2.1 asciiLib_fixes_trailingDotHosts
  ⟨by decide, by decide,
    ((C3_classify_host asciiLib).2.1 exampleScope "WWW.Example.com.".toList
      "www.example.com".toList (by decide) (by decide)).2.1,
    asciiLib_fixes_trailingDotHosts, h.2.2.2.1, h.2.2.2.2.1, h.2.2.2.2.2.2.2.2.1,
    h.2.2.2.2.2.2.2.2.2⟩


/-! ## crawl.go: leaving the loop by `break` -/

/-- A round begun with a non-empty queue leaves the loop by `break` exactly when the head
check finds the context done, or when it reaches the politeness sleep (the entry is new,
within the depth bound, allowed by robots, not the seed page, and a navigation was made
before) and the sleep is interrupted. -/
theorem crawlStep_broke_iff {F : Type} (L : Lib) (cfg : Config) (scope : Scope)
    (s : CrawlState F) (r : Response) (current : queueItem) (queue : List queueItem)
    (hs : s.broke = false) (hq : s.queue = current :: queue) :
    (crawlStep L cfg scope s r).broke = true ↔
      r.cancelled = true ∨
      (r.cancelled = false ∧ current.URL ∉ s.processed ∧
        ¬ (cfg.Strategy = StrategyDepth ∧ current.Depth > cfg.MaxDepth) ∧
        r.robotsAllowed = true ∧ mapGet s.seedPages current.URL = none ∧
        s.firstNavigation = false ∧ sleepWithJitter cfg.Delay r.sleepCompleted = false) := by
  unfold crawlStep
  by_cases hc : r.cancelled = true
  · rw [if_pos hc]
    simp [hc]
  · have hc' : r.cancelled = false := by simpa using hc
    rw [if_neg hc, hq]
    dsimp only
    by_cases hp : current.URL ∈ s.processed
    · rw [if_pos hp]
      simp [hs, hc', hp]
    · rw [if_neg hp]
      by_cases hd : cfg.Strategy = StrategyDepth ∧ current.Depth > cfg.MaxDepth
      · rw [if_pos hd]
        simp [hs, hc', hd]
      · rw [if_neg hd]
        cases hr : r.robotsAllowed with
        | false => simp [hs, hc']
        | true =>
          simp only [Bool.not_true, Bool.false_eq_true, if_false]
          cases hm : mapGet s.seedPages current.URL with
          | some seed =>
            dsimp only
            obtain ⟨_, _, _, _, hb, _⟩ := afterFetch_effect L cfg scope
              { s with queue := queue, processed := setInsert s.processed current.URL,
                       seedPages := s.seedPages.filter (fun kv => kv.1 ≠ current.URL) }
              current seed
            rw [hb]
            simp [hs, hc']
          | none =>
            dsimp only
            cases hf : s.firstNavigation with
            | true =>
              simp only [Bool.not_true, Bool.false_eq_true, false_and, if_false]
              cases hfetch : r.fetch with
              | error e => simp [hs, hc']
              | ok fetched =>
                dsimp only
                obtain ⟨_, _, _, _, hb, _⟩ := afterFetch_effect L cfg scope
                  { s with queue := queue, processed := setInsert s.processed current.URL,
                           firstNavigation := false,
                           navigations := s.navigations ++ [current.URL] }
                  current fetched
                rw [hb]
                simp [hs, hc']
            | false =>
              cases hsl : sleepWithJitter cfg.Delay r.sleepCompleted with
              | false => simp [hc', hp, hd]
              | true =>
                simp only [Bool.not_true, Bool.false_eq_true, and_false, if_false]
                cases hfetch : r.fetch with
                | error e => simp [hs, hc']
                | ok fetched =>
                  dsimp only
                  obtain ⟨_, _, _, _, hb, _⟩ := afterFetch_effect L cfg scope
                    { s with queue := queue, processed := setInsert s.processed current.URL,
                             firstNavigation := false,
                             navigations := s.navigations ++ [current.URL] }
                    current fetched
                  rw [hb]
                  simp [hs, hc']

/-- A round that reaches the politeness sleep and finds it interrupted by the context
leaves the loop by `break`: the entry was taken from the queue and marked processed, and
nothing else changed. -/
theorem crawlStep_sleep_interrupted {F : Type} (L : Lib) (cfg : Config) (scope : Scope)
    (s : CrawlState F) (r : Response) (current : queueItem) (queue : List queueItem)
    (hq : s.queue = current :: queue) (hc : r.cancelled = false)
    (hp : current.URL ∉ s.processed)
    (hd : ¬ (cfg.Strategy = StrategyDepth ∧ current.Depth > cfg.MaxDepth))
    (hr : r.robotsAllowed = true) (hm : mapGet s.seedPages current.URL = none)
    (hf : s.firstNavigation = false) (hdelay : 0 < cfg.Delay)
    (hsl : r.sleepCompleted = false) :
    crawlStep L cfg scope s r
      = { s with queue := queue, processed := setInsert s.processed current.URL,
                 broke := true } := by
  have hj : sleepWithJitter cfg.Delay r.sleepCompleted = false := by
    unfold sleepWithJitter
    rw [if_neg (by omega), hsl]
  unfold crawlStep
  rw [if_neg (by simp [hc]), hq]
  dsimp only
  rw [if_neg hp, if_neg hd, hr]
  simp only [Bool.not_true, Bool.false_eq_true, if_false]
  rw [hm]
  dsimp only
  rw [hf, hj]
  simp

/-- A run of the loop that was left by `break` consists of rounds made with the loop
condition true, none of which left the loop, and one more round that left it without
touching the result. -/
theorem runLoop_broke_split {F : Type} (L : Lib) (cfg : Config) (scope : Scope)
    (rs : List Response) (s : CrawlState F) (hs : s.broke = false)
    (h : (runLoop L cfg scope rs s).broke = true) :
    ∃ pre r post, rs = pre ++ r :: post ∧
      loopRunning cfg (runLoop L cfg scope pre s) = true ∧
      runLoop L cfg scope rs s = crawlStep L cfg scope (runLoop L cfg scope pre s) r ∧
      (r.cancelled = true ∨ r.sleepCompleted = false) ∧
      (runLoop L cfg scope rs s).result = (runLoop L cfg scope pre s).result := by
  induction rs generalizing s with
  | nil =>
    have e : runLoop L cfg scope [] s = s := rfl
    rw [e, hs] at h
    exact absurd h (by simp)
  | cons r rs ih =>
    have e0 : runLoop L cfg scope (r :: rs) s
        = if loopRunning cfg s then runLoop L cfg scope rs (crawlStep L cfg scope s r)
          else s := rfl
    by_cases hrun : loopRunning cfg s = true
    · rw [e0, if_pos hrun] at h ⊢
      cases hb : (crawlStep L cfg scope s r).broke with
      | true =>
        have e := runLoop_of_broke L cfg scope rs _ hb
        obtain ⟨h1, h2⟩ := crawlStep_broke L cfg scope s r hs hb
        exact ⟨[], r, rs, rfl, hrun, e, h1, by rw [e, h2]; rfl⟩
      | false =>
        obtain ⟨pre, r', post, e1, e2, e3, e4, e5⟩ := ih _ hb h
        have e6 : runLoop L cfg scope (r :: pre) s
            = runLoop L cfg scope pre (crawlStep L cfg scope s r) := by
          show (if loopRunning cfg s then runLoop L cfg scope pre (crawlStep L cfg scope s r)
            else s) = _
          rw [if_pos hrun]
        refine ⟨r :: pre, r', post, by rw [e1]; rfl, ?_, ?_, e4, ?_⟩
        · rw [e6]
          exact e2
        · rw [e6]
          exact e3
        · rw [e6]
          exact e5
    · rw [e0, if_neg hrun, hs] at h
      exact absurd h (by simp)

/-! ## crawl.go: the context -/

theorem GoContext.Err_later (c : GoContext) (t u : Nat) (h : (c.Err t).isSome = true)
    (htu : t ≤ u) : c.Err u = some c.err := by
  unfold GoContext.Err at h ⊢
  cases hd : c.doneFrom with
  | none =>
    rw [hd] at h
    exact absurd h (by simp)
  | some d =>
    rw [hd] at h
    dsimp only at h ⊢
    by_cases hle : d ≤ t
    · rw [if_pos (by omega)]
    · rw [if_neg hle] at h
      exact absurd h (by simp)

theorem responsesUnder_done (c : GoContext) (rs : List Response) :
    ∀ (k : Nat) (r : Response), r ∈ responsesUnder c k rs →
      (r.cancelled = true ∨ r.sleepCompleted = false) →
      c.Err (2 * (k + rs.length)) = some c.err := by
  induction rs with
  | nil =>
    intro k r hr
    exact absurd hr (List.not_mem_nil _)
  | cons x rs ih =>
    intro k r hr hobs
    rw [responsesUnder] at hr
    rcases List.mem_cons.mp hr with e | hmem
    · rw [e] at hobs
      dsimp only at hobs
      rcases hobs with h1 | h1
      · exact c.Err_later (2 * k) _ h1 (by simp only [List.length_cons]; omega)
      · apply c.Err_later (2 * k + 1) _ _ (by simp only [List.length_cons]; omega)
        cases he : c.Err (2 * k + 1) with
        | none =>
          rw [he] at h1
          exact absurd h1 (by simp)
        | some e => rfl
    · have := ih (k + 1) r hmem hobs
      rw [List.length_cons]
      rw [show 2 * (k + (rs.length + 1)) = 2 * (k + 1 + rs.length) by omega]
      exact this

theorem responsesUnder_never (c : GoContext) (hc : c.doneFrom = none) (rs : List Response) :
    ∀ (k : Nat) (r : Response), r ∈ responsesUnder c k rs →
      r.cancelled = false ∧ r.sleepCompleted = true := by
  have hnone : ∀ t, c.Err t = none := by
    intro t
    unfold GoContext.Err
    rw [hc]
  induction rs with
  | nil =>
    intro k r hr
    exact absurd hr (List.not_mem_nil _)
  | cons x rs ih =>
    intro k r hr
    rw [responsesUnder] at hr
    rcases List.mem_cons.mp hr with e | hmem
    · rw [e]
      dsimp only
      rw [hnone, hnone]
      exact ⟨rfl, rfl⟩
    · exact ih (k + 1) r hmem

theorem crawlStart_under (L : Lib) (cfg : Config) (w : World) (c : GoContext) :
    crawlStart L cfg (w.under c) = crawlStart L cfg w := rfl


/-- C19 (cancellation): a round of the loop whose head check finds the context done
changes nothing but leaves the loop; a round that reaches the politeness sleep and finds
it interrupted by the context leaves the loop too, having only taken the entry from the
queue; a round leaves the loop by `break` only when its head check found the context
done or its sleep was interrupted, and then records no page; once the loop is left so, no
further round is made.  In a world whose answers about the context are those of one
context (nil error until it is done, the same error ever after), a run whose loop was
left by `break` consists of rounds made with the loop condition true and one round that
found the context done, and `Crawl` returns a non-nil result together with the error of
the context, unwrapped: `context.Canceled` for a context whose cancel function was
called, an error that `errors.Is` tells from the other errors `Crawl` returns.  The
result is that of the rounds before the interruption: its pages are the pages recorded by
them, none dropped and none added (the same list, or under the pagerank strategy a
rearrangement of it with the scores set).  With a context that is not done during the run
the loop is never left by `break` and the error returned after the loop is nil.  In every
world the error returned after the loop is `ctx.Err()` at the return, unwrapped, and the
result is non-nil. -/
theorem C19_cancellation {F : Type} (L : Lib) (ops : Float64Ops F) (engine : RankEngine F)
    (cfg : Config) :
    (∀ (scope : Scope) (s : CrawlState F) (r : Response), r.cancelled = true →
      crawlStep L (effectiveConfig cfg) scope s r = { s with broke := true }) ∧
    (∀ (scope : Scope) (s : CrawlState F) (r : Response) (current : queueItem)
        (queue : List queueItem),
      s.queue = current :: queue → r.cancelled = false → current.URL ∉ s.processed →
      ¬ ((effectiveConfig cfg).Strategy = StrategyDepth ∧
          current.Depth > (effectiveConfig cfg).MaxDepth) →
      r.robotsAllowed = true → mapGet s.seedPages current.URL = none →
      s.firstNavigation = false → 0 < (effectiveConfig cfg).Delay →
      r.sleepCompleted = false →
      crawlStep L (effectiveConfig cfg) scope s r
        = { s with queue := queue, processed := setInsert s.processed current.URL,
                   broke := true }) ∧
    (∀ (scope : Scope) (s : CrawlState F) (r : Response), s.broke = false →
      (crawlStep L (effectiveConfig cfg) scope s r).broke = true →
      (r.cancelled = true ∨ r.sleepCompleted = false) ∧
        (crawlStep L (effectiveConfig cfg) scope s r).result = s.result) ∧
    (∀ (scope : Scope) (s : CrawlState F) (rs : List Response), s.broke = true →
      runLoop L (effectiveConfig cfg) scope rs s = s) ∧
    (∀ (w : World) (c : GoContext) (scope : Scope) (startURL : Str)
        (startFetch : fetchedPage) (navs : List Str) (s0 : CrawlState F),
      crawlStart L cfg w = some (scope, startURL, startFetch, navs) →
      s0 = initialState (effectiveConfig cfg) scope startURL startFetch navs →
      (runLoop L (effectiveConfig cfg) scope (w.under c).responses s0).broke = true →
      ∃ (pre : List Response) (r : Response) (post : List Response)
          (before final : CrawlState F),
        (w.under c).responses = pre ++ r :: post ∧
        before = runLoop L (effectiveConfig cfg) scope pre s0 ∧
        final = crawlStep L (effectiveConfig cfg) scope before r ∧
        loopRunning (effectiveConfig cfg) before = true ∧
        (r.cancelled = true ∨ r.sleepCompleted = false) ∧
        final.result = before.result ∧
        Crawl L ops engine cfg (w.under c)
          = some (some (finishCrawl ops engine (effectiveConfig cfg) final), some c.err) ∧
        (∃ scored : List (Page F),
          (finishCrawl ops engine (effectiveConfig cfg) final).Pages.Perm scored ∧
          List.Forall₂ (fun (p q : Page F) => q = { p with Score := q.Score })
            before.result.Pages scored) ∧
        (cfg.Strategy ≠ StrategyPageRank →
          (finishCrawl ops engine (effectiveConfig cfg) final).Pages
            = before.result.Pages)) ∧
    (∀ (w : World) (c : GoContext) (scope : Scope) (startURL : Str)
        (startFetch : fetchedPage) (navs : List Str),
      c.doneFrom = none →
      crawlStart L cfg w = some (scope, startURL, startFetch, navs) →
      (runLoop L (effectiveConfig cfg) scope (w.under c).responses
        (initialState (effectiveConfig cfg) scope startURL startFetch navs :
          CrawlState F)).broke = false ∧
      ∀ res err, Crawl L ops engine cfg (w.under c) = some (res, err) → err = none) ∧
    (∀ (w : World) (scope : Scope) (startURL : Str) (startFetch : fetchedPage)
        (navs : List Str) (res : Option (CrawlResult F)) (err : Option GoError),
      crawlStart L cfg w = some (scope, startURL, startFetch, navs) →
      Crawl L ops engine cfg w = some (res, err) →
      res ≠ none ∧ err = w.ctxErrAtReturn) ∧
    ((∀ t, (cancelledFrom t).err = ctxCanceled) ∧ ctxCanceled.isCanceled = true ∧
      errInvalidDomain.isCanceled = false ∧ errNavigationFailed.isCanceled = false) := by
  refine ⟨?_, ?_, ?_, ?_, ?_, ?_, ?_, ⟨fun _ => rfl, rfl, rfl, rfl⟩⟩
  · intro scope s r hc
    unfold crawlStep
    rw [if_pos hc]
  · intro scope s r current queue hq hc hp hd hr hm hf hdelay hsl
    exact crawlStep_sleep_interrupted L _ scope s r current queue hq hc hp hd hr hm hf
      hdelay hsl
  · intro scope s r hs h
    exact crawlStep_broke L _ scope s r hs h
  · intro scope s rs h
    exact runLoop_of_broke L _ scope rs s h
  · intro w c scope startURL startFetch navs s0 hstart hs0 hb
    have hs0b : s0.broke = false := by
      rw [hs0]
      rfl
    obtain ⟨pre, r, post, e1, e2, e3, e4, e5⟩ :=
      runLoop_broke_split L (effectiveConfig cfg) scope _ s0 hs0b hb
    have hmem : r ∈ responsesUnder c 0 w.responses := by
      have : (w.under c).responses = responsesUnder c 0 w.responses := rfl
      rw [← this, e1]
      exact List.mem_append_right _ (List.mem_cons_self _ _)
    have herr : (w.under c).ctxErrAtReturn = some c.err := by
      have := responsesUnder_done c w.responses 0 r hmem e4
      rw [Nat.zero_add] at this
      exact this
    have hrun : loopRunning (effectiveConfig cfg)
        (runLoop L (effectiveConfig cfg) scope (w.under c).responses s0) = false := by
      unfold loopRunning
      rw [hb]
      simp
    have hC := Crawl_of_start L ops engine cfg (w.under c) scope startURL startFetch navs
      (by rw [crawlStart_under]; exact hstart)
    rw [← hs0, hrun, herr, e3] at hC
    obtain ⟨p1, p2⟩ := finishCrawl_pages ops engine (effectiveConfig cfg)
      (crawlStep L (effectiveConfig cfg) scope
        (runLoop L (effectiveConfig cfg) scope pre s0) r)
    have hres : (crawlStep L (effectiveConfig cfg) scope
        (runLoop L (effectiveConfig cfg) scope pre s0) r).result
        = (runLoop L (effectiveConfig cfg) scope pre s0).result := by
      rw [← e3]
      exact e5
    refine ⟨pre, r, post, _, _, e1, rfl, rfl, e2, e4, hres, ?_, ?_, ?_⟩
    · rw [hC]
      rfl
    · rw [← hres]
      exact p1
    · intro hne
      rw [p2 (by rw [(effectiveConfig_bounds cfg).2.2.2]; exact hne), hres]
  · intro w c scope startURL startFetch navs hc hstart
    have hnb : (runLoop L (effectiveConfig cfg) scope (w.under c).responses
        (initialState (effectiveConfig cfg) scope startURL startFetch navs :
          CrawlState F)).broke = false := by
      cases hb : (runLoop L (effectiveConfig cfg) scope (w.under c).responses
        (initialState (effectiveConfig cfg) scope startURL startFetch navs :
          CrawlState F)).broke with
      | false => rfl
      | true =>
        exfalso
        rcases runLoop_broke_of L (effectiveConfig cfg) scope _ _ hb with h0 | ⟨r, hr, hobs⟩
        · exact absurd h0 (by simp [initialState])
        · obtain ⟨h1, h2⟩ := responsesUnder_never c hc w.responses 0 r hr
          rcases hobs with h | h
          · rw [h1] at h
            exact absurd h (by simp)
          · rw [h2] at h
            exact absurd h (by simp)
    refine ⟨hnb, ?_⟩
    intro res err hC
    have hC2 := Crawl_of_start L ops engine cfg (w.under c) scope startURL startFetch navs
      (by rw [crawlStart_under]; exact hstart)
    have herr : (w.under c).ctxErrAtReturn = none := by
      show c.Err (2 * w.responses.length) = none
      unfold GoContext.Err
      rw [hc]
    rw [hC2, herr] at hC
    split_ifs at hC
    simp only [Option.some.injEq, Prod.mk.injEq] at hC
    exact hC.2.symm
  · intro w scope startURL startFetch navs res err hstart hC
    rw [Crawl_of_start L ops engine cfg w scope startURL startFetch navs hstart] at hC
    split_ifs at hC
    simp only [Option.some.injEq, Prod.mk.injEq] at hC
    refine ⟨?_, hC.2.symm⟩
    rw [← hC.1]
    exact Option.some_ne_none _

theorem C19_cancellation_witness :
    crawlStart asciiLib (exampleConfig StrategyLimit 0) exampleWorld
      = some (exampleScope, "https://example.com/".toList, exampleStartPage,
          ["https://example.com/".toList]) ∧
    (runLoop asciiLib (effectiveConfig (exampleConfig StrategyLimit 0)) exampleScope
      (exampleWorld.under (cancelledFrom 2)).responses
      (exampleInitial StrategyLimit 0)).broke = true ∧
    ∃ (pre : List Response) (r : Response) (post : List Response)
        (before final : CrawlState ℚ),
      (exampleWorld.under (cancelledFrom 2)).responses = pre ++ r :: post ∧
      before = runLoop asciiLib (effectiveConfig (exampleConfig StrategyLimit 0))
        exampleScope pre (exampleInitial StrategyLimit 0) ∧
      final = crawlStep asciiLib (effectiveConfig (exampleConfig StrategyLimit 0))
        exampleScope before r ∧
      final.result = before.result ∧
      Crawl asciiLib ratOps nullEngine (exampleConfig StrategyLimit 0)
          (exampleWorld.under (cancelledFrom 2))
        = some (some (finishCrawl ratOps nullEngine
            (effectiveConfig (exampleConfig StrategyLimit 0)) final), some ctxCanceled) := by
  obtain ⟨pre, r, post, before, final, h1, h2, h3, _, _, h6, h7, _⟩ :=
    (C19_cancellation asciiLib ratOps nullEngine (exampleConfig StrategyLimit 0)).2.2.2.2.1
      exampleWorld (cancelledFrom 2) exampleScope "https://example.com/".toList
      exampleStartPage ["https://example.com/".toList] (exampleInitial StrategyLimit 0)
      (by decide) rfl (by decide)
  exact ⟨by decide, by decide, pre, r, post, before, final, h1, h2, h3, h6, h7⟩


/-- C36 (termination): against an environment that answers every round of the loop of
`Crawl`, whatever its answers and from whatever state, the loop makes a number `n` of
rounds, each begun with the loop condition true, and then the loop condition is false;
further answers change nothing.  The loop condition is false exactly when the queue is
empty, the counter `Visited` has reached the page budget, or the loop was left by `break`,
and the loop is left by `break` only in a round in which the context was found cancelled,
at the head of the round or in the politeness sleep: a round begun with a non-empty queue
leaves the loop by `break` exactly when its head check finds the context done, or when
it reaches the politeness sleep (the entry is new, within the depth bound, allowed by
robots, not the seed page, and a navigation was made before) and the sleep is
interrupted; after such a round the loop condition is false and no further round is
made.  A round leaves the loop, or counts
one more page as visited, or leaves the counter as it is and the queue shorter by at
least one entry, so the queue grows only in rounds that count a page.  Hence `Crawl`
returns once the environment has answered enough rounds. -/
theorem C36_termination {F : Type} (L : Lib) (ops : Float64Ops F) (engine : RankEngine F)
    (cfg : Config) :
    (∀ (scope : Scope) (s : CrawlState F) (f : Nat → Response),
      ∃ n, (∀ k, k < n →
          loopRunning cfg (runLoop L cfg scope (firstAnswers f k) s) = true) ∧
        loopRunning cfg (runLoop L cfg scope (firstAnswers f n) s) = false ∧
        ∀ m, n ≤ m → runLoop L cfg scope (firstAnswers f m) s
          = runLoop L cfg scope (firstAnswers f n) s) ∧
    (∀ s : CrawlState F, loopRunning cfg s = false ↔
      s.queue = [] ∨ cfg.MaxPages ≤ s.result.Totals.Visited ∨ s.broke = true) ∧
    (∀ (scope : Scope) (rs : List Response) (s : CrawlState F), s.broke = false →
      (runLoop L cfg scope rs s).broke = true →
      ∃ r ∈ rs, r.cancelled = true ∨ r.sleepCompleted = false) ∧
    (∀ (scope : Scope) (s : CrawlState F) (r : Response), s.queue ≠ [] →
      (crawlStep L cfg scope s r).broke = true ∨
      (crawlStep L cfg scope s r).result.Totals.Visited = s.result.Totals.Visited + 1 ∨
      ((crawlStep L cfg scope s r).result.Totals.Visited = s.result.Totals.Visited ∧
        (crawlStep L cfg scope s r).queue.length < s.queue.length)) ∧
    (∀ (w : World) (f : Nat → Response), ∃ n, ∀ m, n ≤ m →
      ∃ res err, Crawl L ops engine cfg { w with responses := firstAnswers f m }
        = some (res, err)) ∧
    (∀ (scope : Scope) (s : CrawlState F) (r : Response) (current : queueItem)
        (queue : List queueItem), s.broke = false → s.queue = current :: queue →
      ((crawlStep L cfg scope s r).broke = true ↔
        r.cancelled = true ∨
        (r.cancelled = false ∧ current.URL ∉ s.processed ∧
          ¬ (cfg.Strategy = StrategyDepth ∧ current.Depth > cfg.MaxDepth) ∧
          r.robotsAllowed = true ∧ mapGet s.seedPages current.URL = none ∧
          s.firstNavigation = false ∧
          sleepWithJitter cfg.Delay r.sleepCompleted = false)) ∧
      ((crawlStep L cfg scope s r).broke = true →
        loopRunning cfg (crawlStep L cfg scope s r) = false ∧
        ∀ rs, runLoop L cfg scope rs (crawlStep L cfg scope s r)
          = crawlStep L cfg scope s r)) := by
  refine ⟨fun scope s f => runLoop_ends_stable L cfg scope s f, loopRunning_iff cfg, ?_,
    fun scope s r hq => crawlStep_measure L cfg scope s r hq, ?_, ?_⟩
  · intro scope rs s hs h
    rcases runLoop_broke_of L cfg scope rs s h with hb | hr
    · rw [hs] at hb
      exact absurd hb (by simp)
    · exact hr
  · intro w f
    cases hst : crawlStart L cfg w with
    | none =>
      refine ⟨0, fun m _ => ?_⟩
      rcases Crawl_of_no_start L ops engine cfg { w with responses := firstAnswers f m }
        (by rw [crawlStart_responses]; exact hst) with ⟨_, h⟩ | ⟨scope, err, _, h, _⟩
      · exact ⟨_, _, h⟩
      · exact ⟨_, _, h⟩
    | some st =>
      obtain ⟨scope, startURL, startFetch, navs⟩ := st
      obtain ⟨n, _, h2, h3⟩ := runLoop_ends_stable L (effectiveConfig cfg) scope
        (initialState (effectiveConfig cfg) scope startURL startFetch navs : CrawlState F) f
      refine ⟨n, fun m hm => ?_⟩
      have h := Crawl_of_start L ops engine cfg { w with responses := firstAnswers f m }
        scope startURL startFetch navs (by rw [crawlStart_responses]; exact hst)
      dsimp only at h
      rw [h3 m hm, if_neg (by rw [h2]; simp)] at h
      exact ⟨_, _, h⟩
  · intro scope s r current queue hs hq
    refine ⟨crawlStep_broke_iff L cfg scope s r current queue hs hq, fun hb => ⟨?_, ?_⟩⟩
    · unfold loopRunning
      rw [hb]
      simp
    · exact fun rs => runLoop_of_broke L cfg scope rs _ hb


theorem C36_termination_witness :
    ((exampleFinal StrategyLimit 0).queue = [] ∨
      (effectiveConfig (exampleConfig StrategyLimit 0)).MaxPages
        ≤ (exampleFinal StrategyLimit 0).result.Totals.Visited ∨
      (exampleFinal StrategyLimit 0).broke = true) ∧
    (crawlStep asciiLib (effectiveConfig (exampleConfig StrategyLimit 0)) exampleScope
      (exampleInitial StrategyLimit 0) cancelledResponse).broke = true ∧
    loopRunning (effectiveConfig (exampleConfig StrategyLimit 0))
      (crawlStep asciiLib (effectiveConfig (exampleConfig StrategyLimit 0)) exampleScope
        (exampleInitial StrategyLimit 0) cancelledResponse) = false :=
  have h := (C36_termination asciiLib ratOps nullEngine
    (effectiveConfig (exampleConfig StrategyLimit 0))).2.2.2.2.2 exampleScope
    (exampleInitial StrategyLimit 0) cancelledResponse
    { URL := "https://example.com/".toList, Depth := 0 } [] rfl rfl
  ⟨((C36_termination asciiLib ratOps nullEngine
      (effectiveConfig (exampleConfig StrategyLimit 0))).2.1
      (exampleFinal StrategyLimit 0)).mp (by decide),
    h.1.mpr (Or.inl rfl), (h.2 (h.1.mpr (Or.inl rfl))).1⟩

end Sitecrawl
